import Mathlib

/-! MusicPlaypen: the ADC acquisition protocol.

A shallow embedding of the acquisition path of the repository:

* `pru_spi.c`  : the bit-banged SPI engine that runs on the PRU,
* `pru0.c`     : the command dispatcher that runs on the PRU,
* `spidriver_host.c` : the host driver that talks to the dispatcher through the mailbox,
* `adcdriver_host.c` : the code-to-voltage conversion `adc_GetVoltage`.

Machine integers are natural numbers or integers with the wrap-around written out.
Registers, pins and memory are explicit state; every access to a pin register, to the
mailbox or to a process-level service is recorded in a trace, in program order.
-/

namespace PlayPen

/-! ## Machine words -/

/-- Conversion of a C `int` to `uint32_t` (reduction modulo `2^32`). -/
def u32 (x : Int) : Nat := (x % 4294967296).toNat

/-- Conversion of a `uint32_t` to a C `int` (two's complement, as the PRU and ARM compilers do). -/
def i32 (w : Nat) : Int :=
  if w % 4294967296 < 2147483648 then ((w % 4294967296 : Nat) : Int)
  else ((w % 4294967296 : Nat) : Int) - 4294967296

/-- A C `for (i = 0; i < n; i++) body` over a state that cannot fail. -/
def forLoop {σ : Type} (n : Nat) (body : Nat → σ → σ) (s : σ) : σ :=
  (List.range n).foldl (fun acc i => body i acc) s

/-- Ways in which a run of the PRU model stops without a final state. -/
inductive Fault where
  /-- an array is indexed outside its declared size (undefined behaviour in C) -/
  | bounds
  /-- a `wait_miso_*` spin loop is still spinning after the poll budget of the model -/
  | spin
  deriving DecidableEq, Repr

/-- A C `for (i = 0; i < n; i++) body` whose body may fault. -/
def forLoopM {σ : Type} (n : Nat) (body : Nat → σ → Except Fault σ) (s : σ) : Except Fault σ :=
  (List.range n).foldlM (fun acc i => body i acc) s

/-! ## `pru_spi.c`: the bit-level SPI engine -/

/-- Bit of `__R30` that drives chip-select (`#define CS 3`). -/
def CS : Nat := 3
/-- Bit of `__R30` that drives the clock (`#define CLK 5`). -/
def CLK : Nat := 5
/-- Bit of `__R30` that drives data-out (`#define MOSI 1`). -/
def MOSI : Nat := 1
/-- Bit of `__R31` on which data-in is read (`#define MISO 2`). -/
def MISO : Nat := 2
/-- Half-period delay of the engine (`#define DELAY_CNT 20` in `pru_spi.c`). -/
def DELAY_CNT : Nat := 20

/-- Observable actions of the PRU program, in program order. -/
inductive Ev where
  /-- an assignment to the output register `__R30`; the new value -/
  | r30 (v : Nat)
  /-- a read of `__R31` inside `wait_miso_high` or `wait_miso_low`; the value read -/
  | poll (v : Nat)
  /-- a read of `__R31` in a read loop, right after the clock was raised; the value read -/
  | sample (v : Nat)
  /-- a call of `__delay_cycles` -/
  | delay (n : Nat)
  /-- an assignment `pMEM[off] = v` to the mailbox -/
  | mem (off v : Nat)
  /-- an assignment `rx_words[i] = v` to the local array of the dispatcher -/
  | loc (i v : Nat)
  deriving DecidableEq, Repr

/-- Where an `uint32_t *pRxbuf` argument of the engine points: at the four-word local array
`rx_words` of the dispatcher, or into the mailbox at word offset `off` (`&(pMEM[off])`). -/
inductive Ptr where
  | loc
  | ram (off : Nat)
  deriving DecidableEq, Repr

/-- State of the PRU. `miso`-independent: the data-in line is an input stream given separately
as `miso : Nat → Nat`, the value of `__R31` at the n-th read of that register.

* `r30` : the output register `__R30`,
* `rd` : how many times `__R31` has been read,
* `pMEM` : the mailbox, `pMEM[off]`,
* `tx_words`, `rx_words` : the local arrays of `main` (size 4 each),
* `rx_byte`, `rx_word` : the scratch variables of the engine; they are not initialised by the
  engine, so a call starts from whatever these fields hold,
* `trace` : the observable actions so far. -/
structure Pru where
  r30 : Nat
  rd : Nat
  pMEM : Nat → Nat
  tx_words : Nat → Nat
  rx_words : Nat → Nat
  rx_byte : Nat
  rx_word : Nat → Nat
  trace : List Ev

/-- The statement `__R30 = __R30 | (1 << b)`. -/
def R30_set (b : Nat) (s : Pru) : Pru :=
  { s with r30 := s.r30 ||| (1 <<< b), trace := s.trace ++ [Ev.r30 (s.r30 ||| (1 <<< b))] }

/-- The statement `__R30 = __R30 & ~(1 << b)`; `~(1 << b)` converted to `uint32_t`
is `0xFFFFFFFF - (1 << b)`. -/
def R30_clr (b : Nat) (s : Pru) : Pru :=
  { s with r30 := s.r30 &&& (4294967295 - (1 <<< b)),
           trace := s.trace ++ [Ev.r30 (s.r30 &&& (4294967295 - (1 <<< b)))] }

/-- The intrinsic `__delay_cycles(n)`. -/
def delay_cycles (n : Nat) (s : Pru) : Pru :=
  { s with trace := s.trace ++ [Ev.delay n] }

/-- The expression `(__R31>>MISO) & 0x01` for a value `v` of `__R31`. -/
def misoBit (v : Nat) : Nat := (v >>> MISO) &&& 1

/-- `wait_miso_high` (pru_spi.c 29-38): spin until data-in reads 1.
`fuel` bounds the number of polls the model follows. -/
def wait_miso_high (miso : Nat → Nat) : Nat → Pru → Except Fault Pru
  | 0, _ => .error Fault.spin
  | fuel + 1, s =>
    let v := miso s.rd
    let s1 := { s with rd := s.rd + 1, trace := s.trace ++ [Ev.poll v] }
    if misoBit v ≠ 0 then .ok s1 else wait_miso_high miso fuel s1

/-- `wait_miso_low` (pru_spi.c 41-50): spin until data-in reads 0. -/
def wait_miso_low (miso : Nat → Nat) : Nat → Pru → Except Fault Pru
  | 0, _ => .error Fault.spin
  | fuel + 1, s =>
    let v := miso s.rd
    let s1 := { s with rd := s.rd + 1, trace := s.trace ++ [Ev.poll v] }
    if misoBit v = 0 then .ok s1 else wait_miso_low miso fuel s1

/-- One pass of the bit loop of `pru_spi_reset` (pru_spi.c 77-94). -/
def reset_bit (s : Pru) : Pru :=
  delay_cycles DELAY_CNT (R30_set CLK (delay_cycles DELAY_CNT (R30_set MOSI (R30_clr CLK s))))

/-- `pru_spi_reset` (pru_spi.c 56-107). -/
def pru_spi_reset (s : Pru) : Pru :=
  let byte_cnt := 9
  let s := R30_set MOSI s
  let s := R30_clr CS s
  let s := delay_cycles DELAY_CNT s
  let s := forLoop byte_cnt (fun _ s =>
    delay_cycles DELAY_CNT (forLoop 8 (fun _ s => reset_bit s) s)) s
  let s := R30_set CS s
  R30_clr MOSI s

/-- One pass of a transmit bit loop (pru_spi.c 127-150, 198-221, 322-345): clock low, put bit
`7 - j` of `data_byte` on data-out, settle, clock high, latch. -/
def tx_bit (data_byte j : Nat) (s : Pru) : Pru :=
  let s := R30_clr CLK s
  let s := if (data_byte <<< j) &&& 128 ≠ 0 then R30_set MOSI s else R30_clr MOSI s
  let s := delay_cycles DELAY_CNT s
  let s := R30_set CLK s
  delay_cycles DELAY_CNT s

/-- The transmit loop over the words of `pTxbuf` (pru_spi.c 123-155, 194-226, 318-350);
`data_byte = (uint8_t) *(pTxbuf+i)`. The count is a C `int`. -/
def tx_loop (pTxbuf : Nat → Nat) (tx_cnt : Int) (s : Pru) : Pru :=
  forLoop tx_cnt.toNat (fun i s =>
    let data_byte := pTxbuf i % 256
    delay_cycles DELAY_CNT (forLoop 8 (fun j s => tx_bit data_byte j s) s)) s

/-- `pru_spi_write` (pru_spi.c 111-165). -/
def pru_spi_write (pData : Nat → Nat) (byte_cnt : Int) (s : Pru) : Pru :=
  let s := R30_clr CS s
  let s := delay_cycles DELAY_CNT s
  let s := tx_loop pData byte_cnt s
  let s := R30_set CS s
  R30_clr MOSI s

/-- One pass of a receive bit loop (pru_spi.c 238-255, 361-378): clock low, settle, clock high,
sample data-in, `rx_byte = (rx_byte<<1) | rx_bit` (an `uint8_t`), wait half a period. -/
def rx_bit (miso : Nat → Nat) (s : Pru) : Pru :=
  let s := R30_clr CLK s
  let s := delay_cycles DELAY_CNT s
  let s := R30_set CLK s
  let v := miso s.rd
  let s := { s with rd := s.rd + 1, trace := s.trace ++ [Ev.sample v],
                    rx_byte := ((s.rx_byte <<< 1) ||| misoBit v) % 256 }
  delay_cycles DELAY_CNT s

/-- One pass of a receive loop over bytes (pru_spi.c 234-263, 357-385): eight bits, then
`rx_word[i] = rx_byte` and a delay; `rx_word` is `uint8_t rx_word[4]`. -/
def rx_byte_pass (miso : Nat → Nat) (i : Nat) (s : Pru) : Except Fault Pru :=
  let s := forLoop 8 (fun _ s => rx_bit miso s) s
  if i < 4 then
    .ok (delay_cycles DELAY_CNT { s with rx_word := Function.update s.rx_word i s.rx_byte })
  else .error Fault.bounds

/-- The receive loop over bytes (pru_spi.c 234-263, 357-385). The count is a C `int`. -/
def rx_loop (miso : Nat → Nat) (rx_cnt : Int) (s : Pru) : Except Fault Pru :=
  forLoopM rx_cnt.toNat (rx_byte_pass miso) s

/-- The conversion of `rx_word` to one `uint32_t` (pru_spi.c 266-269, 388-391):
`tmp = 0; for (i=0; i<rx_cnt; i++) tmp = ((tmp<<8) | rx_word[i]);`. -/
def assemble (rx_word : Nat → Nat) (rx_cnt : Int) : Nat :=
  forLoop rx_cnt.toNat (fun i tmp => ((tmp <<< 8) % 4294967296) ||| rx_word i) 0

/-- The assignment `pRxbuf[i] = v`. -/
def store (p : Ptr) (i v : Nat) (s : Pru) : Except Fault Pru :=
  match p with
  | Ptr.loc =>
    if i < 4 then
      .ok { s with rx_words := Function.update s.rx_words i v, trace := s.trace ++ [Ev.loc i v] }
    else .error Fault.bounds
  | Ptr.ram off =>
    .ok { s with pMEM := Function.update s.pMEM (off + i) v,
                 trace := s.trace ++ [Ev.mem (off + i) v] }

/-- The word `pRxbuf[i]`. -/
def load (p : Ptr) (i : Nat) (s : Pru) : Nat :=
  match p with
  | Ptr.loc => s.rx_words i
  | Ptr.ram off => s.pMEM (off + i)

/-- `pru_spi_writeread_single` (pru_spi.c 170-278). The return value is the constant `0x00`;
the model returns the state. -/
def pru_spi_writeread_single (miso : Nat → Nat) (pTxbuf : Nat → Nat) (tx_cnt : Int)
    (pRxbuf : Ptr) (rx_cnt : Int) (s : Pru) : Except Fault Pru := do
  let s := R30_set MOSI s
  let s := R30_clr CS s
  let s := R30_clr CLK s
  let s := tx_loop pTxbuf tx_cnt s
  let s := R30_clr MOSI s
  let s ← rx_loop miso rx_cnt s
  let tmp := assemble s.rx_word rx_cnt
  let s ← store pRxbuf 0 tmp s
  pure (R30_set CS s)

/-- One pass of the loop over conversions of `pru_spi_writeread_continuous`
(pru_spi.c 311-399). -/
def conversion (miso : Nat → Nat) (fuel : Nat) (pTxbuf : Nat → Nat) (tx_cnt : Int)
    (pRxbuf : Ptr) (rx_cnt : Int) (ccnt : Nat) (s : Pru) : Except Fault Pru := do
  let s ← wait_miso_high miso fuel s
  let s ← wait_miso_low miso fuel s
  let s := tx_loop pTxbuf tx_cnt s
  let s := R30_set MOSI s
  let s ← rx_loop miso rx_cnt s
  let tmp := assemble s.rx_word rx_cnt
  let s ← store pRxbuf ccnt tmp s
  pure (delay_cycles (10 * DELAY_CNT) s)

/-- `pru_spi_writeread_continuous` (pru_spi.c 282-410). The return value is the constant
`0x00`; the model returns the state. -/
def pru_spi_writeread_continuous (miso : Nat → Nat) (fuel : Nat) (pTxbuf : Nat → Nat)
    (tx_cnt : Int) (pRxbuf : Ptr) (rx_cnt : Int) (ncnv : Int) (s : Pru) : Except Fault Pru := do
  let s := R30_set MOSI s
  let s := R30_clr CS s
  let s ← forLoopM ncnv.toNat (conversion miso fuel pTxbuf tx_cnt pRxbuf rx_cnt) s
  let s := R30_set CS s
  pure (R30_clr MOSI s)

/-! ## `pru0.c`: the command dispatcher -/

/-- Flag values (the anonymous `enum` of `pru_spi.h`). -/
def NOP : Nat := 0
/-- Flag value 1 of the `enum` of `pru_spi.h`. -/
def SPI_TEST : Nat := 1
/-- Flag value 2 of the `enum` of `pru_spi.h`. -/
def SPI_WRITE : Nat := 2
/-- Flag value 3 of the `enum` of `pru_spi.h`. -/
def SPI_WRITEREAD_SINGLE : Nat := 3
/-- Flag value 4 of the `enum` of `pru_spi.h`. -/
def SPI_WRITEREAD_CONTINUOUS : Nat := 4
/-- Flag value 5 of the `enum` of `pru_spi.h`. -/
def SPI_RESET : Nat := 5
/-- Flag value `0xff` of the `enum` of `pru_spi.h`. -/
def SPI_WAIT_COMMAND : Nat := 255

/-- The marker `0xee` the dispatcher puts at offset 0 while it works on a command. -/
def BUSY : Nat := 238
/-- The value `0x00` of offset 0 when no command is pending. -/
def IDLE : Nat := 0

/-- The delay of the dispatcher (`#define DELAY_CNT 30` in `pru0.c`). -/
def PRU0_DELAY_CNT : Nat := 30

/-- The assignment `pMEM[off] = v`. -/
def mem_write (off v : Nat) (s : Pru) : Pru :=
  { s with pMEM := Function.update s.pMEM off v, trace := s.trace ++ [Ev.mem off v] }

/-- The loop `for (i=0; i<tx_word_cnt; i++) tx_words[i] = pMEM[memptr++];` with `memptr`
equal to 2 on entry (pru0.c 114-116, 135-137, 165-167). `tx_words` has four elements; the
loop faults at `i = 4`, long before the `uint32_t memptr` could wrap. -/
def fill_tx (tx_word_cnt : Nat) (s : Pru) : Except Fault Pru :=
  forLoopM tx_word_cnt (fun i s =>
    if i < 4 then .ok { s with tx_words := Function.update s.tx_words i (s.pMEM (2 + i)) }
    else .error Fault.bounds) s

/-- The prologue of `main` (pru0.c 77-81): chip-select and clock high, data-out low. -/
def main_init (s : Pru) : Pru :=
  R30_clr MOSI (R30_set CLK (R30_set CS s))

/-- One pass of the `while (1)` loop of `main` (pru0.c 86-206); the `if` chain is the
`switch (flag)`. Counts read from the mailbox are `uint32_t`; the engine takes `int`. -/
def main_iteration (miso : Nat → Nat) (fuel : Nat) (s : Pru) : Except Fault Pru :=
  let flag := s.pMEM 0
  if flag = NOP ∨ flag = SPI_WAIT_COMMAND then
    .ok s
  else if flag = SPI_TEST then
    .ok (mem_write 0 0 (delay_cycles 200000 (mem_write 0 255 s)))
  else if flag = SPI_WRITE then do
    let s := mem_write 0 238 s
    let tx_word_cnt := s.pMEM 1
    let s ← fill_tx tx_word_cnt s
    let s := pru_spi_write s.tx_words (i32 tx_word_cnt) s
    let s := mem_write 0 0 s
    pure (delay_cycles PRU0_DELAY_CNT s)
  else if flag = SPI_WRITEREAD_SINGLE then do
    let s := mem_write 0 238 s
    let tx_word_cnt := s.pMEM 1
    let s ← fill_tx tx_word_cnt s
    let rx_word_cnt := s.pMEM (2 + tx_word_cnt)
    let rxmemptr := 2 + tx_word_cnt + 1
    let s ← pru_spi_writeread_single miso s.tx_words (i32 tx_word_cnt) Ptr.loc (i32 rx_word_cnt) s
    let s := mem_write rxmemptr (s.rx_words 0) s
    let s := mem_write 0 0 s
    pure (delay_cycles PRU0_DELAY_CNT s)
  else if flag = SPI_WRITEREAD_CONTINUOUS then do
    let s := mem_write 0 238 s
    let tx_word_cnt := s.pMEM 1
    let s ← fill_tx tx_word_cnt s
    let rx_word_cnt := s.pMEM (2 + tx_word_cnt)
    let ncnv := s.pMEM (2 + tx_word_cnt + 1)
    let rxmemptr := 2 + tx_word_cnt + 2
    let s ← pru_spi_writeread_continuous miso fuel s.tx_words (i32 tx_word_cnt) (Ptr.ram rxmemptr)
      (i32 rx_word_cnt) (i32 ncnv) s
    let s := mem_write 0 0 s
    pure (delay_cycles PRU0_DELAY_CNT s)
  else if flag = SPI_RESET then
    let s := mem_write 0 238 s
    let s := pru_spi_reset s
    .ok (mem_write 0 0 s)
  else
    .ok s

/-- The mailbox assignments in a trace, in order, as pairs (offset, value). -/
def memWrites (t : List Ev) : List (Nat × Nat) :=
  t.filterMap (fun e => match e with
    | Ev.mem off v => some (off, v)
    | _ => none)

/-- The assignments to `__R30` in a trace, in order. -/
def r30Writes (t : List Ev) : List Nat :=
  t.filterMap (fun e => match e with
    | Ev.r30 v => some v
    | _ => none)

/-- The data-in bits sampled in the read loops, in order: `(__R31>>MISO) & 0x01` of every
`sample` of a trace. -/
def sampledBits (t : List Ev) : List Nat :=
  t.filterMap (fun e => match e with
    | Ev.sample v => some (misoBit v)
    | _ => none)

/-- The bits sampled between state `s` and a later state `s1` of the same run. -/
def sampledSince (s s1 : Pru) : List Nat :=
  (sampledBits s1.trace).drop (sampledBits s.trace).length

/-- The actions recorded between state `s` and a later state `s1` of the same run. -/
def traceSince (s s1 : Pru) : List Ev :=
  s1.trace.drop s.trace.length

/-- Data-in goes high again and again, and low again and again: every `wait_miso_high`
and every `wait_miso_low` comes to an end. -/
def Toggles (miso : Nat → Nat) : Prop :=
  (∀ n, ∃ m, n ≤ m ∧ misoBit (miso m) ≠ 0) ∧ (∀ n, ∃ m, n ≤ m ∧ misoBit (miso m) = 0)

/-! ## `spidriver_host.c`: the host driver -/

/-- Observable actions of the host driver, in program order. -/
inductive HEv where
  /-- a call `pru_write_word(off, v)` -/
  | wr (off v : Nat)
  /-- a call `pru_read_word(off)` and the word it returned -/
  | rd (off v : Nat)
  /-- a call `prussdrv_pru_disable(n)` -/
  | prussdrv_pru_disable (n : Nat)
  /-- a call `prussdrv_pru_reset(n)` -/
  | prussdrv_pru_reset (n : Nat)
  /-- a call `prussdrv_exit()` -/
  | prussdrv_exit
  /-- a call `exit(code)` -/
  | exit (code : Int)
  deriving DecidableEq, Repr

/-- State of the host driver: the mailbox words `*(pru0_dataram + RAMOFFSET + offset)` as last
seen or written by the host, the number of `pru_read_word` calls made, and the actions so far. -/
structure Host where
  ram : Nat → Nat
  nrd : Nat
  log : List HEv

/-- What the coprocessor does to the mailbox behind the back of the host: `env n m` is the
mailbox the host finds at its n-th `pru_read_word`, when `m` is the mailbox as the host last
knew it. -/
abbrev Env := Nat → (Nat → Nat) → (Nat → Nat)

/-- The coprocessor that leaves the mailbox alone. -/
def quiet : Env := fun _ m => m

/-- How a driver call ends: it returns a value, or it ends the process with `exit(code)`. -/
inductive Outcome (α : Type) where
  | ret (v : α)
  | exited (code : Int)

/-- Whether a driver call came back to its caller. -/
def Outcome.returned {α : Type} : Outcome α → Bool
  | Outcome.ret _ => true
  | Outcome.exited _ => false

/-- The core the driver talks to (`#define PRU0 0`). -/
def PRU0 : Nat := 0

/-- The iteration budget of every completion wait (`N = 10000000`). -/
def N_WAIT : Nat := 10000000

/-- `pru_write_word` (spidriver_host.c 155-167). -/
def pru_write_word (off v : Nat) (h : Host) : Host :=
  { h with ram := Function.update h.ram off v, log := h.log ++ [HEv.wr off v] }

/-- `pru_read_word` (spidriver_host.c 136-152). -/
def pru_read_word (env : Env) (off : Nat) (h : Host) : Nat × Host :=
  let m := env h.nrd h.ram
  (m off, { ram := m, nrd := h.nrd + 1, log := h.log ++ [HEv.rd off (m off)] })

/-- `pru_reset` (spidriver_host.c 108-111). -/
def pru_reset (prunum : Nat) (h : Host) : Host :=
  { h with log := h.log ++ [HEv.prussdrv_pru_disable prunum, HEv.prussdrv_pru_reset prunum] }

/-- The completion wait `for (i=0; i<N; i++) { tmp = pru_read_word(0x00); if (!tmp) break; }`
with `n` passes left and loop counter `i`; the result is the final `i`. -/
def poll_loop (env : Env) : Nat → Nat → Host → Nat × Host
  | 0, i, h => (i, h)
  | n + 1, i, h =>
    let r := pru_read_word env 0 h
    if r.1 = 0 then (i, r.2) else poll_loop env n (i + 1) r.2

/-- The body of `if (i == N) { printf(...); pru_reset(PRU0); prussdrv_exit(); exit(-1); }`. -/
def fatal_timeout (h : Host) : Host :=
  let h := pru_reset PRU0 h
  { h with log := h.log ++ [HEv.prussdrv_exit, HEv.exit (-1)] }

/-- `spi_reset_cmd` (spidriver_host.c 115-133). -/
def spi_reset_cmd (env : Env) (h : Host) : Outcome Unit × Host :=
  let h := pru_write_word 0 SPI_RESET h
  let r := poll_loop env N_WAIT 0 h
  (Outcome.ret (), r.2)

/-- The loop `for (i = 0; i < cnt; i++) pru_write_word(memptr++, data[i]);` with `memptr`
equal to `base` on entry; `i` and `memptr` are `uint32_t`. -/
def write_words (base : Nat) (data : Nat → Nat) (cnt : Nat) (h : Host) : Host :=
  forLoop cnt (fun i h => pru_write_word ((base + i) % 4294967296) (data i) h) h

/-- First part of `spi_write_cmd` (spidriver_host.c 254-265): fill the mailbox, flag last. -/
def spi_write_cmd_setup (data : Nat → Nat) (word_cnt : Int) (h : Host) : Host :=
  let h := pru_write_word 0 255 h
  let h := pru_write_word 1 (u32 word_cnt) h
  let h := write_words 2 data (u32 word_cnt) h
  pru_write_word 0 SPI_WRITE h

/-- Second part of `spi_write_cmd` (spidriver_host.c 267-283): wait for completion. -/
def spi_write_cmd_wait (env : Env) (h : Host) : Outcome Nat × Host :=
  let r := poll_loop env N_WAIT 0 h
  if r.1 = N_WAIT then (Outcome.exited (-1), fatal_timeout r.2)
  else (Outcome.ret 0, r.2)

/-- `spi_write_cmd` (spidriver_host.c 234-285). -/
def spi_write_cmd (env : Env) (data : Nat → Nat) (word_cnt : Int) (h : Host) :
    Outcome Nat × Host :=
  spi_write_cmd_wait env (spi_write_cmd_setup data word_cnt h)

/-- The offset `rxptr` of the response region of `spi_writeread_single`. -/
def single_rxptr (txcnt : Int) : Nat := (3 + u32 txcnt) % 4294967296

/-- First part of `spi_writeread_single` (spidriver_host.c 314-330). -/
def spi_writeread_single_setup (txdata : Nat → Nat) (txcnt rxcnt : Int) (h : Host) : Host :=
  let h := pru_write_word 0 255 h
  let h := pru_write_word 1 (u32 txcnt) h
  let h := write_words 2 txdata (u32 txcnt) h
  let h := pru_write_word ((2 + u32 txcnt) % 4294967296) (u32 rxcnt) h
  let h := write_words (single_rxptr txcnt) (fun _ => 0) (u32 rxcnt) h
  pru_write_word 0 SPI_WRITEREAD_SINGLE h

/-- Second part of `spi_writeread_single` (spidriver_host.c 332-358); the value returned is
the new `rxdata` and `rxcnt` as an `uint8_t`. -/
def spi_writeread_single_wait (env : Env) (txcnt : Int) (rxdata : Nat → Nat) (rxcnt : Int)
    (h : Host) : Outcome ((Nat → Nat) × Nat) × Host :=
  let r := poll_loop env N_WAIT 0 h
  if r.1 = N_WAIT then (Outcome.exited (-1), fatal_timeout r.2)
  else
    let w := pru_read_word env (single_rxptr txcnt) r.2
    (Outcome.ret (Function.update rxdata 0 w.1, (rxcnt % 256).toNat), w.2)

/-- `spi_writeread_single` (spidriver_host.c 289-359). -/
def spi_writeread_single (env : Env) (txdata : Nat → Nat) (txcnt : Int) (rxdata : Nat → Nat)
    (rxcnt : Int) (h : Host) : Outcome ((Nat → Nat) × Nat) × Host :=
  spi_writeread_single_wait env txcnt rxdata rxcnt (spi_writeread_single_setup txdata txcnt rxcnt h)

/-- The offset `rxptr` of the response region of `spi_writeread_continuous`. -/
def continuous_rxptr (txcnt : Int) : Nat := (4 + u32 txcnt) % 4294967296

/-- First part of `spi_writeread_continuous` (spidriver_host.c 384-401). -/
def spi_writeread_continuous_setup (txdata : Nat → Nat) (txcnt rxcnt ncnv : Int) (h : Host) :
    Host :=
  let h := pru_write_word 0 255 h
  let h := pru_write_word 1 (u32 txcnt) h
  let h := write_words 2 txdata (u32 txcnt) h
  let h := pru_write_word ((2 + u32 txcnt) % 4294967296) (u32 rxcnt) h
  let h := pru_write_word ((3 + u32 txcnt) % 4294967296) (u32 ncnv) h
  let h := write_words (continuous_rxptr txcnt) (fun _ => 0) (u32 ncnv) h
  pru_write_word 0 SPI_WRITEREAD_CONTINUOUS h

/-- The read-back loop `for (i = 0; i < ncnv; i++) rxdata[i] = pru_read_word(rxptr+i);`. -/
def read_words (env : Env) (rxptr : Nat) (cnt : Nat) (rxdata : Nat → Nat) (h : Host) :
    (Nat → Nat) × Host :=
  forLoop cnt (fun i st =>
    let w := pru_read_word env ((rxptr + i) % 4294967296) st.2
    (Function.update st.1 i w.1, w.2)) (rxdata, h)

/-- Second part of `spi_writeread_continuous` (spidriver_host.c 403-431); the value returned
is the new `rxdata` and `ncnv` as an `uint8_t`. -/
def spi_writeread_continuous_wait (env : Env) (txcnt : Int) (rxdata : Nat → Nat) (ncnv : Int)
    (h : Host) : Outcome ((Nat → Nat) × Nat) × Host :=
  let r := poll_loop env N_WAIT 0 h
  if r.1 = N_WAIT then (Outcome.exited (-1), fatal_timeout r.2)
  else
    let w := read_words env (continuous_rxptr txcnt) (u32 ncnv) rxdata r.2
    (Outcome.ret (w.1, (ncnv % 256).toNat), w.2)

/-- `spi_writeread_continuous` (spidriver_host.c 363-431). -/
def spi_writeread_continuous (env : Env) (txdata : Nat → Nat) (txcnt : Int)
    (rxdata : Nat → Nat) (rxcnt ncnv : Int) (h : Host) : Outcome ((Nat → Nat) × Nat) × Host :=
  spi_writeread_continuous_wait env txcnt rxdata ncnv
    (spi_writeread_continuous_setup txdata txcnt rxcnt ncnv h)

/-- The `pru_write_word` calls in a host log, in order, as pairs (offset, value). -/
def hostWrites (l : List HEv) : List (Nat × Nat) :=
  l.filterMap (fun e => match e with
    | HEv.wr off v => some (off, v)
    | _ => none)

/-- The `pru_read_word` calls in a host log, in order, as pairs (offset, value read). -/
def hostReads (l : List HEv) : List (Nat × Nat) :=
  l.filterMap (fun e => match e with
    | HEv.rd off v => some (off, v)
    | _ => none)

/-- The actions a driver call added to the log of the host state `h` it started from. -/
def logSince (h h1 : Host) : List HEv :=
  h1.log.drop h.log.length

/-- The mailbox after the writes `ws` have been applied, in order, to the mailbox `m`. -/
def replay (m : Nat → Nat) (ws : List (Nat × Nat)) : Nat → Nat :=
  ws.foldl (fun acc w => Function.update acc w.1 w.2) m

/-! ## Host and dispatcher together -/

/-- The dispatcher serves a command: with the mailbox as the host left it, the PRU makes the
pass of its loop that finds the flag, to completion, and the host sees the mailbox the
PRU leaves. -/
def serve (miso : Nat → Nat) (fuel : Nat) (h : Host) (p : Pru) : Except Fault (Host × Pru) := do
  let p1 ← main_iteration miso fuel { p with pMEM := h.ram }
  pure ({ h with ram := p1.pMEM }, p1)

/-- `spi_write_cmd` against the dispatcher: the host fills the mailbox and writes the flag,
the dispatcher serves the command, the host waits for completion. -/
def sys_write_cmd (miso : Nat → Nat) (fuel : Nat) (data : Nat → Nat) (word_cnt : Int)
    (h : Host) (p : Pru) : Except Fault (Outcome Nat × Host × Pru) := do
  let hp ← serve miso fuel (spi_write_cmd_setup data word_cnt h) p
  let r := spi_write_cmd_wait quiet hp.1
  pure (r.1, r.2, hp.2)

/-- `spi_writeread_single` against the dispatcher. -/
def sys_writeread_single (miso : Nat → Nat) (fuel : Nat) (txdata : Nat → Nat) (txcnt : Int)
    (rxdata : Nat → Nat) (rxcnt : Int) (h : Host) (p : Pru) :
    Except Fault (Outcome ((Nat → Nat) × Nat) × Host × Pru) := do
  let hp ← serve miso fuel (spi_writeread_single_setup txdata txcnt rxcnt h) p
  let r := spi_writeread_single_wait quiet txcnt rxdata rxcnt hp.1
  pure (r.1, r.2, hp.2)

/-- `spi_writeread_continuous` against the dispatcher. -/
def sys_writeread_continuous (miso : Nat → Nat) (fuel : Nat) (txdata : Nat → Nat) (txcnt : Int)
    (rxdata : Nat → Nat) (rxcnt ncnv : Int) (h : Host) (p : Pru) :
    Except Fault (Outcome ((Nat → Nat) × Nat) × Host × Pru) := do
  let hp ← serve miso fuel (spi_writeread_continuous_setup txdata txcnt rxcnt ncnv h) p
  let r := spi_writeread_continuous_wait quiet txcnt rxdata ncnv hp.1
  pure (r.1, r.2, hp.2)

/-- A driver call with its arguments. -/
inductive Call where
  | write (data : Nat → Nat) (word_cnt : Int)
  | single (txdata : Nat → Nat) (txcnt : Int) (rxdata : Nat → Nat) (rxcnt : Int)
  | continuous (txdata : Nat → Nat) (txcnt : Int) (rxdata : Nat → Nat) (rxcnt ncnv : Int)

/-- The mailbox-filling part of a driver call. -/
def Call.setup : Call → Host → Host
  | Call.write data word_cnt => spi_write_cmd_setup data word_cnt
  | Call.single txdata txcnt _ rxcnt => spi_writeread_single_setup txdata txcnt rxcnt
  | Call.continuous txdata txcnt _ rxcnt ncnv =>
    spi_writeread_continuous_setup txdata txcnt rxcnt ncnv

/-- The command code a driver call writes to offset 0. -/
def Call.code : Call → Nat
  | Call.write _ _ => SPI_WRITE
  | Call.single _ _ _ _ => SPI_WRITEREAD_SINGLE
  | Call.continuous _ _ _ _ _ => SPI_WRITEREAD_CONTINUOUS

/-- The tx words of a driver call. -/
def Call.txdata : Call → Nat → Nat
  | Call.write data _ => data
  | Call.single txdata _ _ _ => txdata
  | Call.continuous txdata _ _ _ _ => txdata

/-- The tx count of a driver call, as the `uint32_t` the loops compare with. -/
def Call.txcnt : Call → Nat
  | Call.write _ word_cnt => u32 word_cnt
  | Call.single _ txcnt _ _ => u32 txcnt
  | Call.continuous _ txcnt _ _ _ => u32 txcnt

/-- A driver call against the dispatcher; the result tells whether the call returned. -/
def sys_call (miso : Nat → Nat) (fuel : Nat) (c : Call) (h : Host) (p : Pru) :
    Except Fault (Bool × Host × Pru) :=
  match c with
  | Call.write data word_cnt => do
    let r ← sys_write_cmd miso fuel data word_cnt h p
    pure (r.1.returned, r.2)
  | Call.single txdata txcnt rxdata rxcnt => do
    let r ← sys_writeread_single miso fuel txdata txcnt rxdata rxcnt h p
    pure (r.1.returned, r.2)
  | Call.continuous txdata txcnt rxdata rxcnt ncnv => do
    let r ← sys_writeread_continuous miso fuel txdata txcnt rxdata rxcnt ncnv h p
    pure (r.1.returned, r.2)

/-- A sequence of driver calls, one at a time, against the dispatcher. The result lists the
host state at the start of every call that was made, and the final host state last. A call
that ends the process ends the sequence. -/
def sys_run (miso : Nat → Nat) (fuel : Nat) : List Call → Host → Pru → Except Fault (List Host)
  | [], h, _ => .ok [h]
  | c :: cs, h, p => do
    let r ← sys_call miso fuel c h p
    if r.1 then do
      let rest ← sys_run miso fuel cs r.2.1 r.2.2
      pure (h :: rest)
    else pure [h, r.2.1]

/-- The claim "offset 0 becomes non-idle only after the tx count and all tx words have been
written", for the writes `ws` a call makes on the mailbox `m`: whenever offset 0 is non-zero
after some of the writes, the tx count and every tx word are among them. -/
def NonIdleOnlyAfterPayload (m : Nat → Nat) (ws : List (Nat × Nat)) (txcnt : Nat)
    (txdata : Nat → Nat) : Prop :=
  ∀ k, k ≤ ws.length → replay m (ws.take k) 0 ≠ IDLE →
    (1, txcnt) ∈ ws.take k ∧ ∀ i, i < txcnt → (2 + i, txdata i) ∈ ws.take k

/-- The same with "a command the dispatcher acts on" in place of "non-idle": whenever
offset 0 is neither `NOP` nor `SPI_WAIT_COMMAND` after some of the writes, the tx count and
every tx word are among them. -/
def CommandOnlyAfterPayload (m : Nat → Nat) (ws : List (Nat × Nat)) (txcnt : Nat)
    (txdata : Nat → Nat) : Prop :=
  ∀ k, k ≤ ws.length → replay m (ws.take k) 0 ≠ NOP →
    replay m (ws.take k) 0 ≠ SPI_WAIT_COMMAND →
    (1, txcnt) ∈ ws.take k ∧ ∀ i, i < txcnt → (2 + i, txdata i) ∈ ws.take k

/-! ## `adcdriver_host.c`: code to voltage

`float` is IEEE 754 binary32 with round-to-nearest-even. Every finite binary32 number is an
integer multiple of `2^-149`; the model keeps that integer. Infinities and NaN are not
modelled: the arithmetic of `adc_GetVoltage` stays below `2^11` in magnitude. -/

/-- Number of binary digits of `n`, with `fuel` at least `n`. -/
def bitlenAux : Nat → Nat → Nat
  | 0, _ => 0
  | fuel + 1, n => if n = 0 then 0 else bitlenAux fuel (n / 2) + 1

/-- Number of binary digits of `n`: the least `L` with `n < 2^L`. -/
def bitlen (n : Nat) : Nat := bitlenAux n n

/-- The integer nearest to `p/q`, ties to the even one (`q > 0`). -/
def rnInt (p q : Nat) : Nat :=
  if 2 * (p % q) < q then p / q
  else if q < 2 * (p % q) then p / q + 1
  else if (p / q) % 2 = 0 then p / q else p / q + 1

/-- The binary32 number nearest to `p/q` units of `2^-149`, ties to even, in the same units.
Below `2^24` units the binary32 numbers are the integers; from `2^(L-1)` to `2^L` with
`L > 24` they are the multiples of `2^(L-24)`. -/
def rn32 (p q : Nat) : Nat :=
  2 ^ (bitlen (p / q) - 24) * rnInt p (q * 2 ^ (bitlen (p / q) - 24))

/-- A finite binary32 number, as its integer count of units of `2^-149`. -/
structure F32 where
  units : Int
  deriving DecidableEq, Repr

instance : LE F32 := ⟨fun a b => a.units ≤ b.units⟩
instance : LT F32 := ⟨fun a b => a.units < b.units⟩

/-- The binary32 number nearest to the rational `num/den` (`den > 0`). -/
def F32.ofRat (num : Int) (den : Nat) : F32 :=
  ⟨num.sign * (rn32 (num.natAbs * 2 ^ 149) den : Nat)⟩

/-- The rational value of a binary32 number. -/
def F32.toRat (a : F32) : ℚ := a.units / 2 ^ 149

/-- Conversion `(float) i` of a C integer. -/
def F32.ofInt (i : Int) : F32 := F32.ofRat i 1

/-- The product `a * b` of two `float`s. -/
def F32.mul (a b : F32) : F32 :=
  ⟨(a.units * b.units).sign * (rn32 (a.units * b.units).natAbs (2 ^ 149) : Nat)⟩

/-- The quotient `a / b` of two `float`s (`b` not zero). -/
def F32.div (a b : F32) : F32 :=
  ⟨(a.units * b.units).sign * (rn32 (a.units.natAbs * 2 ^ 149) b.units.natAbs : Nat)⟩

/-- The negation `-a` of a `float`. -/
def F32.neg (a : F32) : F32 := ⟨-a.units⟩

/-- The constant `#define TWO_23 8388608.0f`. -/
def TWO_23 : F32 := F32.ofRat 8388608 1

/-- The constant `#define VREF 4.096f`: the binary32 number nearest to 4.096. -/
def VREF : F32 := F32.ofRat 4096 1000

/-- The integer `iTmp` of `adc_GetVoltage` (adcdriver_host.c 69-70): `uiCode = (int32_t) buf;
iTmp = uiCode - 0x800000`, in 32-bit two's complement. -/
def adc_iTmp (buf : Nat) : Int := i32 (u32 (i32 buf - 8388608))

/-- `adc_GetVoltage` (adcdriver_host.c 61-76). -/
def adc_GetVoltage (buf : Nat) : F32 :=
  let deltaV := F32.div VREF TWO_23
  F32.mul deltaV (F32.ofInt (adc_iTmp buf))

/-! ## Vocabulary of the statements -/

/-- Big-endian value of the first `n` terms of a bit sequence: the first bit is the most
significant. -/
def beval (b : Nat → Nat) : Nat → Nat
  | 0 => 0
  | n + 1 => 2 * beval b n + b n

/-- Only the pins moved between `s` and `s1`: assignments to `__R30` and delays may have been
added to the trace, and nothing else changed. -/
def PinsOnly (s s1 : Pru) : Prop :=
  s1.rd = s.rd ∧ s1.pMEM = s.pMEM ∧ s1.tx_words = s.tx_words ∧ s1.rx_words = s.rx_words ∧
  s1.rx_byte = s.rx_byte ∧ s1.rx_word = s.rx_word ∧
  sampledBits s1.trace = sampledBits s.trace ∧ memWrites s1.trace = memWrites s.trace

/-- The bits read from data-in by `n` successive reads of `__R31`, the first being read
number `r`. -/
def bitsFrom (miso : Nat → Nat) (r n : Nat) : List Nat :=
  (List.range n).map (fun t => misoBit (miso (r + t)))

/-- What a receive loop over `n` bytes does between `s` and `s1`: `8 * n` reads of `__R31`,
byte `j` of the scratch array holds the big-endian value of bits `8 * j` to `8 * j + 7`. -/
def RxDone (miso : Nat → Nat) (n : Nat) (s s1 : Pru) : Prop :=
  s1.rd = s.rd + 8 * n ∧
  (∀ j, j < n → s1.rx_word j = beval (fun t => misoBit (miso (s.rd + 8 * j + t))) 8) ∧
  s1.pMEM = s.pMEM ∧ s1.tx_words = s.tx_words ∧ s1.rx_words = s.rx_words ∧
  sampledBits s1.trace = sampledBits s.trace ++ bitsFrom miso s.rd (8 * n) ∧
  memWrites s1.trace = memWrites s.trace

/-- Between `s` and `s1` no data moved: pins, delays and polls of data-in may have been added
to the trace, the mailbox, the arrays and the scratch variables are as they were. -/
def Quiet (s s1 : Pru) : Prop :=
  s1.pMEM = s.pMEM ∧ s1.tx_words = s.tx_words ∧ s1.rx_words = s.rx_words ∧
  s1.rx_byte = s.rx_byte ∧ s1.rx_word = s.rx_word ∧
  sampledBits s1.trace = sampledBits s.trace ∧ memWrites s1.trace = memWrites s.trace

/-- The mailbox assignment that the store `pRxbuf[i] = v` amounts to, if any. -/
def ptrWrite (p : Ptr) (i v : Nat) : List (Nat × Nat) :=
  match p with
  | Ptr.loc => []
  | Ptr.ram off => [(off + i, v)]

/-- The mailbox assignments that the stores `pRxbuf[k] = f k` for `k < n` amount to. -/
def burstWrites (p : Ptr) (n : Nat) (f : Nat → Nat) : List (Nat × Nat) :=
  match p with
  | Ptr.loc => []
  | Ptr.ram off => (List.range n).map (fun k => (off + k, f k))

/-- What `n` stored samples of `c` bytes each amount to between `s` and `s1`: `8 * c * n` bits
were sampled, `pRxbuf[k]` is the big-endian value of the bits of sample `k`, the stores are
the only mailbox assignments, and no other mailbox word changed. -/
def BurstDone (p : Ptr) (c n : Nat) (s s1 : Pru) : Prop :=
  ∃ bits : List Nat, sampledBits s1.trace = sampledBits s.trace ++ bits ∧
    bits.length = 8 * c * n ∧
    (∀ k, k < n → load p k s1 = beval (fun i => bits.getD (8 * c * k + i) 0) (8 * c)) ∧
    memWrites s1.trace = memWrites s.trace ++ burstWrites p n (fun k => load p k s1) ∧
    s1.tx_words = s.tx_words ∧
    (∀ a, (∀ off, p = Ptr.ram off → a < off ∨ off + n ≤ a) → s1.pMEM a = s.pMEM a)

/-- A PRU state for worked examples: chip-select and clock high, an empty mailbox, and
arbitrary left-overs in the arrays and the scratch variables. -/
def demoPru : Pru :=
  { r30 := 40, rd := 0, pMEM := fun _ => 0, tx_words := fun _ => 0, rx_words := fun _ => 77,
    rx_byte := 171, rx_word := fun _ => 205, trace := [] }

/-- A data-in line for worked examples: high at every third read of `__R31`. -/
def demoMiso : Nat → Nat := fun n => if n % 3 = 0 then 4 else 0

/-- The binary32 number nearest to a rational number. -/
def F32.round (q : ℚ) : F32 := F32.ofRat q.num q.den

/-- The value `(c - 2^23) * Vref / 2^23` in exact arithmetic, `Vref` being the constant
`VREF` of the code. -/
def exactVolts (c : Nat) : ℚ := ((c : ℚ) - 8388608) * VREF.toRat / 8388608

/-- The word the host finds at offset 0 at the `j`-th of its successive reads of that offset
(`j` counted from 0), starting in state `h`. -/
def flagAt (env : Env) : Nat → Host → Nat
  | 0, h => (pru_read_word env 0 h).1
  | j + 1, h => flagAt env j (pru_read_word env 0 h).2

/-- The log entries of `k` successive reads of offset 0, starting in state `h`. -/
def pollLog (env : Env) (h : Host) (k : Nat) : List HEv :=
  (List.range k).map (fun j => HEv.rd 0 (flagAt env j h))

/-- The log entries of the reset path of a timed-out wait. -/
def resetPath : List HEv :=
  [HEv.prussdrv_pru_disable PRU0, HEv.prussdrv_pru_reset PRU0, HEv.prussdrv_exit, HEv.exit (-1)]

/-- The `pru_write_word` calls of the loop `write_words`, as pairs (offset, value). -/
def wordWrites (base : Nat) (data : Nat → Nat) (cnt : Nat) : List (Nat × Nat) :=
  (List.range cnt).map (fun i => ((base + i) % 4294967296, data i))

/-- The `pru_write_word` calls of a driver call, in order, as pairs (offset, value). -/
def Call.writes : Call → List (Nat × Nat)
  | Call.write data word_cnt =>
    [(0, 255), (1, u32 word_cnt)] ++ wordWrites 2 data (u32 word_cnt) ++ [(0, SPI_WRITE)]
  | Call.single txdata txcnt _ rxcnt =>
    [(0, 255), (1, u32 txcnt)] ++ wordWrites 2 txdata (u32 txcnt) ++
      [((2 + u32 txcnt) % 4294967296, u32 rxcnt)] ++
      wordWrites (single_rxptr txcnt) (fun _ => 0) (u32 rxcnt) ++ [(0, SPI_WRITEREAD_SINGLE)]
  | Call.continuous txdata txcnt _ rxcnt ncnv =>
    [(0, 255), (1, u32 txcnt)] ++ wordWrites 2 txdata (u32 txcnt) ++
      [((2 + u32 txcnt) % 4294967296, u32 rxcnt), ((3 + u32 txcnt) % 4294967296, u32 ncnv)] ++
      wordWrites (continuous_rxptr txcnt) (fun _ => 0) (u32 ncnv) ++
      [(0, SPI_WRITEREAD_CONTINUOUS)]

/-- A coprocessor that never completes: the host finds `BUSY` at offset 0 at every read. -/
def stuckEnv : Env := fun _ m => Function.update m 0 BUSY

/-- A host state for worked examples: an idle, empty mailbox and an empty log. -/
def demoHost : Host := { ram := fun _ => 0, nrd := 0, log := [] }

/-- The mailbox assignments made between state `s` and a later state `s1` of the same run. -/
def memWritesSince (s s1 : Pru) : List (Nat × Nat) :=
  (memWrites s1.trace).drop (memWrites s.trace).length

/-- The state `pb` in which the dispatcher calls the engine, for the pass that starts in `s`:
`BUSY` is at offset 0, the tx count of the mailbox is at most 4 and the tx words of the
mailbox are in `tx_words`; pins, input position and scratch are those of `s`. -/
def Decoded (s pb : Pru) : Prop :=
  pb.pMEM = Function.update s.pMEM 0 BUSY ∧ pb.trace = s.trace ++ [Ev.mem 0 BUSY] ∧
  pb.r30 = s.r30 ∧ pb.rd = s.rd ∧ pb.rx_words = s.rx_words ∧ pb.rx_byte = s.rx_byte ∧
  pb.rx_word = s.rx_word ∧ s.pMEM 1 ≤ 4 ∧ ∀ i, i < s.pMEM 1 → pb.tx_words i = s.pMEM (2 + i)

/-- A PRU state for worked examples whose mailbox holds a single read command: flag
`SPI_WRITEREAD_SINGLE`, one tx word `0x44`, three rx bytes. -/
def demoSingle : Pru := { demoPru with pMEM := fun n => [3, 1, 68, 3].getD n 0 }

/-- A PRU state for worked examples whose mailbox holds `SPI_WAIT_COMMAND` at offset 0. -/
def demoWaiting : Pru := { demoPru with pMEM := fun n => [255, 1, 68, 3].getD n 0 }

/-- The arguments of a driver call are within the contract of the dispatcher: a tx count
from 0 to 4, an rx byte count from 0 to 4, and a sample count that is a non-negative `int`. -/
def Call.fits : Call → Prop
  | Call.write _ word_cnt => 0 ≤ word_cnt ∧ word_cnt ≤ 4
  | Call.single _ txcnt _ rxcnt => 0 ≤ txcnt ∧ txcnt ≤ 4 ∧ 0 ≤ rxcnt ∧ rxcnt ≤ 4
  | Call.continuous _ txcnt _ rxcnt ncnv =>
    0 ≤ txcnt ∧ txcnt ≤ 4 ∧ 0 ≤ rxcnt ∧ rxcnt ≤ 4 ∧ 0 ≤ ncnv ∧ ncnv < 2147483648

/-- Two driver calls for worked examples: a write of three words, then a single read. -/
def demoCalls : List Call :=
  [Call.write (fun _ => 68) 3, Call.single (fun _ => 68) 1 (fun _ => 0) 3]

/-- The levels of the three output lines of the engine. -/
structure Lines where
  cs : Bool
  clk : Bool
  mosi : Bool
  deriving DecidableEq, Repr

/-- The levels of chip-select, clock and data-out in a value of `__R30`. -/
def lines (v : Nat) : Lines :=
  { cs := v.testBit CS, clk := v.testBit CLK, mosi := v.testBit MOSI }

/-- What is seen of the PRU on the bus and in memory, in program order. -/
inductive Obs where
  /-- an assignment to `__R30`; the levels of the lines after it -/
  | out (l : Lines)
  /-- a read of data-in in a handshake wait; the bit read -/
  | poll (b : Nat)
  /-- a read of data-in in a read loop; the bit read -/
  | sample (b : Nat)
  /-- an assignment `pMEM[off] = v` -/
  | mem (off v : Nat)
  /-- an assignment `rx_words[i] = v` -/
  | loc (i v : Nat)
  deriving DecidableEq, Repr

/-- The observation of one action; delays are not observed. -/
def Ev.obs : Ev → Option Obs
  | Ev.r30 v => some (Obs.out (lines v))
  | Ev.poll v => some (Obs.poll (misoBit v))
  | Ev.sample v => some (Obs.sample (misoBit v))
  | Ev.delay _ => none
  | Ev.mem off v => some (Obs.mem off v)
  | Ev.loc i v => some (Obs.loc i v)

/-- The observations of a trace, in order. -/
def observe (t : List Ev) : List Obs := t.filterMap Ev.obs

/-- The rising clock edges of a sequence of observations that starts with the lines at `p`:
for each assignment to `__R30` that finds the clock low and leaves it high, the levels of the
lines after the assignment. -/
def risingEdges : Lines → List Obs → List Lines
  | _, [] => []
  | p, Obs.out q :: t => if p.clk = false ∧ q.clk = true then q :: risingEdges q t
    else risingEdges q t
  | p, _ :: t => risingEdges p t

/-- The changes of data-out in a sequence of observations that starts with the lines at `p`:
for each assignment to `__R30` that changes the level of data-out, the lines before and
after it. -/
def mosiChanges : Lines → List Obs → List (Lines × Lines)
  | _, [] => []
  | p, Obs.out q :: t => if p.mosi ≠ q.mosi then (p, q) :: mosiChanges q t else mosiChanges q t
  | p, _ :: t => mosiChanges p t

/-- The lines after a sequence of observations that starts with the lines at `p`. -/
def linesAfter : Lines → List Obs → Lines
  | p, [] => p
  | _, Obs.out q :: t => linesAfter q t
  | p, _ :: t => linesAfter p t

/-- The number of reads of `__R31` in a sequence of observations. -/
def reads : List Obs → Nat
  | [] => 0
  | Obs.poll _ :: t => reads t + 1
  | Obs.sample _ :: t => reads t + 1
  | _ :: t => reads t

/-- The observations between state `s` and a later state `s1` of the same run. -/
def obsSince (s s1 : Pru) : List Obs := observe (traceSince s s1)

/-- Between `s` and `s1` the run added the observations `os` to the trace; the lines and the
count of reads of `__R31` in `s1` are those that `os` leads to. -/
def Sees (s s1 : Pru) (os : List Obs) : Prop :=
  (∃ t, s1.trace = s.trace ++ t ∧ observe t = os) ∧
  lines s1.r30 = linesAfter (lines s.r30) os ∧ s1.rd = s.rd + reads os

/-- What one pass of a transmit bit loop shows from the lines `p`, for the bit `b`: clock
low, data-out at `b`, clock high. -/
def txBitObs (p : Lines) (b : Bool) : List Obs :=
  [Obs.out { p with clk := false }, Obs.out { p with clk := false, mosi := b },
    Obs.out { p with clk := true, mosi := b }]

/-- What the transmission of the bits `bs` shows from the lines `p`. -/
def txObs : Lines → List Bool → List Obs
  | _, [] => []
  | p, b :: bs => txBitObs p b ++ txObs { p with clk := true, mosi := b } bs

/-- The bits a transmit loop sends for `n` words of `pTxbuf`: bit `k` is bit `7 - k % 8` of
the low 8 bits of word `k / 8`. -/
def txBits (pTxbuf : Nat → Nat) (n : Nat) : List Bool :=
  (List.range (8 * n)).map (fun k => (pTxbuf (k / 8) % 256).testBit (7 - k % 8))

/-- Data-out is set before a rising clock edge and not changed until after the following
falling edge: no assignment to `__R30` changes data-out unless the clock is low before and
after it. -/
def HeldWhileClockHigh (p : Lines) (os : List Obs) : Prop :=
  ∀ c ∈ mosiChanges p os, c.1.clk = false ∧ c.2.clk = false

/-- What `pru_spi_write` shows from the lines `p` for the bits `bs`: chip-select low, the
bits, chip-select high, data-out low. -/
def writeObs (p : Lines) (bs : List Bool) : List Obs :=
  [Obs.out { p with cs := false }] ++ txObs { p with cs := false } bs ++
    [Obs.out ⟨true, if bs = [] then p.clk else true, bs.getLastD p.mosi⟩,
      Obs.out ⟨true, if bs = [] then p.clk else true, false⟩]

/-- What `pru_spi_reset` shows from the lines `p`: data-out high, chip-select low, 72 bits
that are all 1, chip-select high, data-out low. -/
def resetObs (p : Lines) : List Obs :=
  [Obs.out { p with mosi := true }, Obs.out ⟨false, p.clk, true⟩] ++
    txObs ⟨false, p.clk, true⟩ (List.replicate 72 true) ++
    [Obs.out ⟨true, true, true⟩, Obs.out ⟨true, true, false⟩]

/-- What one pass of a receive bit loop shows from the lines `p`, when data-in reads `b`:
clock low, clock high, one sample of data-in. -/
def rxBitObs (p : Lines) (b : Nat) : List Obs :=
  [Obs.out { p with clk := false }, Obs.out { p with clk := true }, Obs.sample b]

/-- What the reception of the bits `bs` shows from the lines `p`. -/
def rxObs (p : Lines) (bs : List Nat) : List Obs :=
  bs.flatMap (rxBitObs p)

/-- The observation of the assignment `pRxbuf[i] = v`. -/
def storeObs (p : Ptr) (i v : Nat) : Obs :=
  match p with
  | Ptr.loc => Obs.loc i v
  | Ptr.ram off => Obs.mem (off + i) v

/-- The level of chip-select after each assignment to `__R30`, in order. -/
def csTrace (os : List Obs) : List Bool :=
  os.filterMap (fun o => match o with
    | Obs.out l => some l.cs
    | _ => none)

/-- What `pru_spi_writeread_single` shows from the lines `p`, for the tx bits `tx`, the bits
`rx` read from data-in and the store `st` of the assembled word: data-out high, chip-select
low, clock low; the tx bits; data-out low; for each rx bit clock low, clock high, one sample;
the store; chip-select high. -/
def singleObs (p : Lines) (tx : List Bool) (rx : List Nat) (st : Obs) : List Obs :=
  [Obs.out { p with mosi := true }, Obs.out ⟨false, p.clk, true⟩, Obs.out ⟨false, false, true⟩] ++
    txObs ⟨false, false, true⟩ tx ++
    [Obs.out ⟨false, if tx = [] then false else true, false⟩] ++
    rxObs ⟨false, false, false⟩ rx ++
    [st, Obs.out ⟨true, if tx = [] ∧ rx = [] then false else true, false⟩]

/-- The number of samples of data-in at the head of a sequence of observations, before the
next assignment to `__R30`. -/
def samplesUntilOut : List Obs → Nat
  | [] => 0
  | Obs.out _ :: _ => 0
  | Obs.sample _ :: t => samplesUntilOut t + 1
  | _ :: t => samplesUntilOut t

/-- The rising clock edges with their samples: for each assignment to `__R30` that finds the
clock low and leaves it high, the levels of the lines after the assignment and the number
of samples of data-in taken before the next assignment to `__R30`. -/
def edgeSamples : Lines → List Obs → List (Lines × Nat)
  | _, [] => []
  | p, Obs.out q :: t =>
    if p.clk = false ∧ q.clk = true then (q, samplesUntilOut t) :: edgeSamples q t
    else edgeSamples q t
  | p, _ :: t => edgeSamples p t

/-- The reads of data-in of one data-ready handshake: low any number of times and then high,
then high any number of times and then low. -/
def Handshake (ps : List Nat) : Prop :=
  ∃ a b : Nat, ps = (List.replicate a 0 ++ [1]) ++ (List.replicate b 1 ++ [0])

/-- What one pass of the loop over conversions shows from the lines `q`, for the tx bits `tx`,
the handshake reads `ch.1`, the bits `ch.2` read from data-in and the store `st` of the word:
the handshake reads; the tx bits; data-out high; for each rx bit clock low, clock high, one
sample; the store. -/
def sampleObs (q : Lines) (tx : List Bool) (ch : List Nat × List Nat) (st : Obs) : List Obs :=
  ch.1.map Obs.poll ++ txObs q tx ++
    [Obs.out ⟨q.cs, if tx = [] then q.clk else true, true⟩] ++
    rxObs ⟨q.cs, false, true⟩ ch.2 ++ [st]

/-- What the loop over conversions shows from the lines `q`, the first sample being number
`c`: the passes `sampleObs` one after the other, sample `k` being stored as `w k`. -/
def burstObs (tx : List Bool) (ptr : Ptr) (w : Nat → Nat) :
    Lines → Nat → List (List Nat × List Nat) → List Obs
  | _, _, [] => []
  | q, c, ch :: rest =>
    sampleObs q tx ch (storeObs ptr c (w c)) ++
      burstObs tx ptr w ⟨q.cs, if tx = [] ∧ ch.2 = [] then q.clk else true, true⟩ (c + 1) rest

/-- What `pru_spi_writeread_continuous` shows from the lines `p`: data-out high, chip-select
low; the passes of the loop over conversions; chip-select high, data-out low. -/
def contObs (p : Lines) (tx : List Bool) (ptr : Ptr) (w : Nat → Nat)
    (chs : List (List Nat × List Nat)) : List Obs :=
  [Obs.out { p with mosi := true }, Obs.out ⟨false, p.clk, true⟩] ++
    burstObs tx ptr w ⟨false, p.clk, true⟩ 0 chs ++
    [Obs.out ⟨true, (linesAfter ⟨false, p.clk, true⟩
        (burstObs tx ptr w ⟨false, p.clk, true⟩ 0 chs)).clk, true⟩,
      Obs.out ⟨true, (linesAfter ⟨false, p.clk, true⟩
        (burstObs tx ptr w ⟨false, p.clk, true⟩ 0 chs)).clk, false⟩]

/-- The stores in a sequence of observations, in order. -/
def stores (os : List Obs) : List Obs :=
  os.filter (fun o => match o with
    | Obs.mem _ _ => true
    | Obs.loc _ _ => true
    | _ => false)

/-- The claim that data-out is low at every read-phase rising edge: every rising clock edge
at which data-in is sampled has data-out low. -/
def ReadEdgesLow (p : Lines) (os : List Obs) : Prop :=
  ∀ e ∈ edgeSamples p os, 0 < e.2 → e.1.mosi = false

/-- Command byte `#define READ_DATA_REG 0x44`. -/
def READ_DATA_REG : Nat := 68
/-- Command byte `#define WRITE_CH0_REG 0x10`. -/
def WRITE_CH0_REG : Nat := 16
/-- Command byte `#define WRITE_CH1_REG 0x11`. -/
def WRITE_CH1_REG : Nat := 17
/-- Command byte `#define WRITE_ADCMODE_REG 0x01`. -/
def WRITE_ADCMODE_REG : Nat := 1
/-- Command byte `#define WRITE_FILTERCON0_REG 0x28`. -/
def WRITE_FILTERCON0_REG : Nat := 40

/-- A driver call as the ADC layer makes it: the words the driver takes from the tx buffer,
and the counts. -/
inductive Op where
  /-- `spi_write_cmd(data, word_cnt)` -/
  | write (data : List Nat)
  /-- `spi_writeread_single(txdata, txcnt, rxdata, rxcnt)` -/
  | single (tx : List Nat) (rxcnt : Int)
  /-- `spi_writeread_continuous(txdata, txcnt, rxdata, rxcnt, ncnv)` -/
  | continuous (tx : List Nat) (rxcnt ncnv : Int)
  deriving DecidableEq, Repr

/-- The world of a program of the ADC layer: the state of the driver and the driver calls
made so far. -/
structure Adc where
  host : Host
  ops : List Op

/-- A program of the host over a world `W`: from a world it returns a value or ends the
process, and leaves a world; or the model stops at undefined behaviour. -/
def Prog (W α : Type) : Type := W → Except Fault (Outcome α × W)

/-- Sequencing of host programs: what follows a call is run only if the call returns. -/
def Prog.bind {W α β : Type} (x : Prog W α) (f : α → Prog W β) : Prog W β :=
  fun w =>
    match x w with
    | .error e => .error e
    | .ok (Outcome.exited c, w1) => .ok (Outcome.exited c, w1)
    | .ok (Outcome.ret a, w1) => f a w1

instance {W : Type} : Monad (Prog W) where
  pure a := fun w => .ok (Outcome.ret a, w)
  bind := Prog.bind

/-- What the ADC layer calls: the three transfer functions of `spidriver_host.c`, and `exit`
of the C library. -/
structure Driver (W : Type) where
  spi_write_cmd : (Nat → Nat) → Int → Prog W Nat
  spi_writeread_single : (Nat → Nat) → Int → (Nat → Nat) → Int → Prog W ((Nat → Nat) × Nat)
  spi_writeread_continuous :
    (Nat → Nat) → Int → (Nat → Nat) → Int → Int → Prog W ((Nat → Nat) × Nat)
  exit : Int → Prog W Unit

/-- The words `data[0]`, ..., `data[cnt-1]` a driver call takes from its tx buffer; the loop
counter is an `uint32_t`. -/
def taken (data : Nat → Nat) (cnt : Int) : List Nat := (List.range (u32 cnt)).map data

/-- The driver of `spidriver_host.c`, with a coprocessor that acts on the mailbox as `env`
says. -/
def hostDriver (env : Env) : Driver Adc where
  spi_write_cmd data word_cnt := fun a =>
    let r := PlayPen.spi_write_cmd env data word_cnt a.host
    .ok (r.1, ⟨r.2, a.ops ++ [Op.write (taken data word_cnt)]⟩)
  spi_writeread_single txdata txcnt rxdata rxcnt := fun a =>
    let r := PlayPen.spi_writeread_single env txdata txcnt rxdata rxcnt a.host
    .ok (r.1, ⟨r.2, a.ops ++ [Op.single (taken txdata txcnt) rxcnt]⟩)
  spi_writeread_continuous txdata txcnt rxdata rxcnt ncnv := fun a =>
    let r := PlayPen.spi_writeread_continuous env txdata txcnt rxdata rxcnt ncnv a.host
    .ok (r.1, ⟨r.2, a.ops ++ [Op.continuous (taken txdata txcnt) rxcnt ncnv]⟩)
  exit code := fun a =>
    .ok (Outcome.exited code, ⟨{ a.host with log := a.host.log ++ [HEv.exit code] }, a.ops⟩)

/-- The driver of `spidriver_host.c` with the dispatcher of `pru0.c` and the engine of
`pru_spi.c` behind the mailbox, data-in being the stream `miso`. -/
def sysDriver (miso : Nat → Nat) (fuel : Nat) : Driver (Adc × Pru) where
  spi_write_cmd data word_cnt := fun w =>
    match sys_write_cmd miso fuel data word_cnt w.1.host w.2 with
    | .error e => .error e
    | .ok r => .ok (r.1, (⟨r.2.1, w.1.ops ++ [Op.write (taken data word_cnt)]⟩, r.2.2))
  spi_writeread_single txdata txcnt rxdata rxcnt := fun w =>
    match sys_writeread_single miso fuel txdata txcnt rxdata rxcnt w.1.host w.2 with
    | .error e => .error e
    | .ok r => .ok (r.1, (⟨r.2.1, w.1.ops ++ [Op.single (taken txdata txcnt) rxcnt]⟩, r.2.2))
  spi_writeread_continuous txdata txcnt rxdata rxcnt ncnv := fun w =>
    match sys_writeread_continuous miso fuel txdata txcnt rxdata rxcnt ncnv w.1.host w.2 with
    | .error e => .error e
    | .ok r =>
      .ok (r.1, (⟨r.2.1, w.1.ops ++ [Op.continuous (taken txdata txcnt) rxcnt ncnv]⟩, r.2.2))
  exit code := fun w =>
    .ok (Outcome.exited code,
      (⟨{ w.1.host with log := w.1.host.log ++ [HEv.exit code] }, w.1.ops⟩, w.2))

/-- A local array passed as a pointer: element `i` of the list (elements beyond the array
are never read by the calls of this file). -/
def arr (l : List Nat) : Nat → Nat := fun i => l.getD i 0

/-- The read `a[i]` of a local array of `size` elements. -/
def arr_get {W : Type} (size : Nat) (a : Nat → Nat) (i : Nat) : Prog W Nat :=
  fun w => if i < size then .ok (Outcome.ret (a i), w) else .error Fault.bounds

/-- A C `for (i = 0; i < n; i++) body` in a host program. -/
def forProg {W σ : Type} : Nat → (Nat → σ → Prog W σ) → σ → Prog W σ
  | 0, _, s => pure s
  | n + 1, body, s => do
    let s1 ← forProg n body s
    body n s1

/-- `adc_set_chan0` (adcdriver_host.c 190-204). -/
def adc_set_chan0 {W : Type} (D : Driver W) : Prog W Unit := do
  let tx_buf := [WRITE_CH1_REG, 0, 67]
  let _ ← D.spi_write_cmd (arr tx_buf) 3
  let tx_buf := [WRITE_CH0_REG, 128, 1]
  let _ ← D.spi_write_cmd (arr tx_buf) 3
  pure ()

/-- `adc_set_samplerate` (adcdriver_host.c 226-240); `rate` is an `int`, and
`tx_buf[2] = 0x1f & rate` is stored in an `uint32_t`. -/
def adc_set_samplerate {W : Type} (D : Driver W) (rate : Int) : Prog W Unit := do
  if rate > 22 then
    pure ()
  else
    let tx_buf := [WRITE_FILTERCON0_REG, 0, 31 &&& u32 rate]
    let tx_buf := tx_buf.set 2 ((arr tx_buf) 2 ||| 96)
    let _ ← D.spi_write_cmd (arr tx_buf) 3
    pure ()

/-- `adc_read_single` (adcdriver_host.c 248-273); `rx_buf` is the content of the local
variable of that name on entry (it is not initialised). -/
def adc_read_single {W : Type} (D : Driver W) (rx_buf : Nat) : Prog W F32 := do
  let tx_buf := [WRITE_ADCMODE_REG, 0, 28]
  let _ ← D.spi_write_cmd (arr tx_buf) 3
  let tx_buf := tx_buf.set 0 READ_DATA_REG
  let r ← D.spi_writeread_single (arr tx_buf) 1 (fun _ => rx_buf) 3
  let rx_buf := r.1 0
  let volts := adc_GetVoltage rx_buf
  pure volts

/-- `adc_read_multiple` (adcdriver_host.c 277-308); `volts` is the array of the caller,
`rx_buf` the content on entry of the local array `uint32_t rx_buf[3072]` (it is not
initialised). `read_cnt` is an `uint32_t`, converted to the `int` parameter `ncnv` of the
driver. The value returned is the array `volts` on return. The message printed before
`exit(-1)` is not modelled. -/
def adc_read_multiple {W : Type} (D : Driver W) (read_cnt : Nat) (volts : Nat → F32)
    (rx_buf : Nat → Nat) : Prog W (Nat → F32) := do
  if read_cnt > 1024 then
    D.exit (-1)
  let tx_buf := [WRITE_ADCMODE_REG, 0, 12]
  let _ ← D.spi_write_cmd (arr tx_buf) 3
  let tx_buf := tx_buf.set 0 READ_DATA_REG
  let r ← D.spi_writeread_continuous (arr tx_buf) 1 rx_buf 3 (i32 read_cnt)
  let rx_buf := r.1
  forProg read_cnt (fun i volts => do
    let code ← arr_get 3072 rx_buf i
    pure (Function.update volts i (adc_GetVoltage code))) volts

/-- `adc_writeread_single` (adcdriver_host.c 320-322). -/
def adc_writeread_single {W : Type} (D : Driver W) (tx_buf : Nat → Nat) (tx_cnt : Int)
    (rx_buf : Nat → Nat) (rx_cnt : Int) : Prog W Unit := do
  let _ ← D.spi_writeread_single tx_buf tx_cnt rx_buf rx_cnt
  pure ()

/-- The value a call returned, if it returned. -/
def Outcome.value? {α : Type} : Outcome α → Option α
  | Outcome.ret v => some v
  | Outcome.exited _ => none

/-- The world for worked examples: the idle, empty mailbox, no call made. -/
def demoAdc : Adc := { host := demoHost, ops := [] }

/-- A simulated device for single reads that always returns the 24-bit `code`: the n-th read
of `__R31` finds bit `23 - n % 24` of `code` on data-in. -/
def deviceMiso (code : Nat) : Nat → Nat :=
  fun n => ((code >>> (23 - n % 24)) &&& 1) <<< MISO

/-- A simulated device for continuous reads that returns the 24-bit codes of a list, one per
sample: for each sample data-in reads high once, low once, and then the 24 bits of the code. -/
def burstMiso (codes : List Nat) : Nat → Nat :=
  fun n =>
    if n % 26 = 0 then 1 <<< MISO
    else if n % 26 = 1 then 0
    else ((codes.getD (n / 26) 0 >>> (25 - n % 26)) &&& 1) <<< MISO

/-- A completion wait that ran out: the host found a non-zero word at offset 0 at each of its
`N_WAIT` reads, starting in state `h`. -/
def TimedOut (env : Env) (h : Host) : Prop := ∀ j, j < N_WAIT → flagAt env j h ≠ 0

/-- The statements of `adc_read_multiple` after the size check. -/
def read_multiple_rest {W : Type} (D : Driver W) (read_cnt : Nat) (volts : Nat → F32)
    (rx_buf : Nat → Nat) : Prog W (Nat → F32) :=
  D.spi_write_cmd (arr [WRITE_ADCMODE_REG, 0, 12]) 3 >>= fun _ =>
    D.spi_writeread_continuous (arr ([WRITE_ADCMODE_REG, 0, 12].set 0 READ_DATA_REG)) 1
      rx_buf 3 (i32 read_cnt) >>= fun r =>
    forProg read_cnt (fun i volts => do
      let code ← arr_get 3072 r.1 i
      pure (Function.update volts i (adc_GetVoltage code))) volts

/-- A coprocessor that completes every command at once: the host finds `IDLE` at offset 0 at
every read, the other words as the host left them. -/
def ackEnv : Env := fun _ m => Function.update m 0 0

/-- Command byte `#define READ_ID_REG 0x47`. -/
def READ_ID_REG : Nat := 71
/-- Command byte `#define WRITE_SETUPCON0_REG 0x20`. -/
def WRITE_SETUPCON0_REG : Nat := 32
/-- Command byte `#define WRITE_IFMODE_REG 0x02`. -/
def WRITE_IFMODE_REG : Nat := 2
/-- Command byte `#define WRITE_GPIOCON_REG 0x06`. -/
def WRITE_GPIOCON_REG : Nat := 6
/-- The second core (`#define PRU1 1`). -/
def PRU1 : Nat := 1
/-- The constant `PRU_EVTOUT_0` of `prussdrv.h`. -/
def PRU_EVTOUT_0 : Nat := 0
/-- The constant `PRUSS0_PRU0_DATARAM` of `prussdrv.h`. -/
def PRUSS0_PRU0_DATARAM : Nat := 0

/-- `adc_set_chan1` (adcdriver_host.c 208-222). -/
def adc_set_chan1 {W : Type} (D : Driver W) : Prog W Unit := do
  let tx_buf := [WRITE_CH0_REG, 0, 1]
  let _ ← D.spi_write_cmd (arr tx_buf) 3
  let tx_buf := [WRITE_CH1_REG, 128, 67]
  let _ ← D.spi_write_cmd (arr tx_buf) 3
  pure ()

/-- `adc_get_id_reg` (adcdriver_host.c 165-171); `rx_buf` is the content on entry of the
local array `uint32_t rx_buf[2]`, and `&tx_buf` points to the single word `tx_buf`. -/
def adc_get_id_reg {W : Type} (D : Driver W) (rx_buf : Nat → Nat) : Prog W Nat := do
  let tx_buf := READ_ID_REG
  let r ← D.spi_writeread_single (arr [tx_buf]) 1 rx_buf 2
  let rx_buf := r.1
  arr_get 2 rx_buf 0

/-- What `adc_config` calls besides the transfer functions: the functions of the `prussdrv`
library, with the `int` each returns, `usleep` of the C library, and `spi_reset_cmd` of
`spidriver_host.c`. -/
structure Board (W : Type) extends Driver W where
  prussdrv_init : Prog W Int
  prussdrv_open : Nat → Prog W Int
  prussdrv_pruintc_init : Prog W Int
  prussdrv_map_prumem : Nat → Prog W Int
  prussdrv_pru_reset : Nat → Prog W Int
  prussdrv_exec_program : Nat → Prog W Int
  usleep : Nat → Prog W Unit
  spi_reset_cmd : Prog W Unit

/-- `pruss_init` (spidriver_host.c 25-38); `retval` is an `uint8_t`. -/
def pruss_init {W : Type} (B : Board W) : Prog W Nat := do
  let retval := 0
  let r ← B.prussdrv_init
  let retval := (retval ||| u32 r) % 256
  let r ← B.prussdrv_open PRU_EVTOUT_0
  let retval := (retval ||| u32 r) % 256
  let r ← B.prussdrv_pruintc_init
  let retval := (retval ||| u32 r) % 256
  pure retval

/-- `pru0_init` (spidriver_host.c 41-70); `retval` is an `uint8_t`. The messages printed
before `exit(-1)` are not modelled. -/
def pru0_init {W : Type} (B : Board W) : Prog W Nat := do
  let r ← B.prussdrv_map_prumem PRUSS0_PRU0_DATARAM
  let retval := u32 r % 256
  if retval ≠ 0 then
    B.exit (-1)
  let _ ← B.prussdrv_pru_reset PRU0
  let r ← B.prussdrv_exec_program PRU0
  let retval := u32 r % 256
  if retval ≠ 0 then
    B.exit (-1)
  B.usleep 500
  pure 0

/-- `pru1_init` (spidriver_host.c 73-101), the `#if 0` parts left out. -/
def pru1_init {W : Type} (B : Board W) : Prog W Nat := do
  let _ ← B.prussdrv_pru_reset PRU1
  B.usleep 500
  pure 0

/-- `adc_reset` (adcdriver_host.c 182-185). -/
def adc_reset {W : Type} (B : Board W) : Prog W Unit := do
  B.spi_reset_cmd
  B.usleep 1000

/-- `adc_config` (adcdriver_host.c 84-162). `retval` is the content on entry of the local
variable `retval`, which the function ORs into without initialising it and never uses. The
ADC-mode words are put in `tx_buf` and not sent: the call is commented out in the source. -/
def adc_config {W : Type} (B : Board W) (retval : Nat) : Prog W Unit := do
  let _ ← pruss_init B
  let _ ← pru0_init B
  let _ ← pru1_init B
  B.usleep 1000
  adc_reset B
  let tx_buf := [WRITE_CH0_REG, 128, 1]
  let r ← B.spi_write_cmd (arr tx_buf) 3
  let retval := retval ||| r
  B.usleep 5
  let tx_buf := [WRITE_CH1_REG, 0, 67]
  let r ← B.spi_write_cmd (arr tx_buf) 3
  let retval := retval ||| r
  B.usleep 5
  let tx_buf := [WRITE_SETUPCON0_REG, 19, 0]
  let r ← B.spi_write_cmd (arr tx_buf) 3
  let retval := retval ||| r
  B.usleep 5
  let _tx_buf := [WRITE_ADCMODE_REG, 0, 12]
  B.usleep 5
  let tx_buf := [WRITE_IFMODE_REG, 0, 0]
  let r ← B.spi_write_cmd (arr tx_buf) 3
  let retval := retval ||| r
  B.usleep 5
  let tx_buf := [WRITE_GPIOCON_REG, 0, 0]
  let r ← B.spi_write_cmd (arr tx_buf) 3
  let _retval := retval ||| r
  pure ()

/-- What the calls of the `prussdrv` library return: the library is not part of the
repository, so its results are inputs of the model. -/
structure Pruss where
  r_init : Int
  r_open : Int
  r_intc : Int
  r_map : Int
  r_reset : Int
  r_exec : Int

/-- The board of the host alone: the driver of `spidriver_host.c` with a coprocessor that acts
as `env` says, and a library that answers as `lib` says. Of the library calls only
`prussdrv_pru_reset` leaves an entry in the log, and `usleep` changes nothing in the model.
`spi_reset_cmd` is not a transfer: its mailbox write and reads are in the log, and it adds
nothing to the driver calls `ops`. -/
def hostBoard (env : Env) (lib : Pruss) : Board Adc where
  toDriver := hostDriver env
  prussdrv_init := fun a => .ok (Outcome.ret lib.r_init, a)
  prussdrv_open _ := fun a => .ok (Outcome.ret lib.r_open, a)
  prussdrv_pruintc_init := fun a => .ok (Outcome.ret lib.r_intc, a)
  prussdrv_map_prumem _ := fun a => .ok (Outcome.ret lib.r_map, a)
  prussdrv_pru_reset n := fun a =>
    .ok (Outcome.ret lib.r_reset,
      ⟨{ a.host with log := a.host.log ++ [HEv.prussdrv_pru_reset n] }, a.ops⟩)
  prussdrv_exec_program _ := fun a => .ok (Outcome.ret lib.r_exec, a)
  usleep _ := fun a => .ok (Outcome.ret (), a)
  spi_reset_cmd := fun a =>
    let r := PlayPen.spi_reset_cmd env a.host
    .ok (r.1, ⟨r.2, a.ops⟩)

/-- `spi_reset_cmd` against the dispatcher: the host writes the flag, the dispatcher serves
the command, the host waits for completion. -/
def sys_reset_cmd (miso : Nat → Nat) (fuel : Nat) (h : Host) (p : Pru) :
    Except Fault (Outcome Unit × Host × Pru) := do
  let hp ← serve miso fuel (pru_write_word 0 SPI_RESET h) p
  let r := poll_loop quiet N_WAIT 0 hp.1
  pure (Outcome.ret (), r.2, hp.2)

/-- The board with the dispatcher of `pru0.c` and the engine of `pru_spi.c` behind the
mailbox: `prussdrv_exec_program` starts the dispatcher, which runs its prologue. -/
def sysBoard (miso : Nat → Nat) (fuel : Nat) (lib : Pruss) : Board (Adc × Pru) where
  toDriver := sysDriver miso fuel
  prussdrv_init := fun w => .ok (Outcome.ret lib.r_init, w)
  prussdrv_open _ := fun w => .ok (Outcome.ret lib.r_open, w)
  prussdrv_pruintc_init := fun w => .ok (Outcome.ret lib.r_intc, w)
  prussdrv_map_prumem _ := fun w => .ok (Outcome.ret lib.r_map, w)
  prussdrv_pru_reset n := fun w =>
    .ok (Outcome.ret lib.r_reset,
      (⟨{ w.1.host with log := w.1.host.log ++ [HEv.prussdrv_pru_reset n] }, w.1.ops⟩, w.2))
  prussdrv_exec_program _ := fun w => .ok (Outcome.ret lib.r_exec, (w.1, main_init w.2))
  usleep _ := fun w => .ok (Outcome.ret (), w)
  spi_reset_cmd := fun w =>
    match sys_reset_cmd miso fuel w.1.host w.2 with
    | .error e => .error e
    | .ok r => .ok (r.1, (⟨r.2.1, w.1.ops⟩, r.2.2))

/-- A library whose calls all succeed. -/
def okLib : Pruss := ⟨0, 0, 0, 0, 0, 0⟩

/-- The register model of channel selection: the last payload (high byte, low byte) written
to the channel-0 register and to the channel-1 register. -/
structure ChanRegs where
  ch0 : Nat × Nat
  ch1 : Nat × Nat
  deriving DecidableEq, Repr

/-- The effect of a driver call on the channel registers: a write of three words whose command
byte is `0x10` or `0x11` replaces the payload of that register. -/
def ChanRegs.apply (r : ChanRegs) : Op → ChanRegs
  | Op.write [cmd, hi, lo] =>
    if cmd = WRITE_CH0_REG then ⟨(hi, lo), r.ch1⟩
    else if cmd = WRITE_CH1_REG then ⟨r.ch0, (hi, lo)⟩
    else r
  | _ => r

/-- The channel registers after a sequence of driver calls. -/
def ChanRegs.after (r : ChanRegs) (ops : List Op) : ChanRegs := ops.foldl ChanRegs.apply r

/-- The enable bit of a channel register: bit `0x80` of the high payload byte. -/
def chanEnabled (payload : Nat × Nat) : Bool := payload.1.testBit 7

/-- A host program that makes the driver calls `full`, one after the other, from the world
`a`: it returns after all of them, with the mailbox writes `ws`, or the driver ends the
process on a timeout after some of them. -/
def Runs (env : Env) (x : Prog Adc Unit) (a : Adc) (full : List Op)
    (ws : List (Nat × Nat)) : Prop :=
  ∃ r a1, x a = .ok (r, a1) ∧
    (r = Outcome.ret () →
      a1.ops = a.ops ++ full ∧ ∃ l, a1.host.log = a.host.log ++ l ∧ hostWrites l = ws) ∧
    (∀ c, r = Outcome.exited c → c = -1 ∧
      ∃ done rest, done ≠ [] ∧ full = done ++ rest ∧ a1.ops = a.ops ++ done ∧
        ∃ h1, TimedOut env h1)

/-- The five driver calls of `adc_config`. -/
def configOps : List Op :=
  [Op.write [16, 128, 1], Op.write [17, 0, 67], Op.write [32, 19, 0], Op.write [2, 0, 0],
    Op.write [6, 0, 0]]

/-- The mailbox writes of the five driver calls of `adc_config`. -/
def configWrites : List (Nat × Nat) :=
  [(0, 255), (1, 3), (2, 16), (3, 128), (4, 1), (0, 2)] ++
  [(0, 255), (1, 3), (2, 17), (3, 0), (4, 67), (0, 2)] ++
  [(0, 255), (1, 3), (2, 32), (3, 19), (4, 0), (0, 2)] ++
  [(0, 255), (1, 3), (2, 2), (3, 0), (4, 0), (0, 2)] ++
  [(0, 255), (1, 3), (2, 6), (3, 0), (4, 0), (0, 2)]

/-- The statements of `adc_config` after the bus reset. -/
def config_writes {W : Type} (B : Board W) (retval : Nat) : Prog W Unit :=
  B.spi_write_cmd (arr [WRITE_CH0_REG, 128, 1]) 3 >>= fun r =>
  B.usleep 5 >>= fun _ =>
  B.spi_write_cmd (arr [WRITE_CH1_REG, 0, 67]) 3 >>= fun r1 =>
  B.usleep 5 >>= fun _ =>
  B.spi_write_cmd (arr [WRITE_SETUPCON0_REG, 19, 0]) 3 >>= fun r2 =>
  B.usleep 5 >>= fun _ =>
  B.usleep 5 >>= fun _ =>
  B.spi_write_cmd (arr [WRITE_IFMODE_REG, 0, 0]) 3 >>= fun r3 =>
  B.usleep 5 >>= fun _ =>
  B.spi_write_cmd (arr [WRITE_GPIOCON_REG, 0, 0]) 3 >>= fun r4 =>
  let _retval := retval ||| r ||| r1 ||| r2 ||| r3 ||| r4
  pure ()

/-- The host state after a `prussdrv_pru_reset(n)`. -/
def afterPruReset (n : Nat) (a : Adc) : Adc :=
  ⟨{ a.host with log := a.host.log ++ [HEv.prussdrv_pru_reset n] }, a.ops⟩

/-- The host state after `exit(code)`. -/
def afterExit (code : Int) (a : Adc) : Adc :=
  ⟨{ a.host with log := a.host.log ++ [HEv.exit code] }, a.ops⟩

/-- A host program whose only fault, in the model, is the poll budget of a data-ready wait
running out: it never indexes an array out of bounds. -/
def OnlySpin {W α : Type} (x : Prog W α) : Prop :=
  ∀ w e, x w = .error e → e = Fault.spin

/-- A host program that never faults: from every world it returns or ends the process. -/
def NoFault {W α : Type} (x : Prog W α) : Prop :=
  ∀ w, ∃ r, x w = .ok r

/-- The tx count of a driver call of the ADC layer. -/
def Op.txcnt : Op → Nat
  | Op.write d => d.length
  | Op.single tx _ => tx.length
  | Op.continuous tx _ _ => tx.length

/-- The rx byte width of a driver call of the ADC layer (none for a write). -/
def Op.rxwidth : Op → Int
  | Op.write _ => 0
  | Op.single _ rxcnt => rxcnt
  | Op.continuous _ rxcnt _ => rxcnt

/-- A driver call within the caps of the claim: tx count at most 3, rx byte width from 0
to 3. -/
def Op.capped (o : Op) : Prop := o.txcnt ≤ 3 ∧ 0 ≤ o.rxwidth ∧ o.rxwidth ≤ 3

/-- A host program all of whose driver calls are within the caps, whether it returns or
ends the process: over the driver of `spidriver_host.c` it runs without fault from every
world, and every call it adds to the record is within the caps. -/
def CappedRun {α : Type} (x : Prog Adc α) : Prop :=
  ∀ a, ∃ r a1 done, x a = .ok (r, a1) ∧ a1.ops = a.ops ++ done ∧ ∀ o ∈ done, o.capped

/-- The claim "within the reference range" for a `float` `v`: it is the product
`(Vref / 2^23) * n` of binary32 arithmetic, which is the binary32 number nearest to that
value, for an integer `n` from `-2^23` to `2^23 - 1`, and it lies in `[-Vref, +Vref)`;
`Vref` is the constant `VREF` of the code. -/
def InRange (v : F32) : Prop :=
  ∃ n : Int, -8388608 ≤ n ∧ n ≤ 8388607 ∧
    v = F32.mul (F32.div VREF TWO_23) (F32.ofInt n) ∧
    v = F32.round (VREF.toRat / 8388608 * n) ∧
    F32.neg VREF ≤ v ∧ v < VREF ∧ -VREF.toRat ≤ v.toRat ∧ v.toRat < VREF.toRat

/-- A value of the C type `float`, for the comparisons of `maxeltf`: a NaN, an infinity, or
a finite binary32 number (the two zeros compare equal and are one value here). -/
inductive Flt where
  | nan
  | ninf
  | fin (x : F32)
  | pinf
  deriving DecidableEq, Repr

/-- The C comparison `a > b` of two `float`s: false when either is a NaN. -/
def Flt.gt : Flt → Flt → Bool
  | Flt.fin x, Flt.fin y => decide (y.units < x.units)
  | Flt.fin _, Flt.ninf => true
  | Flt.pinf, Flt.fin _ => true
  | Flt.pinf, Flt.ninf => true
  | _, _ => false

/-- The order of the values of `float`s that are not NaN: `-infinity` below every finite
number, `+infinity` above. -/
def Flt.le : Flt → Flt → Prop
  | Flt.nan, _ => False
  | _, Flt.nan => False
  | Flt.ninf, _ => True
  | _, Flt.pinf => True
  | Flt.fin x, Flt.fin y => x.units ≤ y.units
  | Flt.fin _, Flt.ninf => False
  | Flt.pinf, Flt.fin _ => False
  | Flt.pinf, Flt.ninf => False

/-- Strictly below, in the order of the values. -/
def Flt.lt (a b : Flt) : Prop := Flt.le a b ∧ ¬ Flt.le b a

/-- `maxeltf` (matrix_utils.c 74-92); `-INFINITY` is the `float` minus infinity of `math.h`.
`imax0` is the content on entry of the local variable `imax`, which the function does not
initialise. `N` and the indices are `int`s. -/
def maxeltf (N : Int) (u : Nat → Flt) (imax0 : Int) : Int :=
  let umax := Flt.ninf
  let st := forLoop N.toNat (fun i (st : Flt × Int) =>
    if Flt.gt (u i) st.1 then (u i, (i : Int)) else st) (umax, imax0)
  st.2

/-- `find_bracket` (main.c 36-55): the pair `(*ileft, *iright)` on return. The `int`
arithmetic is exact for every `N` from 2 and every index `maxeltf` finds. -/
def find_bracket (N : Int) (u : Nat → Flt) (imax0 : Int) : Int × Int :=
  let i := maxeltf N u imax0
  if i = 0 then (0, 1)
  else if i = N - 1 then (N - 2, N - 1)
  else (i - 1, i + 1)

/-- The loop of `maxeltf` after `k` passes: `umax` bounds the elements seen; either all of
them are minus infinity and `imax` was never assigned, or `imax` is the first index where
`umax` is attained. -/
def MaxInv (u : Nat → Flt) (imax0 : Int) (k : Nat) (st : Flt × Int) : Prop :=
  st.1 ≠ Flt.nan ∧ (∀ j, j < k → Flt.le (u j) st.1) ∧
  ((st.1 = Flt.ninf ∧ st.2 = imax0 ∧ ∀ j, j < k → u j = Flt.ninf) ∨
    (st.1 ≠ Flt.ninf ∧ 0 ≤ st.2 ∧ st.2.toNat < k ∧ u st.2.toNat = st.1 ∧
      ∀ j, j < st.2.toNat → Flt.lt (u j) st.1))

/-- A vector for worked examples: `[3, 9, -infinity, 9]` in units of `2^-149`. -/
def demoVec : Nat → Flt :=
  fun i => [Flt.fin ⟨3⟩, Flt.fin ⟨9⟩, Flt.ninf, Flt.fin ⟨9⟩].getD i Flt.nan

/-! ## Lemmas and theorems -/

theorem forLoop_zero {σ : Type} (body : Nat → σ → σ) (s : σ) : forLoop 0 body s = s := rfl

theorem forLoop_succ {σ : Type} (n : Nat) (body : Nat → σ → σ) (s : σ) :
    forLoop (n + 1) body s = body n (forLoop n body s) := by
  simp [forLoop, List.range_succ, List.foldl_append]

theorem forLoopM_zero {σ : Type} (body : Nat → σ → Except Fault σ) (s : σ) :
    forLoopM 0 body s = .ok s := rfl

theorem forLoopM_succ {σ : Type} (n : Nat) (body : Nat → σ → Except Fault σ) (s : σ) :
    forLoopM (n + 1) body s = forLoopM n body s >>= body n := by
  simp [forLoopM, List.range_succ, List.foldlM_append]

theorem sampledBits_append (a b : List Ev) :
    sampledBits (a ++ b) = sampledBits a ++ sampledBits b := by
  simp [sampledBits, List.filterMap_append]

theorem memWrites_append (a b : List Ev) :
    memWrites (a ++ b) = memWrites a ++ memWrites b := by
  simp [memWrites, List.filterMap_append]

theorem PinsOnly.pins_refl (s : Pru) : PinsOnly s s := by
  simp [PinsOnly]

theorem PinsOnly.pins_then {a b c : Pru} (h1 : PinsOnly a b) (h2 : PinsOnly b c) : PinsOnly a c := by
  obtain ⟨a1, a2, a3, a4, a5, a6, a7, a8⟩ := h1
  obtain ⟨b1, b2, b3, b4, b5, b6, b7, b8⟩ := h2
  exact ⟨b1.trans a1, b2.trans a2, b3.trans a3, b4.trans a4, b5.trans a5, b6.trans a6,
    b7.trans a7, b8.trans a8⟩

theorem pinsOnly_R30_set (b : Nat) (s : Pru) : PinsOnly s (R30_set b s) := by
  simp [PinsOnly, R30_set, sampledBits_append, memWrites_append, sampledBits, memWrites]

theorem pinsOnly_R30_clr (b : Nat) (s : Pru) : PinsOnly s (R30_clr b s) := by
  simp [PinsOnly, R30_clr, sampledBits_append, memWrites_append, sampledBits, memWrites]

theorem pinsOnly_delay (n : Nat) (s : Pru) : PinsOnly s (delay_cycles n s) := by
  simp [PinsOnly, delay_cycles, sampledBits_append, memWrites_append, sampledBits, memWrites]

theorem pinsOnly_forLoop (n : Nat) (body : Nat → Pru → Pru)
    (hb : ∀ i s, PinsOnly s (body i s)) (s : Pru) : PinsOnly s (forLoop n body s) := by
  induction n with
  | zero => exact PinsOnly.pins_refl s
  | succ n ih => rw [forLoop_succ]; exact ih.pins_then (hb n _)

theorem pinsOnly_tx_bit (d j : Nat) (s : Pru) : PinsOnly s (tx_bit d j s) := by
  unfold tx_bit
  refine PinsOnly.pins_then ?_ (pinsOnly_delay _ _)
  refine PinsOnly.pins_then ?_ (pinsOnly_R30_set _ _)
  refine PinsOnly.pins_then ?_ (pinsOnly_delay _ _)
  refine PinsOnly.pins_then (pinsOnly_R30_clr CLK s) ?_
  split
  · exact pinsOnly_R30_set _ _
  · exact pinsOnly_R30_clr _ _

theorem pinsOnly_tx_loop (pTxbuf : Nat → Nat) (tx_cnt : Int) (s : Pru) :
    PinsOnly s (tx_loop pTxbuf tx_cnt s) := by
  unfold tx_loop
  apply pinsOnly_forLoop
  intro i s
  exact (pinsOnly_forLoop 8 _ (fun j s => pinsOnly_tx_bit _ j s) s).pins_then (pinsOnly_delay _ _)

theorem pinsOnly_reset_bit (s : Pru) : PinsOnly s (reset_bit s) := by
  unfold reset_bit
  refine PinsOnly.pins_then ?_ (pinsOnly_delay _ _)
  refine PinsOnly.pins_then ?_ (pinsOnly_R30_set _ _)
  refine PinsOnly.pins_then ?_ (pinsOnly_delay _ _)
  exact (pinsOnly_R30_clr CLK s).pins_then (pinsOnly_R30_set _ _)

theorem pinsOnly_pru_spi_reset (s : Pru) : PinsOnly s (pru_spi_reset s) := by
  unfold pru_spi_reset
  refine PinsOnly.pins_then ?_ (pinsOnly_R30_clr _ _)
  refine PinsOnly.pins_then ?_ (pinsOnly_R30_set _ _)
  refine PinsOnly.pins_then ?_ (pinsOnly_forLoop _ _ ?_ _)
  · exact ((pinsOnly_R30_set MOSI s).pins_then (pinsOnly_R30_clr _ _)).pins_then (pinsOnly_delay _ _)
  · intro i s
    exact (pinsOnly_forLoop 8 _ (fun _ s => pinsOnly_reset_bit s) s).pins_then (pinsOnly_delay _ _)

theorem pinsOnly_pru_spi_write (pData : Nat → Nat) (byte_cnt : Int) (s : Pru) :
    PinsOnly s (pru_spi_write pData byte_cnt s) := by
  unfold pru_spi_write
  refine PinsOnly.pins_then ?_ (pinsOnly_R30_clr _ _)
  refine PinsOnly.pins_then ?_ (pinsOnly_R30_set _ _)
  refine PinsOnly.pins_then ?_ (pinsOnly_tx_loop _ _ _)
  exact (pinsOnly_R30_clr CS s).pins_then (pinsOnly_delay _ _)

theorem misoBit_le (v : Nat) : misoBit v ≤ 1 := by
  unfold misoBit
  rw [Nat.and_one_is_mod]
  omega

theorem shl1_or (x b : Nat) (hb : b ≤ 1) : (x <<< 1) ||| b = 2 * x + b := by
  have h : 2 ^ 1 * x + b = 2 ^ 1 * x ||| b := Nat.mul_add_lt_is_or (by omega) x
  rw [Nat.shiftLeft_eq]
  simp only [pow_one] at h ⊢
  rw [Nat.mul_comm x 2]
  exact h.symm

theorem shl8_or (x w : Nat) (hw : w < 256) : (x <<< 8) ||| w = 256 * x + w := by
  have h : 2 ^ 8 * x + w = 2 ^ 8 * x ||| w := Nat.mul_add_lt_is_or (by norm_num; exact hw) x
  rw [Nat.shiftLeft_eq]
  norm_num at h ⊢
  rw [Nat.mul_comm x 256]
  exact h.symm

theorem beval_lt (b : Nat → Nat) (hb : ∀ i, b i ≤ 1) (n : Nat) : beval b n < 2 ^ n := by
  induction n with
  | zero => simp [beval]
  | succ n ih =>
    have := hb n
    simp only [beval, pow_succ]
    omega

theorem beval_add (b : Nat → Nat) (n m : Nat) :
    beval b (n + m) = beval b n * 2 ^ m + beval (fun i => b (n + i)) m := by
  induction m with
  | zero => simp [beval]
  | succ m ih =>
    rw [← Nat.add_assoc]
    simp only [beval, ih, pow_succ]
    ring

theorem beval_congr (b c : Nat → Nat) (n : Nat) (h : ∀ i, i < n → b i = c i) :
    beval b n = beval c n := by
  induction n with
  | zero => rfl
  | succ n ih =>
    simp only [beval]
    rw [ih (fun i hi => h i (by omega)), h n (by omega)]

theorem beval_eq_sum (b : Nat → Nat) (n : Nat) :
    beval b n = ∑ i in Finset.range n, b i * 2 ^ (n - 1 - i) := by
  induction n with
  | zero => simp [beval]
  | succ n ih =>
    rw [beval, ih, Finset.sum_range_succ, Finset.mul_sum]
    simp only [Nat.add_sub_cancel, Nat.sub_self, pow_zero, mul_one, add_left_inj]
    apply Finset.sum_congr rfl
    intro i hi
    have hi' : i < n := Finset.mem_range.mp hi
    have : n - i = (n - 1 - i) + 1 := by omega
    rw [this, pow_succ]
    ring

theorem bitsFrom_length (miso : Nat → Nat) (r n : Nat) : (bitsFrom miso r n).length = n := by
  simp [bitsFrom]

theorem bitsFrom_getD (miso : Nat → Nat) (r n i : Nat) (hi : i < n) :
    (bitsFrom miso r n).getD i 0 = misoBit (miso (r + i)) := by
  simp [bitsFrom, List.getD_eq_getElem?_getD, hi]

theorem bitsFrom_add (miso : Nat → Nat) (r n m : Nat) :
    bitsFrom miso r (n + m) = bitsFrom miso r n ++ bitsFrom miso (r + n) m := by
  induction m with
  | zero => simp [bitsFrom]
  | succ m ih =>
    rw [← Nat.add_assoc]
    simp only [bitsFrom, List.range_succ, List.map_append, List.map_cons, List.map_nil] at ih ⊢
    rw [ih, List.append_assoc, Nat.add_assoc]

theorem rx_bits_spec (miso : Nat → Nat) (n : Nat) (s : Pru) :
    (forLoop n (fun _ s => rx_bit miso s) s).rd = s.rd + n ∧
    (forLoop n (fun _ s => rx_bit miso s) s).rx_byte % 256 =
      (s.rx_byte * 2 ^ n + beval (fun t => misoBit (miso (s.rd + t))) n) % 256 ∧
    (0 < n → (forLoop n (fun _ s => rx_bit miso s) s).rx_byte < 256) ∧
    (forLoop n (fun _ s => rx_bit miso s) s).pMEM = s.pMEM ∧
    (forLoop n (fun _ s => rx_bit miso s) s).tx_words = s.tx_words ∧
    (forLoop n (fun _ s => rx_bit miso s) s).rx_words = s.rx_words ∧
    (forLoop n (fun _ s => rx_bit miso s) s).rx_word = s.rx_word ∧
    sampledBits (forLoop n (fun _ s => rx_bit miso s) s).trace =
      sampledBits s.trace ++ bitsFrom miso s.rd n ∧
    memWrites (forLoop n (fun _ s => rx_bit miso s) s).trace = memWrites s.trace := by
  induction n with
  | zero => simp [forLoop_zero, beval, bitsFrom]
  | succ n ih =>
    rw [forLoop_succ]
    obtain ⟨h1, h2, _, h4, h5, h6, h7, h8, h9⟩ := ih
    generalize forLoop n (fun _ s => rx_bit miso s) s = t at *
    have hb := misoBit_le (miso t.rd)
    refine ⟨?_, ?_, ?_, ?_, ?_, ?_, ?_, ?_, ?_⟩
    · simp [rx_bit, R30_set, R30_clr, delay_cycles, h1]; omega
    · simp only [rx_bit, R30_set, R30_clr, delay_cycles]
      rw [shl1_or _ _ hb, h1, beval, pow_succ]
      generalize misoBit (miso (s.rd + n)) = bit at *
      generalize beval (fun t => misoBit (miso (s.rd + t))) n = v at *
      have e : s.rx_byte * (2 ^ n * 2) = 2 * (s.rx_byte * 2 ^ n) := by ring
      rw [e]
      generalize s.rx_byte * 2 ^ n = y at *
      omega
    · intro _
      simp only [rx_bit, R30_set, R30_clr, delay_cycles]
      exact Nat.mod_lt _ (by norm_num)
    · simp [rx_bit, R30_set, R30_clr, delay_cycles, h4]
    · simp [rx_bit, R30_set, R30_clr, delay_cycles, h5]
    · simp [rx_bit, R30_set, R30_clr, delay_cycles, h6]
    · simp [rx_bit, R30_set, R30_clr, delay_cycles, h7]
    · rw [bitsFrom_add, ← List.append_assoc, ← h8]
      simp [rx_bit, R30_set, R30_clr, delay_cycles, sampledBits_append, h1, bitsFrom]
      simp [sampledBits, List.range_succ]
    · rw [← h9]
      simp [rx_bit, R30_set, R30_clr, delay_cycles, memWrites_append]
      simp [memWrites]

theorem rx_byte_spec (miso : Nat → Nat) (s : Pru) :
    (forLoop 8 (fun _ s => rx_bit miso s) s).rx_byte =
      beval (fun t => misoBit (miso (s.rd + t))) 8 := by
  obtain ⟨_, h2, h3, _⟩ := rx_bits_spec miso 8 s
  have h3 := h3 (by norm_num)
  have hlt := beval_lt (fun t => misoBit (miso (s.rd + t))) (fun i => misoBit_le _) 8
  have e8 : (2 : Nat) ^ 8 = 256 := by norm_num
  rw [e8] at h2 hlt
  omega

theorem rx_byte_pass_spec (miso : Nat → Nat) (i : Nat) (hi : i < 4) (s : Pru) :
    ∃ s1, rx_byte_pass miso i s = .ok s1 ∧ s1.rd = s.rd + 8 ∧
      s1.rx_word = Function.update s.rx_word i (beval (fun t => misoBit (miso (s.rd + t))) 8) ∧
      s1.pMEM = s.pMEM ∧ s1.tx_words = s.tx_words ∧ s1.rx_words = s.rx_words ∧
      sampledBits s1.trace = sampledBits s.trace ++ bitsFrom miso s.rd 8 ∧
      memWrites s1.trace = memWrites s.trace := by
  obtain ⟨g1, _, _, g4, g5, g6, g7, g8, g9⟩ := rx_bits_spec miso 8 s
  have gb := rx_byte_spec miso s
  unfold rx_byte_pass
  simp only [hi, if_true]
  generalize forLoop 8 (fun _ s => rx_bit miso s) s = t at *
  refine ⟨_, rfl, ?_, ?_, ?_, ?_, ?_, ?_, ?_⟩
  · simp only [delay_cycles, g1]
  · simp only [delay_cycles, g7, gb]
  · simp only [delay_cycles, g4]
  · simp only [delay_cycles, g5]
  · simp only [delay_cycles, g6]
  · rw [← g8]
    simp [delay_cycles, sampledBits_append, sampledBits]
  · rw [← g9]
    simp [delay_cycles, memWrites_append, memWrites]

theorem rx_loop_steps (miso : Nat → Nat) (n : Nat) (hn : n ≤ 4) (s : Pru) :
    ∃ s1, forLoopM n (rx_byte_pass miso) s = .ok s1 ∧ RxDone miso n s s1 := by
  induction n with
  | zero =>
    exact ⟨s, rfl, by simp [RxDone, bitsFrom]⟩
  | succ n ih =>
    obtain ⟨s1, hs1, h1, h2, h3, h4, h5, h6, h7⟩ := ih (by omega)
    obtain ⟨s2, hs2, g1, g2, g3, g4, g5, g6, g7⟩ := rx_byte_pass_spec miso n (by omega) s1
    refine ⟨s2, by rw [forLoopM_succ, hs1]; exact hs2, ?_⟩
    refine ⟨?_, ?_, ?_, ?_, ?_, ?_, ?_⟩
    · rw [g1, h1]; omega
    · intro j hj
      rw [g2]
      by_cases hjn : j = n
      · subst hjn
        rw [Function.update_same, h1]
      · rw [Function.update_noteq hjn]
        exact h2 j (by omega)
    · rw [g3, h3]
    · rw [g4, h4]
    · rw [g5, h5]
    · have e : 8 * (n + 1) = 8 * n + 8 := by ring
      rw [e, bitsFrom_add, ← List.append_assoc, ← h6, ← h1, g6]
    · rw [g7, h7]

theorem rx_loop_spec (miso : Nat → Nat) (rx_cnt : Int) (h4 : rx_cnt.toNat ≤ 4) (s : Pru) :
    ∃ s1, rx_loop miso rx_cnt s = .ok s1 ∧ RxDone miso rx_cnt.toNat s s1 :=
  rx_loop_steps miso rx_cnt.toNat h4 s

theorem assemble_steps (w : Nat → Nat) (b : Nat → Nat) (hb : ∀ i, b i ≤ 1) (n : Nat) (hn : n ≤ 4)
    (hw : ∀ j, j < n → w j = beval (fun t => b (8 * j + t)) 8) :
    forLoop n (fun i tmp => ((tmp <<< 8) % 4294967296) ||| w i) 0 = beval b (8 * n) := by
  induction n with
  | zero => rfl
  | succ n ih =>
    rw [forLoop_succ, ih (by omega) (fun j hj => hw j (by omega))]
    have e : 8 * (n + 1) = 8 * n + 8 := by ring
    rw [e, beval_add, hw n (by omega)]
    have hlt := beval_lt b hb (8 * n)
    have hlt8 := beval_lt (fun t => b (8 * n + t)) (fun i => hb _) 8
    have hp : 2 ^ (8 * n) ≤ 2 ^ 24 := Nat.pow_le_pow_right (by norm_num) (by omega)
    generalize beval b (8 * n) = x at *
    generalize beval (fun t => b (8 * n + t)) 8 = y at *
    norm_num at hlt8 hp
    have hx : x <<< 8 = x * 256 := by rw [Nat.shiftLeft_eq]
    have hm : (x <<< 8) % 4294967296 = x <<< 8 := Nat.mod_eq_of_lt (by rw [hx]; omega)
    rw [hm, shl8_or _ _ hlt8]
    norm_num
    ring

theorem assemble_spec (miso : Nat → Nat) (rx_cnt : Int) (h4 : rx_cnt.toNat ≤ 4) (r : Nat)
    (w : Nat → Nat)
    (hw : ∀ j, j < rx_cnt.toNat → w j = beval (fun t => misoBit (miso (r + 8 * j + t))) 8) :
    assemble w rx_cnt = beval (fun t => misoBit (miso (r + t))) (8 * rx_cnt.toNat) := by
  unfold assemble
  apply assemble_steps w (fun t => misoBit (miso (r + t))) (fun i => misoBit_le _) _ h4
  intro j hj
  rw [hw j hj]
  apply beval_congr
  intro i _
  simp only [Nat.add_assoc]

theorem except_bind_ok {α β : Type} (x : Except Fault α) (f : α → Except Fault β) (b : β) :
    (x >>= f) = .ok b ↔ ∃ a, x = .ok a ∧ f a = .ok b := by
  cases x with
  | error e => simp [bind, Except.bind]
  | ok a => simp [bind, Except.bind]

theorem Quiet.quiet_refl (s : Pru) : Quiet s s := by
  simp [Quiet]

theorem Quiet.quiet_then {a b c : Pru} (h1 : Quiet a b) (h2 : Quiet b c) : Quiet a c := by
  obtain ⟨a1, a2, a3, a4, a5, a6, a7⟩ := h1
  obtain ⟨b1, b2, b3, b4, b5, b6, b7⟩ := h2
  exact ⟨b1.trans a1, b2.trans a2, b3.trans a3, b4.trans a4, b5.trans a5, b6.trans a6,
    b7.trans a7⟩

theorem PinsOnly.to_quiet {s s1 : Pru} (h : PinsOnly s s1) : Quiet s s1 := by
  obtain ⟨_, a2, a3, a4, a5, a6, a7, a8⟩ := h
  exact ⟨a2, a3, a4, a5, a6, a7, a8⟩

theorem wait_miso_high_quiet (miso : Nat → Nat) (fuel : Nat) (s s1 : Pru)
    (h : wait_miso_high miso fuel s = .ok s1) : Quiet s s1 := by
  induction fuel generalizing s with
  | zero => simp [wait_miso_high] at h
  | succ n ih =>
    have hq : Quiet s { s with rd := s.rd + 1, trace := s.trace ++ [Ev.poll (miso s.rd)] } := by
      simp [Quiet, sampledBits_append, memWrites_append, sampledBits, memWrites]
    simp only [wait_miso_high] at h
    split at h
    · cases h
      exact hq
    · exact hq.quiet_then (ih _ h)

theorem wait_miso_low_quiet (miso : Nat → Nat) (fuel : Nat) (s s1 : Pru)
    (h : wait_miso_low miso fuel s = .ok s1) : Quiet s s1 := by
  induction fuel generalizing s with
  | zero => simp [wait_miso_low] at h
  | succ n ih =>
    have hq : Quiet s { s with rd := s.rd + 1, trace := s.trace ++ [Ev.poll (miso s.rd)] } := by
      simp [Quiet, sampledBits_append, memWrites_append, sampledBits, memWrites]
    simp only [wait_miso_low] at h
    split at h
    · cases h
      exact hq
    · exact hq.quiet_then (ih _ h)

theorem store_ok (p : Ptr) (i v : Nat) (s : Pru) (hp : p = Ptr.loc → i < 4) :
    ∃ s1, store p i v s = .ok s1 := by
  cases p with
  | loc => simp [store, hp rfl]
  | ram off => simp [store]

theorem store_spec (p : Ptr) (i v : Nat) (s s1 : Pru) (h : store p i v s = .ok s1) :
    load p i s1 = v ∧ (∀ j, j ≠ i → load p j s1 = load p j s) ∧
    sampledBits s1.trace = sampledBits s.trace ∧
    memWrites s1.trace = memWrites s.trace ++ ptrWrite p i v ∧
    s1.tx_words = s.tx_words ∧ s1.rd = s.rd ∧
    (∀ a, (∀ off, p = Ptr.ram off → a ≠ off + i) → s1.pMEM a = s.pMEM a) := by
  cases p with
  | loc =>
    simp only [store] at h
    split at h
    · cases h
      refine ⟨by simp [load], ?_, ?_, ?_, rfl, rfl, fun a _ => rfl⟩
      · intro j hj
        simp [load, Function.update_noteq hj]
      · simp [sampledBits_append, sampledBits]
      · simp [memWrites_append, memWrites, ptrWrite]
    · cases h
  | ram off =>
    simp only [store] at h
    cases h
    refine ⟨by simp [load], ?_, ?_, ?_, rfl, rfl, ?_⟩
    · intro j hj
      have : off + j ≠ off + i := by omega
      simp [load, Function.update_noteq this]
    · simp [sampledBits_append, sampledBits]
    · simp [memWrites_append, memWrites, ptrWrite]
    · intro a ha
      simp [Function.update_noteq (ha off rfl)]

theorem burstWrites_succ (p : Ptr) (n : Nat) (f : Nat → Nat) :
    burstWrites p (n + 1) f = burstWrites p n f ++ ptrWrite p n (f n) := by
  cases p with
  | loc => simp [burstWrites, ptrWrite]
  | ram off => simp [burstWrites, ptrWrite, List.range_succ]

theorem burstWrites_congr (p : Ptr) (n : Nat) (f g : Nat → Nat) (h : ∀ k, k < n → f k = g k) :
    burstWrites p n f = burstWrites p n g := by
  cases p with
  | loc => rfl
  | ram off =>
    simp only [burstWrites]
    apply List.map_congr_left
    intro k hk
    rw [h k (List.mem_range.mp hk)]

theorem single_spec (miso : Nat → Nat) (pTxbuf : Nat → Nat) (tx_cnt : Int) (p : Ptr)
    (rx_cnt : Int) (h4 : rx_cnt.toNat ≤ 4) (s : Pru) :
    ∃ s1, pru_spi_writeread_single miso pTxbuf tx_cnt p rx_cnt s = .ok s1 ∧
      load p 0 s1 = beval (fun t => misoBit (miso (s.rd + t))) (8 * rx_cnt.toNat) ∧
      (∀ j, j ≠ 0 → load p j s1 = load p j s) ∧
      sampledBits s1.trace = sampledBits s.trace ++ bitsFrom miso s.rd (8 * rx_cnt.toNat) ∧
      memWrites s1.trace = memWrites s.trace ++ ptrWrite p 0 (load p 0 s1) ∧
      s1.tx_words = s.tx_words ∧
      (∀ a, (∀ off, p = Ptr.ram off → a ≠ off + 0) → s1.pMEM a = s.pMEM a) := by
  have q1 : PinsOnly s (R30_clr MOSI (tx_loop pTxbuf tx_cnt (R30_clr CLK (R30_clr CS
      (R30_set MOSI s))))) :=
    ((((pinsOnly_R30_set MOSI s).pins_then (pinsOnly_R30_clr _ _)).pins_then
      (pinsOnly_R30_clr _ _)).pins_then (pinsOnly_tx_loop _ _ _)).pins_then (pinsOnly_R30_clr _ _)
  generalize hs0 : R30_clr MOSI (tx_loop pTxbuf tx_cnt (R30_clr CLK (R30_clr CS
      (R30_set MOSI s)))) = s0 at q1
  obtain ⟨a1, a2, a3, a4, _, _, a7, a8⟩ := q1
  obtain ⟨s2, hs2, b1, b2, b3, b4, b5, b6, b7⟩ := rx_loop_spec miso rx_cnt h4 s0
  obtain ⟨s3, hs3⟩ := store_ok p 0 (assemble s2.rx_word rx_cnt) s2 (fun _ => by norm_num)
  obtain ⟨c1, c2, c3, c4, c5, c6, c7⟩ := store_spec p 0 _ s2 s3 hs3
  have hv := assemble_spec miso rx_cnt h4 s0.rd s2.rx_word b2
  have hl : ∀ j, load p j s2 = load p j s := by
    intro j
    cases p with
    | loc => simp [load, b5, a4]
    | ram off => simp [load, b3, a2]
  have q3 := pinsOnly_R30_set CS s3
  obtain ⟨_, d2, d3, d4, _, _, d7, d8⟩ := q3
  have hl3 : ∀ j, load p j (R30_set CS s3) = load p j s3 := by
    intro j
    cases p with
    | loc => simp [load, d4]
    | ram off => simp [load, d2]
  refine ⟨R30_set CS s3, ?_, ?_, ?_, ?_, ?_, ?_, ?_⟩
  · simp only [pru_spi_writeread_single, hs0, hs2, hs3, bind, Except.bind, pure, Except.pure]
  · rw [hl3, c1, hv, a1]
  · intro j hj
    rw [hl3, c2 j hj, hl]
  · rw [d7, c3, b6, a7, a1]
  · rw [d8, c4, b7, a8, hl3, c1]
  · rw [d3, c5, b4, a3]
  · intro a ha
    rw [d2, c7 a ha, b3, a2]

theorem conversion_spec (miso : Nat → Nat) (fuel : Nat) (pTxbuf : Nat → Nat) (tx_cnt : Int)
    (p : Ptr) (rx_cnt : Int) (h4 : rx_cnt.toNat ≤ 4) (k : Nat) (s s1 : Pru)
    (h : conversion miso fuel pTxbuf tx_cnt p rx_cnt k s = .ok s1) :
    ∃ r, load p k s1 = beval (fun t => misoBit (miso (r + t))) (8 * rx_cnt.toNat) ∧
      (∀ j, j ≠ k → load p j s1 = load p j s) ∧
      sampledBits s1.trace = sampledBits s.trace ++ bitsFrom miso r (8 * rx_cnt.toNat) ∧
      memWrites s1.trace = memWrites s.trace ++ ptrWrite p k (load p k s1) ∧
      s1.tx_words = s.tx_words ∧
      (∀ a, (∀ off, p = Ptr.ram off → a ≠ off + k) → s1.pMEM a = s.pMEM a) := by
  simp only [conversion] at h
  obtain ⟨sa, ha, h⟩ := (except_bind_ok _ _ _).mp h
  obtain ⟨sb, hb, h⟩ := (except_bind_ok _ _ _).mp h
  obtain ⟨sc, hc, h⟩ := (except_bind_ok _ _ _).mp h
  obtain ⟨sd, hd, h⟩ := (except_bind_ok _ _ _).mp h
  simp only [pure, Except.pure, Except.ok.injEq] at h
  have q0 : Quiet s (R30_set MOSI (tx_loop pTxbuf tx_cnt sb)) :=
    (((wait_miso_high_quiet _ _ _ _ ha).quiet_then (wait_miso_low_quiet _ _ _ _ hb)).quiet_then
      (pinsOnly_tx_loop _ _ _).to_quiet).quiet_then (pinsOnly_R30_set _ _).to_quiet
  generalize R30_set MOSI (tx_loop pTxbuf tx_cnt sb) = s0 at q0 hc
  obtain ⟨a2, a3, a4, _, _, a7, a8⟩ := q0
  obtain ⟨s2, hs2, b1, b2, b3, b4, b5, b6, b7⟩ := rx_loop_spec miso rx_cnt h4 s0
  rw [hc] at hs2
  cases hs2
  obtain ⟨c1, c2, c3, c4, c5, c6, c7⟩ := store_spec p k _ sc sd hd
  have hv := assemble_spec miso rx_cnt h4 s0.rd sc.rx_word b2
  have hl : ∀ j, load p j sc = load p j s := by
    intro j
    cases p with
    | loc => simp [load, b5, a4]
    | ram off => simp [load, b3, a2]
  obtain ⟨_, d2, d3, d4, _, _, d7, d8⟩ := pinsOnly_delay (10 * DELAY_CNT) sd
  rw [h] at d2 d3 d4 d7 d8
  have hl3 : ∀ j, load p j s1 = load p j sd := by
    intro j
    cases p with
    | loc => simp [load, d4]
    | ram off => simp [load, d2]
  refine ⟨s0.rd, ?_, ?_, ?_, ?_, ?_, ?_⟩
  · rw [hl3, c1, hv]
  · intro j hj
    rw [hl3, c2 j hj, hl]
  · rw [d7, c3, b6, a7]
  · rw [d8, c4, b7, a8, hl3, c1]
  · rw [d3, c5, b4, a3]
  · intro a ha
    rw [d2, c7 a ha, b3, a2]

theorem idx_lt (m k n i : Nat) (hk : k < n) (hi : i < m) : m * k + i < m * n := by
  have h1 : m * (k + 1) ≤ m * n := Nat.mul_le_mul_left m hk
  rw [Nat.mul_add, Nat.mul_one] at h1
  omega

theorem burst_spec (miso : Nat → Nat) (fuel : Nat) (pTxbuf : Nat → Nat) (tx_cnt : Int)
    (p : Ptr) (rx_cnt : Int) (h4 : rx_cnt.toNat ≤ 4) (n : Nat) (s s1 : Pru)
    (h : forLoopM n (conversion miso fuel pTxbuf tx_cnt p rx_cnt) s = .ok s1) :
    BurstDone p rx_cnt.toNat n s s1 := by
  induction n generalizing s1 with
  | zero =>
    cases h
    refine ⟨[], by simp, by simp, fun k hk => absurd hk (Nat.not_lt_zero k), ?_, rfl,
      fun a _ => rfl⟩
    cases p <;> simp [burstWrites]
  | succ n ih =>
    rw [forLoopM_succ] at h
    obtain ⟨s2, hs2, h⟩ := (except_bind_ok _ _ _).mp h
    obtain ⟨bits, e1, e2, e3, e4, e5, e6⟩ := ih s2 hs2
    obtain ⟨r, c1, c2, c3, c4, c5, c6⟩ := conversion_spec miso fuel pTxbuf tx_cnt p rx_cnt h4 n s2 s1 h
    unfold BurstDone
    generalize hm : 8 * rx_cnt.toNat = m at *
    have hmn1 : m * (n + 1) = m * n + m := by ring
    refine ⟨bits ++ bitsFrom miso r m, ?_, ?_, ?_, ?_, ?_, ?_⟩
    · rw [c3, e1, List.append_assoc]
    · rw [List.length_append, e2, bitsFrom_length, hmn1]
    · intro k hk
      by_cases hkn : k = n
      · subst hkn
        rw [c1]
        apply beval_congr
        intro i hi
        rw [List.getD_append_right _ _ _ _ (by rw [e2]; omega), e2]
        rw [show m * k + i - m * k = i by omega, bitsFrom_getD _ _ _ _ hi]
      · rw [c2 k hkn, e3 k (by omega)]
        apply beval_congr
        intro i hi
        rw [List.getD_append _ _ _ _ (by rw [e2]; exact idx_lt m k n i (by omega) hi)]
    · rw [c4, e4, burstWrites_succ, List.append_assoc]
      congr 2
      apply burstWrites_congr
      intro k hk
      rw [c2 k (by omega)]
    · rw [c5, e5]
    · intro a ha
      rw [c6 a (fun off hp => by have := ha off hp; omega)]
      exact e6 a (fun off hp => by have := ha off hp; omega)

theorem wait_miso_high_total (miso : Nat → Nat) (d : Nat) (s : Pru)
    (h : misoBit (miso (s.rd + d)) ≠ 0) :
    ∃ F s1, ∀ fuel, F ≤ fuel → wait_miso_high miso fuel s = .ok s1 := by
  induction d generalizing s with
  | zero =>
    refine ⟨1, { s with rd := s.rd + 1, trace := s.trace ++ [Ev.poll (miso s.rd)] },
      fun fuel hf => ?_⟩
    obtain ⟨f, rfl⟩ : ∃ f, fuel = f + 1 := ⟨fuel - 1, by omega⟩
    simp only [wait_miso_high]
    rw [if_pos (by simpa using h)]
  | succ d ih =>
    by_cases h0 : misoBit (miso s.rd) ≠ 0
    · refine ⟨1, { s with rd := s.rd + 1, trace := s.trace ++ [Ev.poll (miso s.rd)] },
      fun fuel hf => ?_⟩
      obtain ⟨f, rfl⟩ : ∃ f, fuel = f + 1 := ⟨fuel - 1, by omega⟩
      simp only [wait_miso_high]
      rw [if_pos h0]
    · obtain ⟨F, s1, hF⟩ := ih { s with rd := s.rd + 1, trace := s.trace ++ [Ev.poll (miso s.rd)] }
        (by simpa [Nat.add_assoc, Nat.add_comm 1 d] using h)
      refine ⟨F + 1, s1, fun fuel hf => ?_⟩
      obtain ⟨f, rfl⟩ : ∃ f, fuel = f + 1 := ⟨fuel - 1, by omega⟩
      simp only [wait_miso_high]
      rw [if_neg h0]
      exact hF f (by omega)

theorem wait_miso_low_total (miso : Nat → Nat) (d : Nat) (s : Pru)
    (h : misoBit (miso (s.rd + d)) = 0) :
    ∃ F s1, ∀ fuel, F ≤ fuel → wait_miso_low miso fuel s = .ok s1 := by
  induction d generalizing s with
  | zero =>
    refine ⟨1, { s with rd := s.rd + 1, trace := s.trace ++ [Ev.poll (miso s.rd)] },
      fun fuel hf => ?_⟩
    obtain ⟨f, rfl⟩ : ∃ f, fuel = f + 1 := ⟨fuel - 1, by omega⟩
    simp only [wait_miso_low]
    rw [if_pos (by simpa using h)]
  | succ d ih =>
    by_cases h0 : misoBit (miso s.rd) = 0
    · refine ⟨1, { s with rd := s.rd + 1, trace := s.trace ++ [Ev.poll (miso s.rd)] },
      fun fuel hf => ?_⟩
      obtain ⟨f, rfl⟩ : ∃ f, fuel = f + 1 := ⟨fuel - 1, by omega⟩
      simp only [wait_miso_low]
      rw [if_pos h0]
    · obtain ⟨F, s1, hF⟩ := ih { s with rd := s.rd + 1, trace := s.trace ++ [Ev.poll (miso s.rd)] }
        (by simpa [Nat.add_assoc, Nat.add_comm 1 d] using h)
      refine ⟨F + 1, s1, fun fuel hf => ?_⟩
      obtain ⟨f, rfl⟩ : ∃ f, fuel = f + 1 := ⟨fuel - 1, by omega⟩
      simp only [wait_miso_low]
      rw [if_neg h0]
      exact hF f (by omega)

theorem conversion_total (miso : Nat → Nat) (ht : Toggles miso) (pTxbuf : Nat → Nat)
    (tx_cnt : Int) (p : Ptr) (rx_cnt : Int) (h4 : rx_cnt.toNat ≤ 4) (k : Nat)
    (hp : p = Ptr.loc → k < 4) (s : Pru) :
    ∃ F s1, ∀ fuel, F ≤ fuel → conversion miso fuel pTxbuf tx_cnt p rx_cnt k s = .ok s1 := by
  obtain ⟨m1, hm1, hb1⟩ := ht.1 s.rd
  obtain ⟨F1, sa, ha⟩ := wait_miso_high_total miso (m1 - s.rd) s
    (by rw [Nat.add_sub_cancel' hm1]; exact hb1)
  obtain ⟨m2, hm2, hb2⟩ := ht.2 sa.rd
  obtain ⟨F2, sb, hb⟩ := wait_miso_low_total miso (m2 - sa.rd) sa
    (by rw [Nat.add_sub_cancel' hm2]; exact hb2)
  obtain ⟨sc, hc, _⟩ := rx_loop_spec miso rx_cnt h4 (R30_set MOSI (tx_loop pTxbuf tx_cnt sb))
  obtain ⟨sd, hd⟩ := store_ok p k (assemble sc.rx_word rx_cnt) sc hp
  refine ⟨max F1 F2, delay_cycles (10 * DELAY_CNT) sd, fun fuel hf => ?_⟩
  simp only [conversion, ha fuel (by omega), hb fuel (by omega), hc, hd, bind, Except.bind, pure,
    Except.pure]

theorem burst_total (miso : Nat → Nat) (ht : Toggles miso) (pTxbuf : Nat → Nat)
    (tx_cnt : Int) (p : Ptr) (rx_cnt : Int) (h4 : rx_cnt.toNat ≤ 4) (n : Nat)
    (hp : p = Ptr.loc → n ≤ 4) (s : Pru) :
    ∃ F s1, ∀ fuel, F ≤ fuel →
      forLoopM n (conversion miso fuel pTxbuf tx_cnt p rx_cnt) s = .ok s1 := by
  induction n with
  | zero => exact ⟨0, s, fun _ _ => rfl⟩
  | succ n ih =>
    obtain ⟨F1, s2, h2⟩ := ih (fun e => by have := hp e; omega)
    obtain ⟨F2, s3, h3⟩ := conversion_total miso ht pTxbuf tx_cnt p rx_cnt h4 n
      (fun e => by have := hp e; omega) s2
    refine ⟨max F1 F2, s3, fun fuel hf => ?_⟩
    rw [forLoopM_succ, h2 fuel (by omega)]
    exact h3 fuel (by omega)

theorem sampledBits_le (t : List Ev) : ∀ b ∈ sampledBits t, b ≤ 1 := by
  intro b hb
  simp only [sampledBits, List.mem_filterMap] at hb
  obtain ⟨e, _, he⟩ := hb
  cases e <;> simp at he
  rw [← he]
  exact misoBit_le _

theorem sampledSince_le (s s1 : Pru) : ∀ b ∈ sampledSince s s1, b ≤ 1 :=
  fun b hb => sampledBits_le s1.trace b (List.mem_of_mem_drop hb)

theorem sampledSince_eq (s s1 : Pru) (bits : List Nat)
    (h : sampledBits s1.trace = sampledBits s.trace ++ bits) : sampledSince s s1 = bits := by
  simp [sampledSince, h]

theorem load_of_eq (p : Ptr) (j : Nat) (s s1 : Pru) (h1 : s1.pMEM = s.pMEM)
    (h2 : s1.rx_words = s.rx_words) : load p j s1 = load p j s := by
  cases p with
  | loc => simp [load, h2]
  | ram off => simp [load, h1]

theorem continuous_spec (miso : Nat → Nat) (fuel : Nat) (pTxbuf : Nat → Nat) (tx_cnt : Int)
    (p : Ptr) (rx_cnt : Int) (h4 : rx_cnt.toNat ≤ 4) (ncnv : Int) (s s1 : Pru)
    (h : pru_spi_writeread_continuous miso fuel pTxbuf tx_cnt p rx_cnt ncnv s = .ok s1) :
    BurstDone p rx_cnt.toNat ncnv.toNat s s1 := by
  simp only [pru_spi_writeread_continuous] at h
  obtain ⟨s2, hs2, h⟩ := (except_bind_ok _ _ _).mp h
  simp only [pure, Except.pure, Except.ok.injEq] at h
  obtain ⟨bits, e1, e2, e3, e4, e5, e6⟩ := burst_spec miso fuel pTxbuf tx_cnt p rx_cnt h4 _ _ _ hs2
  obtain ⟨_, a2, a3, a4, _, _, a7, a8⟩ :=
    (pinsOnly_R30_set MOSI s).pins_then (pinsOnly_R30_clr CS _)
  obtain ⟨_, d2, d3, d4, _, _, d7, d8⟩ :=
    (pinsOnly_R30_set CS s2).pins_then (pinsOnly_R30_clr MOSI _)
  rw [h] at d2 d3 d4 d7 d8
  have hl : ∀ j, load p j s1 = load p j s2 := fun j => load_of_eq p j _ _ d2 d4
  refine ⟨bits, ?_, e2, ?_, ?_, ?_, ?_⟩
  · rw [d7, e1, a7]
  · intro k hk
    rw [hl, e3 k hk]
  · rw [d8, e4, a8]
    congr 1
    exact burstWrites_congr p _ _ _ (fun k _ => (hl k).symm)
  · rw [d3, e5, a3]
  · intro a ha
    rw [d2, e6 a ha, a2]

theorem continuous_total (miso : Nat → Nat) (ht : Toggles miso) (pTxbuf : Nat → Nat)
    (tx_cnt : Int) (p : Ptr) (rx_cnt : Int) (h4 : rx_cnt.toNat ≤ 4) (ncnv : Int)
    (hp : p = Ptr.loc → ncnv.toNat ≤ 4) (s : Pru) :
    ∃ F s1, ∀ fuel, F ≤ fuel →
      pru_spi_writeread_continuous miso fuel pTxbuf tx_cnt p rx_cnt ncnv s = .ok s1 := by
  obtain ⟨F, s2, h2⟩ := burst_total miso ht pTxbuf tx_cnt p rx_cnt h4 ncnv.toNat hp
    (R30_clr CS (R30_set MOSI s))
  refine ⟨F, R30_clr MOSI (R30_set CS s2), fun fuel hf => ?_⟩
  simp only [pru_spi_writeread_continuous, h2 fuel hf, bind, Except.bind, pure, Except.pure]

theorem demoMiso_toggles : Toggles demoMiso := by
  constructor
  · intro n
    refine ⟨3 * n, by omega, ?_⟩
    simp [demoMiso, misoBit, MISO]
  · intro n
    refine ⟨3 * n + 1, by omega, ?_⟩
    have : (3 * n + 1) % 3 ≠ 0 := by omega
    simp [demoMiso, misoBit, MISO, this]

/-- C1 (byte assembly). For a byte count `rx_cnt` from 1 to 4, any data-in stream `miso`
and any start state `s` (so any left-over content of the scratch variables `rx_byte` and
`rx_word`): `pru_spi_writeread_single` returns, samples `8 * rx_cnt` bits, and the word it
stores in `pRxbuf[0]` is the sum of `b_i * 2^(8*rx_cnt-1-i)` over the sampled bits `b_i`;
every run of `pru_spi_writeread_continuous` that returns has sampled `8 * rx_cnt` bits per
conversion and `pRxbuf[k]` is that sum over the bits of conversion `k`; and the continuous
read does return when data-in keeps toggling, once the poll budget of the model is large
enough. -/
theorem byte_assembly (miso : Nat → Nat) (pTxbuf : Nat → Nat) (tx_cnt : Int) (pRxbuf : Ptr)
    (rx_cnt : Int) (s : Pru) (h1 : 1 ≤ rx_cnt) (h4 : rx_cnt ≤ 4) :
    (∃ s1, pru_spi_writeread_single miso pTxbuf tx_cnt pRxbuf rx_cnt s = .ok s1 ∧
      (sampledSince s s1).length = 8 * rx_cnt.toNat ∧
      (∀ b ∈ sampledSince s s1, b ≤ 1) ∧
      load pRxbuf 0 s1 = ∑ i in Finset.range (8 * rx_cnt.toNat),
        (sampledSince s s1).getD i 0 * 2 ^ (8 * rx_cnt.toNat - 1 - i)) ∧
    (∀ (ncnv : Int) (fuel : Nat) (s1 : Pru),
      pru_spi_writeread_continuous miso fuel pTxbuf tx_cnt pRxbuf rx_cnt ncnv s = .ok s1 →
      (sampledSince s s1).length = 8 * rx_cnt.toNat * ncnv.toNat ∧
      (∀ b ∈ sampledSince s s1, b ≤ 1) ∧
      ∀ k, k < ncnv.toNat →
        load pRxbuf k s1 = ∑ i in Finset.range (8 * rx_cnt.toNat),
          (sampledSince s s1).getD (8 * rx_cnt.toNat * k + i) 0 *
            2 ^ (8 * rx_cnt.toNat - 1 - i)) ∧
    (∀ ncnv : Int, Toggles miso → (pRxbuf = Ptr.loc → ncnv ≤ 4) →
      ∃ F s1, ∀ fuel, F ≤ fuel →
        pru_spi_writeread_continuous miso fuel pTxbuf tx_cnt pRxbuf rx_cnt ncnv s = .ok s1) := by
  have hn : rx_cnt.toNat ≤ 4 := by omega
  refine ⟨?_, ?_, ?_⟩
  · obtain ⟨s1, hs1, a1, _, a3, _⟩ := single_spec miso pTxbuf tx_cnt pRxbuf rx_cnt hn s
    have hb := sampledSince_eq s s1 _ a3
    refine ⟨s1, hs1, by rw [hb, bitsFrom_length], sampledSince_le s s1, ?_⟩
    rw [a1, beval_eq_sum, hb]
    apply Finset.sum_congr rfl
    intro i hi
    rw [bitsFrom_getD _ _ _ _ (Finset.mem_range.mp hi)]
  · intro ncnv fuel s1 h
    obtain ⟨bits, e1, e2, e3, _⟩ := continuous_spec miso fuel pTxbuf tx_cnt pRxbuf rx_cnt hn ncnv s s1 h
    have hb := sampledSince_eq s s1 _ e1
    refine ⟨by rw [hb, e2], sampledSince_le s s1, fun k hk => ?_⟩
    rw [e3 k hk, beval_eq_sum, hb]
  · intro ncnv ht hp
    exact continuous_total miso ht pTxbuf tx_cnt pRxbuf rx_cnt hn ncnv
      (fun e => by have := hp e; omega) s

/-- Witness for `byte_assembly`: three bytes per sample, data-in high at every third
read. -/
theorem byte_assembly_witness :
    (1 : Int) ≤ 3 ∧ (3 : Int) ≤ 4 ∧
    (∃ s1, pru_spi_writeread_single demoMiso (fun _ => 68) 1 (Ptr.ram 4) 3 demoPru = .ok s1 ∧
      (sampledSince demoPru s1).length = 8 * (3 : Int).toNat ∧
      (∀ b ∈ sampledSince demoPru s1, b ≤ 1) ∧
      load (Ptr.ram 4) 0 s1 = ∑ i in Finset.range (8 * (3 : Int).toNat),
        (sampledSince demoPru s1).getD i 0 * 2 ^ (8 * (3 : Int).toNat - 1 - i)) ∧
    (∃ F s1, ∀ fuel, F ≤ fuel →
      pru_spi_writeread_continuous demoMiso fuel (fun _ => 68) 1 (Ptr.ram 4) 3 2 demoPru
        = .ok s1) :=
  ⟨by decide, by decide,
    (byte_assembly demoMiso (fun _ => 68) 1 (Ptr.ram 4) 3 demoPru (by decide) (by decide)).1,
    (byte_assembly demoMiso (fun _ => 68) 1 (Ptr.ram 4) 3 demoPru (by decide) (by decide)).2.2
      2 demoMiso_toggles (fun h => by cases h)⟩

theorem bitlenAux_spec (fuel n : Nat) (h : n ≤ fuel) :
    n < 2 ^ bitlenAux fuel n ∧ (0 < n → 2 ^ (bitlenAux fuel n - 1) ≤ n) := by
  induction fuel generalizing n with
  | zero =>
    have : n = 0 := by omega
    subst this
    simp [bitlenAux]
  | succ f ih =>
    by_cases hn : n = 0
    · subst hn
      simp [bitlenAux]
    · simp only [bitlenAux, hn, if_false]
      obtain ⟨h1, h2⟩ := ih (n / 2) (by omega)
      constructor
      · rw [pow_succ]
        omega
      · intro _
        simp only [Nat.add_sub_cancel]
        by_cases h0 : n / 2 = 0
        · rw [h0]
          cases f <;> simp [bitlenAux] <;> omega
        · have h3 := h2 (by omega)
          have hpos : 0 < bitlenAux f (n / 2) := by
            cases f with
            | zero => omega
            | succ g => simp [bitlenAux, h0]
          have e : bitlenAux f (n / 2) = (bitlenAux f (n / 2) - 1) + 1 := by omega
          rw [e, pow_succ]
          omega

theorem lt_two_pow_bitlen (n : Nat) : n < 2 ^ bitlen n :=
  (bitlenAux_spec n n (Nat.le_refl n)).1

theorem two_pow_bitlen_le (n : Nat) (h : 0 < n) : 2 ^ (bitlen n - 1) ≤ n :=
  (bitlenAux_spec n n (Nat.le_refl n)).2 h

theorem bitlen_le (n L : Nat) (h : n < 2 ^ L) : bitlen n ≤ L := by
  by_cases hn : n = 0
  · subst hn
    cases L <;> simp [bitlen, bitlenAux]
  · by_contra hc
    have h1 := two_pow_bitlen_le n (by omega)
    have h2 : 2 ^ L ≤ 2 ^ (bitlen n - 1) := Nat.pow_le_pow_right (by norm_num) (by omega)
    omega

theorem bitlen_mono (a b : Nat) (h : a ≤ b) : bitlen a ≤ bitlen b :=
  bitlen_le a _ (Nat.lt_of_le_of_lt h (lt_two_pow_bitlen b))

theorem rnInt_ge (p q : Nat) : p / q ≤ rnInt p q := by
  unfold rnInt
  split_ifs <;> omega

theorem rnInt_le (p q : Nat) : rnInt p q ≤ p / q + 1 := by
  unfold rnInt
  split_ifs <;> omega

theorem rnInt_mono (a b q : Nat) (_ : 0 < q) (h : a ≤ b) : rnInt a q ≤ rnInt b q := by
  have hd : a / q ≤ b / q := Nat.div_le_div_right h
  by_cases he : a / q = b / q
  · have hm : a % q ≤ b % q := by
      have ea := Nat.div_add_mod a q
      have eb := Nat.div_add_mod b q
      rw [he] at ea
      omega
    unfold rnInt
    rw [he]
    split_ifs <;> omega
  · have h1 := rnInt_le a q
    have h2 := rnInt_ge b q
    omega

theorem rnInt_exact (m q : Nat) (hq : 0 < q) : rnInt (m * q) q = m := by
  unfold rnInt
  rw [Nat.mul_mod_left, Nat.mul_div_cancel _ hq]
  simp [hq]

theorem rnInt_cancel (p q c : Nat) (hc : 0 < c) : rnInt (p * c) (q * c) = rnInt p q := by
  unfold rnInt
  rw [Nat.mul_div_mul_right _ _ hc, Nat.mul_mod_mul_right]
  have e1 : (2 * (p % q * c) < q * c) = (2 * (p % q) < q) := by
    rw [← Nat.mul_assoc, eq_iff_iff]
    exact Nat.mul_lt_mul_right hc
  have e2 : (q * c < 2 * (p % q * c)) = (q < 2 * (p % q)) := by
    rw [← Nat.mul_assoc, eq_iff_iff]
    exact Nat.mul_lt_mul_right hc
  simp only [e1, e2]

theorem rn32_cancel (p q c : Nat) (hc : 0 < c) : rn32 (p * c) (q * c) = rn32 p q := by
  unfold rn32
  rw [Nat.mul_div_mul_right _ _ hc]
  have e : q * c * 2 ^ (bitlen (p / q) - 24) = q * 2 ^ (bitlen (p / q) - 24) * c := by ring
  rw [e, rnInt_cancel _ _ _ hc]

theorem rn32_exact (m e : Nat) (hm : m < 2 ^ 24) : rn32 (m * 2 ^ e) 1 = m * 2 ^ e := by
  unfold rn32
  simp only [Nat.div_one, Nat.one_mul]
  by_cases hk : bitlen (m * 2 ^ e) - 24 ≤ e
  · obtain ⟨d, hd⟩ : ∃ d, e = d + (bitlen (m * 2 ^ e) - 24) := ⟨e - (bitlen (m * 2 ^ e) - 24), by omega⟩
    generalize bitlen (m * 2 ^ e) - 24 = k at *
    subst hd
    rw [pow_add, ← Nat.mul_assoc, rnInt_exact _ _ (Nat.two_pow_pos _)]
    ring
  · exfalso
    have h1 : m * 2 ^ e < 2 ^ (24 + e) := by
      rw [pow_add]
      exact Nat.mul_lt_mul_of_pos_right hm (Nat.two_pow_pos _)
    have := bitlen_le _ _ h1
    omega

theorem rn32_mono (a b q : Nat) (hq : 0 < q) (h : a ≤ b) : rn32 a q ≤ rn32 b q := by
  have hd : a / q ≤ b / q := Nat.div_le_div_right h
  have hL := bitlen_mono _ _ hd
  by_cases hk : bitlen (a / q) - 24 = bitlen (b / q) - 24
  · unfold rn32
    rw [hk]
    exact Nat.mul_le_mul_left _ (rnInt_mono _ _ _ (Nat.mul_pos hq (Nat.two_pow_pos _)) h)
  · have hkk : bitlen (a / q) - 24 < bitlen (b / q) - 24 := by omega
    have hbpos : 0 < b / q := by
      by_contra hc
      have h0 : b / q = 0 := Nat.eq_zero_of_not_pos hc
      rw [h0] at hkk
      simp [bitlen, bitlenAux] at hkk
    -- upper bound for `a`
    have ha1 : a / q < 2 ^ (bitlen (a / q) - 24 + 24) :=
      Nat.lt_of_lt_of_le (lt_two_pow_bitlen _) (Nat.pow_le_pow_right (by norm_num) (by omega))
    have ha2 : a < q * 2 ^ (bitlen (a / q) - 24) * 2 ^ 24 := by
      rw [Nat.mul_assoc, ← pow_add]
      exact (Nat.div_lt_iff_lt_mul hq).mp ha1 |>.trans_eq (Nat.mul_comm _ _)
    have ha3 : rnInt a (q * 2 ^ (bitlen (a / q) - 24)) ≤ 2 ^ 24 := by
      have hQ : 0 < q * 2 ^ (bitlen (a / q) - 24) := Nat.mul_pos hq (Nat.two_pow_pos _)
      have := rnInt_le a (q * 2 ^ (bitlen (a / q) - 24))
      have : a / (q * 2 ^ (bitlen (a / q) - 24)) < 2 ^ 24 :=
        (Nat.div_lt_iff_lt_mul hQ).mpr (by rw [Nat.mul_comm]; exact ha2)
      omega
    have hA : rn32 a q ≤ 2 ^ (bitlen (a / q) - 24 + 24) := by
      unfold rn32
      rw [pow_add]
      exact Nat.mul_le_mul_left _ ha3
    -- lower bound for `b`
    have hb1 : 2 ^ (bitlen (b / q) - 24 + 23) ≤ b / q := by
      have := two_pow_bitlen_le (b / q) hbpos
      have e : bitlen (b / q) - 24 + 23 = bitlen (b / q) - 1 := by omega
      rw [e]
      exact this
    have hb2 : q * 2 ^ (bitlen (b / q) - 24) * 2 ^ 23 ≤ b := by
      rw [Nat.mul_assoc, ← pow_add, Nat.mul_comm]
      exact (Nat.le_div_iff_mul_le hq).mp hb1
    have hb3 : 2 ^ 23 ≤ rnInt b (q * 2 ^ (bitlen (b / q) - 24)) := by
      have hQ : 0 < q * 2 ^ (bitlen (b / q) - 24) := Nat.mul_pos hq (Nat.two_pow_pos _)
      have := rnInt_ge b (q * 2 ^ (bitlen (b / q) - 24))
      have : 2 ^ 23 ≤ b / (q * 2 ^ (bitlen (b / q) - 24)) :=
        (Nat.le_div_iff_mul_le hQ).mpr (by rw [Nat.mul_comm]; exact hb2)
      omega
    have hB : 2 ^ (bitlen (b / q) - 24 + 23) ≤ rn32 b q := by
      unfold rn32
      rw [pow_add]
      exact Nat.mul_le_mul_left _ hb3
    have hp : 2 ^ (bitlen (a / q) - 24 + 24) ≤ 2 ^ (bitlen (b / q) - 24 + 23) :=
      Nat.pow_le_pow_right (by norm_num) (by omega)
    omega

theorem VREF_units : VREF.units = 8589935 * 2 ^ 128 := by decide!

theorem deltaV_units : (F32.div VREF TWO_23).units = 8589935 * 2 ^ 105 := by decide!

theorem adc_iTmp_eq (c : Nat) (h : c < 16777216) : adc_iTmp c = (c : Int) - 8388608 := by
  unfold adc_iTmp i32 u32
  have h1 : c % 4294967296 = c := Nat.mod_eq_of_lt (by omega)
  rw [h1]
  simp only [show c < 2147483648 by omega, if_true]
  split_ifs <;> omega

theorem ofInt_exact (i : Int) (h : i.natAbs < 2 ^ 24) : F32.ofInt i = ⟨i * 2 ^ 149⟩ := by
  unfold F32.ofInt F32.ofRat
  rw [rn32_exact _ _ h]
  congr 1
  push_cast
  rw [← mul_assoc, Int.sign_mul_abs]

theorem adc_GetVoltage_units (c : Nat) (h : c < 16777216) :
    (adc_GetVoltage c).units =
      ((c : Int) - 8388608).sign * (rn32 (8589935 * 2 ^ 105 * ((c : Int) - 8388608).natAbs) 1 : Nat) := by
  have hi : ((c : Int) - 8388608).natAbs < 2 ^ 24 := by omega
  unfold adc_GetVoltage
  simp only [F32.mul]
  rw [adc_iTmp_eq c h, ofInt_exact _ hi, deltaV_units]
  generalize (c : Int) - 8388608 = i
  have hK : (0 : Int) < 8589935 * 2 ^ 105 := by positivity
  have hP : (0 : Int) < 2 ^ 149 := by positivity
  have e1 : ((8589935 * 2 ^ 105 : Int) * (i * 2 ^ 149)).sign = i.sign := by
    rw [Int.sign_mul, Int.sign_eq_one_of_pos hK, Int.sign_mul, Int.sign_eq_one_of_pos hP,
      mul_one, one_mul]
  have e2 : ((8589935 * 2 ^ 105 : Int) * (i * 2 ^ 149)).natAbs =
      (8589935 * 2 ^ 105 * i.natAbs) * 2 ^ 149 := by
    simp only [Int.natAbs_mul, Int.natAbs_pow, Int.natAbs_ofNat]
    ring
  rw [e1, e2]
  have e3 := rn32_cancel (8589935 * 2 ^ 105 * i.natAbs) 1 (2 ^ 149) (Nat.two_pow_pos _)
  rw [Nat.one_mul] at e3
  rw [e3]

theorem F32.round_div (N : Int) (D : Nat) (hD : 0 < D) :
    F32.round ((N : ℚ) / (D : ℚ)) = F32.ofRat N D := by
  have hD' : (D : Int) ≠ 0 := by omega
  obtain ⟨g, hN, hDg⟩ := Rat.exists_eq_mul_div_num_and_eq_mul_div_den N hD'
  simp only [Int.cast_natCast] at hN hDg
  generalize (N : ℚ) / (D : ℚ) = q at *
  have hden : 0 < q.den := q.den_pos
  have hg : 0 < g := by
    by_contra hc
    have hc' : g ≤ 0 := by omega
    have : g * (q.den : Int) ≤ 0 := Int.mul_nonpos_of_nonpos_of_nonneg hc' (by omega)
    omega
  lift g to ℕ using (le_of_lt hg)
  have hg' : 0 < g := by exact_mod_cast hg
  have hDn : D = q.den * g := by
    have : (D : Int) = ((q.den * g : Nat) : Int) := by rw [hDg]; push_cast; ring
    exact_mod_cast this
  unfold F32.round F32.ofRat
  congr 1
  rw [hN, Int.sign_mul, Int.sign_eq_one_of_pos hg, one_mul, Int.natAbs_mul, Int.natAbs_ofNat, hDn]
  have e : g * q.num.natAbs * 2 ^ 149 = q.num.natAbs * 2 ^ 149 * g := by ring
  rw [e, rn32_cancel _ _ _ hg']

theorem adc_GetVoltage_round (c : Nat) (h : c < 16777216) :
    adc_GetVoltage c = F32.round (exactVolts c) := by
  have e : exactVolts c =
      ((((c : Int) - 8388608) * (8589935 * 2 ^ 128) : Int) : ℚ) / ((2 ^ 149 * 8388608 : Nat) : ℚ) := by
    unfold exactVolts F32.toRat
    rw [VREF_units]
    push_cast
    ring
  rw [e, F32.round_div _ _ (by positivity)]
  have hu := adc_GetVoltage_units c h
  cases hv : adc_GetVoltage c with
  | mk u =>
    rw [hv] at hu
    simp only at hu
    unfold F32.ofRat
    congr 1
    rw [hu]
    generalize (c : Int) - 8388608 = i
    have hK : (0 : Int) < 8589935 * 2 ^ 128 := by positivity
    rw [Int.sign_mul, Int.sign_eq_one_of_pos hK, mul_one, Int.natAbs_mul]
    have e1 : (8589935 * 2 ^ 128 : Int).natAbs = 8589935 * 2 ^ 128 := by decide!
    rw [e1]
    have e2 : i.natAbs * (8589935 * 2 ^ 128) * 2 ^ 149 =
        (8589935 * 2 ^ 105 * i.natAbs) * (2 ^ 149 * 8388608) := by
      have : (2 : Nat) ^ 128 = 2 ^ 105 * 8388608 := by norm_num
      rw [this]
      ring
    have e3 := rn32_cancel (8589935 * 2 ^ 105 * i.natAbs) 1 (2 ^ 149 * 8388608) (by positivity)
    rw [Nat.one_mul] at e3
    rw [e2, e3]

theorem exactVolts_strictMono (a b : Nat) (h : a < b) : exactVolts a < exactVolts b := by
  unfold exactVolts F32.toRat
  rw [VREF_units]
  have hab : (a : ℚ) < (b : ℚ) := by exact_mod_cast h
  have hpos : (0 : ℚ) < ((8589935 * 2 ^ 128 : Int) : ℚ) / 2 ^ 149 / 8388608 := by positivity
  have e : ∀ x : ℚ, (x - 8388608) * (((8589935 * 2 ^ 128 : Int) : ℚ) / 2 ^ 149) / 8388608 =
      (x - 8388608) * (((8589935 * 2 ^ 128 : Int) : ℚ) / 2 ^ 149 / 8388608) := by
    intro x; ring
  rw [e, e]
  exact mul_lt_mul_of_pos_right (by linarith) hpos

theorem adc_GetVoltage_mono (a b : Nat) (hb : b < 16777216) (h : a ≤ b) :
    adc_GetVoltage a ≤ adc_GetVoltage b := by
  show (adc_GetVoltage a).units ≤ (adc_GetVoltage b).units
  rw [adc_GetVoltage_units a (by omega), adc_GetVoltage_units b hb]
  rcases lt_trichotomy ((a : Int) - 8388608) 0 with ha | ha | ha
  · rcases lt_trichotomy ((b : Int) - 8388608) 0 with hb0 | hb0 | hb0
    · rw [Int.sign_eq_neg_one_of_neg ha, Int.sign_eq_neg_one_of_neg hb0]
      have hm : ((b : Int) - 8388608).natAbs ≤ ((a : Int) - 8388608).natAbs := by omega
      have := rn32_mono _ _ 1 (by norm_num) (Nat.mul_le_mul_left (8589935 * 2 ^ 105) hm)
      omega
    · rw [Int.sign_eq_neg_one_of_neg ha, hb0]
      simp
    · rw [Int.sign_eq_neg_one_of_neg ha, Int.sign_eq_one_of_pos hb0]
      omega
  · rw [ha]
    rcases lt_trichotomy ((b : Int) - 8388608) 0 with hb0 | hb0 | hb0
    · omega
    · rw [hb0]
    · rw [Int.sign_eq_one_of_pos hb0]
      simp
  · have hb0 : (0 : Int) < (b : Int) - 8388608 := by omega
    rw [Int.sign_eq_one_of_pos ha, Int.sign_eq_one_of_pos hb0]
    have hm : ((a : Int) - 8388608).natAbs ≤ ((b : Int) - 8388608).natAbs := by omega
    have := rn32_mono _ _ 1 (by norm_num) (Nat.mul_le_mul_left (8589935 * 2 ^ 105) hm)
    omega

theorem F32.toRat_le (a b : F32) (h : a ≤ b) : a.toRat ≤ b.toRat := by
  unfold F32.toRat
  have h' : a.units ≤ b.units := h
  have hq : (a.units : ℚ) ≤ (b.units : ℚ) := by exact_mod_cast h'
  exact div_le_div_of_nonneg_right hq (by positivity)

/-- C2 (voltage conversion formula). For every code `c < 2^24` the integer subtraction of
`adc_GetVoltage` is exact, `iTmp = c - 2^23` with `-2^23 ≤ iTmp ≤ 2^23 - 1`, and the `float`
returned is `(c - 2^23) * Vref / 2^23` in binary32 arithmetic: the binary32 number nearest
to that value, `Vref` being the `float` constant `4.096f`, itself the binary32 number nearest
to 4.096. At `0x800000` the result is exactly 0, at `0x000000` exactly `-Vref`, and at
`0xFFFFFF` it is `Vref * (1 - 2^-23)` in binary32 arithmetic. -/
theorem voltage_formula (c : Nat) (h : c < 16777216) :
    adc_iTmp c = (c : Int) - 8388608 ∧ -8388608 ≤ adc_iTmp c ∧ adc_iTmp c ≤ 8388607 ∧
    adc_GetVoltage c = F32.round (((c : ℚ) - 8388608) * VREF.toRat / 8388608) ∧
    VREF = F32.round (4096 / 1000) ∧
    adc_GetVoltage 8388608 = ⟨0⟩ ∧ (adc_GetVoltage 8388608).toRat = 0 ∧
    adc_GetVoltage 0 = F32.neg VREF ∧ (adc_GetVoltage 0).toRat = -VREF.toRat ∧
    adc_GetVoltage 16777215 = F32.round (VREF.toRat * (1 - 1 / 8388608)) := by
  have hi := adc_iTmp_eq c h
  have h0 : adc_GetVoltage 8388608 = ⟨0⟩ := by decide!
  have h1 : adc_GetVoltage 0 = F32.neg VREF := by decide!
  refine ⟨hi, by omega, by omega, adc_GetVoltage_round c h, ?_, h0, ?_, h1, ?_, ?_⟩
  · have := F32.round_div 4096 1000 (by norm_num)
    rw [show VREF = F32.ofRat 4096 1000 from rfl, ← this]
    norm_num
  · rw [h0]
    simp [F32.toRat]
  · rw [h1]
    simp [F32.toRat, F32.neg, neg_div]
  · rw [adc_GetVoltage_round 16777215 (by norm_num)]
    congr 1
    unfold exactVolts
    norm_num
    ring

/-- Witness for `voltage_formula`: the code `0xA00000`. -/
theorem voltage_formula_witness :
    10485760 < 16777216 ∧ adc_iTmp 10485760 = ((10485760 : Nat) : Int) - 8388608 ∧
    adc_GetVoltage 10485760 = F32.round ((((10485760 : Nat) : ℚ) - 8388608) * VREF.toRat / 8388608) :=
  ⟨by decide, (voltage_formula 10485760 (by decide)).1, (voltage_formula 10485760 (by decide)).2.2.2.1⟩

/-- C3 (monotonic conversion). For codes `a ≤ b` in the 24-bit range the `float` returned
for `a` is at most the one returned for `b`; and when `a < b` the value
`(a - 2^23) * Vref / 2^23` is strictly smaller than `(b - 2^23) * Vref / 2^23` in exact
arithmetic. -/
theorem voltage_monotonic (a b : Nat) (hb : b < 16777216) (h : a ≤ b) :
    adc_GetVoltage a ≤ adc_GetVoltage b ∧
    (adc_GetVoltage a).toRat ≤ (adc_GetVoltage b).toRat ∧
    (a < b → ((a : ℚ) - 8388608) * VREF.toRat / 8388608 <
      ((b : ℚ) - 8388608) * VREF.toRat / 8388608) :=
  ⟨adc_GetVoltage_mono a b hb h, F32.toRat_le _ _ (adc_GetVoltage_mono a b hb h),
    fun hlt => exactVolts_strictMono a b hlt⟩

/-- Witness for `voltage_monotonic`: the codes `0x700000` and `0x900000`. -/
theorem voltage_monotonic_witness :
    9437184 < 16777216 ∧ 7340032 ≤ 9437184 ∧ adc_GetVoltage 7340032 ≤ adc_GetVoltage 9437184 :=
  ⟨by decide, by decide, (voltage_monotonic 7340032 9437184 (by decide) (by decide)).1⟩

theorem hostWrites_append (a b : List HEv) :
    hostWrites (a ++ b) = hostWrites a ++ hostWrites b := by
  simp [hostWrites, List.filterMap_append]

theorem hostWrites_pollLog (env : Env) (h : Host) (k : Nat) :
    hostWrites (pollLog env h k) = [] := by
  simp [hostWrites, pollLog, List.filterMap_map]

theorem pollLog_succ_left (env : Env) (h : Host) (k : Nat) :
    pollLog env h (k + 1) =
      HEv.rd 0 (flagAt env 0 h) :: pollLog env (pru_read_word env 0 h).2 k := by
  simp only [pollLog, List.range_succ_eq_map, List.map_cons, List.map_map]
  rfl

theorem poll_loop_spec (env : Env) (n i : Nat) (h : Host) :
    ∃ k, k ≤ n ∧ (poll_loop env n i h).1 = i + k ∧
      (∀ j, j < k → flagAt env j h ≠ 0) ∧ (k < n → flagAt env k h = 0) ∧
      (poll_loop env n i h).2.log = h.log ++ pollLog env h (if k < n then k + 1 else n) := by
  induction n generalizing i h with
  | zero =>
    exact ⟨0, Nat.le_refl 0, rfl, fun j hj => absurd hj (Nat.not_lt_zero j),
      fun hk => absurd hk (Nat.lt_irrefl 0), by simp [poll_loop, pollLog]⟩
  | succ n ih =>
    by_cases h0 : (pru_read_word env 0 h).1 = 0
    · refine ⟨0, Nat.zero_le _, ?_, fun j hj => absurd hj (Nat.not_lt_zero j), fun _ => h0, ?_⟩
      · simp only [poll_loop, h0, if_true, Nat.add_zero]
      · simp only [poll_loop, h0, if_true, Nat.zero_lt_succ, Nat.zero_add]
        simp [pollLog, flagAt, pru_read_word, List.range_succ]
    · obtain ⟨k, hk, e1, e2, e3, e4⟩ := ih (i + 1) (pru_read_word env 0 h).2
      refine ⟨k + 1, by omega, ?_, ?_, ?_, ?_⟩
      · simp only [poll_loop, h0, if_false]
        rw [e1]
        omega
      · intro j hj
        cases j with
        | zero => exact h0
        | succ j => exact e2 j (by omega)
      · intro hlt
        exact e3 (by omega)
      · simp only [poll_loop, h0, if_false]
        rw [e4]
        have hl : (pru_read_word env 0 h).2.log = h.log ++ [HEv.rd 0 (flagAt env 0 h)] := rfl
        rw [hl, List.append_assoc]
        congr 1
        by_cases hkn : k < n
        · simp only [hkn, if_true, show k + 1 < n + 1 by omega]
          rw [pollLog_succ_left env h (k + 1)]
          rfl
        · simp only [hkn, if_false, show ¬ (k + 1 < n + 1) by omega]
          rw [pollLog_succ_left env h n]
          rfl

theorem write_words_log (base : Nat) (data : Nat → Nat) (cnt : Nat) (h : Host) :
    (write_words base data cnt h).log =
      h.log ++ (wordWrites base data cnt).map (fun w => HEv.wr w.1 w.2) ∧
    (write_words base data cnt h).nrd = h.nrd ∧
    (write_words base data cnt h).ram = replay h.ram (wordWrites base data cnt) := by
  unfold write_words
  induction cnt with
  | zero => simp [forLoop_zero, wordWrites, replay]
  | succ n ih =>
    rw [forLoop_succ]
    obtain ⟨e1, e2, e3⟩ := ih
    generalize forLoop n (fun i h => pru_write_word ((base + i) % 4294967296) (data i) h) h = t
      at *
    refine ⟨?_, ?_, ?_⟩
    · simp only [pru_write_word, e1, wordWrites, List.range_succ, List.map_append, List.map_cons,
        List.map_nil, List.append_assoc]
    · simp only [pru_write_word, e2]
    · simp only [pru_write_word, e3, wordWrites, replay, List.range_succ, List.map_append,
        List.map_cons, List.map_nil, List.foldl_append, List.foldl_cons, List.foldl_nil]

theorem hostWrites_map_wr (ws : List (Nat × Nat)) :
    hostWrites (ws.map (fun w => HEv.wr w.1 w.2)) = ws := by
  induction ws with
  | nil => rfl
  | cons w ws ih =>
    simp only [List.map_cons, hostWrites, List.filterMap_cons] at ih ⊢
    rw [ih]

theorem logSince_eq (h h1 : Host) (evs : List HEv) (e : h1.log = h.log ++ evs) :
    logSince h h1 = evs := by
  simp [logSince, e]

theorem replay_append (m : Nat → Nat) (a b : List (Nat × Nat)) :
    replay m (a ++ b) = replay (replay m a) b := by
  simp [replay, List.foldl_append]

theorem setup_spec (c : Call) (h : Host) :
    (c.setup h).log = h.log ++ c.writes.map (fun w => HEv.wr w.1 w.2) ∧
    (c.setup h).nrd = h.nrd ∧ (c.setup h).ram = replay h.ram c.writes := by
  cases c with
  | write data word_cnt =>
    simp only [Call.setup, spi_write_cmd_setup, Call.writes]
    obtain ⟨a1, a2, a3⟩ := write_words_log 2 data (u32 word_cnt)
      (pru_write_word 1 (u32 word_cnt) (pru_write_word 0 255 h))
    generalize write_words 2 data (u32 word_cnt)
      (pru_write_word 1 (u32 word_cnt) (pru_write_word 0 255 h)) = t at *
    refine ⟨?_, ?_, ?_⟩
    · simp [pru_write_word, a1]
    · simp [pru_write_word, a2]
    · simp [pru_write_word, a3, replay]
  | single txdata txcnt rxdata rxcnt =>
    simp only [Call.setup, spi_writeread_single_setup, Call.writes]
    obtain ⟨a1, a2, a3⟩ := write_words_log 2 txdata (u32 txcnt)
      (pru_write_word 1 (u32 txcnt) (pru_write_word 0 255 h))
    generalize write_words 2 txdata (u32 txcnt)
      (pru_write_word 1 (u32 txcnt) (pru_write_word 0 255 h)) = t at *
    obtain ⟨b1, b2, b3⟩ := write_words_log (single_rxptr txcnt) (fun _ => 0) (u32 rxcnt)
      (pru_write_word ((2 + u32 txcnt) % 4294967296) (u32 rxcnt) t)
    generalize write_words (single_rxptr txcnt) (fun _ => 0) (u32 rxcnt)
      (pru_write_word ((2 + u32 txcnt) % 4294967296) (u32 rxcnt) t) = t2 at *
    refine ⟨?_, ?_, ?_⟩
    · simp [pru_write_word, a1, b1]
    · simp [pru_write_word, a2, b2]
    · simp [pru_write_word, a3, b3, replay]
  | continuous txdata txcnt rxdata rxcnt ncnv =>
    simp only [Call.setup, spi_writeread_continuous_setup, Call.writes]
    obtain ⟨a1, a2, a3⟩ := write_words_log 2 txdata (u32 txcnt)
      (pru_write_word 1 (u32 txcnt) (pru_write_word 0 255 h))
    generalize write_words 2 txdata (u32 txcnt)
      (pru_write_word 1 (u32 txcnt) (pru_write_word 0 255 h)) = t at *
    obtain ⟨b1, b2, b3⟩ := write_words_log (continuous_rxptr txcnt) (fun _ => 0) (u32 ncnv)
      (pru_write_word ((3 + u32 txcnt) % 4294967296) (u32 ncnv)
        (pru_write_word ((2 + u32 txcnt) % 4294967296) (u32 rxcnt) t))
    generalize write_words (continuous_rxptr txcnt) (fun _ => 0) (u32 ncnv)
      (pru_write_word ((3 + u32 txcnt) % 4294967296) (u32 ncnv)
        (pru_write_word ((2 + u32 txcnt) % 4294967296) (u32 rxcnt) t)) = t2 at *
    refine ⟨?_, ?_, ?_⟩
    · simp [pru_write_word, a1, b1]
    · simp [pru_write_word, a2, b2]
    · simp [pru_write_word, a3, b3, replay]

theorem fatal_timeout_log (h : Host) : (fatal_timeout h).log = h.log ++ resetPath := by
  simp [fatal_timeout, pru_reset, resetPath]

theorem read_words_spec (env : Env) (rxptr cnt : Nat) (rxdata : Nat → Nat) (h : Host) :
    ∃ v : Nat → Nat,
      (read_words env rxptr cnt rxdata h).2.log =
        h.log ++ (List.range cnt).map (fun i => HEv.rd ((rxptr + i) % 4294967296) (v i)) ∧
      (∀ i, (read_words env rxptr cnt rxdata h).1 i = if i < cnt then v i else rxdata i) ∧
      (env = quiet → (read_words env rxptr cnt rxdata h).2.ram = h.ram ∧
        ∀ i, i < cnt → v i = h.ram ((rxptr + i) % 4294967296)) := by
  unfold read_words
  induction cnt with
  | zero => exact ⟨fun _ => 0, by simp [forLoop_zero], by simp [forLoop_zero],
      fun _ => ⟨rfl, fun i hi => absurd hi (Nat.not_lt_zero i)⟩⟩
  | succ n ih =>
    obtain ⟨v, e1, e2, e3⟩ := ih
    rw [forLoop_succ]
    generalize forLoop n (fun i (st : (Nat → Nat) × Host) =>
      ((Function.update st.1 i (pru_read_word env ((rxptr + i) % 4294967296) st.2).1,
        (pru_read_word env ((rxptr + i) % 4294967296) st.2).2) : (Nat → Nat) × Host))
      (rxdata, h) = t at *
    refine ⟨Function.update v n (pru_read_word env ((rxptr + n) % 4294967296) t.2).1, ?_, ?_, ?_⟩
    · simp only [pru_read_word, e1, List.range_succ, List.map_append, List.map_cons,
        List.map_nil, List.append_assoc, Function.update_same]
      congr 2
      apply List.map_congr_left
      intro i hi
      have : i ≠ n := by have := List.mem_range.mp hi; omega
      rw [Function.update_noteq this]
    · intro i
      by_cases hin : i = n
      · subst hin
        simp
      · simp only [Function.update_noteq hin, e2 i]
        by_cases hlt : i < n
        · simp [hlt, show i < n + 1 by omega]
        · simp [hlt, show ¬ i < n + 1 by omega]
    · intro hq
      obtain ⟨r1, r2⟩ := e3 hq
      subst hq
      refine ⟨by simp [pru_read_word, quiet, r1], ?_⟩
      intro i hi
      by_cases hin : i = n
      · subst hin
        simp [pru_read_word, quiet, r1]
      · rw [Function.update_noteq hin]
        exact r2 i (by omega)

theorem wait_cases (env : Env) (h1 : Host) :
    (∃ k, k < N_WAIT ∧ flagAt env k h1 = 0 ∧ (∀ j, j < k → flagAt env j h1 ≠ 0) ∧
      (poll_loop env N_WAIT 0 h1).1 = k ∧
      (poll_loop env N_WAIT 0 h1).2.log = h1.log ++ pollLog env h1 (k + 1)) ∨
    ((∀ j, j < N_WAIT → flagAt env j h1 ≠ 0) ∧ (poll_loop env N_WAIT 0 h1).1 = N_WAIT ∧
      (poll_loop env N_WAIT 0 h1).2.log = h1.log ++ pollLog env h1 N_WAIT) := by
  obtain ⟨k, hk, e1, e2, e3, e4⟩ := poll_loop_spec env N_WAIT 0 h1
  rw [Nat.zero_add] at e1
  by_cases hlt : k < N_WAIT
  · left
    rw [if_pos hlt] at e4
    exact ⟨k, hlt, e3 hlt, e2, e1, e4⟩
  · right
    have hkN : k = N_WAIT := by omega
    rw [if_neg hlt] at e4
    subst hkN
    exact ⟨e2, e1, e4⟩

theorem write_cmd_wait_spec (env : Env) (h1 : Host) :
    (∃ k, k < N_WAIT ∧ flagAt env k h1 = 0 ∧ (∀ j, j < k → flagAt env j h1 ≠ 0) ∧
      (spi_write_cmd_wait env h1).1 = Outcome.ret 0 ∧
      (spi_write_cmd_wait env h1).2.log = h1.log ++ pollLog env h1 (k + 1)) ∨
    ((∀ j, j < N_WAIT → flagAt env j h1 ≠ 0) ∧
      (spi_write_cmd_wait env h1).1 = Outcome.exited (-1) ∧
      (spi_write_cmd_wait env h1).2.log = h1.log ++ (pollLog env h1 N_WAIT ++ resetPath)) := by
  rcases wait_cases env h1 with ⟨k, hk, a1, a2, a3, a4⟩ | ⟨b1, b2, b3⟩
  · left
    have hne : (poll_loop env N_WAIT 0 h1).1 ≠ N_WAIT := by omega
    refine ⟨k, hk, a1, a2, ?_, ?_⟩
    · simp only [spi_write_cmd_wait, hne, if_false]
    · simp only [spi_write_cmd_wait, hne, if_false, a4]
  · right
    refine ⟨b1, ?_, ?_⟩
    · simp only [spi_write_cmd_wait, b2, if_true]
    · simp only [spi_write_cmd_wait, b2, if_true, fatal_timeout_log, b3, List.append_assoc]

theorem poll_loop_quiet_ram (n i : Nat) (h : Host) : (poll_loop quiet n i h).2.ram = h.ram := by
  induction n generalizing i h with
  | zero => rfl
  | succ n ih =>
    simp only [poll_loop]
    split
    · rfl
    · rw [ih]
      rfl

theorem single_wait_spec (env : Env) (txcnt : Int) (rxdata : Nat → Nat) (rxcnt : Int)
    (h1 : Host) :
    (∃ k w, k < N_WAIT ∧ flagAt env k h1 = 0 ∧ (∀ j, j < k → flagAt env j h1 ≠ 0) ∧
      (spi_writeread_single_wait env txcnt rxdata rxcnt h1).1 =
        Outcome.ret (Function.update rxdata 0 w, (rxcnt % 256).toNat) ∧
      (spi_writeread_single_wait env txcnt rxdata rxcnt h1).2.log =
        h1.log ++ (pollLog env h1 (k + 1) ++ [HEv.rd (single_rxptr txcnt) w]) ∧
      (env = quiet → w = h1.ram (single_rxptr txcnt))) ∨
    ((∀ j, j < N_WAIT → flagAt env j h1 ≠ 0) ∧
      (spi_writeread_single_wait env txcnt rxdata rxcnt h1).1 = Outcome.exited (-1) ∧
      (spi_writeread_single_wait env txcnt rxdata rxcnt h1).2.log =
        h1.log ++ (pollLog env h1 N_WAIT ++ resetPath)) := by
  rcases wait_cases env h1 with ⟨k, hk, a1, a2, a3, a4⟩ | ⟨b1, b2, b3⟩
  · left
    have hne : (poll_loop env N_WAIT 0 h1).1 ≠ N_WAIT := by omega
    refine ⟨k, (pru_read_word env (single_rxptr txcnt) (poll_loop env N_WAIT 0 h1).2).1,
      hk, a1, a2, ?_, ?_, ?_⟩
    · simp only [spi_writeread_single_wait, hne, if_false]
    · simp only [spi_writeread_single_wait, hne, if_false, pru_read_word, a4, List.append_assoc]
    · intro hq
      subst hq
      simp only [pru_read_word, quiet, poll_loop_quiet_ram]
  · right
    refine ⟨b1, ?_, ?_⟩
    · simp only [spi_writeread_single_wait, b2, if_true]
    · simp only [spi_writeread_single_wait, b2, if_true, fatal_timeout_log, b3,
        List.append_assoc]

theorem continuous_wait_spec (env : Env) (txcnt : Int) (rxdata : Nat → Nat) (ncnv : Int)
    (h1 : Host) :
    (∃ (k : Nat) (v : Nat → Nat), k < N_WAIT ∧ flagAt env k h1 = 0 ∧ (∀ j, j < k → flagAt env j h1 ≠ 0) ∧
      (spi_writeread_continuous_wait env txcnt rxdata ncnv h1).1 =
        Outcome.ret (fun i => if i < u32 ncnv then v i else rxdata i, (ncnv % 256).toNat) ∧
      (spi_writeread_continuous_wait env txcnt rxdata ncnv h1).2.log =
        h1.log ++ (pollLog env h1 (k + 1) ++ (List.range (u32 ncnv)).map
          (fun i => HEv.rd ((continuous_rxptr txcnt + i) % 4294967296) (v i))) ∧
      (env = quiet → ∀ i, i < u32 ncnv →
        v i = h1.ram ((continuous_rxptr txcnt + i) % 4294967296))) ∨
    ((∀ j, j < N_WAIT → flagAt env j h1 ≠ 0) ∧
      (spi_writeread_continuous_wait env txcnt rxdata ncnv h1).1 = Outcome.exited (-1) ∧
      (spi_writeread_continuous_wait env txcnt rxdata ncnv h1).2.log =
        h1.log ++ (pollLog env h1 N_WAIT ++ resetPath)) := by
  rcases wait_cases env h1 with ⟨k, hk, a1, a2, a3, a4⟩ | ⟨b1, b2, b3⟩
  · left
    have hne : (poll_loop env N_WAIT 0 h1).1 ≠ N_WAIT := by omega
    obtain ⟨v, e1, e2, e3⟩ := read_words_spec env (continuous_rxptr txcnt) (u32 ncnv) rxdata
      (poll_loop env N_WAIT 0 h1).2
    refine ⟨k, v, hk, a1, a2, ?_, ?_, ?_⟩
    · simp only [spi_writeread_continuous_wait, hne, if_false]
      congr 2
      funext i
      exact e2 i
    · simp only [spi_writeread_continuous_wait, hne, if_false, e1, a4, List.append_assoc]
    · intro hq i hi
      rw [(e3 hq).2 i hi]
      subst hq
      rw [poll_loop_quiet_ram]
  · right
    refine ⟨b1, ?_, ?_⟩
    · simp only [spi_writeread_continuous_wait, b2, if_true]
    · simp only [spi_writeread_continuous_wait, b2, if_true, fatal_timeout_log, b3,
        List.append_assoc]

theorem hostWrites_resetPath : hostWrites resetPath = [] := rfl

theorem hostWrites_rd_map (f : Nat → Nat × Nat) (l : List Nat) :
    hostWrites (l.map (fun i => HEv.rd (f i).1 (f i).2)) = [] := by
  simp [hostWrites, List.filterMap_map]

theorem flagAt_stuck (j : Nat) (h : Host) : flagAt stuckEnv j h = BUSY := by
  induction j generalizing h with
  | zero => simp [flagAt, pru_read_word, stuckEnv]
  | succ j ih => simp only [flagAt]; exact ih _

theorem logSince_of (h h0 h1 : Host) (a b : List HEv) (e0 : h0.log = h.log ++ a)
    (e1 : h1.log = h0.log ++ b) : logSince h h1 = a ++ b := by
  apply logSince_eq
  rw [e1, e0]
  exact List.append_assoc _ _ _

/-- C4 (command flag written last). For every argument list, every start state and whatever
the coprocessor does, the actions of `spi_write_cmd`, of `spi_writeread_single` and of
`spi_writeread_continuous` begin with their `pru_write_word` calls: `0xff` to offset 0, the tx
count, the tx words, then the rx count (and the sample count), the zeros of the response
region, and last the command code to offset 0. Nothing that follows in the call is a
mailbox write. -/
theorem flag_written_last (env : Env) (data rxdata : Nat → Nat) (word_cnt txcnt rxcnt ncnv : Int)
    (h : Host) :
    (∃ rest, logSince h (spi_write_cmd env data word_cnt h).2 =
      ([(0, 255), (1, u32 word_cnt)] ++ wordWrites 2 data (u32 word_cnt) ++
        [(0, SPI_WRITE)]).map (fun w : Nat × Nat => HEv.wr w.1 w.2) ++ rest ∧ hostWrites rest = []) ∧
    (∃ rest, logSince h (spi_writeread_single env data txcnt rxdata rxcnt h).2 =
      ([(0, 255), (1, u32 txcnt)] ++ wordWrites 2 data (u32 txcnt) ++
        [((2 + u32 txcnt) % 4294967296, u32 rxcnt)] ++
        wordWrites (single_rxptr txcnt) (fun _ => 0) (u32 rxcnt) ++
        [(0, SPI_WRITEREAD_SINGLE)]).map (fun w : Nat × Nat => HEv.wr w.1 w.2) ++ rest ∧
      hostWrites rest = []) ∧
    (∃ rest, logSince h (spi_writeread_continuous env data txcnt rxdata rxcnt ncnv h).2 =
      ([(0, 255), (1, u32 txcnt)] ++ wordWrites 2 data (u32 txcnt) ++
        [((2 + u32 txcnt) % 4294967296, u32 rxcnt), ((3 + u32 txcnt) % 4294967296, u32 ncnv)] ++
        wordWrites (continuous_rxptr txcnt) (fun _ => 0) (u32 ncnv) ++
        [(0, SPI_WRITEREAD_CONTINUOUS)]).map (fun w : Nat × Nat => HEv.wr w.1 w.2) ++ rest ∧
      hostWrites rest = []) := by
  refine ⟨?_, ?_, ?_⟩
  · obtain ⟨s1, _, _⟩ := setup_spec (Call.write data word_cnt) h
    simp only [Call.setup, Call.writes] at s1
    rcases write_cmd_wait_spec env (spi_write_cmd_setup data word_cnt h) with
      ⟨k, _, _, _, _, e⟩ | ⟨_, _, e⟩
    · refine ⟨pollLog env (spi_write_cmd_setup data word_cnt h) (k + 1), ?_,
        hostWrites_pollLog _ _ _⟩
      exact logSince_of _ _ _ _ _ s1 e
    · refine ⟨pollLog env (spi_write_cmd_setup data word_cnt h) N_WAIT ++ resetPath, ?_, ?_⟩
      · exact logSince_of _ _ _ _ _ s1 e
      · simp only [hostWrites_append, hostWrites_pollLog, hostWrites_resetPath, List.append_nil]
  · obtain ⟨s1, _, _⟩ := setup_spec (Call.single data txcnt rxdata rxcnt) h
    simp only [Call.setup, Call.writes] at s1
    rcases single_wait_spec env txcnt rxdata rxcnt
      (spi_writeread_single_setup data txcnt rxcnt h) with ⟨k, w, _, _, _, _, e, _⟩ | ⟨_, _, e⟩
    · refine ⟨pollLog env (spi_writeread_single_setup data txcnt rxcnt h) (k + 1) ++
        [HEv.rd (single_rxptr txcnt) w], ?_, ?_⟩
      · exact logSince_of _ _ _ _ _ s1 e
      · simp only [hostWrites_append, hostWrites_pollLog, List.nil_append]
        rfl
    · refine ⟨pollLog env (spi_writeread_single_setup data txcnt rxcnt h) N_WAIT ++ resetPath,
        ?_, ?_⟩
      · exact logSince_of _ _ _ _ _ s1 e
      · simp only [hostWrites_append, hostWrites_pollLog, hostWrites_resetPath, List.append_nil]
  · obtain ⟨s1, _, _⟩ := setup_spec (Call.continuous data txcnt rxdata rxcnt ncnv) h
    simp only [Call.setup, Call.writes] at s1
    rcases continuous_wait_spec env txcnt rxdata ncnv
      (spi_writeread_continuous_setup data txcnt rxcnt ncnv h) with
      ⟨k, v, _, _, _, _, e, _⟩ | ⟨_, _, e⟩
    · refine ⟨pollLog env (spi_writeread_continuous_setup data txcnt rxcnt ncnv h) (k + 1) ++
        (List.range (u32 ncnv)).map
          (fun i => HEv.rd ((continuous_rxptr txcnt + i) % 4294967296) (v i)), ?_, ?_⟩
      · exact logSince_of _ _ _ _ _ s1 e
      · simp only [hostWrites_append, hostWrites_pollLog, List.nil_append]
        exact hostWrites_rd_map (fun i => ((continuous_rxptr txcnt + i) % 4294967296, v i)) _
    · refine ⟨pollLog env (spi_writeread_continuous_setup data txcnt rxcnt ncnv h) N_WAIT ++
        resetPath, ?_, ?_⟩
      · exact logSince_of _ _ _ _ _ s1 e
      · simp only [hostWrites_append, hostWrites_pollLog, hostWrites_resetPath, List.append_nil]

/-- C6 (bounded completion wait, fatal timeout). In `spi_write_cmd`, `spi_writeread_single`
and `spi_writeread_continuous`, with `h1` the state right after the command flag is written:
either some read of offset 0 among the first 10,000,000 returns 0, and then the driver makes
exactly the reads up to the first such one, reads the response words (none, one, `ncnv`) and
returns; or all 10,000,000 reads are non-zero, and then the driver makes exactly these reads,
calls `pru_reset(PRU0)`, `prussdrv_exit()` and `exit(-1)`, and does nothing else: no
response word is read and nothing is retried. -/
theorem bounded_wait (env : Env) (data rxdata : Nat → Nat) (word_cnt txcnt rxcnt ncnv : Int)
    (h : Host) :
    N_WAIT = 10000000 ∧
    ((∃ k, k < N_WAIT ∧ flagAt env k (spi_write_cmd_setup data word_cnt h) = 0 ∧
        (∀ j, j < k → flagAt env j (spi_write_cmd_setup data word_cnt h) ≠ 0) ∧
        (spi_write_cmd env data word_cnt h).1 = Outcome.ret 0 ∧
        logSince (spi_write_cmd_setup data word_cnt h) (spi_write_cmd env data word_cnt h).2 =
          pollLog env (spi_write_cmd_setup data word_cnt h) (k + 1)) ∨
      ((∀ j, j < N_WAIT → flagAt env j (spi_write_cmd_setup data word_cnt h) ≠ 0) ∧
        (spi_write_cmd env data word_cnt h).1 = Outcome.exited (-1) ∧
        logSince (spi_write_cmd_setup data word_cnt h) (spi_write_cmd env data word_cnt h).2 =
          pollLog env (spi_write_cmd_setup data word_cnt h) N_WAIT ++ resetPath)) ∧
    ((∃ k w, k < N_WAIT ∧ flagAt env k (spi_writeread_single_setup data txcnt rxcnt h) = 0 ∧
        (∀ j, j < k → flagAt env j (spi_writeread_single_setup data txcnt rxcnt h) ≠ 0) ∧
        (spi_writeread_single env data txcnt rxdata rxcnt h).1 =
          Outcome.ret (Function.update rxdata 0 w, (rxcnt % 256).toNat) ∧
        logSince (spi_writeread_single_setup data txcnt rxcnt h)
            (spi_writeread_single env data txcnt rxdata rxcnt h).2 =
          pollLog env (spi_writeread_single_setup data txcnt rxcnt h) (k + 1) ++
            [HEv.rd (single_rxptr txcnt) w]) ∨
      ((∀ j, j < N_WAIT → flagAt env j (spi_writeread_single_setup data txcnt rxcnt h) ≠ 0) ∧
        (spi_writeread_single env data txcnt rxdata rxcnt h).1 = Outcome.exited (-1) ∧
        logSince (spi_writeread_single_setup data txcnt rxcnt h)
            (spi_writeread_single env data txcnt rxdata rxcnt h).2 =
          pollLog env (spi_writeread_single_setup data txcnt rxcnt h) N_WAIT ++ resetPath)) ∧
    ((∃ (k : Nat) (v : Nat → Nat), k < N_WAIT ∧
        flagAt env k (spi_writeread_continuous_setup data txcnt rxcnt ncnv h) = 0 ∧
        (∀ j, j < k →
          flagAt env j (spi_writeread_continuous_setup data txcnt rxcnt ncnv h) ≠ 0) ∧
        (spi_writeread_continuous env data txcnt rxdata rxcnt ncnv h).1 =
          Outcome.ret (fun i => if i < u32 ncnv then v i else rxdata i, (ncnv % 256).toNat) ∧
        logSince (spi_writeread_continuous_setup data txcnt rxcnt ncnv h)
            (spi_writeread_continuous env data txcnt rxdata rxcnt ncnv h).2 =
          pollLog env (spi_writeread_continuous_setup data txcnt rxcnt ncnv h) (k + 1) ++
            (List.range (u32 ncnv)).map
              (fun i => HEv.rd ((continuous_rxptr txcnt + i) % 4294967296) (v i))) ∨
      ((∀ j, j < N_WAIT →
          flagAt env j (spi_writeread_continuous_setup data txcnt rxcnt ncnv h) ≠ 0) ∧
        (spi_writeread_continuous env data txcnt rxdata rxcnt ncnv h).1 = Outcome.exited (-1) ∧
        logSince (spi_writeread_continuous_setup data txcnt rxcnt ncnv h)
            (spi_writeread_continuous env data txcnt rxdata rxcnt ncnv h).2 =
          pollLog env (spi_writeread_continuous_setup data txcnt rxcnt ncnv h) N_WAIT ++
            resetPath)) := by
  refine ⟨rfl, ?_, ?_, ?_⟩
  · rcases write_cmd_wait_spec env (spi_write_cmd_setup data word_cnt h) with
      ⟨k, hk, a1, a2, a3, e⟩ | ⟨b1, b2, e⟩
    · exact Or.inl ⟨k, hk, a1, a2, a3, logSince_eq _ _ _ e⟩
    · exact Or.inr ⟨b1, b2, logSince_eq _ _ _ e⟩
  · rcases single_wait_spec env txcnt rxdata rxcnt
      (spi_writeread_single_setup data txcnt rxcnt h) with
      ⟨k, w, hk, a1, a2, a3, e, _⟩ | ⟨b1, b2, e⟩
    · exact Or.inl ⟨k, w, hk, a1, a2, a3, logSince_eq _ _ _ e⟩
    · exact Or.inr ⟨b1, b2, logSince_eq _ _ _ e⟩
  · rcases continuous_wait_spec env txcnt rxdata ncnv
      (spi_writeread_continuous_setup data txcnt rxcnt ncnv h) with
      ⟨k, v, hk, a1, a2, a3, e, _⟩ | ⟨b1, b2, e⟩
    · exact Or.inl ⟨k, v, hk, a1, a2, a3, logSince_eq _ _ _ e⟩
    · exact Or.inr ⟨b1, b2, logSince_eq _ _ _ e⟩

theorem reset_cmd_log (env : Env) (h : Host) :
    (spi_reset_cmd env h).1 = Outcome.ret () ∧
    ∃ k, k ≤ N_WAIT ∧ (spi_reset_cmd env h).2.log =
      h.log ++ HEv.wr 0 SPI_RESET :: pollLog env (pru_write_word 0 SPI_RESET h) k ∧
      ((∀ j, j < N_WAIT → flagAt env j (pru_write_word 0 SPI_RESET h) ≠ 0) → k = N_WAIT) := by
  refine ⟨rfl, ?_⟩
  rcases wait_cases env (pru_write_word 0 SPI_RESET h) with ⟨k, hk, a1, _, _, e⟩ | ⟨_, _, e⟩
  · refine ⟨k + 1, hk, ?_, fun hall => absurd a1 (hall k hk)⟩
    have e0 : (spi_reset_cmd env h).2 =
        (poll_loop env N_WAIT 0 (pru_write_word 0 SPI_RESET h)).2 := rfl
    rw [e0, e]
    simp only [pru_write_word, List.append_assoc, List.singleton_append]
  · refine ⟨N_WAIT, Nat.le_refl _, ?_, fun _ => rfl⟩
    have e0 : (spi_reset_cmd env h).2 =
        (poll_loop env N_WAIT 0 (pru_write_word 0 SPI_RESET h)).2 := rfl
    rw [e0, e]
    simp only [pru_write_word, List.append_assoc, List.singleton_append]

/-- C7 (the code at the failing input). With a coprocessor that never clears the flag, all
10,000,000 reads of `spi_reset_cmd` find a non-zero word, and `spi_reset_cmd` then returns
to its caller: its actions are the flag write and the reads, and none of
`prussdrv_pru_disable`, `prussdrv_pru_reset`, `prussdrv_exit`, `exit`. The sibling
`spi_write_cmd` ends the process in the same situation. -/
theorem reset_cmd_returns_on_timeout :
    (∀ j, j < N_WAIT → flagAt stuckEnv j (pru_write_word 0 SPI_RESET demoHost) ≠ 0) ∧
    (spi_reset_cmd stuckEnv demoHost).1.returned = true ∧
    (spi_reset_cmd stuckEnv demoHost).2.log =
      HEv.wr 0 SPI_RESET :: pollLog stuckEnv (pru_write_word 0 SPI_RESET demoHost) N_WAIT ∧
    (∀ e ∈ resetPath, e ∉ (spi_reset_cmd stuckEnv demoHost).2.log) ∧
    (spi_write_cmd stuckEnv (fun _ => 0) 0 demoHost).1.returned = false := by
  have hall : ∀ h : Host, ∀ j, j < N_WAIT → flagAt stuckEnv j h ≠ 0 := by
    intro h j _
    rw [flagAt_stuck]
    decide
  obtain ⟨_, k, _, e, hk⟩ := reset_cmd_log stuckEnv demoHost
  have hk := hk (hall _)
  subst hk
  have e' : (spi_reset_cmd stuckEnv demoHost).2.log =
      HEv.wr 0 SPI_RESET :: pollLog stuckEnv (pru_write_word 0 SPI_RESET demoHost) N_WAIT := by
    rw [e]
    rfl
  refine ⟨hall _, rfl, e', ?_, ?_⟩
  · intro ev hev hmem
    rw [e'] at hmem
    simp only [resetPath, List.mem_cons, List.mem_singleton, List.not_mem_nil, or_false] at hev
    simp only [pollLog, List.mem_cons, List.mem_map] at hmem
    rcases hmem with hm | ⟨j, _, hm⟩
    · rcases hev with rfl | rfl | rfl | rfl <;> cases hm
    · rcases hev with rfl | rfl | rfl | rfl <;> cases hm
  · rcases write_cmd_wait_spec stuckEnv (spi_write_cmd_setup (fun _ => 0) 0 demoHost) with
      ⟨k, hk, a1, _⟩ | ⟨_, b2, _⟩
    · exact absurd a1 (hall _ k hk)
    · show (spi_write_cmd_wait stuckEnv (spi_write_cmd_setup (fun _ => 0) 0 demoHost)).1.returned
        = false
      rw [b2]
      rfl

theorem memWritesSince_eq (s s1 : Pru) (ws : List (Nat × Nat))
    (h : memWrites s1.trace = memWrites s.trace ++ ws) : memWritesSince s s1 = ws := by
  simp [memWritesSince, h]

theorem memWrites_mem_write (off v : Nat) (s : Pru) :
    memWrites (mem_write off v s).trace = memWrites s.trace ++ [(off, v)] := by
  simp [mem_write, memWrites_append, memWrites]

theorem forLoopM_ok_prev {σ : Type} (n : Nat) (body : Nat → σ → Except Fault σ) (s s1 : σ)
    (h : forLoopM (n + 1) body s = .ok s1) : ∃ s0, forLoopM n body s = .ok s0 ∧ body n s0 = .ok s1 := by
  rw [forLoopM_succ] at h
  exact (except_bind_ok _ _ _).mp h

theorem forLoopM_ok_le {σ : Type} (n k : Nat) (body : Nat → σ → Except Fault σ) (s s1 : σ)
    (h : forLoopM n body s = .ok s1) (hk : k ≤ n) : ∃ s0, forLoopM k body s = .ok s0 := by
  induction n generalizing s1 with
  | zero =>
    have : k = 0 := by omega
    subst this
    exact ⟨s1, h⟩
  | succ n ih =>
    by_cases hkn : k = n + 1
    · subst hkn
      exact ⟨s1, h⟩
    · obtain ⟨s0, h0, _⟩ := forLoopM_ok_prev n body s s1 h
      exact ih s0 h0 (by omega)

theorem forLoopM_bound {σ : Type} (n b : Nat) (body : Nat → σ → Except Fault σ) (s s1 : σ)
    (hb : ∀ t, body b t = .error Fault.bounds) (h : forLoopM n body s = .ok s1) : n ≤ b := by
  by_contra hc
  obtain ⟨s0, h0⟩ := forLoopM_ok_le n (b + 1) body s s1 h (by omega)
  obtain ⟨t, _, ht⟩ := forLoopM_ok_prev b body s s0 h0
  rw [hb t] at ht
  cases ht

theorem fill_tx_le (n : Nat) (s s1 : Pru) (h : fill_tx n s = .ok s1) : n ≤ 4 := by
  apply forLoopM_bound n 4 _ s s1 _ h
  intro t
  simp

theorem rx_loop_le (miso : Nat → Nat) (rx_cnt : Int) (s s1 : Pru)
    (h : rx_loop miso rx_cnt s = .ok s1) : rx_cnt.toNat ≤ 4 := by
  apply forLoopM_bound rx_cnt.toNat 4 _ s s1 _ h
  intro t
  simp [rx_byte_pass]

theorem fill_tx_spec (n : Nat) (hn : n ≤ 4) (s : Pru) :
    ∃ s1, fill_tx n s = .ok s1 ∧ s1.pMEM = s.pMEM ∧ s1.trace = s.trace ∧ s1.r30 = s.r30 ∧
      s1.rd = s.rd ∧ s1.rx_words = s.rx_words ∧ s1.rx_byte = s.rx_byte ∧
      s1.rx_word = s.rx_word ∧ ∀ i, i < n → s1.tx_words i = s.pMEM (2 + i) := by
  unfold fill_tx
  induction n with
  | zero => exact ⟨s, rfl, rfl, rfl, rfl, rfl, rfl, rfl, rfl, fun i hi => absurd hi (Nat.not_lt_zero i)⟩
  | succ n ih =>
    obtain ⟨s0, h0, a1, a2, a3, a4, a5, a6, a7, a8⟩ := ih (by omega)
    rw [forLoopM_succ, h0]
    have hlt : n < 4 := by omega
    refine ⟨{ s0 with tx_words := Function.update s0.tx_words n (s0.pMEM (2 + n)) }, ?_, a1, a2,
      a3, a4, a5, a6, a7, ?_⟩
    · simp only [bind, Except.bind, hlt, if_true]
    · intro i hi
      by_cases hin : i = n
      · subst hin
        simp [a1]
      · simp only [Function.update_noteq hin]
        exact a8 i (by omega)

theorem single_le (miso : Nat → Nat) (pTxbuf : Nat → Nat) (tx_cnt : Int) (p : Ptr)
    (rx_cnt : Int) (s s1 : Pru)
    (h : pru_spi_writeread_single miso pTxbuf tx_cnt p rx_cnt s = .ok s1) :
    rx_cnt.toNat ≤ 4 := by
  simp only [pru_spi_writeread_single] at h
  obtain ⟨sa, ha, _⟩ := (except_bind_ok _ _ _).mp h
  exact rx_loop_le _ _ _ _ ha

theorem conversion_le (miso : Nat → Nat) (fuel : Nat) (pTxbuf : Nat → Nat) (tx_cnt : Int)
    (p : Ptr) (rx_cnt : Int) (k : Nat) (s s1 : Pru)
    (h : conversion miso fuel pTxbuf tx_cnt p rx_cnt k s = .ok s1) : rx_cnt.toNat ≤ 4 := by
  simp only [conversion] at h
  obtain ⟨sa, _, h⟩ := (except_bind_ok _ _ _).mp h
  obtain ⟨sb, _, h⟩ := (except_bind_ok _ _ _).mp h
  obtain ⟨sc, hc, _⟩ := (except_bind_ok _ _ _).mp h
  exact rx_loop_le _ _ _ _ hc

theorem continuous_mem (miso : Nat → Nat) (fuel : Nat) (pTxbuf : Nat → Nat) (tx_cnt : Int)
    (p : Ptr) (rx_cnt ncnv : Int) (s s1 : Pru)
    (h : pru_spi_writeread_continuous miso fuel pTxbuf tx_cnt p rx_cnt ncnv s = .ok s1) :
    memWrites s1.trace = memWrites s.trace ++ burstWrites p ncnv.toNat (fun k => load p k s1) ∧
    s1.tx_words = s.tx_words ∧
    (∀ a, (∀ off, p = Ptr.ram off → a < off ∨ off + ncnv.toNat ≤ a) → s1.pMEM a = s.pMEM a) := by
  by_cases hn : ncnv.toNat = 0
  · simp only [pru_spi_writeread_continuous, hn, forLoopM_zero, bind, Except.bind, pure,
      Except.pure, Except.ok.injEq] at h
    obtain ⟨_, d2, d3, _, _, _, _, d8⟩ :=
      (((pinsOnly_R30_set MOSI s).pins_then (pinsOnly_R30_clr CS _)).pins_then
        (pinsOnly_R30_set CS _)).pins_then (pinsOnly_R30_clr MOSI _)
    rw [h] at d2 d3 d8
    refine ⟨?_, d3, fun a _ => by rw [d2]⟩
    rw [d8, hn]
    cases p <;> simp [burstWrites]
  · have h4 : rx_cnt.toNat ≤ 4 := by
      have h' := h
      simp only [pru_spi_writeread_continuous] at h'
      obtain ⟨s2, hs2, _⟩ := (except_bind_ok _ _ _).mp h'
      obtain ⟨s0, h0⟩ := forLoopM_ok_le _ 1 _ _ _ hs2 (by omega)
      obtain ⟨t, ht, hc⟩ := forLoopM_ok_prev 0 _ _ _ h0
      exact conversion_le _ _ _ _ _ _ _ _ _ hc
    obtain ⟨_, _, _, _, e4, e5, e6⟩ := continuous_spec miso fuel pTxbuf tx_cnt p rx_cnt h4 ncnv s s1 h
    exact ⟨e4, e5, e6⟩

theorem decode_spec (s pb : Pru)
    (h : fill_tx ((mem_write 0 238 s).pMEM 1) (mem_write 0 238 s) = .ok pb) : Decoded s pb := by
  have hle := fill_tx_le _ _ _ h
  obtain ⟨s1, h1, a1, a2, a3, a4, a5, a6, a7, a8⟩ := fill_tx_spec _ hle (mem_write 0 238 s)
  rw [h] at h1
  cases h1
  have e1 : (mem_write 0 238 s).pMEM 1 = s.pMEM 1 := by simp [mem_write]
  rw [e1] at hle a8
  refine ⟨a1, a2, a3, a4, a5, a6, a7, hle, ?_⟩
  intro i hi
  rw [a8 i hi]
  simp [mem_write]

theorem decode_total (s : Pru) (h : s.pMEM 1 ≤ 4) :
    ∃ pb, fill_tx ((mem_write 0 238 s).pMEM 1) (mem_write 0 238 s) = .ok pb := by
  have e1 : (mem_write 0 238 s).pMEM 1 = s.pMEM 1 := by simp [mem_write]
  obtain ⟨s1, h1, _⟩ := fill_tx_spec ((mem_write 0 238 s).pMEM 1) (by rw [e1]; exact h)
    (mem_write 0 238 s)
  exact ⟨s1, h1⟩

theorem iteration_noop (miso : Nat → Nat) (fuel : Nat) (s : Pru)
    (h : ¬ (1 ≤ s.pMEM 0 ∧ s.pMEM 0 ≤ 5)) : main_iteration miso fuel s = .ok s := by
  unfold main_iteration
  simp only [NOP, SPI_WAIT_COMMAND, SPI_TEST, SPI_WRITE, SPI_WRITEREAD_SINGLE,
    SPI_WRITEREAD_CONTINUOUS, SPI_RESET]
  split_ifs <;> first | rfl | omega

theorem iteration_write (miso : Nat → Nat) (fuel : Nat) (s s1 : Pru) (hf : s.pMEM 0 = SPI_WRITE)
    (h : main_iteration miso fuel s = .ok s1) :
    ∃ pb, Decoded s pb ∧ s1 = delay_cycles PRU0_DELAY_CNT
      (mem_write 0 0 (pru_spi_write pb.tx_words (i32 (s.pMEM 1)) pb)) := by
  unfold main_iteration at h
  simp only [hf, NOP, SPI_WAIT_COMMAND, SPI_TEST, SPI_WRITE, SPI_WRITEREAD_SINGLE,
    SPI_WRITEREAD_CONTINUOUS, SPI_RESET] at h
  norm_num at h
  obtain ⟨pb, hpb, h⟩ := (except_bind_ok _ _ _).mp h
  simp only [pure, Except.pure, Except.ok.injEq] at h
  have e1 : (mem_write 0 238 s).pMEM 1 = s.pMEM 1 := by simp [mem_write]
  rw [e1] at h
  exact ⟨pb, decode_spec s pb hpb, h.symm⟩

theorem iteration_single (miso : Nat → Nat) (fuel : Nat) (s s1 : Pru)
    (hf : s.pMEM 0 = SPI_WRITEREAD_SINGLE) (h : main_iteration miso fuel s = .ok s1) :
    ∃ pb e, Decoded s pb ∧
      pru_spi_writeread_single miso pb.tx_words (i32 (s.pMEM 1)) Ptr.loc
        (i32 (s.pMEM (2 + s.pMEM 1))) pb = .ok e ∧
      s1 = delay_cycles PRU0_DELAY_CNT
        (mem_write 0 0 (mem_write (2 + s.pMEM 1 + 1) (e.rx_words 0) e)) := by
  unfold main_iteration at h
  simp only [hf, NOP, SPI_WAIT_COMMAND, SPI_TEST, SPI_WRITE, SPI_WRITEREAD_SINGLE,
    SPI_WRITEREAD_CONTINUOUS, SPI_RESET] at h
  norm_num at h
  obtain ⟨pb, hpb, h⟩ := (except_bind_ok _ _ _).mp h
  obtain ⟨e, he, h⟩ := (except_bind_ok _ _ _).mp h
  simp only [pure, Except.pure, Except.ok.injEq] at h
  have hd := decode_spec s pb hpb
  have e1 : (mem_write 0 238 s).pMEM 1 = s.pMEM 1 := by simp [mem_write]
  have e2 : pb.pMEM (2 + s.pMEM 1) = s.pMEM (2 + s.pMEM 1) := by
    rw [hd.1, Function.update_noteq (by omega)]
  rw [e1] at h he
  rw [e2] at he
  exact ⟨pb, e, hd, he, h.symm⟩

theorem iteration_continuous (miso : Nat → Nat) (fuel : Nat) (s s1 : Pru)
    (hf : s.pMEM 0 = SPI_WRITEREAD_CONTINUOUS) (h : main_iteration miso fuel s = .ok s1) :
    ∃ pb e, Decoded s pb ∧
      pru_spi_writeread_continuous miso fuel pb.tx_words (i32 (s.pMEM 1))
        (Ptr.ram (2 + s.pMEM 1 + 2)) (i32 (s.pMEM (2 + s.pMEM 1)))
        (i32 (s.pMEM (2 + s.pMEM 1 + 1))) pb = .ok e ∧
      s1 = delay_cycles PRU0_DELAY_CNT (mem_write 0 0 e) := by
  unfold main_iteration at h
  simp only [hf, NOP, SPI_WAIT_COMMAND, SPI_TEST, SPI_WRITE, SPI_WRITEREAD_SINGLE,
    SPI_WRITEREAD_CONTINUOUS, SPI_RESET] at h
  norm_num at h
  obtain ⟨pb, hpb, h⟩ := (except_bind_ok _ _ _).mp h
  obtain ⟨e, he, h⟩ := (except_bind_ok _ _ _).mp h
  simp only [pure, Except.pure, Except.ok.injEq] at h
  have hd := decode_spec s pb hpb
  have e1 : (mem_write 0 238 s).pMEM 1 = s.pMEM 1 := by simp [mem_write]
  have e2 : pb.pMEM (2 + s.pMEM 1) = s.pMEM (2 + s.pMEM 1) := by
    rw [hd.1, Function.update_noteq (by omega)]
  have e3 : pb.pMEM (2 + s.pMEM 1 + 1) = s.pMEM (2 + s.pMEM 1 + 1) := by
    rw [hd.1, Function.update_noteq (by omega)]
  rw [e1] at he
  rw [e2, e3] at he
  exact ⟨pb, e, hd, he, h.symm⟩

theorem iteration_reset (miso : Nat → Nat) (fuel : Nat) (s : Pru) (hf : s.pMEM 0 = SPI_RESET) :
    main_iteration miso fuel s = .ok (mem_write 0 0 (pru_spi_reset (mem_write 0 238 s))) := by
  unfold main_iteration
  simp only [hf, NOP, SPI_WAIT_COMMAND, SPI_TEST, SPI_WRITE, SPI_WRITEREAD_SINGLE,
    SPI_WRITEREAD_CONTINUOUS, SPI_RESET]
  norm_num

theorem replay_frame (m : Nat → Nat) (ws : List (Nat × Nat)) (a : Nat)
    (h : ∀ w ∈ ws, w.1 ≠ a) : replay m ws a = m a := by
  induction ws generalizing m with
  | nil => rfl
  | cons w ws ih =>
    simp only [replay, List.foldl_cons] at ih ⊢
    rw [ih _ (fun x hx => h x (List.mem_cons_of_mem _ hx))]
    exact Function.update_noteq (Ne.symm (h w (List.mem_cons_self _ _))) _ _

theorem iteration_total (miso : Nat → Nat) (s : Pru)
    (hf : s.pMEM 0 = SPI_WRITE ∨ s.pMEM 0 = SPI_WRITEREAD_SINGLE ∨
      s.pMEM 0 = SPI_WRITEREAD_CONTINUOUS ∨ s.pMEM 0 = SPI_RESET)
    (htx : s.pMEM 1 ≤ 4)
    (hrx : s.pMEM 0 = SPI_WRITEREAD_SINGLE ∨ s.pMEM 0 = SPI_WRITEREAD_CONTINUOUS →
      (i32 (s.pMEM (2 + s.pMEM 1))).toNat ≤ 4)
    (ht : s.pMEM 0 = SPI_WRITEREAD_CONTINUOUS → Toggles miso) :
    ∃ F s1, ∀ fuel, F ≤ fuel → main_iteration miso fuel s = .ok s1 := by
  obtain ⟨pb, hpb⟩ := decode_total s htx
  have hd := decode_spec s pb hpb
  have e1 : (mem_write 0 238 s).pMEM 1 = s.pMEM 1 := by simp [mem_write]
  have e2 : pb.pMEM (2 + s.pMEM 1) = s.pMEM (2 + s.pMEM 1) := by
    rw [hd.1, Function.update_noteq (by omega)]
  rcases hf with hf | hf | hf | hf
  · refine ⟨0, delay_cycles PRU0_DELAY_CNT
      (mem_write 0 0 (pru_spi_write pb.tx_words (i32 (s.pMEM 1)) pb)), fun fuel _ => ?_⟩
    unfold main_iteration
    simp only [hf, NOP, SPI_WAIT_COMMAND, SPI_TEST, SPI_WRITE, SPI_WRITEREAD_SINGLE,
      SPI_WRITEREAD_CONTINUOUS, SPI_RESET]
    norm_num
    rw [hpb]
    simp only [bind, Except.bind, e1]
    rfl
  · obtain ⟨e, he, _⟩ := single_spec miso pb.tx_words (i32 (s.pMEM 1)) Ptr.loc
      (i32 (s.pMEM (2 + s.pMEM 1))) (hrx (Or.inl hf)) pb
    refine ⟨0, delay_cycles PRU0_DELAY_CNT
      (mem_write 0 0 (mem_write (2 + s.pMEM 1 + 1) (e.rx_words 0) e)), fun fuel _ => ?_⟩
    unfold main_iteration
    simp only [hf, NOP, SPI_WAIT_COMMAND, SPI_TEST, SPI_WRITE, SPI_WRITEREAD_SINGLE,
      SPI_WRITEREAD_CONTINUOUS, SPI_RESET]
    norm_num
    rw [hpb]
    simp only [bind, Except.bind, e1, e2, he]
    rfl
  · obtain ⟨F, e, he⟩ := continuous_total miso (ht hf) pb.tx_words (i32 (s.pMEM 1))
      (Ptr.ram (2 + s.pMEM 1 + 2)) (i32 (s.pMEM (2 + s.pMEM 1))) (hrx (Or.inr hf))
      (i32 (s.pMEM (2 + s.pMEM 1 + 1))) (fun hp => by cases hp) pb
    have e3 : pb.pMEM (2 + s.pMEM 1 + 1) = s.pMEM (2 + s.pMEM 1 + 1) := by
      rw [hd.1, Function.update_noteq (by omega)]
    refine ⟨F, delay_cycles PRU0_DELAY_CNT (mem_write 0 0 e), fun fuel hfu => ?_⟩
    unfold main_iteration
    simp only [hf, NOP, SPI_WAIT_COMMAND, SPI_TEST, SPI_WRITE, SPI_WRITEREAD_SINGLE,
      SPI_WRITEREAD_CONTINUOUS, SPI_RESET]
    norm_num
    rw [hpb]
    simp only [bind, Except.bind, e1, e2, e3, he fuel hfu]
    rfl
  · exact ⟨0, mem_write 0 0 (pru_spi_reset (mem_write 0 238 s)),
      fun fuel _ => iteration_reset miso fuel s hf⟩

theorem decoded_memWrites (s pb : Pru) (hd : Decoded s pb) :
    memWrites pb.trace = memWrites s.trace ++ [(0, BUSY)] := by
  rw [hd.2.1, memWrites_append]
  rfl

theorem iteration_order (miso : Nat → Nat) (fuel : Nat) (s s1 : Pru)
    (hf : s.pMEM 0 = SPI_WRITE ∨ s.pMEM 0 = SPI_WRITEREAD_SINGLE ∨
      s.pMEM 0 = SPI_WRITEREAD_CONTINUOUS ∨ s.pMEM 0 = SPI_RESET)
    (h : main_iteration miso fuel s = .ok s1) :
    ∃ resp, memWritesSince s s1 = (0, BUSY) :: resp ++ [(0, IDLE)] ∧
      (∀ w ∈ resp, w.1 ≠ 0) ∧ s1.pMEM 0 = IDLE ∧
      (s.pMEM 0 = SPI_WRITE ∨ s.pMEM 0 = SPI_RESET → resp = []) ∧
      (s.pMEM 0 = SPI_WRITEREAD_SINGLE → resp = [(3 + s.pMEM 1, s1.pMEM (3 + s.pMEM 1))]) ∧
      (s.pMEM 0 = SPI_WRITEREAD_CONTINUOUS →
        resp = (List.range (i32 (s.pMEM (3 + s.pMEM 1))).toNat).map
          (fun k => (4 + s.pMEM 1 + k, s1.pMEM (4 + s.pMEM 1 + k)))) := by
  rcases hf with hf | hf | hf | hf
  · obtain ⟨pb, hd, e⟩ := iteration_write miso fuel s s1 hf h
    obtain ⟨_, a2, _, _, _, _, _, a8⟩ := pinsOnly_pru_spi_write pb.tx_words (i32 (s.pMEM 1)) pb
    refine ⟨[], ?_, by simp, ?_, fun _ => rfl, ?_, ?_⟩
    · apply memWritesSince_eq
      rw [e]
      simp only [delay_cycles, memWrites_append, memWrites_mem_write, a8, decoded_memWrites s pb hd]
      simp [memWrites, IDLE]
    · rw [e]
      simp [delay_cycles, mem_write, IDLE]
    · intro h3; rw [hf] at h3; cases h3
    · intro h3; rw [hf] at h3; cases h3
  · obtain ⟨pb, e, hd, he, hs1⟩ := iteration_single miso fuel s s1 hf h
    have h4 := single_le _ _ _ _ _ _ _ he
    obtain ⟨e', he', _, _, _, c4, _, _⟩ := single_spec miso pb.tx_words (i32 (s.pMEM 1)) Ptr.loc
      (i32 (s.pMEM (2 + s.pMEM 1))) h4 pb
    rw [he] at he'
    cases he'
    have ev : s1.pMEM (3 + s.pMEM 1) = e.rx_words 0 := by
      rw [hs1]
      have : 3 + s.pMEM 1 ≠ 0 := by omega
      simp [delay_cycles, mem_write, Function.update_noteq this,
        show 2 + s.pMEM 1 + 1 = 3 + s.pMEM 1 by omega]
    refine ⟨[(3 + s.pMEM 1, s1.pMEM (3 + s.pMEM 1))], ?_, ?_, ?_, ?_, fun _ => rfl, ?_⟩
    · apply memWritesSince_eq
      rw [ev, hs1]
      simp only [delay_cycles, memWrites_append, memWrites_mem_write, c4, ptrWrite,
        decoded_memWrites s pb hd, List.append_nil]
      simp [memWrites, IDLE, show 2 + s.pMEM 1 + 1 = 3 + s.pMEM 1 by omega]
    · intro w hw
      simp only [List.mem_singleton] at hw
      rw [hw]
      simp
    · rw [hs1]
      simp [delay_cycles, mem_write, IDLE]
    · intro h3
      rcases h3 with h3 | h3 <;> rw [hf] at h3 <;> cases h3
    · intro h3; rw [hf] at h3; cases h3
  · obtain ⟨pb, e, hd, he, hs1⟩ := iteration_continuous miso fuel s s1 hf h
    obtain ⟨c1, _, _⟩ := continuous_mem _ _ _ _ _ _ _ _ _ he
    have e31 : 2 + s.pMEM 1 + 1 = 3 + s.pMEM 1 := by omega
    have e42 : 2 + s.pMEM 1 + 2 = 4 + s.pMEM 1 := by omega
    rw [e31, e42] at c1
    have ev : ∀ k, s1.pMEM (4 + s.pMEM 1 + k) = e.pMEM (4 + s.pMEM 1 + k) := by
      intro k
      rw [hs1]
      have : 4 + s.pMEM 1 + k ≠ 0 := by omega
      simp [delay_cycles, mem_write, Function.update_noteq this]
    have hresp : (List.range (i32 (s.pMEM (3 + s.pMEM 1))).toNat).map
        (fun k => (4 + s.pMEM 1 + k, s1.pMEM (4 + s.pMEM 1 + k))) =
        burstWrites (Ptr.ram (4 + s.pMEM 1)) (i32 (s.pMEM (3 + s.pMEM 1))).toNat
          (fun k => load (Ptr.ram (4 + s.pMEM 1)) k e) := by
      simp only [burstWrites, load]
      apply List.map_congr_left
      intro k _
      rw [ev k]
    refine ⟨(List.range (i32 (s.pMEM (3 + s.pMEM 1))).toNat).map
      (fun k => (4 + s.pMEM 1 + k, s1.pMEM (4 + s.pMEM 1 + k))), ?_, ?_, ?_, ?_, ?_, fun _ => rfl⟩
    · apply memWritesSince_eq
      rw [hresp, hs1]
      simp only [delay_cycles, memWrites_append, memWrites_mem_write, c1,
        decoded_memWrites s pb hd]
      simp [memWrites, IDLE]
    · intro w hw
      simp only [List.mem_map] at hw
      obtain ⟨k, _, hk⟩ := hw
      rw [← hk]
      simp
    · rw [hs1]
      simp [delay_cycles, mem_write, IDLE]
    · intro h3
      rcases h3 with h3 | h3 <;> rw [hf] at h3 <;> cases h3
    · intro h3; rw [hf] at h3; cases h3
  · have e := iteration_reset miso fuel s hf
    rw [h] at e
    simp only [Except.ok.injEq] at e
    obtain ⟨_, a2, _, _, _, _, _, a8⟩ := pinsOnly_pru_spi_reset (mem_write 0 238 s)
    refine ⟨[], ?_, by simp, ?_, fun _ => rfl, ?_, ?_⟩
    · apply memWritesSince_eq
      rw [e]
      simp only [memWrites_mem_write, a8]
      simp [IDLE, BUSY]
    · rw [e]
      simp [mem_write, IDLE]
    · intro h3; rw [hf] at h3; cases h3
    · intro h3; rw [hf] at h3; cases h3

/-- C8 (BUSY/IDLE ordering on the coprocessor). For a dispatcher pass that reads flag
`SPI_WRITE`, `SPI_WRITEREAD_SINGLE`, `SPI_WRITEREAD_CONTINUOUS` or `SPI_RESET` with a tx count
of at most 4: whenever the pass completes, its mailbox writes are `BUSY` to offset 0 first,
then the response words (none; the word at offset `3 + txcnt`; the words at offsets
`4 + txcnt + k` for `k < ncnv`, in order), then `IDLE` to offset 0 last; offset 0 holds `BUSY`
at every response write, and `IDLE` at the end. The pass does complete when the rx byte
count is at most 4 and, in continuous mode, data-in keeps toggling. -/
theorem busy_idle_order (miso : Nat → Nat) (s : Pru)
    (hf : s.pMEM 0 = SPI_WRITE ∨ s.pMEM 0 = SPI_WRITEREAD_SINGLE ∨
      s.pMEM 0 = SPI_WRITEREAD_CONTINUOUS ∨ s.pMEM 0 = SPI_RESET)
    (htx : s.pMEM 1 ≤ 4) :
    (∀ fuel s1, main_iteration miso fuel s = .ok s1 →
      ∃ resp, memWritesSince s s1 = (0, BUSY) :: resp ++ [(0, IDLE)] ∧
        (∀ k, k ≤ resp.length → replay s.pMEM ((0, BUSY) :: resp.take k) 0 = BUSY) ∧
        s1.pMEM 0 = IDLE ∧
        (s.pMEM 0 = SPI_WRITE ∨ s.pMEM 0 = SPI_RESET → resp = []) ∧
        (s.pMEM 0 = SPI_WRITEREAD_SINGLE →
          resp = [(3 + s.pMEM 1, s1.pMEM (3 + s.pMEM 1))]) ∧
        (s.pMEM 0 = SPI_WRITEREAD_CONTINUOUS →
          resp = (List.range (i32 (s.pMEM (3 + s.pMEM 1))).toNat).map
            (fun k => (4 + s.pMEM 1 + k, s1.pMEM (4 + s.pMEM 1 + k))))) ∧
    ((s.pMEM 0 = SPI_WRITEREAD_SINGLE ∨ s.pMEM 0 = SPI_WRITEREAD_CONTINUOUS →
        (i32 (s.pMEM (2 + s.pMEM 1))).toNat ≤ 4) →
      (s.pMEM 0 = SPI_WRITEREAD_CONTINUOUS → Toggles miso) →
      ∃ F s1, ∀ fuel, F ≤ fuel → main_iteration miso fuel s = .ok s1) := by
  refine ⟨?_, fun hrx ht => iteration_total miso s hf htx hrx ht⟩
  intro fuel s1 h
  obtain ⟨resp, a1, a2, a3, a4, a5, a6⟩ := iteration_order miso fuel s s1 hf h
  refine ⟨resp, a1, ?_, a3, a4, a5, a6⟩
  intro k _
  have e : (0, BUSY) :: resp.take k = [(0, BUSY)] ++ resp.take k := rfl
  rw [e, replay_append, replay_frame _ _ _ (fun w hw => a2 w (List.mem_of_mem_take hw))]
  simp [replay]

/-- Witness for `busy_idle_order`: a single read of three bytes. -/
theorem busy_idle_order_witness :
    (demoSingle.pMEM 0 = SPI_WRITE ∨ demoSingle.pMEM 0 = SPI_WRITEREAD_SINGLE ∨
      demoSingle.pMEM 0 = SPI_WRITEREAD_CONTINUOUS ∨ demoSingle.pMEM 0 = SPI_RESET) ∧
    demoSingle.pMEM 1 ≤ 4 ∧
    ∃ s1, main_iteration demoMiso 0 demoSingle = .ok s1 ∧
      memWritesSince demoSingle s1 = [(0, BUSY), (4, s1.pMEM 4), (0, IDLE)] := by
  have hf : demoSingle.pMEM 0 = SPI_WRITE ∨ demoSingle.pMEM 0 = SPI_WRITEREAD_SINGLE ∨
      demoSingle.pMEM 0 = SPI_WRITEREAD_CONTINUOUS ∨ demoSingle.pMEM 0 = SPI_RESET :=
    Or.inr (Or.inl rfl)
  have htx : demoSingle.pMEM 1 ≤ 4 := by decide
  have hthm := busy_idle_order demoMiso demoSingle hf htx
  obtain ⟨F, s1, hs1⟩ := hthm.2 (fun _ => by decide) (fun h => by cases h)
  have hrun : main_iteration demoMiso 0 demoSingle = .ok s1 := by
    have e : ∀ fuel, main_iteration demoMiso fuel demoSingle = main_iteration demoMiso 0 demoSingle :=
      fun fuel => rfl
    rw [← e F]
    exact hs1 F (Nat.le_refl F)
  obtain ⟨resp, a1, _, _, _, a5, _⟩ := hthm.1 0 s1 hrun
  refine ⟨hf, htx, s1, hrun, ?_⟩
  rw [a1, a5 rfl]
  rfl

/-- C10 (no-op and unknown commands). A dispatcher pass that reads from offset 0 a value that
is none of the command codes 1 to 5 (so `NOP`, `SPI_WAIT_COMMAND`, or an unknown value) ends in
the state it started from: the mailbox, the output register `__R30` and the trace are
unchanged, so nothing was written to the mailbox and no output line moved. -/
theorem noop_commands (miso : Nat → Nat) (fuel : Nat) (s : Pru)
    (h : ∀ c ∈ [SPI_TEST, SPI_WRITE, SPI_WRITEREAD_SINGLE, SPI_WRITEREAD_CONTINUOUS, SPI_RESET],
      s.pMEM 0 ≠ c) :
    main_iteration miso fuel s = .ok s ∧
    (∀ s1, main_iteration miso fuel s = .ok s1 →
      s1.pMEM = s.pMEM ∧ s1.r30 = s.r30 ∧ memWritesSince s s1 = [] ∧
      r30Writes (traceSince s s1) = []) := by
  have hn : main_iteration miso fuel s = .ok s := by
    apply iteration_noop
    simp only [SPI_TEST, SPI_WRITE, SPI_WRITEREAD_SINGLE, SPI_WRITEREAD_CONTINUOUS, SPI_RESET,
      List.mem_cons, List.mem_singleton, List.not_mem_nil, or_false, forall_eq_or_imp,
      forall_eq] at h
    omega
  refine ⟨hn, fun s1 h1 => ?_⟩
  rw [hn] at h1
  cases h1
  exact ⟨rfl, rfl, by simp [memWritesSince], by simp [traceSince, r30Writes]⟩

/-- Witness for `noop_commands`: the flag `SPI_WAIT_COMMAND`. -/
theorem noop_commands_witness :
    (∀ c ∈ [SPI_TEST, SPI_WRITE, SPI_WRITEREAD_SINGLE, SPI_WRITEREAD_CONTINUOUS, SPI_RESET],
      demoWaiting.pMEM 0 ≠ c) ∧
    main_iteration demoMiso 7 demoWaiting = .ok demoWaiting :=
  ⟨by decide, (noop_commands demoMiso 7 demoWaiting (by decide)).1⟩

theorem u32_natCast (n : Nat) (h : n < 4294967296) : u32 (n : Int) = n := by
  unfold u32
  omega

theorem i32_of_lt (n : Nat) (h : n < 2147483648) : i32 n = (n : Int) := by
  unfold i32
  have h1 : n % 4294967296 = n := Nat.mod_eq_of_lt (by omega)
  rw [h1, if_pos h]

theorem mem_wordWrites (base : Nat) (data : Nat → Nat) (cnt : Nat) (w : Nat × Nat)
    (h : w ∈ wordWrites base data cnt) :
    ∃ i, i < cnt ∧ w = ((base + i) % 4294967296, data i) := by
  simp only [wordWrites, List.mem_map, List.mem_range] at h
  obtain ⟨i, hi, e⟩ := h
  exact ⟨i, hi, e.symm⟩

theorem replay_wordWrites_frame (m : Nat → Nat) (base : Nat) (data : Nat → Nat) (cnt off : Nat)
    (hfit : base + cnt ≤ 4294967296) (hoff : off < base ∨ base + cnt ≤ off) :
    replay m (wordWrites base data cnt) off = m off := by
  apply replay_frame
  intro w hw
  obtain ⟨i, hi, e⟩ := mem_wordWrites _ _ _ _ hw
  rw [e]
  simp only
  rw [Nat.mod_eq_of_lt (by omega)]
  omega

theorem replay_wordWrites_get (m : Nat → Nat) (base : Nat) (data : Nat → Nat) (cnt i : Nat)
    (hfit : base + cnt ≤ 4294967296) (hi : i < cnt) :
    replay m (wordWrites base data cnt) (base + i) = data i := by
  induction cnt with
  | zero => omega
  | succ n ih =>
    have e : wordWrites base data (n + 1) =
        wordWrites base data n ++ [((base + n) % 4294967296, data n)] := by
      simp [wordWrites, List.range_succ]
    rw [e, replay_append]
    simp only [replay, List.foldl_cons, List.foldl_nil]
    rw [Nat.mod_eq_of_lt (by omega)]
    by_cases hin : i = n
    · subst hin
      simp
    · rw [Function.update_noteq (by omega)]
      exact ih (by omega) (by omega)

theorem replay_single (m : Nat → Nat) (off v : Nat) :
    replay m [(off, v)] = Function.update m off v := rfl

theorem write_mailbox (m : Nat → Nat) (data : Nat → Nat) (T : Nat) (hT : T ≤ 4) :
    replay m ([(0, 255), (1, T)] ++ wordWrites 2 data T ++ [(0, SPI_WRITE)]) 0 = SPI_WRITE ∧
    replay m ([(0, 255), (1, T)] ++ wordWrites 2 data T ++ [(0, SPI_WRITE)]) 1 = T ∧
    ∀ i, i < T →
      replay m ([(0, 255), (1, T)] ++ wordWrites 2 data T ++ [(0, SPI_WRITE)]) (2 + i) =
        data i := by
  have e : [(0, 255), (1, T)] ++ wordWrites 2 data T ++ [(0, SPI_WRITE)] =
      [(0, 255)] ++ [(1, T)] ++ wordWrites 2 data T ++ [(0, SPI_WRITE)] := rfl
  rw [e]
  simp only [replay_append, replay_single]
  refine ⟨by simp, ?_, ?_⟩
  · rw [Function.update_noteq (by omega),
      replay_wordWrites_frame _ _ _ _ _ (by omega) (Or.inl (by omega))]
    simp
  · intro i hi
    rw [Function.update_noteq (by omega), replay_wordWrites_get _ _ _ _ _ (by omega) hi]

theorem single_mailbox (m : Nat → Nat) (txdata : Nat → Nat) (T R : Nat) (hT : T ≤ 4)
    (hR : R < 2147483648) :
    replay m ([(0, 255), (1, T)] ++ wordWrites 2 txdata T ++ [(2 + T, R)] ++
      wordWrites (3 + T) (fun _ => 0) R ++ [(0, SPI_WRITEREAD_SINGLE)]) 0 =
        SPI_WRITEREAD_SINGLE ∧
    replay m ([(0, 255), (1, T)] ++ wordWrites 2 txdata T ++ [(2 + T, R)] ++
      wordWrites (3 + T) (fun _ => 0) R ++ [(0, SPI_WRITEREAD_SINGLE)]) 1 = T ∧
    (∀ i, i < T → replay m ([(0, 255), (1, T)] ++ wordWrites 2 txdata T ++ [(2 + T, R)] ++
      wordWrites (3 + T) (fun _ => 0) R ++ [(0, SPI_WRITEREAD_SINGLE)]) (2 + i) = txdata i) ∧
    replay m ([(0, 255), (1, T)] ++ wordWrites 2 txdata T ++ [(2 + T, R)] ++
      wordWrites (3 + T) (fun _ => 0) R ++ [(0, SPI_WRITEREAD_SINGLE)]) (2 + T) = R := by
  have e : [(0, 255), (1, T)] ++ wordWrites 2 txdata T ++ [(2 + T, R)] ++
      wordWrites (3 + T) (fun _ => 0) R ++ [(0, SPI_WRITEREAD_SINGLE)] =
      [(0, 255)] ++ [(1, T)] ++ wordWrites 2 txdata T ++ [(2 + T, R)] ++
      wordWrites (3 + T) (fun _ => 0) R ++ [(0, SPI_WRITEREAD_SINGLE)] := rfl
  rw [e]
  simp only [replay_append, replay_single]
  refine ⟨by simp, ?_, ?_, ?_⟩
  · rw [Function.update_noteq (by omega),
      replay_wordWrites_frame _ _ _ _ _ (by omega) (Or.inl (by omega)),
      Function.update_noteq (by omega),
      replay_wordWrites_frame _ _ _ _ _ (by omega) (Or.inl (by omega))]
    simp
  · intro i hi
    rw [Function.update_noteq (by omega),
      replay_wordWrites_frame _ _ _ _ _ (by omega) (Or.inl (by omega)),
      Function.update_noteq (by omega), replay_wordWrites_get _ _ _ _ _ (by omega) hi]
  · rw [Function.update_noteq (by omega),
      replay_wordWrites_frame _ _ _ _ _ (by omega) (Or.inl (by omega))]
    simp

theorem continuous_mailbox (m : Nat → Nat) (txdata : Nat → Nat) (T R N : Nat) (hT : T ≤ 4)
    (hN : N < 2147483648) :
    replay m ([(0, 255), (1, T)] ++ wordWrites 2 txdata T ++ [(2 + T, R), (3 + T, N)] ++
      wordWrites (4 + T) (fun _ => 0) N ++ [(0, SPI_WRITEREAD_CONTINUOUS)]) 0 =
        SPI_WRITEREAD_CONTINUOUS ∧
    replay m ([(0, 255), (1, T)] ++ wordWrites 2 txdata T ++ [(2 + T, R), (3 + T, N)] ++
      wordWrites (4 + T) (fun _ => 0) N ++ [(0, SPI_WRITEREAD_CONTINUOUS)]) 1 = T ∧
    (∀ i, i < T → replay m ([(0, 255), (1, T)] ++ wordWrites 2 txdata T ++
      [(2 + T, R), (3 + T, N)] ++ wordWrites (4 + T) (fun _ => 0) N ++
      [(0, SPI_WRITEREAD_CONTINUOUS)]) (2 + i) = txdata i) ∧
    replay m ([(0, 255), (1, T)] ++ wordWrites 2 txdata T ++ [(2 + T, R), (3 + T, N)] ++
      wordWrites (4 + T) (fun _ => 0) N ++ [(0, SPI_WRITEREAD_CONTINUOUS)]) (2 + T) = R ∧
    replay m ([(0, 255), (1, T)] ++ wordWrites 2 txdata T ++ [(2 + T, R), (3 + T, N)] ++
      wordWrites (4 + T) (fun _ => 0) N ++ [(0, SPI_WRITEREAD_CONTINUOUS)]) (3 + T) = N := by
  have e : [(0, 255), (1, T)] ++ wordWrites 2 txdata T ++ [(2 + T, R), (3 + T, N)] ++
      wordWrites (4 + T) (fun _ => 0) N ++ [(0, SPI_WRITEREAD_CONTINUOUS)] =
      [(0, 255)] ++ [(1, T)] ++ wordWrites 2 txdata T ++ [(2 + T, R)] ++ [(3 + T, N)] ++
      wordWrites (4 + T) (fun _ => 0) N ++ [(0, SPI_WRITEREAD_CONTINUOUS)] := by
    simp
  rw [e]
  simp only [replay_append, replay_single]
  refine ⟨by simp, ?_, ?_, ?_, ?_⟩
  · rw [Function.update_noteq (by omega),
      replay_wordWrites_frame _ _ _ _ _ (by omega) (Or.inl (by omega)),
      Function.update_noteq (by omega), Function.update_noteq (by omega),
      replay_wordWrites_frame _ _ _ _ _ (by omega) (Or.inl (by omega))]
    simp
  · intro i hi
    rw [Function.update_noteq (by omega),
      replay_wordWrites_frame _ _ _ _ _ (by omega) (Or.inl (by omega)),
      Function.update_noteq (by omega), Function.update_noteq (by omega),
      replay_wordWrites_get _ _ _ _ _ (by omega) hi]
  · rw [Function.update_noteq (by omega),
      replay_wordWrites_frame _ _ _ _ _ (by omega) (Or.inl (by omega)),
      Function.update_noteq (by omega)]
    simp
  · rw [Function.update_noteq (by omega),
      replay_wordWrites_frame _ _ _ _ _ (by omega) (Or.inl (by omega))]
    simp

theorem serve_inv (miso : Nat → Nat) (fuel : Nat) (h1 : Host) (p : Pru) (hp : Host × Pru)
    (h : serve miso fuel h1 p = .ok hp) :
    main_iteration miso fuel { p with pMEM := h1.ram } = .ok hp.2 ∧
    hp.1 = { h1 with ram := hp.2.pMEM } := by
  simp only [serve] at h
  obtain ⟨p1, hp1, h⟩ := (except_bind_ok _ _ _).mp h
  simp only [pure, Except.pure, Except.ok.injEq] at h
  rw [← h]
  exact ⟨hp1, rfl⟩

theorem flagAt_quiet_zero (h : Host) : flagAt quiet 0 h = h.ram 0 := rfl

theorem N_WAIT_pos : 0 < N_WAIT := by decide

theorem hostReads_append (a b : List HEv) :
    hostReads (a ++ b) = hostReads a ++ hostReads b := by
  simp [hostReads, List.filterMap_append]

theorem pollLog_one (env : Env) (h : Host) : pollLog env h 1 = [HEv.rd 0 (flagAt env 0 h)] := by
  simp [pollLog, List.range_succ]

/-- A completed command seen from the host: the first read of offset 0 finds `IDLE`. -/
theorem wait_idle_single (txcnt : Int) (rxdata : Nat → Nat) (rxcnt : Int) (h2 : Host)
    (h0 : h2.ram 0 = 0) :
    (spi_writeread_single_wait quiet txcnt rxdata rxcnt h2).1 =
      Outcome.ret (Function.update rxdata 0 (h2.ram (single_rxptr txcnt)), (rxcnt % 256).toNat) ∧
    (spi_writeread_single_wait quiet txcnt rxdata rxcnt h2).2.log =
      h2.log ++ [HEv.rd 0 0, HEv.rd (single_rxptr txcnt) (h2.ram (single_rxptr txcnt))] ∧
    (spi_writeread_single_wait quiet txcnt rxdata rxcnt h2).2.ram = h2.ram := by
  have hram : (spi_writeread_single_wait quiet txcnt rxdata rxcnt h2).2.ram = h2.ram := by
    simp only [spi_writeread_single_wait]
    split
    · simp [fatal_timeout, pru_reset, poll_loop_quiet_ram]
    · simp [pru_read_word, quiet, poll_loop_quiet_ram]
  rcases single_wait_spec quiet txcnt rxdata rxcnt h2 with
    ⟨k, w, hk, a1, a2, a3, a4, a5⟩ | ⟨b1, _, _⟩
  · have hk0 : k = 0 := by
      by_contra hc
      exact a2 0 (by omega) (by rw [flagAt_quiet_zero, h0])
    subst hk0
    rw [a5 rfl] at a3 a4
    refine ⟨a3, ?_, hram⟩
    rw [a4, pollLog_one, flagAt_quiet_zero, h0]
    rfl
  · exact absurd (by rw [flagAt_quiet_zero, h0]) (b1 0 N_WAIT_pos)

theorem wait_idle_write (h2 : Host) (h0 : h2.ram 0 = 0) :
    (spi_write_cmd_wait quiet h2).1 = Outcome.ret 0 ∧
    (spi_write_cmd_wait quiet h2).2.log = h2.log ++ [HEv.rd 0 0] ∧
    (spi_write_cmd_wait quiet h2).2.ram = h2.ram := by
  have hram : (spi_write_cmd_wait quiet h2).2.ram = h2.ram := by
    simp only [spi_write_cmd_wait]
    split
    · simp [fatal_timeout, pru_reset, poll_loop_quiet_ram]
    · simp [poll_loop_quiet_ram]
  rcases write_cmd_wait_spec quiet h2 with ⟨k, hk, a1, a2, a3, a4⟩ | ⟨b1, _, _⟩
  · have hk0 : k = 0 := by
      by_contra hc
      exact a2 0 (by omega) (by rw [flagAt_quiet_zero, h0])
    subst hk0
    refine ⟨a3, ?_, hram⟩
    rw [a4, pollLog_one, flagAt_quiet_zero, h0]
  · exact absurd (by rw [flagAt_quiet_zero, h0]) (b1 0 N_WAIT_pos)

theorem wait_idle_continuous (txcnt : Int) (rxdata : Nat → Nat) (ncnv : Int) (h2 : Host)
    (h0 : h2.ram 0 = 0) :
    (spi_writeread_continuous_wait quiet txcnt rxdata ncnv h2).1 =
      Outcome.ret (fun i => if i < u32 ncnv
        then h2.ram ((continuous_rxptr txcnt + i) % 4294967296) else rxdata i,
        (ncnv % 256).toNat) ∧
    (spi_writeread_continuous_wait quiet txcnt rxdata ncnv h2).2.log =
      h2.log ++ HEv.rd 0 0 :: (List.range (u32 ncnv)).map (fun i =>
        HEv.rd ((continuous_rxptr txcnt + i) % 4294967296)
          (h2.ram ((continuous_rxptr txcnt + i) % 4294967296))) ∧
    (spi_writeread_continuous_wait quiet txcnt rxdata ncnv h2).2.ram = h2.ram := by
  have hram : (spi_writeread_continuous_wait quiet txcnt rxdata ncnv h2).2.ram = h2.ram := by
    simp only [spi_writeread_continuous_wait]
    split
    · simp [fatal_timeout, pru_reset, poll_loop_quiet_ram]
    · obtain ⟨_, _, _, e3⟩ := read_words_spec quiet (continuous_rxptr txcnt) (u32 ncnv) rxdata
        (poll_loop quiet N_WAIT 0 h2).2
      rw [(e3 rfl).1, poll_loop_quiet_ram]
  rcases continuous_wait_spec quiet txcnt rxdata ncnv h2 with
    ⟨k, v, hk, a1, a2, a3, a4, a5⟩ | ⟨b1, _, _⟩
  · have hk0 : k = 0 := by
      by_contra hc
      exact a2 0 (by omega) (by rw [flagAt_quiet_zero, h0])
    subst hk0
    have hv := a5 rfl
    refine ⟨?_, ?_, hram⟩
    · rw [a3]
      congr 2
      funext i
      by_cases hi : i < u32 ncnv
      · simp only [hi, if_true]
        exact hv i hi
      · simp only [hi, if_false]
    · rw [a4, pollLog_one, flagAt_quiet_zero, h0]
      simp only [List.singleton_append]
      congr 2
      apply List.map_congr_left
      intro i hi
      rw [hv i (List.mem_range.mp hi)]
  · exact absurd (by rw [flagAt_quiet_zero, h0]) (b1 0 N_WAIT_pos)

theorem hostReads_rd_pairs (f g : Nat → Nat) (l : List Nat) :
    hostReads (l.map (fun i => HEv.rd (f i) (g i))) = l.map (fun i => (f i, g i)) := by
  induction l with
  | nil => rfl
  | cons a l ih =>
    simp only [List.map_cons, hostReads, List.filterMap_cons] at ih ⊢
    rw [ih]

theorem sys_write_agree (miso : Nat → Nat) (fuel : Nat) (data : Nat → Nat) (T : Nat)
    (hT : T ≤ 4) (h : Host) (p : Pru) (r : Outcome Nat × Host × Pru)
    (hr : sys_write_cmd miso fuel data (T : Int) h p = .ok r) :
    ∃ pb, (∀ i, i < T → pb.tx_words i = data i) ∧ pb.rd = p.rd ∧ pb.r30 = p.r30 ∧
      r.2.2 = delay_cycles PRU0_DELAY_CNT
        (mem_write 0 0 (pru_spi_write pb.tx_words (T : Int) pb)) ∧
      r.1 = Outcome.ret 0 ∧ r.2.1.ram 0 = IDLE := by
  simp only [sys_write_cmd] at hr
  obtain ⟨hp, hs, hr⟩ := (except_bind_ok _ _ _).mp hr
  simp only [pure, Except.pure, Except.ok.injEq] at hr
  subst hr
  dsimp only
  obtain ⟨hit, hh⟩ := serve_inv _ _ _ _ _ hs
  obtain ⟨_, _, sram⟩ := setup_spec (Call.write data (T : Int)) h
  simp only [Call.setup, Call.writes, u32_natCast T (by omega)] at sram
  obtain ⟨m0, m1, m2⟩ := write_mailbox h.ram data T hT
  rw [← sram] at m0 m1 m2
  generalize spi_write_cmd_setup data (T : Int) h = h1 at *
  obtain ⟨pb, hd, e⟩ := iteration_write miso fuel _ _ m0 hit
  simp only at hd e
  obtain ⟨_, _, d3, d4, _, _, _, _, d9⟩ := hd
  simp only [m1] at d9 e
  rw [i32_of_lt T (by omega)] at e
  have hidle : hp.2.pMEM 0 = 0 := by
    rw [e]
    simp [delay_cycles, mem_write]
  obtain ⟨w1, _, w3⟩ := wait_idle_write hp.1 (by rw [hh]; exact hidle)
  refine ⟨pb, fun i hi => by rw [d9 i hi, m2 i hi], d4, d3, e, w1, ?_⟩
  rw [w3, hh]
  exact hidle

theorem sys_single_agree (miso : Nat → Nat) (fuel : Nat) (txdata : Nat → Nat) (T : Nat)
    (hT : T ≤ 4) (rxdata : Nat → Nat) (R : Nat) (hR : R < 2147483648) (h : Host) (p : Pru)
    (r : Outcome ((Nat → Nat) × Nat) × Host × Pru)
    (hr : sys_writeread_single miso fuel txdata (T : Int) rxdata (R : Int) h p = .ok r) :
    ∃ pb e, (∀ i, i < T → pb.tx_words i = txdata i) ∧ pb.rd = p.rd ∧ pb.r30 = p.r30 ∧
      pru_spi_writeread_single miso pb.tx_words (T : Int) Ptr.loc (R : Int) pb = .ok e ∧
      r.2.2 = delay_cycles PRU0_DELAY_CNT
        (mem_write 0 0 (mem_write (3 + T) (e.rx_words 0) e)) ∧
      r.1 = Outcome.ret (Function.update rxdata 0 (e.rx_words 0), ((R : Int) % 256).toNat) ∧
      hostReads (logSince (spi_writeread_single_setup txdata (T : Int) (R : Int) h) r.2.1) =
        [(0, IDLE), (3 + T, e.rx_words 0)] ∧
      r.2.1.ram 0 = IDLE := by
  simp only [sys_writeread_single] at hr
  obtain ⟨hp, hs, hr⟩ := (except_bind_ok _ _ _).mp hr
  simp only [pure, Except.pure, Except.ok.injEq] at hr
  subst hr
  dsimp only
  obtain ⟨hit, hh⟩ := serve_inv _ _ _ _ _ hs
  obtain ⟨_, _, sram⟩ := setup_spec (Call.single txdata (T : Int) rxdata (R : Int)) h
  have hrx : single_rxptr (T : Int) = 3 + T := by
    simp only [single_rxptr, u32_natCast T (by omega)]
    exact Nat.mod_eq_of_lt (by omega)
  simp only [Call.setup, Call.writes, u32_natCast T (by omega), u32_natCast R (by omega), hrx,
    Nat.mod_eq_of_lt (show 2 + T < 4294967296 by omega)] at sram
  obtain ⟨m0, m1, m2, m3⟩ := single_mailbox h.ram txdata T R hT hR
  rw [← sram] at m0 m1 m2 m3
  generalize spi_writeread_single_setup txdata (T : Int) (R : Int) h = h1 at *
  obtain ⟨pb, e, hd, he, e1⟩ := iteration_single miso fuel _ _ m0 hit
  simp only at hd he e1
  obtain ⟨_, _, d3, d4, _, _, _, _, d9⟩ := hd
  simp only [m1] at d9 he e1
  rw [m3, i32_of_lt T (by omega), i32_of_lt R hR] at he
  have e3 : 2 + T + 1 = 3 + T := by omega
  rw [e3] at e1
  have hidle : hp.2.pMEM 0 = 0 := by
    rw [e1]
    simp [delay_cycles, mem_write]
  have hword : hp.2.pMEM (3 + T) = e.rx_words 0 := by
    rw [e1]
    have : 3 + T ≠ 0 := by omega
    simp [delay_cycles, mem_write, Function.update_noteq this]
  obtain ⟨w1, w2, w3⟩ := wait_idle_single (T : Int) rxdata (R : Int) hp.1
    (by rw [hh]; exact hidle)
  have hram : hp.1.ram (3 + T) = e.rx_words 0 := by rw [hh]; exact hword
  rw [hrx, hram] at w1 w2
  refine ⟨pb, e, fun i hi => by rw [d9 i hi, m2 i hi], d4, d3, he, e1, w1, ?_, ?_⟩
  · have hlog : hp.1.log = h1.log := by rw [hh]
    rw [hlog] at w2
    rw [logSince_eq _ _ _ w2]
    rfl
  · rw [w3, hh]
    exact hidle

theorem sys_continuous_agree (miso : Nat → Nat) (fuel : Nat) (txdata : Nat → Nat) (T : Nat)
    (hT : T ≤ 4) (rxdata : Nat → Nat) (R : Nat) (hR : R < 2147483648) (N : Nat)
    (hN : N < 2147483648) (h : Host) (p : Pru)
    (r : Outcome ((Nat → Nat) × Nat) × Host × Pru)
    (hr : sys_writeread_continuous miso fuel txdata (T : Int) rxdata (R : Int) (N : Int) h p
      = .ok r) :
    ∃ pb e, (∀ i, i < T → pb.tx_words i = txdata i) ∧ pb.rd = p.rd ∧ pb.r30 = p.r30 ∧
      pru_spi_writeread_continuous miso fuel pb.tx_words (T : Int) (Ptr.ram (4 + T)) (R : Int)
        (N : Int) pb = .ok e ∧
      r.2.2 = delay_cycles PRU0_DELAY_CNT (mem_write 0 0 e) ∧
      r.1 = Outcome.ret (fun i => if i < N then load (Ptr.ram (4 + T)) i e else rxdata i,
        ((N : Int) % 256).toNat) ∧
      hostReads (logSince (spi_writeread_continuous_setup txdata (T : Int) (R : Int) (N : Int) h)
          r.2.1) =
        (0, IDLE) :: (List.range N).map (fun i => (4 + T + i, load (Ptr.ram (4 + T)) i e)) ∧
      r.2.1.ram 0 = IDLE := by
  simp only [sys_writeread_continuous] at hr
  obtain ⟨hp, hs, hr⟩ := (except_bind_ok _ _ _).mp hr
  simp only [pure, Except.pure, Except.ok.injEq] at hr
  subst hr
  dsimp only
  obtain ⟨hit, hh⟩ := serve_inv _ _ _ _ _ hs
  obtain ⟨_, _, sram⟩ :=
    setup_spec (Call.continuous txdata (T : Int) rxdata (R : Int) (N : Int)) h
  have hrx : continuous_rxptr (T : Int) = 4 + T := by
    simp only [continuous_rxptr, u32_natCast T (by omega)]
    exact Nat.mod_eq_of_lt (by omega)
  simp only [Call.setup, Call.writes, u32_natCast T (by omega), u32_natCast R (by omega),
    u32_natCast N (by omega), hrx, Nat.mod_eq_of_lt (show 2 + T < 4294967296 by omega),
    Nat.mod_eq_of_lt (show 3 + T < 4294967296 by omega)] at sram
  obtain ⟨m0, m1, m2, m3, m4⟩ := continuous_mailbox h.ram txdata T R N hT hN
  rw [← sram] at m0 m1 m2 m3 m4
  generalize spi_writeread_continuous_setup txdata (T : Int) (R : Int) (N : Int) h = h1 at *
  obtain ⟨pb, e, hd, he, e1⟩ := iteration_continuous miso fuel _ _ m0 hit
  simp only at hd he e1
  obtain ⟨_, _, d3, d4, _, _, _, _, d9⟩ := hd
  simp only [m1] at d9 he
  have e3 : 2 + T + 1 = 3 + T := by omega
  have e4 : 2 + T + 2 = 4 + T := by omega
  rw [e3, e4, m3, m4, i32_of_lt T (by omega), i32_of_lt R hR, i32_of_lt N hN] at he
  have hidle : hp.2.pMEM 0 = 0 := by
    rw [e1]
    simp [delay_cycles, mem_write]
  have hword : ∀ i, hp.2.pMEM (4 + T + i) = load (Ptr.ram (4 + T)) i e := by
    intro i
    rw [e1]
    have : 4 + T + i ≠ 0 := by omega
    simp [delay_cycles, mem_write, Function.update_noteq this, load]
  obtain ⟨w1, w2, w3⟩ := wait_idle_continuous (T : Int) rxdata (N : Int) hp.1
    (by rw [hh]; exact hidle)
  rw [hrx, u32_natCast N (by omega)] at w1 w2
  have hmod : ∀ i, i < N → (4 + T + i) % 4294967296 = 4 + T + i :=
    fun i hi => Nat.mod_eq_of_lt (by omega)
  have hram : ∀ i, i < N → hp.1.ram ((4 + T + i) % 4294967296) = load (Ptr.ram (4 + T)) i e := by
    intro i hi
    rw [hmod i hi, hh]
    exact hword i
  refine ⟨pb, e, fun i hi => by rw [d9 i hi, m2 i hi], d4, d3, he, e1, ?_, ?_, ?_⟩
  · rw [w1]
    congr 2
    funext i
    by_cases hi : i < N
    · simp only [hi, if_true]
      exact hram i hi
    · simp only [hi, if_false]
  · have hlog : hp.1.log = h1.log := by rw [hh]
    rw [hlog] at w2
    rw [logSince_eq _ _ _ w2]
    have hc : HEv.rd 0 0 :: (List.range N).map (fun i =>
        HEv.rd ((4 + T + i) % 4294967296) (hp.1.ram ((4 + T + i) % 4294967296))) =
        [HEv.rd 0 0] ++ (List.range N).map (fun i =>
          HEv.rd ((4 + T + i) % 4294967296) (hp.1.ram ((4 + T + i) % 4294967296))) := rfl
    rw [hc, hostReads_append, hostReads_rd_pairs]
    simp only [hostReads, List.filterMap_cons, List.filterMap_nil, List.singleton_append,
      IDLE]
    congr 1
    apply List.map_congr_left
    intro i hi
    have hi' := List.mem_range.mp hi
    have hv := hram i hi'
    rw [hmod i hi'] at hv ⊢
    rw [hv]
  · rw [w3, hh]
    exact hidle

theorem except_ok_of_toBool {ε α : Type} (x : Except ε α) (h : x.toBool = true) :
    ∃ a, x = .ok a := by
  cases x with
  | error e => cases h
  | ok a => exact ⟨a, rfl⟩

theorem replay_flag (m : Nat → Nat) (ws : List (Nat × Nat)) (v : Nat) :
    replay m (ws ++ [(0, v)]) 0 = v := by
  rw [replay_append, replay_single]
  simp

theorem setup_flag (c : Call) (h : Host) : (c.setup h).ram 0 = c.code := by
  rw [(setup_spec c h).2.2]
  cases c <;> simp only [Call.writes, Call.code] <;> exact replay_flag _ _ _

theorem code_cases (c : Call) :
    c.code = SPI_WRITE ∨ c.code = SPI_WRITEREAD_SINGLE ∨ c.code = SPI_WRITEREAD_CONTINUOUS ∨
      c.code = SPI_RESET := by
  cases c
  · exact Or.inl rfl
  · exact Or.inr (Or.inl rfl)
  · exact Or.inr (Or.inr (Or.inl rfl))

/-- The dispatcher, when it completes the command of a call, leaves `IDLE` at offset 0. -/
theorem serve_idle (miso : Nat → Nat) (fuel : Nat) (c : Call) (h : Host) (p : Pru)
    (hp : Host × Pru) (hs : serve miso fuel (c.setup h) p = .ok hp) :
    hp.1.ram 0 = 0 ∧ hp.1.log = h.log ++ c.writes.map (fun w : Nat × Nat => HEv.wr w.1 w.2) := by
  obtain ⟨hit, hh⟩ := serve_inv _ _ _ _ _ hs
  have hf := code_cases c
  rw [← setup_flag c h] at hf
  obtain ⟨_, _, _, hz, _⟩ := iteration_order miso fuel _ _ hf hit
  rw [hh]
  exact ⟨hz, (setup_spec c h).1⟩

/-- A driver call served by the dispatcher returns, leaves `IDLE` at offset 0, and its
`pru_write_word` calls are those of `Call.writes`. -/
theorem sys_call_spec (miso : Nat → Nat) (fuel : Nat) (c : Call) (h : Host) (p : Pru)
    (r : Bool × Host × Pru) (hr : sys_call miso fuel c h p = .ok r) :
    r.1 = true ∧ r.2.1.ram 0 = IDLE ∧ hostWrites (logSince h r.2.1) = c.writes := by
  cases c with
  | write data word_cnt =>
    simp only [sys_call, sys_write_cmd] at hr
    obtain ⟨r0, hr0, hr⟩ := (except_bind_ok _ _ _).mp hr
    obtain ⟨hp, hs, hr0⟩ := (except_bind_ok _ _ _).mp hr0
    simp only [pure, Except.pure, Except.ok.injEq] at hr hr0
    subst hr0
    subst hr
    dsimp only
    obtain ⟨hz, hl⟩ := serve_idle miso fuel (Call.write data word_cnt) h p hp hs
    obtain ⟨w1, w2, w3⟩ := wait_idle_write hp.1 hz
    refine ⟨by rw [w1]; rfl, by rw [w3]; exact hz, ?_⟩
    rw [logSince_of h hp.1 _ _ _ hl w2, hostWrites_append, hostWrites_map_wr]
    simp [hostWrites]
  | single txdata txcnt rxdata rxcnt =>
    simp only [sys_call, sys_writeread_single] at hr
    obtain ⟨r0, hr0, hr⟩ := (except_bind_ok _ _ _).mp hr
    obtain ⟨hp, hs, hr0⟩ := (except_bind_ok _ _ _).mp hr0
    simp only [pure, Except.pure, Except.ok.injEq] at hr hr0
    subst hr0
    subst hr
    dsimp only
    obtain ⟨hz, hl⟩ := serve_idle miso fuel (Call.single txdata txcnt rxdata rxcnt) h p hp hs
    obtain ⟨w1, w2, w3⟩ := wait_idle_single txcnt rxdata rxcnt hp.1 hz
    refine ⟨by rw [w1]; rfl, by rw [w3]; exact hz, ?_⟩
    rw [logSince_of h hp.1 _ _ _ hl w2, hostWrites_append, hostWrites_map_wr]
    simp [hostWrites]
  | continuous txdata txcnt rxdata rxcnt ncnv =>
    simp only [sys_call, sys_writeread_continuous] at hr
    obtain ⟨r0, hr0, hr⟩ := (except_bind_ok _ _ _).mp hr
    obtain ⟨hp, hs, hr0⟩ := (except_bind_ok _ _ _).mp hr0
    simp only [pure, Except.pure, Except.ok.injEq] at hr hr0
    subst hr0
    subst hr
    dsimp only
    obtain ⟨hz, hl⟩ :=
      serve_idle miso fuel (Call.continuous txdata txcnt rxdata rxcnt ncnv) h p hp hs
    obtain ⟨w1, w2, w3⟩ := wait_idle_continuous txcnt rxdata ncnv hp.1 hz
    refine ⟨by rw [w1]; rfl, by rw [w3]; exact hz, ?_⟩
    rw [logSince_of h hp.1 _ _ _ hl w2, hostWrites_append, hostWrites_map_wr]
    simp [hostWrites, List.filterMap_map]

theorem replay_flag_cases (ws : List (Nat × Nat)) (m : Nat → Nat)
    (hm : m 0 = 0 ∨ m 0 = 255) (hw : ∀ w ∈ ws, w.1 = 0 → w.2 = 0 ∨ w.2 = 255) :
    replay m ws 0 = 0 ∨ replay m ws 0 = 255 := by
  induction ws generalizing m with
  | nil => exact hm
  | cons w ws ih =>
    have e : replay m (w :: ws) = replay (Function.update m w.1 w.2) ws := rfl
    rw [e]
    apply ih
    · by_cases h0 : w.1 = 0
      · rw [h0, Function.update_same]
        exact hw w (List.mem_cons_self _ _) h0
      · rw [Function.update_noteq (fun hc => h0 hc.symm)]
        exact hm
    · exact fun x hx => hw x (List.mem_cons_of_mem _ hx)

theorem command_after (m : Nat → Nat) (body : List (Nat × Nat)) (code T : Nat)
    (txdata : Nat → Nat) (hm : m 0 = IDLE)
    (hbody : ∀ w ∈ body, w.1 = 0 → w.2 = 0 ∨ w.2 = 255)
    (hcnt : (1, T) ∈ body) (hdata : ∀ i, i < T → (2 + i, txdata i) ∈ body) :
    CommandOnlyAfterPayload m (body ++ [(0, code)]) T txdata := by
  intro k hk h1 h2
  by_cases hkb : k ≤ body.length
  · rw [List.take_append_of_le_length hkb] at h1 h2
    have := replay_flag_cases (body.take k) m (Or.inl hm)
      (fun w hw => hbody w (List.mem_of_mem_take hw))
    rcases this with h | h
    · exact absurd h h1
    · exact absurd h h2
  · have hlen : (body ++ [(0, code)]).length ≤ k := by
      simp only [List.length_append, List.length_singleton]
      omega
    rw [List.take_of_length_le hlen]
    exact ⟨List.mem_append_left _ hcnt, fun i hi => List.mem_append_left _ (hdata i hi)⟩

theorem mem_wordWrites_of (base : Nat) (data : Nat → Nat) (cnt i : Nat) (hi : i < cnt)
    (hfit : base + cnt ≤ 4294967296) : (base + i, data i) ∈ wordWrites base data cnt := by
  simp only [wordWrites, List.mem_map, List.mem_range]
  exact ⟨i, hi, by rw [Nat.mod_eq_of_lt (by omega)]⟩

theorem wordWrites_off (base : Nat) (data : Nat → Nat) (cnt : Nat) (w : Nat × Nat)
    (hw : w ∈ wordWrites base data cnt) (hb : 0 < base) (hfit : base + cnt ≤ 4294967296) :
    w.1 ≠ 0 := by
  obtain ⟨i, hi, e⟩ := mem_wordWrites _ _ _ _ hw
  rw [e]
  simp only
  rw [Nat.mod_eq_of_lt (by omega)]
  omega

theorem wordWrites_zero (base cnt : Nat) (w : Nat × Nat)
    (hw : w ∈ wordWrites base (fun _ => 0) cnt) : w.2 = 0 := by
  obtain ⟨i, _, e⟩ := mem_wordWrites _ _ _ _ hw
  rw [e]

theorem command_after_payload (c : Call) (m : Nat → Nat) (hm : m 0 = IDLE) (ht : c.txcnt ≤ 4) :
    CommandOnlyAfterPayload m c.writes c.txcnt c.txdata := by
  cases c with
  | write data word_cnt =>
    simp only [Call.txcnt] at ht
    simp only [Call.writes, Call.txcnt, Call.txdata]
    generalize u32 word_cnt = T at *
    apply command_after m _ _ _ _ hm
    · intro w hw h0
      simp only [List.mem_append, List.mem_cons, List.mem_singleton, List.not_mem_nil,
        or_false] at hw
      rcases hw with (hw | hw) | hw
      · rw [hw]; exact Or.inr rfl
      · rw [hw] at h0; cases h0
      · exact absurd h0 (wordWrites_off _ _ _ _ hw (by omega) (by omega))
    · simp
    · intro i hi
      exact List.mem_append_right _ (mem_wordWrites_of 2 data T i hi (by omega))
  | single txdata txcnt rxdata rxcnt =>
    simp only [Call.txcnt] at ht
    simp only [Call.writes, Call.txcnt, Call.txdata, single_rxptr]
    generalize u32 txcnt = T at *
    generalize u32 rxcnt = R at *
    rw [Nat.mod_eq_of_lt (show 2 + T < 4294967296 by omega)]
    apply command_after m _ _ _ _ hm
    · intro w hw h0
      simp only [List.mem_append, List.mem_cons, List.mem_singleton, List.not_mem_nil,
        or_false] at hw
      rcases hw with (((hw | hw) | hw) | hw) | hw
      · rw [hw]; exact Or.inr rfl
      · rw [hw] at h0; cases h0
      · exact absurd h0 (wordWrites_off _ _ _ _ hw (by omega) (by omega))
      · rw [hw] at h0; simp only at h0; omega
      · exact Or.inl (wordWrites_zero _ _ _ hw)
    · simp
    · intro i hi
      exact List.mem_append_left _ (List.mem_append_left _
        (List.mem_append_right _ (mem_wordWrites_of 2 txdata T i hi (by omega))))
  | continuous txdata txcnt rxdata rxcnt ncnv =>
    simp only [Call.txcnt] at ht
    simp only [Call.writes, Call.txcnt, Call.txdata, continuous_rxptr]
    generalize u32 txcnt = T at *
    generalize u32 rxcnt = R at *
    generalize u32 ncnv = N at *
    rw [Nat.mod_eq_of_lt (show 2 + T < 4294967296 by omega),
      Nat.mod_eq_of_lt (show 3 + T < 4294967296 by omega)]
    apply command_after m _ _ _ _ hm
    · intro w hw h0
      simp only [List.mem_append, List.mem_cons, List.mem_singleton, List.not_mem_nil,
        or_false] at hw
      rcases hw with (((hw | hw) | hw) | (hw | hw)) | hw
      · rw [hw]; exact Or.inr rfl
      · rw [hw] at h0; cases h0
      · exact absurd h0 (wordWrites_off _ _ _ _ hw (by omega) (by omega))
      · rw [hw] at h0; simp only at h0; omega
      · rw [hw] at h0; simp only at h0; omega
      · exact Or.inl (wordWrites_zero _ _ _ hw)
    · simp
    · intro i hi
      exact List.mem_append_left _ (List.mem_append_left _
        (List.mem_append_right _ (mem_wordWrites_of 2 txdata T i hi (by omega))))

theorem writes_ends (c : Call) :
    c.writes.head? = some (0, SPI_WAIT_COMMAND) ∧ c.writes.getLast? = some (0, c.code) := by
  refine ⟨by cases c <;> rfl, ?_⟩
  cases c <;> simp only [Call.writes, Call.code] <;> exact List.getLast?_append_cons _ _ []

theorem setup_counts (c : Call) (hc : c.fits) (h : Host) :
    (c.setup h).ram 1 ≤ 4 ∧
    (c.code = SPI_WRITEREAD_SINGLE ∨ c.code = SPI_WRITEREAD_CONTINUOUS →
      (i32 ((c.setup h).ram (2 + (c.setup h).ram 1))).toNat ≤ 4) := by
  rw [(setup_spec c h).2.2]
  cases c with
  | write data word_cnt =>
    obtain ⟨h0, h4⟩ := hc
    lift word_cnt to ℕ using h0
    have hT : word_cnt ≤ 4 := by omega
    simp only [Call.writes, u32_natCast word_cnt (by omega)]
    obtain ⟨_, m1, _⟩ := write_mailbox h.ram data word_cnt hT
    refine ⟨by rw [m1]; exact hT, fun hcode => ?_⟩
    rcases hcode with hcode | hcode <;> cases hcode
  | single txdata txcnt rxdata rxcnt =>
    obtain ⟨h0, h4, r0, r4⟩ := hc
    lift txcnt to ℕ using h0
    lift rxcnt to ℕ using r0
    have hT : txcnt ≤ 4 := by omega
    have hR : rxcnt ≤ 4 := by omega
    have hrx : single_rxptr (txcnt : Int) = 3 + txcnt := by
      simp only [single_rxptr, u32_natCast txcnt (by omega)]
      exact Nat.mod_eq_of_lt (by omega)
    simp only [Call.writes, u32_natCast txcnt (by omega), u32_natCast rxcnt (by omega), hrx,
      Nat.mod_eq_of_lt (show 2 + txcnt < 4294967296 by omega)]
    obtain ⟨_, m1, _, m3⟩ := single_mailbox h.ram txdata txcnt rxcnt hT (by omega)
    refine ⟨by rw [m1]; exact hT, fun _ => ?_⟩
    rw [m1, m3, i32_of_lt rxcnt (by omega)]
    simpa using hR
  | continuous txdata txcnt rxdata rxcnt ncnv =>
    obtain ⟨h0, h4, r0, r4, n0, n4⟩ := hc
    lift txcnt to ℕ using h0
    lift rxcnt to ℕ using r0
    lift ncnv to ℕ using n0
    have hT : txcnt ≤ 4 := by omega
    have hR : rxcnt ≤ 4 := by omega
    have hN : ncnv < 2147483648 := by omega
    have hrx : continuous_rxptr (txcnt : Int) = 4 + txcnt := by
      simp only [continuous_rxptr, u32_natCast txcnt (by omega)]
      exact Nat.mod_eq_of_lt (by omega)
    simp only [Call.writes, u32_natCast txcnt (by omega), u32_natCast rxcnt (by omega),
      u32_natCast ncnv (by omega), hrx,
      Nat.mod_eq_of_lt (show 2 + txcnt < 4294967296 by omega),
      Nat.mod_eq_of_lt (show 3 + txcnt < 4294967296 by omega)]
    obtain ⟨_, m1, _, m3, _⟩ := continuous_mailbox h.ram txdata txcnt rxcnt ncnv hT hN
    refine ⟨by rw [m1]; exact hT, fun _ => ?_⟩
    rw [m1, m3, i32_of_lt rxcnt (by omega)]
    simpa using hR

/-- The dispatcher completes the command of every call within the contract, given fuel
enough for its waits on data-in. -/
theorem serve_total (miso : Nat → Nat) (ht : Toggles miso) (c : Call) (hc : c.fits) (h : Host)
    (p : Pru) : ∃ F hp, ∀ fuel, F ≤ fuel → serve miso fuel (c.setup h) p = .ok hp := by
  have hf := code_cases c
  rw [← setup_flag c h] at hf
  obtain ⟨c1, c2⟩ := setup_counts c hc h
  obtain ⟨F, s1, hs1⟩ := iteration_total miso { p with pMEM := (c.setup h).ram } hf c1
    (fun hcode => c2 (by rw [← setup_flag c h]; exact hcode)) (fun _ => ht)
  refine ⟨F, ({ c.setup h with ram := s1.pMEM }, s1), fun fuel hfl => ?_⟩
  simp only [serve, hs1 fuel hfl, bind, Except.bind, pure, Except.pure]

theorem sys_call_total (miso : Nat → Nat) (ht : Toggles miso) (c : Call) (hc : c.fits)
    (h : Host) (p : Pru) : ∃ F r, ∀ fuel, F ≤ fuel → sys_call miso fuel c h p = .ok r := by
  obtain ⟨F, hp, hs⟩ := serve_total miso ht c hc h p
  cases c with
  | write data word_cnt =>
    refine ⟨F, ((spi_write_cmd_wait quiet hp.1).1.returned, (spi_write_cmd_wait quiet hp.1).2,
      hp.2), fun fuel hfl => ?_⟩
    have := hs fuel hfl
    simp only [Call.setup] at this
    simp only [sys_call, sys_write_cmd, this, bind, Except.bind, pure, Except.pure]
  | single txdata txcnt rxdata rxcnt =>
    refine ⟨F, ((spi_writeread_single_wait quiet txcnt rxdata rxcnt hp.1).1.returned,
      (spi_writeread_single_wait quiet txcnt rxdata rxcnt hp.1).2, hp.2), fun fuel hfl => ?_⟩
    have := hs fuel hfl
    simp only [Call.setup] at this
    simp only [sys_call, sys_writeread_single, this, bind, Except.bind, pure, Except.pure]
  | continuous txdata txcnt rxdata rxcnt ncnv =>
    refine ⟨F, ((spi_writeread_continuous_wait quiet txcnt rxdata ncnv hp.1).1.returned,
      (spi_writeread_continuous_wait quiet txcnt rxdata ncnv hp.1).2, hp.2), fun fuel hfl => ?_⟩
    have := hs fuel hfl
    simp only [Call.setup] at this
    simp only [sys_call, sys_writeread_continuous, this, bind, Except.bind, pure, Except.pure]

theorem sys_run_cons (miso : Nat → Nat) (fuel : Nat) (c : Call) (cs : List Call) (h : Host)
    (p : Pru) (hs : List Host) (hrun : sys_run miso fuel (c :: cs) h p = .ok hs) :
    ∃ r rest, sys_call miso fuel c h p = .ok r ∧
      sys_run miso fuel cs r.2.1 r.2.2 = .ok rest ∧ hs = h :: rest := by
  simp only [sys_run] at hrun
  obtain ⟨r, hr, hrun⟩ := (except_bind_ok _ _ _).mp hrun
  obtain ⟨r1, _, _⟩ := sys_call_spec miso fuel c h p r hr
  rw [if_pos r1] at hrun
  obtain ⟨rest, hrest, hrun⟩ := (except_bind_ok _ _ _).mp hrun
  simp only [pure, Except.pure, Except.ok.injEq] at hrun
  exact ⟨r, rest, hr, hrest, hrun.symm⟩

/-- Every sequence of calls within the contract runs to the end against the dispatcher,
given fuel enough for the waits on data-in. -/
theorem sys_run_total (miso : Nat → Nat) (ht : Toggles miso) (cs : List Call)
    (hcs : ∀ c ∈ cs, c.fits) (h : Host) (p : Pru) :
    ∃ F hs, ∀ fuel, F ≤ fuel → sys_run miso fuel cs h p = .ok hs := by
  induction cs generalizing h p with
  | nil => exact ⟨0, [h], fun _ _ => rfl⟩
  | cons c cs ih =>
    obtain ⟨F1, r, hr⟩ := sys_call_total miso ht c (hcs c (List.mem_cons_self _ _)) h p
    obtain ⟨F2, rest, hrest⟩ := ih (fun x hx => hcs x (List.mem_cons_of_mem _ hx)) r.2.1 r.2.2
    refine ⟨max F1 F2, h :: rest, fun fuel hfl => ?_⟩
    have h1 := hr fuel (le_trans (le_max_left _ _) hfl)
    have h2 := hrest fuel (le_trans (le_max_right _ _) hfl)
    obtain ⟨r1, _, _⟩ := sys_call_spec miso fuel c h p r h1
    simp only [sys_run, h1, bind, Except.bind, r1, if_true, h2, pure, Except.pure]

/-- C5, as the claim words it, fails. `spi_write_cmd` with three words on the idle, empty
mailbox makes the writes listed; after the first of them offset 0 holds `0xff`, which is not
`IDLE`, and neither the tx count nor a tx word has been written. -/
theorem mailbox_exclusion_counterexample :
    demoHost.ram 0 = IDLE ∧
    hostWrites (logSince demoHost (spi_write_cmd_setup (fun _ => 68) 3 demoHost)) =
      [(0, 255), (1, 3), (2, 68), (3, 68), (4, 68), (0, 2)] ∧
    ¬ NonIdleOnlyAfterPayload demoHost.ram
      [(0, 255), (1, 3), (2, 68), (3, 68), (4, 68), (0, 2)] 3 (fun _ => 68) := by
  refine ⟨rfl, ?_, ?_⟩
  · have e := (setup_spec (Call.write (fun _ => 68) 3) demoHost).1
    simp only [Call.setup] at e
    rw [logSince_eq demoHost _ _ e, hostWrites_map_wr]
    rfl
  · intro hn
    have h1 := (hn 1 (by decide) (by decide)).1
    revert h1
    decide

/-- C5 (mailbox mutual exclusion), amended. For every sequence of driver calls made one at a
time from an idle mailbox against a dispatcher that completes each command: every call
returns; offset 0 is `IDLE` immediately before each call and after the last; the
`pru_write_word` calls of each call are those of `Call.writes`, the first of which puts
`SPI_WAIT_COMMAND` (`0xff`) at offset 0 and the last of which puts the command code there;
and, for a tx count of at most 4, offset 0 holds a value other than `NOP` and
`SPI_WAIT_COMMAND` only after the tx count and all tx words of the call have been written. -/
theorem mailbox_exclusion (miso : Nat → Nat) (fuel : Nat) (cs : List Call) (h : Host) (p : Pru)
    (hs : List Host) (hidle : h.ram 0 = IDLE) (hrun : sys_run miso fuel cs h p = .ok hs) :
    hs.length = cs.length + 1 ∧ hs.head? = some h ∧ (∀ x ∈ hs, x.ram 0 = IDLE) ∧
    ∀ k c x y, cs[k]? = some c → hs[k]? = some x → hs[k + 1]? = some y →
      hostWrites (logSince x y) = c.writes ∧
      c.writes.head? = some (0, SPI_WAIT_COMMAND) ∧
      c.writes.getLast? = some (0, c.code) ∧
      (c.txcnt ≤ 4 → CommandOnlyAfterPayload x.ram c.writes c.txcnt c.txdata) := by
  induction cs generalizing h p hs with
  | nil =>
    simp only [sys_run, Except.ok.injEq] at hrun
    subst hrun
    simp [hidle]
  | cons c cs ih =>
    obtain ⟨r, rest, hc, hrest, e⟩ := sys_run_cons miso fuel c cs h p hs hrun
    obtain ⟨_, r2, r3⟩ := sys_call_spec miso fuel c h p r hc
    obtain ⟨i1, i2, i3, i4⟩ := ih r.2.1 r.2.2 rest r2 hrest
    subst e
    refine ⟨by simp [i1], rfl, ?_, ?_⟩
    · intro x hx
      rcases List.mem_cons.mp hx with hx | hx
      · rw [hx]
        exact hidle
      · exact i3 x hx
    · intro k c1 x y hk hx hy
      cases k with
      | zero =>
        simp only [List.getElem?_cons_zero, Option.some.injEq] at hk hx
        simp only [zero_add, List.getElem?_cons_succ] at hy
        rw [← List.head?_eq_getElem?, i2, Option.some.injEq] at hy
        subst hk
        subst hx
        subst hy
        exact ⟨r3, (writes_ends c).1, (writes_ends c).2,
          fun ht => command_after_payload c h.ram hidle ht⟩
      | succ k =>
        simp only [List.getElem?_cons_succ] at hk hx hy
        exact i4 k c1 x y hk hx hy

/-- Witness for `mailbox_exclusion`: a write of three words followed by a single read, from
the idle, empty mailbox. -/
theorem mailbox_exclusion_witness :
    demoHost.ram 0 = IDLE ∧
    ∃ hs, sys_run demoMiso 0 demoCalls demoHost demoPru = .ok hs ∧
      hs.length = demoCalls.length + 1 ∧ (∀ x ∈ hs, x.ram 0 = IDLE) ∧
      ∀ k c x y, demoCalls[k]? = some c → hs[k]? = some x → hs[k + 1]? = some y →
        hostWrites (logSince x y) = c.writes ∧
        c.writes.head? = some (0, SPI_WAIT_COMMAND) ∧
        c.writes.getLast? = some (0, c.code) ∧
        (c.txcnt ≤ 4 → CommandOnlyAfterPayload x.ram c.writes c.txcnt c.txdata) := by
  obtain ⟨hs, hrun⟩ := except_ok_of_toBool (sys_run demoMiso 0 demoCalls demoHost demoPru)
    (by decide!)
  have h := mailbox_exclusion demoMiso 0 demoCalls demoHost demoPru hs rfl hrun
  exact ⟨rfl, hs, hrun, h.1, h.2.2.1, h.2.2.2⟩

theorem lines_set_CS (v : Nat) :
    lines (v ||| 1 <<< CS) = { lines v with cs := true } := by
  have h3 : Nat.testBit 8 3 = true := by decide
  have h5 : Nat.testBit 8 5 = false := by decide
  have h1 : Nat.testBit 8 1 = false := by decide
  simp [lines, CS, CLK, MOSI, Nat.testBit_or, h3, h5, h1]

theorem lines_set_CLK (v : Nat) :
    lines (v ||| 1 <<< CLK) = { lines v with clk := true } := by
  have h3 : Nat.testBit 32 3 = false := by decide
  have h5 : Nat.testBit 32 5 = true := by decide
  have h1 : Nat.testBit 32 1 = false := by decide
  simp [lines, CS, CLK, MOSI, Nat.testBit_or, h3, h5, h1]

theorem lines_set_MOSI (v : Nat) :
    lines (v ||| 1 <<< MOSI) = { lines v with mosi := true } := by
  have h3 : Nat.testBit 2 3 = false := by decide
  have h5 : Nat.testBit 2 5 = false := by decide
  have h1 : Nat.testBit 2 1 = true := by decide
  simp [lines, CS, CLK, MOSI, Nat.testBit_or, h3, h5, h1]

theorem lines_clr_CS (v : Nat) :
    lines (v &&& (4294967295 - 1 <<< CS)) = { lines v with cs := false } := by
  have h3 : Nat.testBit 4294967287 3 = false := by decide
  have h5 : Nat.testBit 4294967287 5 = true := by decide
  have h1 : Nat.testBit 4294967287 1 = true := by decide
  simp [lines, CS, CLK, MOSI, Nat.testBit_and, h3, h5, h1]

theorem lines_clr_CLK (v : Nat) :
    lines (v &&& (4294967295 - 1 <<< CLK)) = { lines v with clk := false } := by
  have h3 : Nat.testBit 4294967263 3 = true := by decide
  have h5 : Nat.testBit 4294967263 5 = false := by decide
  have h1 : Nat.testBit 4294967263 1 = true := by decide
  simp [lines, CS, CLK, MOSI, Nat.testBit_and, h3, h5, h1]

theorem lines_clr_MOSI (v : Nat) :
    lines (v &&& (4294967295 - 1 <<< MOSI)) = { lines v with mosi := false } := by
  have h3 : Nat.testBit 4294967293 3 = true := by decide
  have h5 : Nat.testBit 4294967293 5 = true := by decide
  have h1 : Nat.testBit 4294967293 1 = false := by decide
  simp [lines, CS, CLK, MOSI, Nat.testBit_and, h3, h5, h1]

theorem observe_append (a b : List Ev) : observe (a ++ b) = observe a ++ observe b := by
  simp [observe, List.filterMap_append]

theorem linesAfter_append (p : Lines) (a b : List Obs) :
    linesAfter p (a ++ b) = linesAfter (linesAfter p a) b := by
  induction a generalizing p with
  | nil => rfl
  | cons x a ih => cases x <;> simp [linesAfter, ih]

theorem reads_append (a b : List Obs) : reads (a ++ b) = reads a + reads b := by
  induction a with
  | nil => simp [reads]
  | cons x a ih => cases x <;> simp [reads, ih] <;> omega

theorem risingEdges_append (p : Lines) (a b : List Obs) :
    risingEdges p (a ++ b) = risingEdges p a ++ risingEdges (linesAfter p a) b := by
  induction a generalizing p with
  | nil => rfl
  | cons x a ih =>
    cases x with
    | out q =>
      simp only [List.cons_append, risingEdges, linesAfter]
      split <;> simp [ih]
    | poll v => simp [risingEdges, linesAfter, ih]
    | sample v => simp [risingEdges, linesAfter, ih]
    | mem off v => simp [risingEdges, linesAfter, ih]
    | loc i v => simp [risingEdges, linesAfter, ih]

theorem mosiChanges_append (p : Lines) (a b : List Obs) :
    mosiChanges p (a ++ b) = mosiChanges p a ++ mosiChanges (linesAfter p a) b := by
  induction a generalizing p with
  | nil => rfl
  | cons x a ih =>
    cases x with
    | out q =>
      simp only [List.cons_append, mosiChanges, linesAfter]
      split <;> simp [ih]
    | poll v => simp [mosiChanges, linesAfter, ih]
    | sample v => simp [mosiChanges, linesAfter, ih]
    | mem off v => simp [mosiChanges, linesAfter, ih]
    | loc i v => simp [mosiChanges, linesAfter, ih]

theorem Sees.sees_refl (s : Pru) : Sees s s [] :=
  ⟨⟨[], by simp, rfl⟩, rfl, rfl⟩

theorem Sees.sees_then {a b c : Pru} {x y : List Obs} (h1 : Sees a b x) (h2 : Sees b c y) :
    Sees a c (x ++ y) := by
  obtain ⟨⟨t1, e1, o1⟩, l1, r1⟩ := h1
  obtain ⟨⟨t2, e2, o2⟩, l2, r2⟩ := h2
  refine ⟨⟨t1 ++ t2, by rw [e2, e1, List.append_assoc], by rw [observe_append, o1, o2]⟩, ?_, ?_⟩
  · rw [l2, l1, linesAfter_append]
  · rw [r2, r1, reads_append, Nat.add_assoc]

theorem Sees.obs_eq {s s1 : Pru} {os : List Obs} (h : Sees s s1 os) : obsSince s s1 = os := by
  obtain ⟨⟨t, e, o⟩, _, _⟩ := h
  simp [obsSince, traceSince, e, o]

theorem sees_eq {s s1 : Pru} {os os1 : List Obs} (h : Sees s s1 os) (e : os = os1) :
    Sees s s1 os1 := e ▸ h

theorem sees_delay (n : Nat) (s : Pru) : Sees s (delay_cycles n s) [] :=
  ⟨⟨[Ev.delay n], rfl, rfl⟩, rfl, rfl⟩

theorem sees_set_CS (s : Pru) :
    Sees s (R30_set CS s) [Obs.out { lines s.r30 with cs := true }] :=
  ⟨⟨[Ev.r30 (s.r30 ||| 1 <<< CS)], rfl, by simp [observe, Ev.obs, lines_set_CS]⟩,
    by simp [R30_set, linesAfter, lines_set_CS], rfl⟩

theorem sees_set_CLK (s : Pru) :
    Sees s (R30_set CLK s) [Obs.out { lines s.r30 with clk := true }] :=
  ⟨⟨[Ev.r30 (s.r30 ||| 1 <<< CLK)], rfl, by simp [observe, Ev.obs, lines_set_CLK]⟩,
    by simp [R30_set, linesAfter, lines_set_CLK], rfl⟩

theorem sees_set_MOSI (s : Pru) :
    Sees s (R30_set MOSI s) [Obs.out { lines s.r30 with mosi := true }] :=
  ⟨⟨[Ev.r30 (s.r30 ||| 1 <<< MOSI)], rfl, by simp [observe, Ev.obs, lines_set_MOSI]⟩,
    by simp [R30_set, linesAfter, lines_set_MOSI], rfl⟩

theorem sees_clr_CS (s : Pru) :
    Sees s (R30_clr CS s) [Obs.out { lines s.r30 with cs := false }] :=
  ⟨⟨[Ev.r30 (s.r30 &&& (4294967295 - 1 <<< CS))], rfl,
      by simp [observe, Ev.obs, lines_clr_CS]⟩,
    by simp [R30_clr, linesAfter, lines_clr_CS], rfl⟩

theorem sees_clr_CLK (s : Pru) :
    Sees s (R30_clr CLK s) [Obs.out { lines s.r30 with clk := false }] :=
  ⟨⟨[Ev.r30 (s.r30 &&& (4294967295 - 1 <<< CLK))], rfl,
      by simp [observe, Ev.obs, lines_clr_CLK]⟩,
    by simp [R30_clr, linesAfter, lines_clr_CLK], rfl⟩

theorem sees_clr_MOSI (s : Pru) :
    Sees s (R30_clr MOSI s) [Obs.out { lines s.r30 with mosi := false }] :=
  ⟨⟨[Ev.r30 (s.r30 &&& (4294967295 - 1 <<< MOSI))], rfl,
      by simp [observe, Ev.obs, lines_clr_MOSI]⟩,
    by simp [R30_clr, linesAfter, lines_clr_MOSI], rfl⟩

theorem and_128 (x : Nat) : x &&& 128 ≠ 0 ↔ x.testBit 7 = true := by
  have e : (128 : Nat) = 2 ^ 7 := rfl
  constructor
  · intro h
    by_contra hc
    apply h
    apply Nat.eq_of_testBit_eq
    intro i
    rw [Nat.testBit_and, e, Nat.testBit_two_pow, Nat.zero_testBit]
    by_cases hi : 7 = i
    · subst hi
      simp [hc]
    · simp [hi]
  · intro h hz
    have : (x &&& 128).testBit 7 = true := by
      rw [Nat.testBit_and, h, e, Nat.testBit_two_pow_self]
      rfl
    rw [hz, Nat.zero_testBit] at this
    cases this

theorem tx_bit_level (d j : Nat) (hj : j < 8) :
    (d <<< j) &&& 128 ≠ 0 ↔ d.testBit (7 - j) = true := by
  rw [and_128, Nat.testBit_shiftLeft]
  simp
  omega

theorem sees_tx_bit (d j : Nat) (hj : j < 8) (s : Pru) :
    Sees s (tx_bit d j s) (txBitObs (lines s.r30) (d.testBit (7 - j))) := by
  unfold tx_bit
  have h1 := sees_clr_CLK s
  generalize R30_clr CLK s = s1 at *
  have l1 : lines s1.r30 = { lines s.r30 with clk := false } := h1.2.1
  by_cases hb : d.testBit (7 - j) = true
  · simp only [(tx_bit_level d j hj).mpr hb, ne_eq, not_false_eq_true, if_true]
    have h2 := sees_set_MOSI s1
    generalize R30_set MOSI s1 = s2 at *
    have l2 : lines s2.r30 = { lines s.r30 with clk := false, mosi := true } := by
      rw [h2.2.1, l1]; rfl
    have h3 := ((h1.sees_then h2).sees_then (sees_delay DELAY_CNT s2)).sees_then
      ((sees_set_CLK _).sees_then (sees_delay DELAY_CNT _))
    refine sees_eq h3 ?_
    simp only [delay_cycles, l1, l2, hb, txBitObs]
    rfl
  · have hb0 : d.testBit (7 - j) = false := by simpa using hb
    have hn : ¬ ((d <<< j) &&& 128 ≠ 0) := fun h => hb ((tx_bit_level d j hj).mp h)
    simp only [hn, if_false]
    have h2 := sees_clr_MOSI s1
    generalize R30_clr MOSI s1 = s2 at *
    have l2 : lines s2.r30 = { lines s.r30 with clk := false, mosi := false } := by
      rw [h2.2.1, l1]; rfl
    have h3 := ((h1.sees_then h2).sees_then (sees_delay DELAY_CNT s2)).sees_then
      ((sees_set_CLK _).sees_then (sees_delay DELAY_CNT _))
    refine sees_eq h3 ?_
    simp only [delay_cycles, l1, l2, hb0, txBitObs]
    rfl

theorem txObs_append (p : Lines) (a b : List Bool) :
    txObs p (a ++ b) = txObs p a ++ txObs (linesAfter p (txObs p a)) b := by
  induction a generalizing p with
  | nil => rfl
  | cons x a ih =>
    have e : linesAfter p (txBitObs p x) = { p with clk := true, mosi := x } := rfl
    rw [List.cons_append]
    simp only [txObs, List.append_assoc, linesAfter_append, e]
    rw [ih]

theorem txObs_single (p : Lines) (b : Bool) : txObs p [b] = txBitObs p b := by
  simp [txObs]

theorem sees_tx_byte (d m : Nat) (hm : m ≤ 8) (s : Pru) :
    Sees s (forLoop m (fun j s => tx_bit d j s) s)
      (txObs (lines s.r30) ((List.range m).map (fun j => d.testBit (7 - j)))) := by
  induction m with
  | zero => exact Sees.sees_refl s
  | succ m ih =>
    have h1 := ih (by omega)
    rw [forLoop_succ]
    generalize forLoop m (fun j s => tx_bit d j s) s = s1 at *
    have h2 := sees_tx_bit d m (by omega) s1
    rw [h1.2.1] at h2
    refine sees_eq (h1.sees_then h2) ?_
    rw [List.range_succ, List.map_append, txObs_append, List.map_singleton, txObs_single]

theorem txBits_succ (pTxbuf : Nat → Nat) (n : Nat) :
    txBits pTxbuf (n + 1) =
      txBits pTxbuf n ++ (List.range 8).map (fun j => (pTxbuf n % 256).testBit (7 - j)) := by
  have e : 8 * (n + 1) = 8 * n + 8 := by ring
  simp only [txBits]
  rw [e, List.range_add, List.map_append, List.map_map]
  congr 1
  apply List.map_congr_left
  intro j hj
  have hj8 : j < 8 := List.mem_range.mp hj
  have e1 : (8 * n + j) / 8 = n := by omega
  have e2 : (8 * n + j) % 8 = j := by omega
  simp only [Function.comp, e1, e2]

theorem sees_tx_words (pTxbuf : Nat → Nat) (n : Nat) (s : Pru) :
    Sees s (forLoop n (fun i s => delay_cycles DELAY_CNT
        (forLoop 8 (fun j s => tx_bit (pTxbuf i % 256) j s) s)) s)
      (txObs (lines s.r30) (txBits pTxbuf n)) := by
  induction n with
  | zero => exact Sees.sees_refl s
  | succ n ih =>
    rw [forLoop_succ]
    generalize forLoop n (fun i s => delay_cycles DELAY_CNT
        (forLoop 8 (fun j s => tx_bit (pTxbuf i % 256) j s) s)) s = s1 at *
    have h2 := (sees_tx_byte (pTxbuf n % 256) 8 (Nat.le_refl 8) s1).sees_then
      (sees_delay DELAY_CNT _)
    rw [ih.2.1] at h2
    refine sees_eq (ih.sees_then h2) ?_
    rw [txBits_succ, txObs_append, List.append_nil]

theorem sees_tx_loop (pTxbuf : Nat → Nat) (tx_cnt : Int) (s : Pru) :
    Sees s (tx_loop pTxbuf tx_cnt s) (txObs (lines s.r30) (txBits pTxbuf tx_cnt.toNat)) :=
  sees_tx_words pTxbuf tx_cnt.toNat s

theorem risingEdges_txObs (p : Lines) (bs : List Bool) :
    risingEdges p (txObs p bs) = bs.map (fun b => { cs := p.cs, clk := true, mosi := b }) := by
  induction bs generalizing p with
  | nil => rfl
  | cons b bs ih =>
    have e : linesAfter p (txBitObs p b) = { p with clk := true, mosi := b } := rfl
    have e1 : risingEdges p (txBitObs p b) = [{ cs := p.cs, clk := true, mosi := b }] := by
      cases hp : p.clk <;> simp [txBitObs, risingEdges, hp]
    rw [txObs, risingEdges_append, e, e1, ih]
    rfl

theorem mosiChanges_txObs (p : Lines) (bs : List Bool) :
    ∀ c ∈ mosiChanges p (txObs p bs), c.1.clk = false ∧ c.2.clk = false := by
  induction bs generalizing p with
  | nil => intro c hc; cases hc
  | cons b bs ih =>
    have e : linesAfter p (txBitObs p b) = { p with clk := true, mosi := b } := rfl
    intro c hc
    rw [txObs, mosiChanges_append, e, List.mem_append] at hc
    rcases hc with hc | hc
    · have e2 : mosiChanges p (txBitObs p b) =
          if p.mosi ≠ b then [({ p with clk := false }, { p with clk := false, mosi := b })]
          else [] := by
        simp [txBitObs, mosiChanges]
      rw [e2] at hc
      split at hc
      · rw [List.mem_singleton.mp hc]
        exact ⟨rfl, rfl⟩
      · cases hc
    · exact ih _ c hc

theorem linesAfter_txObs_cs (p : Lines) (bs : List Bool) :
    (linesAfter p (txObs p bs)).cs = p.cs := by
  induction bs generalizing p with
  | nil => rfl
  | cons b bs ih =>
    have e : linesAfter p (txBitObs p b) = { p with clk := true, mosi := b } := rfl
    rw [txObs, linesAfter_append, e, ih]

theorem linesAfter_txObs (p : Lines) (bs : List Bool) :
    linesAfter p (txObs p bs) =
      { cs := p.cs, clk := if bs = [] then p.clk else true, mosi := bs.getLastD p.mosi } := by
  induction bs generalizing p with
  | nil => rfl
  | cons b bs ih =>
    have e : linesAfter p (txBitObs p b) = { p with clk := true, mosi := b } := rfl
    rw [txObs, linesAfter_append, e, ih]
    cases bs with
    | nil => rfl
    | cons c cs => simp [List.getLastD]

theorem txBits_length (pTxbuf : Nat → Nat) (n : Nat) : (txBits pTxbuf n).length = 8 * n := by
  simp [txBits]

theorem txBits_eq_nil (pTxbuf : Nat → Nat) (n : Nat) : txBits pTxbuf n = [] ↔ n = 0 := by
  rw [← List.length_eq_zero, txBits_length]
  omega

theorem sees_pru_spi_write (pData : Nat → Nat) (byte_cnt : Int) (s : Pru) :
    Sees s (pru_spi_write pData byte_cnt s)
      (writeObs (lines s.r30) (txBits pData byte_cnt.toNat)) := by
  show Sees s (R30_clr MOSI (R30_set CS (tx_loop pData byte_cnt
    (delay_cycles DELAY_CNT (R30_clr CS s))))) _
  have h1 := (sees_clr_CS s).sees_then (sees_delay DELAY_CNT _)
  generalize delay_cycles DELAY_CNT (R30_clr CS s) = s1 at *
  have l1 : lines s1.r30 = { lines s.r30 with cs := false } := h1.2.1
  have h2 := sees_tx_loop pData byte_cnt s1
  generalize tx_loop pData byte_cnt s1 = s2 at *
  have l2 := h2.2.1
  rw [l1, linesAfter_txObs] at l2
  have h3 := sees_set_CS s2
  generalize R30_set CS s2 = s3 at *
  have l3 : lines s3.r30 = { lines s2.r30 with cs := true } := h3.2.1
  have h4 := sees_clr_MOSI s3
  refine sees_eq (((h1.sees_then h2).sees_then h3).sees_then h4) ?_
  simp only [l3, l2, l1, List.append_nil, writeObs, List.append_assoc, List.singleton_append]

theorem linesAfter_writeObs (p : Lines) (bs : List Bool) :
    linesAfter p (writeObs p bs) = ⟨true, if bs = [] then p.clk else true, false⟩ := by
  simp [writeObs, linesAfter_append, linesAfter]

theorem risingEdges_writeObs (p : Lines) (bs : List Bool) :
    risingEdges p (writeObs p bs) =
      bs.map (fun b => { cs := false, clk := true, mosi := b }) := by
  have e0 : linesAfter p [Obs.out { p with cs := false }] = { p with cs := false } := rfl
  have e1 : risingEdges p [Obs.out { p with cs := false }] = [] := by
    simp [risingEdges]
  simp only [writeObs, risingEdges_append, linesAfter_append, e0, e1, risingEdges_txObs,
    linesAfter_txObs, List.nil_append]
  have e2 : ∀ q : Lines, risingEdges q
      [Obs.out ⟨true, q.clk, bs.getLastD p.mosi⟩, Obs.out ⟨true, q.clk, false⟩] = [] := by
    intro q
    cases hq : q.clk <;> simp [risingEdges, hq]
  have e3 := e2 ⟨false, if bs = [] then p.clk else true, bs.getLastD p.mosi⟩
  simp only at e3
  rw [e3, List.append_nil]

theorem mosiChanges_writeObs (p : Lines) (bs : List Bool) :
    ∀ c ∈ mosiChanges p (writeObs p bs),
      c.1.clk = false ∧ c.2.clk = false ∨ c.1.cs = true ∧ c.2.cs = true := by
  have e0 : linesAfter p [Obs.out { p with cs := false }] = { p with cs := false } := rfl
  have e1 : mosiChanges p [Obs.out { p with cs := false }] = [] := by
    simp [mosiChanges]
  intro c hc
  simp only [writeObs, mosiChanges_append, linesAfter_append, e0, e1, linesAfter_txObs,
    List.nil_append, List.mem_append] at hc
  rcases hc with hc | hc
  · exact Or.inl (mosiChanges_txObs _ _ c hc)
  · right
    simp only [mosiChanges, ne_eq, not_true_eq_false, if_false] at hc
    split at hc
    · rw [List.mem_singleton.mp hc]
      exact ⟨rfl, rfl⟩
    · cases hc

/-- C11 (SPI write is bit-exact and MSB-first), amended. For every `n` and every tx words,
`pru_spi_write` shows on the lines: chip-select low; then, for each of the `8 * n` bits, clock
low, data-out at the bit, clock high; then chip-select high and data-out low. It makes
exactly `8 * n` rising clock edges; at edge `k` chip-select is low and data-out is bit
`7 - k % 8` of the low 8 bits of word `k / 8`. Data-out changes only while the clock is low,
except for the last assignment of the call, which drops data-out after chip-select has been
raised and with no falling edge after the last rising edge. On return chip-select is high and
data-out is low. -/
theorem spi_write_waveform (pData : Nat → Nat) (n : Nat) (s : Pru) :
    obsSince s (pru_spi_write pData n s) = writeObs (lines s.r30) (txBits pData n) ∧
    risingEdges (lines s.r30) (obsSince s (pru_spi_write pData n s)) =
      (List.range (8 * n)).map (fun k =>
        { cs := false, clk := true, mosi := (pData (k / 8) % 256).testBit (7 - k % 8) }) ∧
    (∀ c ∈ mosiChanges (lines s.r30) (obsSince s (pru_spi_write pData n s)),
      c.1.clk = false ∧ c.2.clk = false ∨ c.1.cs = true ∧ c.2.cs = true) ∧
    (lines (pru_spi_write pData n s).r30).cs = true ∧
    (lines (pru_spi_write pData n s).r30).mosi = false := by
  have h := sees_pru_spi_write pData n s
  simp only [Int.toNat_ofNat] at h
  rw [h.obs_eq, h.2.1, linesAfter_writeObs, risingEdges_writeObs]
  refine ⟨rfl, ?_, mosiChanges_writeObs _ _, rfl, rfl⟩
  simp [txBits]

/-- C11, as the claim words it, fails. `pru_spi_write` of the one word `0x01` ends, after the
eighth rising edge (chip-select low, clock high, data-out high), with chip-select raised and
then data-out dropped while the clock is still high: data-out changes after a rising edge
and before any falling edge. -/
theorem spi_write_waveform_counterexample :
    (obsSince demoPru (pru_spi_write (fun _ => 1) 1 demoPru)).drop 24 =
      [Obs.out { cs := false, clk := true, mosi := true },
        Obs.out { cs := true, clk := true, mosi := true },
        Obs.out { cs := true, clk := true, mosi := false }] ∧
    ¬ HeldWhileClockHigh (lines demoPru.r30)
      (obsSince demoPru (pru_spi_write (fun _ => 1) 1 demoPru)) := by
  constructor
  · decide!
  · intro hh
    have hm : ({ cs := true, clk := true, mosi := true },
        { cs := true, clk := true, mosi := false }) ∈
        mosiChanges (lines demoPru.r30)
          (obsSince demoPru (pru_spi_write (fun _ => 1) 1 demoPru)) := by
      decide!
    have := (hh _ hm).1
    cases this

theorem sees_reset_bit (s : Pru) : Sees s (reset_bit s) (txBitObs (lines s.r30) true) := by
  unfold reset_bit
  have h1 := sees_clr_CLK s
  generalize R30_clr CLK s = s1 at *
  have l1 : lines s1.r30 = { lines s.r30 with clk := false } := h1.2.1
  have h2 := sees_set_MOSI s1
  generalize R30_set MOSI s1 = s2 at *
  have l2 : lines s2.r30 = { lines s.r30 with clk := false, mosi := true } := by
    rw [h2.2.1, l1]; rfl
  have h3 := ((h1.sees_then h2).sees_then (sees_delay DELAY_CNT s2)).sees_then
    ((sees_set_CLK _).sees_then (sees_delay DELAY_CNT _))
  refine sees_eq h3 ?_
  simp only [delay_cycles, l1, l2, txBitObs]
  rfl

theorem sees_reset_bits (m : Nat) (s : Pru) :
    Sees s (forLoop m (fun _ s => reset_bit s) s)
      (txObs (lines s.r30) (List.replicate m true)) := by
  induction m with
  | zero => exact Sees.sees_refl s
  | succ m ih =>
    rw [forLoop_succ]
    generalize forLoop m (fun _ s => reset_bit s) s = s1 at *
    have h2 := sees_reset_bit s1
    rw [ih.2.1] at h2
    refine sees_eq (ih.sees_then h2) ?_
    rw [List.replicate_succ', txObs_append, txObs_single]

theorem sees_reset_bytes (n : Nat) (s : Pru) :
    Sees s (forLoop n (fun _ s =>
        delay_cycles DELAY_CNT (forLoop 8 (fun _ s => reset_bit s) s)) s)
      (txObs (lines s.r30) (List.replicate (8 * n) true)) := by
  induction n with
  | zero => exact Sees.sees_refl s
  | succ n ih =>
    rw [forLoop_succ]
    generalize forLoop n (fun _ s =>
        delay_cycles DELAY_CNT (forLoop 8 (fun _ s => reset_bit s) s)) s = s1 at *
    have h2 := (sees_reset_bits 8 s1).sees_then (sees_delay DELAY_CNT _)
    rw [ih.2.1] at h2
    refine sees_eq (ih.sees_then h2) ?_
    have e : 8 * (n + 1) = 8 * n + 8 := by ring
    rw [e, List.replicate_add, txObs_append, List.append_nil]

theorem sees_pru_spi_reset (s : Pru) : Sees s (pru_spi_reset s) (resetObs (lines s.r30)) := by
  show Sees s (R30_clr MOSI (R30_set CS (forLoop 9 (fun _ s =>
    delay_cycles DELAY_CNT (forLoop 8 (fun _ s => reset_bit s) s))
    (delay_cycles DELAY_CNT (R30_clr CS (R30_set MOSI s)))))) _
  have h0 := sees_set_MOSI s
  generalize R30_set MOSI s = s0 at *
  have l0 : lines s0.r30 = { lines s.r30 with mosi := true } := h0.2.1
  have h1 := (sees_clr_CS s0).sees_then (sees_delay DELAY_CNT _)
  generalize delay_cycles DELAY_CNT (R30_clr CS s0) = s1 at *
  have l1 : lines s1.r30 = ⟨false, (lines s.r30).clk, true⟩ := by
    rw [h1.2.1, List.append_nil]
    simp only [linesAfter, l0]
  have h2 := sees_reset_bytes 9 s1
  generalize forLoop 9 (fun _ s =>
    delay_cycles DELAY_CNT (forLoop 8 (fun _ s => reset_bit s) s)) s1 = s2 at *
  have l2 := h2.2.1
  rw [l1, linesAfter_txObs] at l2
  have h3 := sees_set_CS s2
  generalize R30_set CS s2 = s3 at *
  have l3 : lines s3.r30 = { lines s2.r30 with cs := true } := h3.2.1
  have h4 := sees_clr_MOSI s3
  refine sees_eq ((((h0.sees_then h1).sees_then h2).sees_then h3).sees_then h4) ?_
  simp only [l3, l2, l1, l0, List.append_nil, resetObs, List.append_assoc,
    List.singleton_append]
  rfl

theorem risingEdges_resetObs (p : Lines) :
    risingEdges p (resetObs p) = List.replicate 72 ⟨false, true, true⟩ := by
  have e0 : linesAfter p [Obs.out { p with mosi := true }, Obs.out ⟨false, p.clk, true⟩] =
      ⟨false, p.clk, true⟩ := rfl
  have e1 : risingEdges p [Obs.out { p with mosi := true }, Obs.out ⟨false, p.clk, true⟩] =
      [] := by
    cases hp : p.clk <;> simp [risingEdges, hp]
  simp only [resetObs, risingEdges_append, linesAfter_append, e0, e1, risingEdges_txObs,
    linesAfter_txObs, List.nil_append, List.map_replicate]
  simp [risingEdges]

/-- C15 (bus reset sequence). `pru_spi_reset` shows on the lines: data-out high, chip-select
low, then 72 times clock low, data-out high, clock high, then chip-select high and data-out
low. It makes exactly 72 rising clock edges, each with chip-select low and data-out high; on
return chip-select is high and data-out is low; every observation is an assignment to the
lines, so data-in is never read and nothing is stored; the count of reads of `__R31`, the
mailbox and the arrays are as they were. -/
theorem reset_sequence (s : Pru) :
    obsSince s (pru_spi_reset s) = resetObs (lines s.r30) ∧
    risingEdges (lines s.r30) (obsSince s (pru_spi_reset s)) =
      List.replicate 72 ⟨false, true, true⟩ ∧
    (lines (pru_spi_reset s).r30).cs = true ∧ (lines (pru_spi_reset s).r30).mosi = false ∧
    (∀ o ∈ obsSince s (pru_spi_reset s), ∃ l, o = Obs.out l) ∧
    reads (obsSince s (pru_spi_reset s)) = 0 ∧
    PinsOnly s (pru_spi_reset s) := by
  have h := sees_pru_spi_reset s
  have hl : linesAfter (lines s.r30) (resetObs (lines s.r30)) = ⟨true, true, false⟩ := by
    simp [resetObs, linesAfter_append, linesAfter]
  have hout : ∀ (bs : List Bool) (q : Lines), ∀ o ∈ txObs q bs, ∃ l, o = Obs.out l := by
    intro bs
    induction bs with
    | nil => intro q o ho; cases ho
    | cons b bs ih =>
      intro q o ho
      rw [txObs, List.mem_append] at ho
      rcases ho with ho | ho
      · simp only [txBitObs, List.mem_cons, List.mem_singleton, List.not_mem_nil, or_false] at ho
        rcases ho with ho | ho | ho <;> exact ⟨_, ho⟩
      · exact ih _ o ho
  have hr : reads (obsSince s (pru_spi_reset s)) = 0 := by
    have h3 := h.2.2
    rw [(pinsOnly_pru_spi_reset s).1] at h3
    rw [h.obs_eq]
    omega
  rw [h.obs_eq] at hr ⊢
  rw [h.2.1, hl, risingEdges_resetObs]
  refine ⟨rfl, rfl, rfl, rfl, ?_, hr, pinsOnly_pru_spi_reset s⟩
  intro o ho
  simp only [resetObs, List.mem_append, List.mem_cons, List.mem_singleton, List.not_mem_nil,
    or_false] at ho
  rcases ho with ((ho | ho) | ho) | (ho | ho)
  · exact ⟨_, ho⟩
  · exact ⟨_, ho⟩
  · exact hout _ _ o ho
  · exact ⟨_, ho⟩
  · exact ⟨_, ho⟩

theorem rxObs_append (p : Lines) (a b : List Nat) :
    rxObs p (a ++ b) = rxObs p a ++ rxObs p b := by
  simp [rxObs]

theorem linesAfter_rxObs (p : Lines) (bs : List Nat) :
    linesAfter p (rxObs p bs) = { p with clk := if bs = [] then p.clk else true } := by
  induction bs using List.reverseRecOn with
  | nil => rfl
  | append_singleton bs b _ =>
    rw [rxObs_append, linesAfter_append]
    simp [rxObs, rxBitObs, linesAfter]

theorem rxObs_clk (p : Lines) (c : Bool) (bs : List Nat) :
    rxObs { p with clk := c } bs = rxObs p bs := rfl

theorem reads_rxObs (p : Lines) (bs : List Nat) : reads (rxObs p bs) = bs.length := by
  induction bs with
  | nil => rfl
  | cons b bs ih =>
    have e : rxObs p (b :: bs) = rxBitObs p b ++ rxObs p bs := rfl
    rw [e, reads_append, ih]
    simp [rxBitObs, reads]
    omega

theorem sees_rx_bit (miso : Nat → Nat) (s : Pru) :
    Sees s (rx_bit miso s) (rxBitObs (lines s.r30) (misoBit (miso s.rd))) := by
  refine ⟨⟨[Ev.r30 (s.r30 &&& (4294967295 - 1 <<< CLK)), Ev.delay DELAY_CNT,
    Ev.r30 (s.r30 &&& (4294967295 - 1 <<< CLK) ||| 1 <<< CLK), Ev.sample (miso s.rd),
    Ev.delay DELAY_CNT], ?_, ?_⟩, ?_, ?_⟩
  · simp [rx_bit, R30_clr, R30_set, delay_cycles]
  · simp [observe, Ev.obs, rxBitObs, lines_set_CLK, lines_clr_CLK]
  · simp [rx_bit, R30_clr, R30_set, delay_cycles, rxBitObs, linesAfter, lines_set_CLK,
      lines_clr_CLK]
  · simp [rx_bit, R30_clr, R30_set, delay_cycles, rxBitObs, reads]

theorem sees_rx_bits (miso : Nat → Nat) (m : Nat) (s : Pru) :
    Sees s (forLoop m (fun _ s => rx_bit miso s) s)
      (rxObs (lines s.r30) (bitsFrom miso s.rd m)) := by
  induction m with
  | zero => exact Sees.sees_refl s
  | succ m ih =>
    rw [forLoop_succ]
    generalize forLoop m (fun _ s => rx_bit miso s) s = s1 at *
    have h2 := sees_rx_bit miso s1
    rw [ih.2.1, ih.2.2, linesAfter_rxObs, reads_rxObs, bitsFrom_length] at h2
    refine sees_eq (ih.sees_then h2) ?_
    rw [bitsFrom_add, rxObs_append]
    have e1 : bitsFrom miso (s.rd + m) 1 = [misoBit (miso (s.rd + m))] := rfl
    rw [e1]
    simp [rxObs, rxBitObs]

theorem sees_rx_byte_pass (miso : Nat → Nat) (i : Nat) (s s1 : Pru)
    (h : rx_byte_pass miso i s = .ok s1) :
    Sees s s1 (rxObs (lines s.r30) (bitsFrom miso s.rd 8)) := by
  unfold rx_byte_pass at h
  have h1 := sees_rx_bits miso 8 s
  generalize forLoop 8 (fun _ s => rx_bit miso s) s = t at *
  simp only at h
  split at h
  · cases h
    have h2 : Sees t (delay_cycles DELAY_CNT
        { t with rx_word := Function.update t.rx_word i t.rx_byte }) [] :=
      ⟨⟨[Ev.delay DELAY_CNT], rfl, rfl⟩, rfl, rfl⟩
    exact sees_eq (h1.sees_then h2) (List.append_nil _)
  · cases h

theorem sees_rx_bytes (miso : Nat → Nat) (n : Nat) (s s1 : Pru)
    (h : forLoopM n (rx_byte_pass miso) s = .ok s1) :
    Sees s s1 (rxObs (lines s.r30) (bitsFrom miso s.rd (8 * n))) := by
  induction n generalizing s1 with
  | zero =>
    cases h
    exact Sees.sees_refl s
  | succ n ih =>
    rw [forLoopM_succ] at h
    obtain ⟨s2, hs2, h⟩ := (except_bind_ok _ _ _).mp h
    have h1 := ih s2 hs2
    have h2 := sees_rx_byte_pass miso n s2 s1 h
    rw [h1.2.1, h1.2.2, linesAfter_rxObs, reads_rxObs, bitsFrom_length, rxObs_clk] at h2
    refine sees_eq (h1.sees_then h2) ?_
    have e : 8 * (n + 1) = 8 * n + 8 := by ring
    rw [e, bitsFrom_add, rxObs_append]

theorem sees_rx_loop (miso : Nat → Nat) (rx_cnt : Int) (s s1 : Pru)
    (h : rx_loop miso rx_cnt s = .ok s1) :
    Sees s s1 (rxObs (lines s.r30) (bitsFrom miso s.rd (8 * rx_cnt.toNat))) :=
  sees_rx_bytes miso rx_cnt.toNat s s1 h

theorem sees_store (p : Ptr) (i v : Nat) (s s1 : Pru) (h : store p i v s = .ok s1) :
    Sees s s1 [storeObs p i v] := by
  cases p with
  | loc =>
    simp only [store] at h
    split at h
    · cases h
      exact ⟨⟨[Ev.loc i v], rfl, rfl⟩, rfl, rfl⟩
    · cases h
  | ram off =>
    simp only [store, Except.ok.injEq] at h
    subst h
    exact ⟨⟨[Ev.mem (off + i) v], rfl, rfl⟩, rfl, rfl⟩

theorem risingEdges_rxObs (p : Lines) (bs : List Nat) :
    risingEdges p (rxObs p bs) = List.replicate bs.length { p with clk := true } := by
  induction bs using List.reverseRecOn with
  | nil => rfl
  | append_singleton bs b ih =>
    rw [rxObs_append, risingEdges_append, ih, linesAfter_rxObs, List.length_append,
      List.length_singleton, List.replicate_succ']
    congr 1
    simp [rxObs, rxBitObs, risingEdges]

theorem csTrace_append (a b : List Obs) : csTrace (a ++ b) = csTrace a ++ csTrace b := by
  simp [csTrace, List.filterMap_append]

theorem csTrace_txObs (p : Lines) (bs : List Bool) :
    csTrace (txObs p bs) = List.replicate (3 * bs.length) p.cs := by
  induction bs generalizing p with
  | nil => rfl
  | cons b bs ih =>
    have e : 3 * (bs.length + 1) = 3 + 3 * bs.length := by ring
    rw [txObs, csTrace_append, ih, List.length_cons, e, List.replicate_add]
    rfl

theorem csTrace_rxObs (p : Lines) (bs : List Nat) :
    csTrace (rxObs p bs) = List.replicate (2 * bs.length) p.cs := by
  induction bs with
  | nil => rfl
  | cons b bs ih =>
    have e : rxObs p (b :: bs) = rxBitObs p b ++ rxObs p bs := rfl
    have e1 : 2 * (bs.length + 1) = 2 + 2 * bs.length := by ring
    rw [e, csTrace_append, ih, List.length_cons, e1, List.replicate_add]
    rfl

theorem sees_single (miso : Nat → Nat) (pTxbuf : Nat → Nat) (tx_cnt : Int) (pRxbuf : Ptr)
    (rx_cnt : Int) (s s1 : Pru)
    (h : pru_spi_writeread_single miso pTxbuf tx_cnt pRxbuf rx_cnt s = .ok s1) :
    Sees s s1 (singleObs (lines s.r30) (txBits pTxbuf tx_cnt.toNat)
      (bitsFrom miso s.rd (8 * rx_cnt.toNat)) (storeObs pRxbuf 0 (load pRxbuf 0 s1))) := by
  simp only [pru_spi_writeread_single] at h
  obtain ⟨s5, h5, hx⟩ := (except_bind_ok _ _ _).mp h
  obtain ⟨s6, h6, hy⟩ := (except_bind_ok _ _ _).mp hx
  simp only [pure, Except.pure, Except.ok.injEq] at hy
  clear h hx
  have hv : load pRxbuf 0 s1 = assemble s5.rx_word rx_cnt := by
    rw [← hy, ← (store_spec _ _ _ _ _ h6).1]
    exact load_of_eq _ _ _ _ rfl rfl
  rw [hv]
  have h0 := sees_set_MOSI s
  generalize R30_set MOSI s = s0 at *
  have l0 : lines s0.r30 = { lines s.r30 with mosi := true } := h0.2.1
  have h1 := sees_clr_CS s0
  generalize R30_clr CS s0 = s1a at *
  have l1 : lines s1a.r30 = ⟨false, (lines s.r30).clk, true⟩ := by
    rw [h1.2.1, l0]; rfl
  have h2 := sees_clr_CLK s1a
  generalize R30_clr CLK s1a = s2 at *
  have l2 : lines s2.r30 = ⟨false, false, true⟩ := by
    rw [h2.2.1, l1]; rfl
  have h3 := sees_tx_loop pTxbuf tx_cnt s2
  generalize tx_loop pTxbuf tx_cnt s2 = s3 at *
  have l3 := h3.2.1
  rw [l2, linesAfter_txObs] at l3
  have h4 := sees_clr_MOSI s3
  generalize R30_clr MOSI s3 = s4 at *
  have l4 : lines s4.r30 =
      ⟨false, if txBits pTxbuf tx_cnt.toNat = [] then false else true, false⟩ := by
    rw [h4.2.1, l3]; rfl
  have r4 : s4.rd = s.rd := by
    have a0 := h0.2.2
    have a1 := h1.2.2
    have a2 := h2.2.2
    have a3 := h3.2.2
    have a4 := h4.2.2
    have e3 : ∀ (q : Lines) (bs : List Bool), reads (txObs q bs) = 0 := by
      intro q bs
      induction bs generalizing q with
      | nil => rfl
      | cons b bs ih => rw [txObs, reads_append, ih]; rfl
    rw [e3] at a3
    simp only [reads] at a0 a1 a2 a4
    omega
  have h5s := sees_rx_loop miso rx_cnt s4 s5 h5
  have l5 := h5s.2.1
  rw [l4, linesAfter_rxObs] at l5
  have h6s := sees_store pRxbuf 0 _ s5 s6 h6
  have l6 : lines s6.r30 = lines s5.r30 := by
    rw [h6s.2.1]
    cases pRxbuf <;> rfl
  have h7 := sees_set_CS s6
  rw [hy] at h7
  refine sees_eq ((((((h0.sees_then h1).sees_then h2).sees_then h3).sees_then h4).sees_then
    h5s).sees_then (h6s.sees_then h7)) ?_
  have hb : ∀ n, bitsFrom miso s.rd (8 * n) = [] ↔ n = 0 := by
    intro n
    rw [← List.length_eq_zero, bitsFrom_length]
    omega
  have hc : (if txBits pTxbuf tx_cnt.toNat = [] ∧ bitsFrom miso s.rd (8 * rx_cnt.toNat) = []
      then false else true) =
      (if bitsFrom miso s.rd (8 * rx_cnt.toNat) = []
        then (if txBits pTxbuf tx_cnt.toNat = [] then false else true) else true) := by
    by_cases ha : txBits pTxbuf tx_cnt.toNat = [] <;>
      by_cases hb1 : bitsFrom miso s.rd (8 * rx_cnt.toNat) = [] <;> simp [ha, hb1]
  have hrx : rxObs ⟨false, if txBits pTxbuf tx_cnt.toNat = [] then false else true, false⟩
      (bitsFrom miso s.rd (8 * rx_cnt.toNat)) =
      rxObs ⟨false, false, false⟩ (bitsFrom miso s.rd (8 * rx_cnt.toNat)) :=
    rxObs_clk ⟨false, false, false⟩ _ _
  simp only [singleObs, l0, l1, l2, l3, l4, l5, l6, r4, hc, hrx, List.append_assoc,
    List.singleton_append, List.cons_append, List.nil_append]

theorem samplesUntilOut_append (a b : List Obs) (hb : samplesUntilOut b = 0) :
    samplesUntilOut (a ++ b) = samplesUntilOut a := by
  induction a with
  | nil => exact hb
  | cons x a ih => cases x <;> simp [samplesUntilOut, ih]

theorem edgeSamples_append (p : Lines) (a b : List Obs) (hb : samplesUntilOut b = 0) :
    edgeSamples p (a ++ b) = edgeSamples p a ++ edgeSamples (linesAfter p a) b := by
  induction a generalizing p with
  | nil => rfl
  | cons x a ih =>
    cases x with
    | out q =>
      simp only [List.cons_append, edgeSamples, linesAfter]
      split <;> simp [ih, samplesUntilOut_append a b hb]
    | poll v => simp [edgeSamples, linesAfter, ih]
    | sample v => simp [edgeSamples, linesAfter, ih]
    | mem off v => simp [edgeSamples, linesAfter, ih]
    | loc i v => simp [edgeSamples, linesAfter, ih]

theorem edgeSamples_fst (p : Lines) (os : List Obs) :
    (edgeSamples p os).map Prod.fst = risingEdges p os := by
  induction os generalizing p with
  | nil => rfl
  | cons x os ih =>
    cases x with
    | out q =>
      simp only [edgeSamples, risingEdges]
      split <;> simp [ih]
    | poll v => simp [edgeSamples, risingEdges, ih]
    | sample v => simp [edgeSamples, risingEdges, ih]
    | mem off v => simp [edgeSamples, risingEdges, ih]
    | loc i v => simp [edgeSamples, risingEdges, ih]

theorem samplesUntilOut_txObs (p : Lines) (bs : List Bool) (rest : List Obs)
    (hr : samplesUntilOut rest = 0) : samplesUntilOut (txObs p bs ++ rest) = 0 := by
  cases bs with
  | nil => exact hr
  | cons b bs => rfl

theorem samplesUntilOut_rxObs (p : Lines) (bs : List Nat) (rest : List Obs)
    (hr : samplesUntilOut rest = 0) : samplesUntilOut (rxObs p bs ++ rest) = 0 := by
  cases bs with
  | nil => exact hr
  | cons b bs => rfl

theorem edgeSamples_txObs (p : Lines) (bs : List Bool) :
    edgeSamples p (txObs p bs) =
      bs.map (fun b => (({ cs := p.cs, clk := true, mosi := b } : Lines), 0)) := by
  induction bs generalizing p with
  | nil => rfl
  | cons b bs ih =>
    have e : linesAfter p (txBitObs p b) = { p with clk := true, mosi := b } := rfl
    have e1 : edgeSamples p (txBitObs p b) = [({ cs := p.cs, clk := true, mosi := b }, 0)] := by
      cases hp : p.clk <;> simp [txBitObs, edgeSamples, samplesUntilOut, hp]
    have h0 := samplesUntilOut_txObs { p with clk := true, mosi := b } bs [] rfl
    rw [List.append_nil] at h0
    rw [txObs, edgeSamples_append _ _ _ h0, e, e1, ih]
    rfl

theorem edgeSamples_rxObs (p : Lines) (bs : List Nat) :
    edgeSamples p (rxObs p bs) =
      List.replicate bs.length (({ p with clk := true } : Lines), 1) := by
  induction bs generalizing p with
  | nil => rfl
  | cons b bs ih =>
    have e : rxObs p (b :: bs) = rxBitObs p b ++ rxObs p bs := rfl
    have e0 : linesAfter p (rxBitObs p b) = { p with clk := true } := rfl
    have h0 := samplesUntilOut_rxObs p bs [] rfl
    rw [List.append_nil] at h0
    have e1 : edgeSamples p (rxBitObs p b) = [({ p with clk := true }, 1)] := by
      simp [rxBitObs, edgeSamples, samplesUntilOut]
    rw [e, edgeSamples_append _ _ _ h0, e0, e1, ← rxObs_clk p true bs, ih]
    rfl

theorem samplesUntilOut_store (p : Ptr) (i v : Nat) (rest : List Obs) :
    samplesUntilOut (storeObs p i v :: rest) = samplesUntilOut rest := by
  cases p <;> rfl

theorem edgeSamples_store (q : Lines) (p : Ptr) (i v : Nat) (rest : List Obs) :
    edgeSamples q (storeObs p i v :: rest) = edgeSamples q rest := by
  cases p <;> rfl

theorem linesAfter_store (q : Lines) (p : Ptr) (i v : Nat) (rest : List Obs) :
    linesAfter q (storeObs p i v :: rest) = linesAfter q rest := by
  cases p <;> rfl

theorem csTrace_store (p : Ptr) (i v : Nat) (rest : List Obs) :
    csTrace (storeObs p i v :: rest) = csTrace rest := by
  cases p <;> rfl

theorem reads_store (p : Ptr) (i v : Nat) (rest : List Obs) :
    reads (storeObs p i v :: rest) = reads rest := by
  cases p <;> rfl

theorem edgeSamples_singleObs (p : Lines) (tx : List Bool) (rx : List Nat) (ptr : Ptr)
    (i v : Nat) :
    edgeSamples p (singleObs p tx rx (storeObs ptr i v)) =
      tx.map (fun b => ((⟨false, true, b⟩ : Lines), 0)) ++
        List.replicate rx.length ((⟨false, true, false⟩ : Lines), 1) := by
  have s1 : samplesUntilOut [storeObs ptr i v,
      Obs.out ⟨true, if tx = [] ∧ rx = [] then false else true, false⟩] = 0 := by
    rw [samplesUntilOut_store]; rfl
  have s2 := samplesUntilOut_rxObs ⟨false, false, false⟩ rx [] rfl
  have s3 : samplesUntilOut [Obs.out ⟨false, if tx = [] then false else true, false⟩] = 0 := rfl
  have s4 := samplesUntilOut_txObs ⟨false, false, true⟩ tx [] rfl
  rw [List.append_nil] at s2 s4
  have a1 : edgeSamples p [Obs.out { p with mosi := true }, Obs.out ⟨false, p.clk, true⟩,
      Obs.out ⟨false, false, true⟩] = [] := by
    cases hp : p.clk <;> simp [edgeSamples, hp]
  have a2 : linesAfter p [Obs.out { p with mosi := true }, Obs.out ⟨false, p.clk, true⟩,
      Obs.out ⟨false, false, true⟩] = ⟨false, false, true⟩ := rfl
  have a3 : ∀ q : Lines, q.clk = (if tx = [] then false else true) →
      edgeSamples q [Obs.out ⟨false, if tx = [] then false else true, false⟩] = [] := by
    intro q hq
    by_cases ht : tx = [] <;> simp [ht] at hq <;> simp [edgeSamples, ht, hq]
  have a4 : ∀ q : Lines, q.clk = (if tx = [] ∧ rx = [] then false else true) →
      edgeSamples q [Obs.out ⟨true, if tx = [] ∧ rx = [] then false else true, false⟩] = [] := by
    intro q hq
    by_cases ht : tx = [] ∧ rx = [] <;> simp [ht] at hq <;> simp [edgeSamples, ht, hq]
  have a5 : edgeSamples ⟨false, if tx = [] then false else true, false⟩
      (rxObs ⟨false, false, false⟩ rx) = List.replicate rx.length (⟨false, true, false⟩, 1) :=
    edgeSamples_rxObs ⟨false, if tx = [] then false else true, false⟩ rx
  have a6 : linesAfter ⟨false, if tx = [] then false else true, false⟩
      (rxObs ⟨false, false, false⟩ rx) =
      ⟨false, if rx = [] then (if tx = [] then false else true) else true, false⟩ :=
    linesAfter_rxObs ⟨false, if tx = [] then false else true, false⟩ rx
  simp only [singleObs]
  rw [edgeSamples_append _ _ _ s1, edgeSamples_append _ _ _ s2, edgeSamples_append _ _ _ s3,
    edgeSamples_append _ _ _ s4, a1, a2, edgeSamples_txObs, edgeSamples_store]
  have b1 : linesAfter p ([Obs.out { p with mosi := true }, Obs.out ⟨false, p.clk, true⟩,
      Obs.out ⟨false, false, true⟩] ++ txObs ⟨false, false, true⟩ tx) =
      ⟨false, if tx = [] then false else true, tx.getLastD true⟩ := by
    rw [linesAfter_append, a2, linesAfter_txObs]
  have b2 : linesAfter p ([Obs.out { p with mosi := true }, Obs.out ⟨false, p.clk, true⟩,
      Obs.out ⟨false, false, true⟩] ++ txObs ⟨false, false, true⟩ tx ++
      [Obs.out ⟨false, if tx = [] then false else true, false⟩]) =
      ⟨false, if tx = [] then false else true, false⟩ := by
    rw [linesAfter_append, b1]
    rfl
  have b3 : linesAfter p ([Obs.out { p with mosi := true }, Obs.out ⟨false, p.clk, true⟩,
      Obs.out ⟨false, false, true⟩] ++ txObs ⟨false, false, true⟩ tx ++
      [Obs.out ⟨false, if tx = [] then false else true, false⟩] ++
      rxObs ⟨false, false, false⟩ rx) =
      ⟨false, if rx = [] then (if tx = [] then false else true) else true, false⟩ := by
    rw [linesAfter_append, b2, a6]
  rw [b1, b2, b3, a3 _ rfl, a5, a4]
  · simp
  · by_cases ht : tx = [] <;> by_cases hr : rx = [] <;> simp [ht, hr]

theorem csTrace_singleObs (p : Lines) (tx : List Bool) (rx : List Nat) (ptr : Ptr)
    (i v : Nat) :
    csTrace (singleObs p tx rx (storeObs ptr i v)) =
      p.cs :: List.replicate (3 + 3 * tx.length + 2 * rx.length) false ++ [true] := by
  simp only [singleObs, csTrace_append, csTrace_txObs, csTrace_rxObs, csTrace_store]
  have e : 3 + 3 * tx.length + 2 * rx.length = 2 + (3 * tx.length + (1 + 2 * rx.length)) := by
    omega
  rw [e, List.replicate_add, List.replicate_add, List.replicate_add]
  simp [csTrace, List.replicate]

theorem linesAfter_singleObs (p : Lines) (tx : List Bool) (rx : List Nat) (ptr : Ptr)
    (i v : Nat) :
    linesAfter p (singleObs p tx rx (storeObs ptr i v)) =
      ⟨true, if tx = [] ∧ rx = [] then false else true, false⟩ := by
  simp only [singleObs, linesAfter_append]
  rw [linesAfter_store]
  rfl

/-- C12 (single write-then-read keeps chip-select asserted). For every tx words, every
`tx_cnt` and every `rx_cnt` of at most 4, `pru_spi_writeread_single` returns and shows on the
lines: data-out high, chip-select low, clock low; the tx bits (clock low, data-out at the bit,
clock high); data-out low; for each of the `8 * rx_cnt` rx bits clock low, clock high and one
sample of data-in; the store of the word; chip-select high. Chip-select is assigned low once,
before the first clock edge, stays low at every later assignment and is assigned high by the
last one. There are `8 * (tx_cnt + rx_cnt)` rising clock edges, all with chip-select low: the
first `8 * tx_cnt` carry the tx bits, most significant bit of each word first, with no sample
of data-in; the last `8 * rx_cnt` have data-out low and exactly one sample of data-in each. -/
theorem single_waveform (miso : Nat → Nat) (pTxbuf : Nat → Nat) (tx_cnt rx_cnt : Nat)
    (pRxbuf : Ptr) (s : Pru) (h4 : rx_cnt ≤ 4) :
    ∃ s1, pru_spi_writeread_single miso pTxbuf tx_cnt pRxbuf rx_cnt s = .ok s1 ∧
      obsSince s s1 = singleObs (lines s.r30) (txBits pTxbuf tx_cnt)
        (bitsFrom miso s.rd (8 * rx_cnt)) (storeObs pRxbuf 0 (load pRxbuf 0 s1)) ∧
      csTrace (obsSince s s1) =
        (lines s.r30).cs :: List.replicate (3 + 24 * tx_cnt + 16 * rx_cnt) false ++ [true] ∧
      edgeSamples (lines s.r30) (obsSince s s1) =
        (List.range (8 * tx_cnt)).map (fun k => ((⟨false, true,
          (pTxbuf (k / 8) % 256).testBit (7 - k % 8)⟩ : Lines), 0)) ++
        List.replicate (8 * rx_cnt) ((⟨false, true, false⟩ : Lines), 1) ∧
      (edgeSamples (lines s.r30) (obsSince s s1)).length = 8 * (tx_cnt + rx_cnt) ∧
      (lines s1.r30).cs = true := by
  obtain ⟨s1, hs1, _⟩ := single_spec miso pTxbuf tx_cnt pRxbuf rx_cnt (by simpa using h4) s
  have h := sees_single miso pTxbuf tx_cnt pRxbuf rx_cnt s s1 hs1
  simp only [Int.toNat_ofNat] at h
  have he := edgeSamples_singleObs (lines s.r30) (txBits pTxbuf tx_cnt)
    (bitsFrom miso s.rd (8 * rx_cnt)) pRxbuf 0 (load pRxbuf 0 s1)
  rw [bitsFrom_length] at he
  have he2 : (txBits pTxbuf tx_cnt).map (fun b => ((⟨false, true, b⟩ : Lines), 0)) =
      (List.range (8 * tx_cnt)).map (fun k => ((⟨false, true,
          (pTxbuf (k / 8) % 256).testBit (7 - k % 8)⟩ : Lines), 0)) := by
    simp [txBits]
  rw [he2] at he
  refine ⟨s1, hs1, h.obs_eq, ?_, ?_, ?_, ?_⟩
  · rw [h.obs_eq, csTrace_singleObs, txBits_length, bitsFrom_length]
    congr 3
    omega
  · rw [h.obs_eq, he]
  · rw [h.obs_eq, he]
    simp
    omega
  · rw [h.2.1, linesAfter_singleObs]

/-- Witness for `single_waveform`: one tx word `0x44`, three rx bytes. -/
theorem single_waveform_witness :
    3 ≤ 4 ∧ ∃ s1, pru_spi_writeread_single demoMiso (fun _ => 68) (1 : Nat) Ptr.loc (3 : Nat)
        demoPru = .ok s1 ∧
      (edgeSamples (lines demoPru.r30) (obsSince demoPru s1)).length = 8 * (1 + 3) ∧
      (lines s1.r30).cs = true := by
  obtain ⟨s1, h1, _, _, _, h5, h6⟩ :=
    single_waveform demoMiso (fun _ => 68) 1 3 Ptr.loc demoPru (by decide)
  exact ⟨by decide, s1, h1, h5, h6⟩

theorem misoBit_ne_zero (v : Nat) (h : misoBit v ≠ 0) : misoBit v = 1 := by
  have := misoBit_le v
  omega

theorem sees_poll (miso : Nat → Nat) (s : Pru) :
    Sees s { s with rd := s.rd + 1, trace := s.trace ++ [Ev.poll (miso s.rd)] }
      [Obs.poll (misoBit (miso s.rd))] :=
  ⟨⟨[Ev.poll (miso s.rd)], rfl, rfl⟩, rfl, rfl⟩

theorem sees_wait_high (miso : Nat → Nat) (fuel : Nat) (s s1 : Pru)
    (h : wait_miso_high miso fuel s = .ok s1) :
    ∃ a, Sees s s1 ((List.replicate a 0 ++ [1]).map Obs.poll) := by
  induction fuel generalizing s with
  | zero => simp [wait_miso_high] at h
  | succ n ih =>
    simp only [wait_miso_high] at h
    split at h
    · rename_i hb
      cases h
      refine ⟨0, sees_eq (sees_poll miso s) ?_⟩
      rw [misoBit_ne_zero _ hb]
      rfl
    · rename_i hb
      have hb0 : misoBit (miso s.rd) = 0 := by simpa using hb
      obtain ⟨a, ha⟩ := ih _ h
      refine ⟨a + 1, sees_eq ((sees_poll miso s).sees_then ha) ?_⟩
      rw [hb0, List.replicate_succ]
      rfl

theorem sees_wait_low (miso : Nat → Nat) (fuel : Nat) (s s1 : Pru)
    (h : wait_miso_low miso fuel s = .ok s1) :
    ∃ b, Sees s s1 ((List.replicate b 1 ++ [0]).map Obs.poll) := by
  induction fuel generalizing s with
  | zero => simp [wait_miso_low] at h
  | succ n ih =>
    simp only [wait_miso_low] at h
    split at h
    · rename_i hb
      cases h
      refine ⟨0, sees_eq (sees_poll miso s) ?_⟩
      rw [hb]
      rfl
    · rename_i hb
      obtain ⟨b, hb1⟩ := ih _ h
      refine ⟨b + 1, sees_eq ((sees_poll miso s).sees_then hb1) ?_⟩
      rw [misoBit_ne_zero _ hb, List.replicate_succ]
      rfl

theorem linesAfter_polls (q : Lines) (ps : List Nat) (rest : List Obs) :
    linesAfter q (ps.map Obs.poll ++ rest) = linesAfter q rest := by
  induction ps with
  | nil => rfl
  | cons x ps ih => exact ih

theorem sees_conversion (miso : Nat → Nat) (fuel : Nat) (pTxbuf : Nat → Nat) (tx_cnt : Int)
    (pRxbuf : Ptr) (rx_cnt : Int) (c : Nat) (s s1 : Pru)
    (h : conversion miso fuel pTxbuf tx_cnt pRxbuf rx_cnt c s = .ok s1) :
    ∃ ch : List Nat × List Nat, Handshake ch.1 ∧ ch.2.length = 8 * rx_cnt.toNat ∧
      Sees s s1 (sampleObs (lines s.r30) (txBits pTxbuf tx_cnt.toNat) ch
        (storeObs pRxbuf c (load pRxbuf c s1))) := by
  simp only [conversion] at h
  obtain ⟨sa, ha, hx⟩ := (except_bind_ok _ _ _).mp h
  obtain ⟨sb, hb, hy⟩ := (except_bind_ok _ _ _).mp hx
  obtain ⟨sc, hc, hz⟩ := (except_bind_ok _ _ _).mp hy
  obtain ⟨sd, hd, hw⟩ := (except_bind_ok _ _ _).mp hz
  simp only [pure, Except.pure, Except.ok.injEq] at hw
  clear h hx hy hz
  have hv : load pRxbuf c s1 = assemble sc.rx_word rx_cnt := by
    rw [← hw, ← (store_spec _ _ _ _ _ hd).1]
    exact load_of_eq _ _ _ _ rfl rfl
  rw [hv]
  obtain ⟨a, h1⟩ := sees_wait_high miso fuel s sa ha
  obtain ⟨b, h2⟩ := sees_wait_low miso fuel sa sb hb
  have l2 : lines sb.r30 = lines s.r30 := by
    have e1 := linesAfter_polls (lines s.r30) (List.replicate a 0 ++ [1]) []
    have e2 := linesAfter_polls (lines sa.r30) (List.replicate b 1 ++ [0]) []
    rw [List.append_nil] at e1 e2
    rw [h2.2.1, e2, h1.2.1, e1]
    rfl
  have h3 := sees_tx_loop pTxbuf tx_cnt sb
  generalize tx_loop pTxbuf tx_cnt sb = s3 at *
  have l3 := h3.2.1
  rw [l2, linesAfter_txObs] at l3
  have h4 := sees_set_MOSI s3
  generalize R30_set MOSI s3 = s4 at *
  have l4 : lines s4.r30 = ⟨(lines s.r30).cs,
      if txBits pTxbuf tx_cnt.toNat = [] then (lines s.r30).clk else true, true⟩ := by
    rw [h4.2.1, l3]; rfl
  have h5 := sees_rx_loop miso rx_cnt s4 sc hc
  have h6 := sees_store pRxbuf c _ sc sd hd
  have h7 := sees_delay (10 * DELAY_CNT) sd
  rw [hw] at h7
  refine ⟨(List.replicate a 0 ++ [1] ++ (List.replicate b 1 ++ [0]),
    bitsFrom miso s4.rd (8 * rx_cnt.toNat)), ⟨a, b, rfl⟩, bitsFrom_length _ _ _, ?_⟩
  refine sees_eq ((((((h1.sees_then h2).sees_then h3).sees_then h4).sees_then h5).sees_then
    h6).sees_then h7) ?_
  have hrx : rxObs ⟨(lines s.r30).cs,
      if txBits pTxbuf tx_cnt.toNat = [] then (lines s.r30).clk else true, true⟩
      (bitsFrom miso s4.rd (8 * rx_cnt.toNat)) =
      rxObs ⟨(lines s.r30).cs, false, true⟩ (bitsFrom miso s4.rd (8 * rx_cnt.toNat)) :=
    rxObs_clk ⟨(lines s.r30).cs, false, true⟩ _ _
  simp only [sampleObs, l2, l3, l4, hrx, List.append_assoc, List.map_append, List.append_nil]

theorem linesAfter_sampleObs (q : Lines) (tx : List Bool) (ch : List Nat × List Nat)
    (ptr : Ptr) (i v : Nat) :
    linesAfter q (sampleObs q tx ch (storeObs ptr i v)) =
      ⟨q.cs, if tx = [] ∧ ch.2 = [] then q.clk else true, true⟩ := by
  have a6 : linesAfter ⟨q.cs, if tx = [] then q.clk else true, true⟩
      (rxObs ⟨q.cs, false, true⟩ ch.2) =
      ⟨q.cs, if ch.2 = [] then (if tx = [] then q.clk else true) else true, true⟩ :=
    linesAfter_rxObs ⟨q.cs, if tx = [] then q.clk else true, true⟩ ch.2
  have e : linesAfter q (sampleObs q tx ch (storeObs ptr i v)) =
      linesAfter (linesAfter (linesAfter (linesAfter q (txObs q tx))
        [Obs.out ⟨q.cs, if tx = [] then q.clk else true, true⟩])
        (rxObs ⟨q.cs, false, true⟩ ch.2)) [storeObs ptr i v] := by
    simp only [sampleObs, List.append_assoc]
    rw [linesAfter_polls]
    simp only [linesAfter_append]
  rw [e, linesAfter_store]
  simp only [linesAfter]
  rw [a6]
  by_cases ht : tx = [] <;> by_cases hr : ch.2 = [] <;> simp [ht, hr]

theorem burstObs_snoc (tx : List Bool) (ptr : Ptr) (w : Nat → Nat) (q : Lines) (c : Nat)
    (chs : List (List Nat × List Nat)) (ch : List Nat × List Nat) :
    burstObs tx ptr w q c (chs ++ [ch]) =
      burstObs tx ptr w q c chs ++
        sampleObs (linesAfter q (burstObs tx ptr w q c chs)) tx ch
          (storeObs ptr (c + chs.length) (w (c + chs.length))) := by
  induction chs generalizing q c with
  | nil => simp [burstObs, linesAfter]
  | cons x chs ih =>
    have e : c + (x :: chs).length = c + 1 + chs.length := by
      simp only [List.length_cons]; omega
    rw [List.cons_append, burstObs, burstObs, ih, linesAfter_append, linesAfter_sampleObs, e,
      List.append_assoc]

theorem burstObs_congr (tx : List Bool) (ptr : Ptr) (w w1 : Nat → Nat) (q : Lines) (c : Nat)
    (chs : List (List Nat × List Nat))
    (h : ∀ i, c ≤ i → i < c + chs.length → w i = w1 i) :
    burstObs tx ptr w q c chs = burstObs tx ptr w1 q c chs := by
  induction chs generalizing q c with
  | nil => rfl
  | cons x chs ih =>
    simp only [List.length_cons] at h
    rw [burstObs, burstObs, h c (Nat.le_refl c) (by omega),
      ih _ (c + 1) (fun i h1 h2 => h i (by omega) (by omega))]

theorem sees_burst (miso : Nat → Nat) (fuel : Nat) (pTxbuf : Nat → Nat) (tx_cnt : Int)
    (pRxbuf : Ptr) (rx_cnt : Int) (h4 : rx_cnt.toNat ≤ 4) (n : Nat) (s s1 : Pru)
    (h : forLoopM n (conversion miso fuel pTxbuf tx_cnt pRxbuf rx_cnt) s = .ok s1) :
    ∃ chs : List (List Nat × List Nat), chs.length = n ∧
      (∀ ch ∈ chs, Handshake ch.1 ∧ ch.2.length = 8 * rx_cnt.toNat) ∧
      Sees s s1 (burstObs (txBits pTxbuf tx_cnt.toNat) pRxbuf (fun c => load pRxbuf c s1)
        (lines s.r30) 0 chs) := by
  induction n generalizing s1 with
  | zero =>
    cases h
    exact ⟨[], rfl, fun ch hch => absurd hch (List.not_mem_nil ch), Sees.sees_refl s⟩
  | succ n ih =>
    rw [forLoopM_succ] at h
    obtain ⟨s2, hs2, hx⟩ := (except_bind_ok _ _ _).mp h
    obtain ⟨chs, hl, hh, hsee⟩ := ih s2 hs2
    obtain ⟨ch, c1, c2, c3⟩ := sees_conversion miso fuel pTxbuf tx_cnt pRxbuf rx_cnt n s2 s1 hx
    obtain ⟨_, _, k2, _⟩ := conversion_spec miso fuel pTxbuf tx_cnt pRxbuf rx_cnt h4 n s2 s1 hx
    refine ⟨chs ++ [ch], by simp [hl], ?_, ?_⟩
    · intro x hx1
      rcases List.mem_append.mp hx1 with hx1 | hx1
      · exact hh x hx1
      · rw [List.mem_singleton.mp hx1]
        exact ⟨c1, c2⟩
    · rw [hsee.2.1] at c3
      have hc := burstObs_congr (txBits pTxbuf tx_cnt.toNat) pRxbuf
        (fun c => load pRxbuf c s2) (fun c => load pRxbuf c s1) (lines s.r30) 0 chs
        (fun i _ hi => (k2 i (by omega)).symm)
      rw [hc] at hsee c3
      refine sees_eq (hsee.sees_then c3) ?_
      rw [burstObs_snoc, hl, Nat.zero_add]

theorem burst_lines (tx : List Bool) (ptr : Ptr) (w : Nat → Nat) (q : Lines) (c : Nat)
    (chs : List (List Nat × List Nat)) (hq : q.mosi = true) :
    (linesAfter q (burstObs tx ptr w q c chs)).cs = q.cs ∧
    (linesAfter q (burstObs tx ptr w q c chs)).mosi = true := by
  induction chs generalizing q c with
  | nil => exact ⟨rfl, hq⟩
  | cons x chs ih =>
    rw [burstObs, linesAfter_append, linesAfter_sampleObs]
    exact ih _ _ rfl

theorem sees_continuous (miso : Nat → Nat) (fuel : Nat) (pTxbuf : Nat → Nat) (tx_cnt : Int)
    (pRxbuf : Ptr) (rx_cnt : Int) (h4 : rx_cnt.toNat ≤ 4) (ncnv : Int) (s s1 : Pru)
    (h : pru_spi_writeread_continuous miso fuel pTxbuf tx_cnt pRxbuf rx_cnt ncnv s = .ok s1) :
    ∃ chs : List (List Nat × List Nat), chs.length = ncnv.toNat ∧
      (∀ ch ∈ chs, Handshake ch.1 ∧ ch.2.length = 8 * rx_cnt.toNat) ∧
      Sees s s1 (contObs (lines s.r30) (txBits pTxbuf tx_cnt.toNat) pRxbuf
        (fun c => load pRxbuf c s1) chs) := by
  simp only [pru_spi_writeread_continuous] at h
  obtain ⟨s2, hs2, hx⟩ := (except_bind_ok _ _ _).mp h
  simp only [pure, Except.pure, Except.ok.injEq] at hx
  clear h
  have h0a := sees_set_MOSI s
  generalize R30_set MOSI s = sm at *
  have l0a : lines sm.r30 = { lines s.r30 with mosi := true } := h0a.2.1
  have h0b := sees_clr_CS sm
  generalize R30_clr CS sm = s0 at *
  have l0 : lines s0.r30 = ⟨false, (lines s.r30).clk, true⟩ := by
    rw [h0b.2.1, l0a]; rfl
  obtain ⟨chs, hl, hh, hsee⟩ := sees_burst miso fuel pTxbuf tx_cnt pRxbuf rx_cnt h4 _ s0 s2 hs2
  have hw : (fun c => load pRxbuf c s2) = (fun c => load pRxbuf c s1) := by
    funext c
    rw [← hx]
    exact (load_of_eq _ _ _ _ rfl rfl).symm
  rw [hw, l0] at hsee
  obtain ⟨b1, b2⟩ := burst_lines (txBits pTxbuf tx_cnt.toNat) pRxbuf (fun c => load pRxbuf c s1)
    ⟨false, (lines s.r30).clk, true⟩ 0 chs rfl
  have l2 := hsee.2.1
  rw [l0] at l2
  have h3a := sees_set_CS s2
  generalize R30_set CS s2 = s3 at *
  have l3 : lines s3.r30 = { lines s2.r30 with cs := true } := h3a.2.1
  have h3b := sees_clr_MOSI s3
  rw [hx] at h3b
  refine ⟨chs, hl, hh, sees_eq ((((h0a.sees_then h0b).sees_then hsee).sees_then h3a).sees_then
    h3b) ?_⟩
  simp only [contObs, l0a, l3, l2, b2, List.append_assoc, List.singleton_append,
    List.cons_append, List.nil_append]

theorem samplesUntilOut_polls (ps : List Nat) (rest : List Obs) :
    samplesUntilOut (ps.map Obs.poll ++ rest) = samplesUntilOut rest := by
  induction ps with
  | nil => rfl
  | cons x ps ih => exact ih

theorem edgeSamples_polls (q : Lines) (ps : List Nat) (rest : List Obs) :
    edgeSamples q (ps.map Obs.poll ++ rest) = edgeSamples q rest := by
  induction ps with
  | nil => rfl
  | cons x ps ih => exact ih

theorem csTrace_polls (ps : List Nat) (rest : List Obs) :
    csTrace (ps.map Obs.poll ++ rest) = csTrace rest := by
  induction ps with
  | nil => rfl
  | cons x ps ih => exact ih

theorem stores_append (a b : List Obs) : stores (a ++ b) = stores a ++ stores b := by
  simp [stores]

theorem stores_polls (ps : List Nat) : stores (ps.map Obs.poll) = [] := by
  induction ps with
  | nil => rfl
  | cons x ps ih => exact ih

theorem stores_txObs (q : Lines) (bs : List Bool) : stores (txObs q bs) = [] := by
  induction bs generalizing q with
  | nil => rfl
  | cons b bs ih => rw [txObs, stores_append, ih]; rfl

theorem stores_rxObs (q : Lines) (bs : List Nat) : stores (rxObs q bs) = [] := by
  induction bs with
  | nil => rfl
  | cons b bs ih =>
    have e : rxObs q (b :: bs) = rxBitObs q b ++ rxObs q bs := rfl
    rw [e, stores_append, ih]
    rfl

theorem stores_store (p : Ptr) (i v : Nat) : stores [storeObs p i v] = [storeObs p i v] := by
  cases p <;> rfl

theorem samplesUntilOut_sampleObs (q : Lines) (tx : List Bool) (ch : List Nat × List Nat)
    (st : Obs) (rest : List Obs) : samplesUntilOut (sampleObs q tx ch st ++ rest) = 0 := by
  simp only [sampleObs, List.append_assoc]
  rw [samplesUntilOut_polls]
  exact samplesUntilOut_txObs _ _ _ rfl

theorem samplesUntilOut_burstObs (tx : List Bool) (ptr : Ptr) (w : Nat → Nat) (q : Lines)
    (c : Nat) (chs : List (List Nat × List Nat)) (rest : List Obs)
    (hr : samplesUntilOut rest = 0) :
    samplesUntilOut (burstObs tx ptr w q c chs ++ rest) = 0 := by
  cases chs with
  | nil => exact hr
  | cons x chs =>
    rw [burstObs, List.append_assoc]
    exact samplesUntilOut_sampleObs _ _ _ _ _

theorem edgeSamples_sampleObs (q : Lines) (tx : List Bool) (ch : List Nat × List Nat)
    (ptr : Ptr) (i v : Nat) :
    edgeSamples q (sampleObs q tx ch (storeObs ptr i v)) =
      tx.map (fun b => ((⟨q.cs, true, b⟩ : Lines), 0)) ++
        List.replicate ch.2.length ((⟨q.cs, true, true⟩ : Lines), 1) := by
  have s1 : samplesUntilOut [storeObs ptr i v] = 0 := by
    rw [samplesUntilOut_store]; rfl
  have s2 := samplesUntilOut_rxObs ⟨q.cs, false, true⟩ ch.2 [] rfl
  have s3 : samplesUntilOut [Obs.out ⟨q.cs, if tx = [] then q.clk else true, true⟩] = 0 := rfl
  rw [List.append_nil] at s2
  have a3 : edgeSamples (linesAfter q (txObs q tx))
      [Obs.out ⟨q.cs, if tx = [] then q.clk else true, true⟩] = [] := by
    rw [linesAfter_txObs]
    by_cases ht : tx = []
    · cases hq : q.clk <;> simp [edgeSamples, ht, hq]
    · simp [edgeSamples, ht]
  have a5 : edgeSamples ⟨q.cs, if tx = [] then q.clk else true, true⟩
      (rxObs ⟨q.cs, false, true⟩ ch.2) =
      List.replicate ch.2.length (⟨q.cs, true, true⟩, 1) :=
    edgeSamples_rxObs ⟨q.cs, if tx = [] then q.clk else true, true⟩ ch.2
  have b2 : linesAfter q (txObs q tx ++
      [Obs.out ⟨q.cs, if tx = [] then q.clk else true, true⟩]) =
      ⟨q.cs, if tx = [] then q.clk else true, true⟩ := by
    rw [linesAfter_append]
    rfl
  have e : sampleObs q tx ch (storeObs ptr i v) = ch.1.map Obs.poll ++
      (txObs q tx ++ [Obs.out ⟨q.cs, if tx = [] then q.clk else true, true⟩] ++
        rxObs ⟨q.cs, false, true⟩ ch.2 ++ [storeObs ptr i v]) := by
    simp only [sampleObs, List.append_assoc]
  rw [e, edgeSamples_polls, edgeSamples_append _ _ _ s1, edgeSamples_append _ _ _ s2,
    edgeSamples_append _ _ _ s3, edgeSamples_txObs, a3, b2, a5, edgeSamples_store]
  simp [edgeSamples]

theorem edgeSamples_burstObs (tx : List Bool) (ptr : Ptr) (w : Nat → Nat) (q : Lines) (c : Nat)
    (chs : List (List Nat × List Nat)) :
    edgeSamples q (burstObs tx ptr w q c chs) =
      chs.flatMap (fun ch => tx.map (fun b => ((⟨q.cs, true, b⟩ : Lines), 0)) ++
        List.replicate ch.2.length ((⟨q.cs, true, true⟩ : Lines), 1)) := by
  induction chs generalizing q c with
  | nil => rfl
  | cons x chs ih =>
    have h0 := samplesUntilOut_burstObs tx ptr w
      ⟨q.cs, if tx = [] ∧ x.2 = [] then q.clk else true, true⟩ (c + 1) chs [] rfl
    rw [List.append_nil] at h0
    rw [burstObs, edgeSamples_append _ _ _ h0, edgeSamples_sampleObs, linesAfter_sampleObs, ih,
      List.flatMap_cons]

theorem csTrace_sampleObs (q : Lines) (tx : List Bool) (ch : List Nat × List Nat) (ptr : Ptr)
    (i v : Nat) :
    csTrace (sampleObs q tx ch (storeObs ptr i v)) =
      List.replicate (3 * tx.length + 1 + 2 * ch.2.length) q.cs := by
  have e : sampleObs q tx ch (storeObs ptr i v) = ch.1.map Obs.poll ++
      (txObs q tx ++ [Obs.out ⟨q.cs, if tx = [] then q.clk else true, true⟩] ++
        rxObs ⟨q.cs, false, true⟩ ch.2 ++ [storeObs ptr i v]) := by
    simp only [sampleObs, List.append_assoc]
  rw [e, csTrace_polls]
  simp only [csTrace_append, csTrace_txObs, csTrace_rxObs, csTrace_store]
  rw [List.replicate_add, List.replicate_add]
  simp [csTrace]

theorem csTrace_burstObs (tx : List Bool) (ptr : Ptr) (w : Nat → Nat) (q : Lines) (c : Nat)
    (chs : List (List Nat × List Nat)) (m : Nat) (hm : ∀ ch ∈ chs, ch.2.length = m) :
    csTrace (burstObs tx ptr w q c chs) =
      List.replicate (chs.length * (3 * tx.length + 1 + 2 * m)) q.cs := by
  induction chs generalizing q c with
  | nil => simp [burstObs, csTrace]
  | cons x chs ih =>
    rw [burstObs, csTrace_append, csTrace_sampleObs, ih _ _ (fun ch hch =>
      hm ch (List.mem_cons_of_mem _ hch)), hm x (List.mem_cons_self _ _), List.length_cons,
      ← List.replicate_add]
    congr 1
    ring

theorem stores_burstObs (tx : List Bool) (ptr : Ptr) (w : Nat → Nat) (q : Lines) (c : Nat)
    (chs : List (List Nat × List Nat)) :
    stores (burstObs tx ptr w q c chs) =
      (List.range chs.length).map (fun k => storeObs ptr (c + k) (w (c + k))) := by
  induction chs generalizing q c with
  | nil => rfl
  | cons x chs ih =>
    rw [burstObs, stores_append, ih, List.length_cons, List.range_succ_eq_map, List.map_cons,
      List.map_map]
    simp only [sampleObs, stores_append, stores_polls, stores_txObs, stores_rxObs, stores_store]
    simp only [List.nil_append, List.append_nil, Nat.add_zero]
    have e : stores [Obs.out ⟨q.cs, if tx = [] then q.clk else true, true⟩] = [] := rfl
    rw [e, List.nil_append, List.singleton_append]
    congr 1
    apply List.map_congr_left
    intro k _
    simp only [Function.comp, Nat.succ_eq_add_one]
    rw [show c + 1 + k = c + (k + 1) by omega]

theorem edgeSamples_contObs (p : Lines) (tx : List Bool) (ptr : Ptr) (w : Nat → Nat)
    (chs : List (List Nat × List Nat)) :
    edgeSamples p (contObs p tx ptr w chs) =
      chs.flatMap (fun ch => tx.map (fun b => ((⟨false, true, b⟩ : Lines), 0)) ++
        List.replicate ch.2.length ((⟨false, true, true⟩ : Lines), 1)) := by
  have a1 : edgeSamples p [Obs.out { p with mosi := true }, Obs.out ⟨false, p.clk, true⟩] =
      [] := by
    cases hp : p.clk <;> simp [edgeSamples, hp]
  have a2 : linesAfter p [Obs.out { p with mosi := true }, Obs.out ⟨false, p.clk, true⟩] =
      ⟨false, p.clk, true⟩ := rfl
  have a3 : ∀ (q : Lines) (m1 m2 : Bool),
      edgeSamples q [Obs.out ⟨true, q.clk, m1⟩, Obs.out ⟨true, q.clk, m2⟩] = [] := by
    intro q m1 m2
    cases hq : q.clk <;> simp [edgeSamples, hq]
  have s1 : ∀ c : Bool, samplesUntilOut [Obs.out ⟨true, c, true⟩, Obs.out ⟨true, c, false⟩] =
      0 := fun _ => rfl
  have s2 := samplesUntilOut_burstObs tx ptr w ⟨false, p.clk, true⟩ 0 chs [] rfl
  rw [List.append_nil] at s2
  rw [contObs, edgeSamples_append _ _ _ (s1 _), edgeSamples_append _ _ _ s2, a1, a2,
    edgeSamples_burstObs, linesAfter_append, a2, a3, List.append_nil, List.nil_append]

theorem csTrace_contObs (p : Lines) (tx : List Bool) (ptr : Ptr) (w : Nat → Nat)
    (chs : List (List Nat × List Nat)) (m : Nat) (hm : ∀ ch ∈ chs, ch.2.length = m) :
    csTrace (contObs p tx ptr w chs) =
      p.cs :: List.replicate (1 + chs.length * (3 * tx.length + 1 + 2 * m)) false ++
        [true, true] := by
  rw [contObs, csTrace_append, csTrace_append, csTrace_burstObs _ _ _ _ _ _ m hm,
    List.replicate_add]
  rfl

theorem stores_contObs (p : Lines) (tx : List Bool) (ptr : Ptr) (w : Nat → Nat)
    (chs : List (List Nat × List Nat)) :
    stores (contObs p tx ptr w chs) =
      (List.range chs.length).map (fun k => storeObs ptr k (w k)) := by
  rw [contObs, stores_append, stores_append, stores_burstObs]
  simp [stores]

theorem linesAfter_contObs (p : Lines) (tx : List Bool) (ptr : Ptr) (w : Nat → Nat)
    (chs : List (List Nat × List Nat)) :
    (linesAfter p (contObs p tx ptr w chs)).cs = true ∧
    (linesAfter p (contObs p tx ptr w chs)).mosi = false := by
  rw [contObs, linesAfter_append]
  exact ⟨rfl, rfl⟩

/-- C13 (continuous burst structure). For every `ncnv`, every `rx_cnt` of at most 4 and every
run of `pru_spi_writeread_continuous` that returns (every handshake wait comes to an end):
the run shows data-out high and chip-select low, then for each of the `ncnv` samples the
handshake reads of data-in (low any number of times then high, high any number of times then
low), the tx bits, data-out high, `8 * rx_cnt` times clock low, clock high and one sample of
data-in, and the store of the sample, then chip-select high and data-out low. Chip-select is
assigned low by the second assignment, before the first handshake, stays low at every
assignment up to the store of the last sample, and is high at the last two assignments. The
stores are `pRxbuf[0]`, ..., `pRxbuf[ncnv-1]`, each once and in this order, and nothing else is
stored. Each sample has `8 * (tx_cnt + rx_cnt)` rising clock edges, all after its handshake.
The run does return when data-in keeps toggling (and, for the four-word local buffer, `ncnv`
is at most 4). -/
theorem continuous_burst (miso : Nat → Nat) (pTxbuf : Nat → Nat) (tx_cnt rx_cnt ncnv : Nat)
    (pRxbuf : Ptr) (s : Pru) (h4 : rx_cnt ≤ 4) :
    (∀ fuel s1, pru_spi_writeread_continuous miso fuel pTxbuf tx_cnt pRxbuf rx_cnt ncnv s
        = .ok s1 →
      ∃ chs : List (List Nat × List Nat), chs.length = ncnv ∧
        (∀ ch ∈ chs, Handshake ch.1 ∧ ch.2.length = 8 * rx_cnt) ∧
        obsSince s s1 = contObs (lines s.r30) (txBits pTxbuf tx_cnt) pRxbuf
          (fun c => load pRxbuf c s1) chs ∧
        csTrace (obsSince s s1) = (lines s.r30).cs ::
          List.replicate (1 + ncnv * (24 * tx_cnt + 1 + 16 * rx_cnt)) false ++ [true, true] ∧
        stores (obsSince s s1) =
          (List.range ncnv).map (fun c => storeObs pRxbuf c (load pRxbuf c s1)) ∧
        (edgeSamples (lines s.r30) (obsSince s s1)).length = ncnv * (8 * (tx_cnt + rx_cnt)) ∧
        (lines s1.r30).cs = true ∧ (lines s1.r30).mosi = false) ∧
    (Toggles miso → (pRxbuf = Ptr.loc → ncnv ≤ 4) → ∃ F s1, ∀ fuel, F ≤ fuel →
      pru_spi_writeread_continuous miso fuel pTxbuf tx_cnt pRxbuf rx_cnt ncnv s = .ok s1) := by
  constructor
  · intro fuel s1 h
    obtain ⟨chs, hl, hh, hsee⟩ := sees_continuous miso fuel pTxbuf tx_cnt pRxbuf rx_cnt
      (by simpa using h4) ncnv s s1 h
    simp only [Int.toNat_ofNat] at hl hh hsee
    have hm : ∀ ch ∈ chs, ch.2.length = 8 * rx_cnt := fun ch hch => (hh ch hch).2
    obtain ⟨c1, c2⟩ := linesAfter_contObs (lines s.r30) (txBits pTxbuf tx_cnt) pRxbuf
      (fun c => load pRxbuf c s1) chs
    refine ⟨chs, hl, hh, hsee.obs_eq, ?_, ?_, ?_, by rw [hsee.2.1]; exact c1,
      by rw [hsee.2.1]; exact c2⟩
    · rw [hsee.obs_eq, csTrace_contObs _ _ _ _ _ _ hm, hl, txBits_length]
      congr 3
      ring
    · rw [hsee.obs_eq, stores_contObs, hl]
    · rw [hsee.obs_eq, edgeSamples_contObs, ← hl]
      clear hl hsee hh c1 c2
      induction chs with
      | nil => simp
      | cons x chs ih =>
        rw [List.flatMap_cons, List.length_append, ih (fun ch hch =>
          hm ch (List.mem_cons_of_mem _ hch)), List.length_append, List.length_map,
          List.length_replicate, hm x (List.mem_cons_self _ _), txBits_length, List.length_cons]
        ring
  · intro ht hp
    exact continuous_total miso ht pTxbuf tx_cnt pRxbuf rx_cnt (by simpa using h4) ncnv
      (by simpa using hp) s

/-- Witness for `continuous_burst`: two samples of three bytes into the mailbox. -/
theorem continuous_burst_witness :
    3 ≤ 4 ∧ ∃ s1, pru_spi_writeread_continuous demoMiso 10 (fun _ => 68) (1 : Nat) (Ptr.ram 7)
        (3 : Nat) (2 : Nat) demoPru = .ok s1 ∧
      stores (obsSince demoPru s1) = [Obs.mem 7 (s1.pMEM 7), Obs.mem 8 (s1.pMEM 8)] ∧
      (edgeSamples (lines demoPru.r30) (obsSince demoPru s1)).length = 2 * (8 * (1 + 3)) := by
  obtain ⟨s1, hrun⟩ := except_ok_of_toBool (pru_spi_writeread_continuous demoMiso 10
    (fun _ => 68) (1 : Nat) (Ptr.ram 7) (3 : Nat) (2 : Nat) demoPru) (by decide!)
  obtain ⟨chs, _, _, _, _, h5, h6, _⟩ :=
    (continuous_burst demoMiso (fun _ => 68) 1 3 2 (Ptr.ram 7) demoPru (by decide)).1 10 s1 hrun
  exact ⟨by decide, s1, hrun, h5, h6⟩

theorem edges_continuous (miso : Nat → Nat) (fuel : Nat) (pTxbuf : Nat → Nat)
    (tx_cnt rx_cnt ncnv : Nat) (pRxbuf : Ptr) (s s1 : Pru) (h4 : rx_cnt ≤ 4)
    (h : pru_spi_writeread_continuous miso fuel pTxbuf tx_cnt pRxbuf rx_cnt ncnv s = .ok s1) :
    edgeSamples (lines s.r30) (obsSince s s1) =
      (List.range ncnv).flatMap (fun _ =>
        (List.range (8 * tx_cnt)).map (fun k => ((⟨false, true,
          (pTxbuf (k / 8) % 256).testBit (7 - k % 8)⟩ : Lines), 0)) ++
        List.replicate (8 * rx_cnt) ((⟨false, true, true⟩ : Lines), 1)) := by
  obtain ⟨chs, hl, hh, hsee⟩ := sees_continuous miso fuel pTxbuf tx_cnt pRxbuf rx_cnt
    (by simpa using h4) ncnv s s1 h
  simp only [Int.toNat_ofNat] at hl hh hsee
  have hm : ∀ ch ∈ chs, ch.2.length = 8 * rx_cnt := fun ch hch => (hh ch hch).2
  rw [hsee.obs_eq, edgeSamples_contObs, ← hl]
  clear hl hsee hh
  induction chs with
  | nil => rfl
  | cons x chs ih =>
    rw [List.flatMap_cons, ih (fun ch hch => hm ch (List.mem_cons_of_mem _ hch)),
      hm x (List.mem_cons_self _ _), List.length_cons, List.range_succ_eq_map,
      List.flatMap_cons, List.flatMap_map]
    simp [txBits]

/-- C14, as the claim words it, fails. In a run of `pru_spi_writeread_continuous` with one tx
word `0x44`, three rx bytes and one sample, the rising clock edges are the 8 tx edges followed
by 24 edges at which data-in is sampled, and data-out is high at every one of the 24. -/
theorem continuous_read_edges_counterexample :
    ∃ s1, pru_spi_writeread_continuous demoMiso 10 (fun _ => 68) (1 : Nat) (Ptr.ram 7)
        (3 : Nat) (1 : Nat) demoPru = .ok s1 ∧
      (edgeSamples (lines demoPru.r30) (obsSince demoPru s1)).drop 8 =
        List.replicate 24 ((⟨false, true, true⟩ : Lines), 1) ∧
      ¬ ReadEdgesLow (lines demoPru.r30) (obsSince demoPru s1) := by
  obtain ⟨s1, hrun⟩ := except_ok_of_toBool (pru_spi_writeread_continuous demoMiso 10
    (fun _ => 68) (1 : Nat) (Ptr.ram 7) (3 : Nat) (1 : Nat) demoPru) (by decide!)
  have e := edges_continuous demoMiso 10 (fun _ => 68) 1 3 1 (Ptr.ram 7) demoPru s1
    (by decide) hrun
  have e1 : (List.range 1).flatMap (fun _ =>
        (List.range (8 * 1)).map (fun k => ((⟨false, true,
          ((fun _ => 68) (k / 8) % 256).testBit (7 - k % 8)⟩ : Lines), 0)) ++
        List.replicate (8 * 3) ((⟨false, true, true⟩ : Lines), 1)) =
      [(⟨false, true, false⟩, 0), (⟨false, true, true⟩, 0), (⟨false, true, false⟩, 0),
        (⟨false, true, false⟩, 0), (⟨false, true, false⟩, 0), (⟨false, true, true⟩, 0),
        (⟨false, true, false⟩, 0), (⟨false, true, false⟩, 0)] ++
      List.replicate 24 ((⟨false, true, true⟩ : Lines), 1) := by
    decide
  rw [e1] at e
  refine ⟨s1, hrun, ?_, ?_⟩
  · rw [e]
    rfl
  · intro hlow
    have hm : ((⟨false, true, true⟩ : Lines), 1) ∈
        edgeSamples (lines demoPru.r30) (obsSince demoPru s1) := by
      rw [e]
      exact List.mem_append_right _ (by decide)
    have := hlow _ hm (by decide)
    cases this

/-- C14 (read phase of continuous mode), amended. In every run of
`pru_spi_writeread_continuous` that returns, with `rx_cnt` at most 4, the rising clock edges
are, for each of the `ncnv` samples, the `8 * tx_cnt` edges of the tx bits, at which data-in
is not sampled, followed by `8 * rx_cnt` edges at each of which data-in is sampled once; at
every edge at which data-in is sampled chip-select is low and data-out is high (the engine
sets data-out high before the read loop, where `pru_spi_writeread_single` sets it low). -/
theorem continuous_read_edges (miso : Nat → Nat) (fuel : Nat) (pTxbuf : Nat → Nat)
    (tx_cnt rx_cnt ncnv : Nat) (pRxbuf : Ptr) (s s1 : Pru) (h4 : rx_cnt ≤ 4)
    (h : pru_spi_writeread_continuous miso fuel pTxbuf tx_cnt pRxbuf rx_cnt ncnv s = .ok s1) :
    edgeSamples (lines s.r30) (obsSince s s1) =
      (List.range ncnv).flatMap (fun _ =>
        (List.range (8 * tx_cnt)).map (fun k => ((⟨false, true,
          (pTxbuf (k / 8) % 256).testBit (7 - k % 8)⟩ : Lines), 0)) ++
        List.replicate (8 * rx_cnt) ((⟨false, true, true⟩ : Lines), 1)) ∧
    ∀ e ∈ edgeSamples (lines s.r30) (obsSince s s1), 0 < e.2 →
      e.1.cs = false ∧ e.1.mosi = true ∧ e.2 = 1 := by
  have he := edges_continuous miso fuel pTxbuf tx_cnt rx_cnt ncnv pRxbuf s s1 h4 h
  refine ⟨he, ?_⟩
  rw [he]
  intro e hmem hpos
  simp only [List.mem_flatMap, List.mem_append, List.mem_map, List.mem_range] at hmem
  obtain ⟨_, _, hmem | hmem⟩ := hmem
  · obtain ⟨k, _, rfl⟩ := hmem
    cases hpos
  · rw [List.eq_of_mem_replicate hmem]
    exact ⟨rfl, rfl, rfl⟩

/-- Witness for `continuous_read_edges`: two samples of three bytes into the mailbox. -/
theorem continuous_read_edges_witness :
    3 ≤ 4 ∧ ∃ s1, pru_spi_writeread_continuous demoMiso 10 (fun _ => 68) (1 : Nat) (Ptr.ram 7)
        (3 : Nat) (2 : Nat) demoPru = .ok s1 ∧
      ∀ e ∈ edgeSamples (lines demoPru.r30) (obsSince demoPru s1), 0 < e.2 →
        e.1.cs = false ∧ e.1.mosi = true ∧ e.2 = 1 := by
  obtain ⟨s1, hrun⟩ := except_ok_of_toBool (pru_spi_writeread_continuous demoMiso 10
    (fun _ => 68) (1 : Nat) (Ptr.ram 7) (3 : Nat) (2 : Nat) demoPru) (by decide!)
  exact ⟨by decide, s1, hrun,
    (continuous_read_edges demoMiso 10 (fun _ => 68) 1 3 2 (Ptr.ram 7) demoPru s1 (by decide)
      hrun).2⟩

theorem hostReads_pollLog (env : Env) (h : Host) (k : Nat) :
    ∀ e ∈ hostReads (pollLog env h k), e.1 = 0 := by
  intro e he
  simp only [hostReads, pollLog, List.mem_filterMap, List.mem_map, List.mem_range] at he
  obtain ⟨x, ⟨j, _, rfl⟩, hx⟩ := he
  simp only [Option.some.injEq] at hx
  rw [← hx]

theorem hostReads_nil_of_wr (ws : List (Nat × Nat)) :
    hostReads (ws.map (fun w : Nat × Nat => HEv.wr w.1 w.2)) = [] := by
  induction ws with
  | nil => rfl
  | cons w ws ih =>
    simp only [List.map_cons, hostReads, List.filterMap_cons] at ih ⊢
    exact ih

/-- What `spi_write_cmd` of the driver does to the world. -/
theorem hostDriver_write (env : Env) (data : Nat → Nat) (cnt : Int) (a : Adc) :
    ∃ r a1, (hostDriver env).spi_write_cmd data cnt a = .ok (r, a1) ∧
      a1.ops = a.ops ++ [Op.write (taken data cnt)] ∧
      ∃ rds, a1.host.log = a.host.log ++
          ((Call.write data cnt).writes.map (fun w : Nat × Nat => HEv.wr w.1 w.2) ++ rds) ∧
        hostWrites rds = [] ∧
        ((r = Outcome.ret 0 ∧ ∀ e ∈ hostReads rds, e.1 = 0) ∨
          (r = Outcome.exited (-1) ∧ TimedOut env (spi_write_cmd_setup data cnt a.host) ∧
            ∃ pre, rds = pre ++ resetPath)) := by
  obtain ⟨s1, _, _⟩ := setup_spec (Call.write data cnt) a.host
  simp only [Call.setup] at s1
  refine ⟨(PlayPen.spi_write_cmd env data cnt a.host).1,
    ⟨(PlayPen.spi_write_cmd env data cnt a.host).2, a.ops ++ [Op.write (taken data cnt)]⟩,
    rfl, rfl, ?_⟩
  rcases write_cmd_wait_spec env (spi_write_cmd_setup data cnt a.host) with
    ⟨k, _, _, _, e1, e2⟩ | ⟨b1, e1, e2⟩
  · refine ⟨pollLog env (spi_write_cmd_setup data cnt a.host) (k + 1), ?_, hostWrites_pollLog _ _ _,
      Or.inl ⟨e1, hostReads_pollLog _ _ _⟩⟩
    show (spi_write_cmd_wait env (spi_write_cmd_setup data cnt a.host)).2.log = _
    rw [e2, s1, List.append_assoc]
  · refine ⟨pollLog env (spi_write_cmd_setup data cnt a.host) N_WAIT ++ resetPath, ?_, ?_,
      Or.inr ⟨e1, b1, _, rfl⟩⟩
    · show (spi_write_cmd_wait env (spi_write_cmd_setup data cnt a.host)).2.log = _
      rw [e2, s1, List.append_assoc]
    · rw [hostWrites_append, hostWrites_pollLog, hostWrites_resetPath]
      rfl

/-- What `spi_writeread_single` of the driver does to the world. -/
theorem hostDriver_single (env : Env) (txdata : Nat → Nat) (txcnt : Int) (rxdata : Nat → Nat)
    (rxcnt : Int) (a : Adc) :
    ∃ r a1, (hostDriver env).spi_writeread_single txdata txcnt rxdata rxcnt a = .ok (r, a1) ∧
      a1.ops = a.ops ++ [Op.single (taken txdata txcnt) rxcnt] ∧
      ∃ rds, a1.host.log = a.host.log ++
          ((Call.single txdata txcnt rxdata rxcnt).writes.map
            (fun w : Nat × Nat => HEv.wr w.1 w.2) ++ rds) ∧
        hostWrites rds = [] ∧
        ((∃ w polls, r = Outcome.ret (Function.update rxdata 0 w, (rxcnt % 256).toNat) ∧
            rds = polls ++ [HEv.rd (single_rxptr txcnt) w] ∧ ∀ e ∈ hostReads polls, e.1 = 0) ∨
          (r = Outcome.exited (-1) ∧
            TimedOut env (spi_writeread_single_setup txdata txcnt rxcnt a.host) ∧
            ∃ pre, rds = pre ++ resetPath)) := by
  obtain ⟨s1, _, _⟩ := setup_spec (Call.single txdata txcnt rxdata rxcnt) a.host
  simp only [Call.setup] at s1
  refine ⟨(PlayPen.spi_writeread_single env txdata txcnt rxdata rxcnt a.host).1,
    ⟨(PlayPen.spi_writeread_single env txdata txcnt rxdata rxcnt a.host).2,
      a.ops ++ [Op.single (taken txdata txcnt) rxcnt]⟩, rfl, rfl, ?_⟩
  rcases single_wait_spec env txcnt rxdata rxcnt
      (spi_writeread_single_setup txdata txcnt rxcnt a.host) with
    ⟨k, w, _, _, _, e1, e2, _⟩ | ⟨b1, e1, e2⟩
  · refine ⟨pollLog env (spi_writeread_single_setup txdata txcnt rxcnt a.host) (k + 1) ++
      [HEv.rd (single_rxptr txcnt) w], ?_, ?_,
      Or.inl ⟨w, _, e1, rfl, hostReads_pollLog _ _ _⟩⟩
    · show (spi_writeread_single_wait env txcnt rxdata rxcnt
        (spi_writeread_single_setup txdata txcnt rxcnt a.host)).2.log = _
      rw [e2, s1, List.append_assoc]
    · rw [hostWrites_append, hostWrites_pollLog]
      rfl
  · refine ⟨pollLog env (spi_writeread_single_setup txdata txcnt rxcnt a.host) N_WAIT ++
      resetPath, ?_, ?_, Or.inr ⟨e1, b1, _, rfl⟩⟩
    · show (spi_writeread_single_wait env txcnt rxdata rxcnt
        (spi_writeread_single_setup txdata txcnt rxcnt a.host)).2.log = _
      rw [e2, s1, List.append_assoc]
    · rw [hostWrites_append, hostWrites_pollLog, hostWrites_resetPath]
      rfl

/-- What `spi_writeread_continuous` of the driver does to the world. -/
theorem hostDriver_continuous (env : Env) (txdata : Nat → Nat) (txcnt : Int)
    (rxdata : Nat → Nat) (rxcnt ncnv : Int) (a : Adc) :
    ∃ r a1, (hostDriver env).spi_writeread_continuous txdata txcnt rxdata rxcnt ncnv a
        = .ok (r, a1) ∧
      a1.ops = a.ops ++ [Op.continuous (taken txdata txcnt) rxcnt ncnv] ∧
      ∃ rds, a1.host.log = a.host.log ++
          ((Call.continuous txdata txcnt rxdata rxcnt ncnv).writes.map
            (fun w : Nat × Nat => HEv.wr w.1 w.2) ++ rds) ∧
        hostWrites rds = [] ∧
        ((∃ (v : Nat → Nat) (polls : List HEv),
            r = Outcome.ret (fun i => if i < u32 ncnv then v i else rxdata i,
              (ncnv % 256).toNat) ∧
            rds = polls ++ (List.range (u32 ncnv)).map
              (fun i => HEv.rd ((continuous_rxptr txcnt + i) % 4294967296) (v i)) ∧
            ∀ e ∈ hostReads polls, e.1 = 0) ∨
          (r = Outcome.exited (-1) ∧
            TimedOut env (spi_writeread_continuous_setup txdata txcnt rxcnt ncnv a.host) ∧
            ∃ pre, rds = pre ++ resetPath)) := by
  obtain ⟨s1, _, _⟩ := setup_spec (Call.continuous txdata txcnt rxdata rxcnt ncnv) a.host
  simp only [Call.setup] at s1
  refine ⟨(PlayPen.spi_writeread_continuous env txdata txcnt rxdata rxcnt ncnv a.host).1,
    ⟨(PlayPen.spi_writeread_continuous env txdata txcnt rxdata rxcnt ncnv a.host).2,
      a.ops ++ [Op.continuous (taken txdata txcnt) rxcnt ncnv]⟩, rfl, rfl, ?_⟩
  rcases continuous_wait_spec env txcnt rxdata ncnv
      (spi_writeread_continuous_setup txdata txcnt rxcnt ncnv a.host) with
    ⟨k, v, _, _, _, e1, e2, _⟩ | ⟨b1, e1, e2⟩
  · refine ⟨pollLog env (spi_writeread_continuous_setup txdata txcnt rxcnt ncnv a.host) (k + 1) ++
      (List.range (u32 ncnv)).map
        (fun i => HEv.rd ((continuous_rxptr txcnt + i) % 4294967296) (v i)), ?_, ?_,
      Or.inl ⟨v, _, e1, rfl, hostReads_pollLog _ _ _⟩⟩
    · show (spi_writeread_continuous_wait env txcnt rxdata ncnv
        (spi_writeread_continuous_setup txdata txcnt rxcnt ncnv a.host)).2.log = _
      rw [e2, s1, List.append_assoc]
    · rw [hostWrites_append, hostWrites_pollLog]
      exact hostWrites_rd_map (fun i => ((continuous_rxptr txcnt + i) % 4294967296, v i)) _
  · refine ⟨pollLog env (spi_writeread_continuous_setup txdata txcnt rxcnt ncnv a.host) N_WAIT ++
      resetPath, ?_, ?_, Or.inr ⟨e1, b1, _, rfl⟩⟩
    · show (spi_writeread_continuous_wait env txcnt rxdata ncnv
        (spi_writeread_continuous_setup txdata txcnt rxcnt ncnv a.host)).2.log = _
      rw [e2, s1, List.append_assoc]
    · rw [hostWrites_append, hostWrites_pollLog, hostWrites_resetPath]
      rfl

theorem prog_bind_ret {W α β : Type} (x : Prog W α) (f : α → Prog W β) (w w1 : W) (v : α)
    (hx : x w = .ok (Outcome.ret v, w1)) : (x >>= f) w = f v w1 := by
  show Prog.bind x f w = _
  simp only [Prog.bind, hx]

theorem prog_bind_exited {W α β : Type} (x : Prog W α) (f : α → Prog W β) (w w1 : W) (c : Int)
    (hx : x w = .ok (Outcome.exited c, w1)) : (x >>= f) w = .ok (Outcome.exited c, w1) := by
  show Prog.bind x f w = _
  simp only [Prog.bind, hx]

theorem prog_ret_of {W α : Type} (x : Except Fault (Outcome α × W)) (v : α)
    (h : x.toOption.bind (fun r => r.1.value?) = some v) : ∃ w1, x = .ok (Outcome.ret v, w1) := by
  cases x with
  | error e => cases h
  | ok r =>
    obtain ⟨o, w1⟩ := r
    cases o with
    | ret u =>
      simp only [Except.toOption, Option.bind, Outcome.value?, Option.some.injEq] at h
      exact ⟨w1, by rw [h]⟩
    | exited c => cases h

/-- C20 (out-of-range sample rate is silently ignored). For every `rate` greater than `0x16`
and every driver, `adc_set_samplerate` is the program that returns at once: it makes no
driver call. With the driver of `spidriver_host.c` it returns to its caller with the world
unchanged: no call, no mailbox word written, no entry in the log, no exit. -/
theorem samplerate_ignored (rate : Int) (h : rate > 22) :
    (∀ (W : Type) (D : Driver W), adc_set_samplerate D rate = pure ()) ∧
    ∀ (env : Env) (a : Adc),
      adc_set_samplerate (hostDriver env) rate a = .ok (Outcome.ret (), a) := by
  have e : ∀ (W : Type) (D : Driver W), adc_set_samplerate D rate = pure () := by
    intro W D
    simp only [adc_set_samplerate, h, if_true]
  exact ⟨e, fun env a => by rw [e]; rfl⟩

/-- Witness for `samplerate_ignored`: the rate `0x17`. -/
theorem samplerate_ignored_witness :
    (23 : Int) > 22 ∧
    adc_set_samplerate (hostDriver stuckEnv) 23 demoAdc = .ok (Outcome.ret (), demoAdc) :=
  ⟨by decide, (samplerate_ignored 23 (by decide)).2 stuckEnv demoAdc⟩

theorem logSince_two (h h0 h1 : Host) (a b : List HEv) (e0 : h0.log = h.log ++ a)
    (e1 : h1.log = h0.log ++ b) :
    hostWrites (logSince h h1) = hostWrites a ++ hostWrites b ∧
    hostReads (logSince h h1) = hostReads a ++ hostReads b := by
  rw [logSince_of h h0 h1 a b e0 e1, hostWrites_append, hostReads_append]
  exact ⟨rfl, rfl⟩

theorem hostReads_wr_append (ws : List (Nat × Nat)) (rds : List HEv) :
    hostReads (ws.map (fun w : Nat × Nat => HEv.wr w.1 w.2) ++ rds) = hostReads rds := by
  rw [hostReads_append, hostReads_nil_of_wr, List.nil_append]

theorem hostWrites_wr_append (ws : List (Nat × Nat)) (rds : List HEv) (h : hostWrites rds = []) :
    hostWrites (ws.map (fun w : Nat × Nat => HEv.wr w.1 w.2) ++ rds) = ws := by
  rw [hostWrites_append, hostWrites_map_wr, h, List.append_nil]

/-- What `adc_read_single` does with the driver of `spidriver_host.c`, whatever the
coprocessor does. -/
theorem read_single_spec (env : Env) (rx_buf : Nat) (a : Adc) :
    ∃ r a1, adc_read_single (hostDriver env) rx_buf a = .ok (r, a1) ∧
      (∀ v, r = Outcome.ret v →
        a1.ops = a.ops ++ [Op.write [1, 0, 28], Op.single [68] 3] ∧
        hostWrites (logSince a.host a1.host) =
          [(0, 255), (1, 3), (2, 1), (3, 0), (4, 28), (0, 2)] ++
          [(0, 255), (1, 1), (2, 68), (3, 3), (4, 0), (5, 0), (6, 0), (0, 3)] ∧
        ∃ w, (hostReads (logSince a.host a1.host)).getLast? = some (4, w) ∧
          v = adc_GetVoltage w) ∧
      (∀ c, r = Outcome.exited c → c = -1 ∧
        (a1.ops = a.ops ++ [Op.write [1, 0, 28]] ∨
          a1.ops = a.ops ++ [Op.write [1, 0, 28], Op.single [68] 3]) ∧
        ∃ h1, TimedOut env h1) := by
  obtain ⟨r1, a1, h1, o1, rds1, l1, hw1, c1⟩ :=
    hostDriver_write env (arr [WRITE_ADCMODE_REG, 0, 28]) 3 a
  have hb : adc_read_single (hostDriver env) rx_buf =
      ((hostDriver env).spi_write_cmd (arr [WRITE_ADCMODE_REG, 0, 28]) 3 >>= fun _ =>
        (hostDriver env).spi_writeread_single (arr ([WRITE_ADCMODE_REG, 0, 28].set 0
          READ_DATA_REG)) 1 (fun _ => rx_buf) 3 >>= fun r =>
        pure (adc_GetVoltage (r.1 0))) := rfl
  have t1 : taken (arr [WRITE_ADCMODE_REG, 0, 28]) 3 = [1, 0, 28] := by decide
  have t2 : taken (arr ([WRITE_ADCMODE_REG, 0, 28].set 0 READ_DATA_REG)) 1 = [68] := by decide
  rw [t1] at o1
  rcases c1 with ⟨e1, _⟩ | ⟨e1, to1, _⟩
  · subst e1
    obtain ⟨r2, a2, h2, o2, rds2, l2, hw2, c2⟩ := hostDriver_single env
      (arr ([WRITE_ADCMODE_REG, 0, 28].set 0 READ_DATA_REG)) 1 (fun _ => rx_buf) 3 a1
    rw [t2, o1] at o2
    rcases c2 with ⟨w, polls, e2, er, _⟩ | ⟨e2, to2, _⟩
    · subst e2
      refine ⟨Outcome.ret (adc_GetVoltage w), a2, ?_, ?_, fun c hc => (by cases hc)⟩
      · rw [hb, prog_bind_ret _ _ _ _ _ h1, prog_bind_ret _ _ _ _ _ h2]
        simp only [Function.update_same]
        rfl
      · intro v hv
        obtain rfl : adc_GetVoltage w = v := Outcome.ret.inj hv
        clear hv
        obtain ⟨g1, g2⟩ := logSince_two a.host a1.host a2.host _ _ l1 l2
        refine ⟨by rw [o2, List.append_assoc]; rfl, ?_, w, ?_, rfl⟩
        · rw [g1, hostWrites_wr_append _ _ hw1, hostWrites_wr_append _ _ hw2]
          rfl
        · rw [g2, hostReads_wr_append, hostReads_wr_append, er, hostReads_append,
            ← List.append_assoc]
          have : hostReads [HEv.rd (single_rxptr 1) w] = [(4, w)] := by
            simp only [hostReads, List.filterMap_cons, List.filterMap_nil]
            congr
          rw [this, List.getLast?_append_cons]
          rfl
    · subst e2
      refine ⟨Outcome.exited (-1), a2, ?_, fun v hv => (by cases hv), ?_⟩
      · rw [hb, prog_bind_ret _ _ _ _ _ h1, prog_bind_exited _ _ _ _ _ h2]
      · intro c hc
        cases hc
        exact ⟨rfl, Or.inr (by rw [o2, List.append_assoc]; rfl), _, to2⟩
  · subst e1
    refine ⟨Outcome.exited (-1), a1, ?_, fun v hv => (by cases hv), ?_⟩
    · rw [hb, prog_bind_exited _ _ _ _ _ h1]
    · intro c hc
      cases hc
      exact ⟨rfl, Or.inl o1, _, to1⟩

theorem prog_ret_with {W α β : Type} (x : Except Fault (Outcome α × W)) (g : W → β) (v : α)
    (y : β) (h : x.toOption.bind (fun r => r.1.value?.map (fun u => (u, g r.2))) = some (v, y)) :
    ∃ w1, x = .ok (Outcome.ret v, w1) ∧ g w1 = y := by
  cases x with
  | error e => cases h
  | ok r =>
    obtain ⟨o, w1⟩ := r
    cases o with
    | ret u =>
      simp only [Except.toOption, Option.bind, Outcome.value?, Option.map, Option.some.injEq,
        Prod.mk.injEq] at h
      exact ⟨w1, by rw [h.1], h.2⟩
    | exited c => cases h

/-- C16 (single read). Whatever the coprocessor does, `adc_read_single` over the driver of
`spidriver_host.c` runs without fault, and when it returns it has made exactly two driver
calls, in order: `spi_write_cmd` with the three words `[0x01, 0x00, 0x1c]` and
`spi_writeread_single` with the tx word `[0x44]` and rx count 3; the mailbox writes are
those of the two calls; the value returned is `adc_GetVoltage` of the word the host read
last, at the receive offset 4. The only other outcome is the driver ending the process on
a timeout. Scenario: with the dispatcher and engine serving the calls and a device that
answers every read with the code `0xA00000`, `adc_set_chan0` followed by `adc_read_single`
returns the `float` nearest to `(0xA00000 - 0x800000) * 4.096 / 2^23 = 1.024`, after the
four driver calls of the two functions. -/
theorem read_single_ops :
    (∀ (env : Env) (rx_buf : Nat) (a : Adc),
      ∃ r a1, adc_read_single (hostDriver env) rx_buf a = .ok (r, a1) ∧
        (∀ v, r = Outcome.ret v →
          a1.ops = a.ops ++ [Op.write [1, 0, 28], Op.single [68] 3] ∧
          hostWrites (logSince a.host a1.host) =
            [(0, 255), (1, 3), (2, 1), (3, 0), (4, 28), (0, 2)] ++
            [(0, 255), (1, 1), (2, 68), (3, 3), (4, 0), (5, 0), (6, 0), (0, 3)] ∧
          ∃ w, (hostReads (logSince a.host a1.host)).getLast? = some (4, w) ∧
            v = adc_GetVoltage w) ∧
        (∀ c, r = Outcome.exited c → c = -1 ∧
          (a1.ops = a.ops ++ [Op.write [1, 0, 28]] ∨
            a1.ops = a.ops ++ [Op.write [1, 0, 28], Op.single [68] 3]) ∧
          ∃ h1, TimedOut env h1)) ∧
    (∃ w1, (adc_set_chan0 (sysDriver (deviceMiso 10485760) 0) >>= fun _ =>
        adc_read_single (sysDriver (deviceMiso 10485760) 0) 0) (demoAdc, demoPru) =
          .ok (Outcome.ret (F32.round (((10485760 : ℚ) - 8388608) * (4096 / 1000) / 8388608)),
            w1) ∧
      w1.1.ops = [Op.write [17, 0, 67], Op.write [16, 128, 1], Op.write [1, 0, 28],
        Op.single [68] 3]) ∧
    F32.round (((10485760 : ℚ) - 8388608) * (4096 / 1000) / 8388608) = F32.round (1024 / 1000) ∧
    adc_GetVoltage 10485760 = F32.round (1024 / 1000) := by
  have q : ((10485760 : ℚ) - 8388608) * (4096 / 1000) / 8388608 =
      ((1024 : Int) : ℚ) / ((1000 : Nat) : ℚ) := by norm_num
  have q1 : (1024 : ℚ) / 1000 = ((1024 : Int) : ℚ) / ((1000 : Nat) : ℚ) := by norm_num
  refine ⟨read_single_spec, ?_, by rw [q, q1], ?_⟩
  · rw [q, F32.round_div 1024 1000 (by norm_num)]
    exact prog_ret_with _ (fun w : Adc × Pru => w.1.ops) _ _ (by decide!)
  · rw [q1, F32.round_div 1024 1000 (by norm_num)]
    decide!

theorem volts_loop {W : Type} (rx : Nat → Nat) (n : Nat) (hn : n ≤ 3072) (volts : Nat → F32)
    (w : W) :
    forProg n (fun i volts => do
        let code ← arr_get 3072 rx i
        pure (Function.update volts i (adc_GetVoltage code))) volts w =
      .ok (Outcome.ret (fun i => if i < n then adc_GetVoltage (rx i) else volts i), w) := by
  induction n with
  | zero => rfl
  | succ n ih =>
    have e : forProg (n + 1) (fun i volts => (do
        let code ← arr_get 3072 rx i
        pure (Function.update volts i (adc_GetVoltage code)) : Prog W (Nat → F32))) volts =
      (forProg n (fun i volts => (do
        let code ← arr_get 3072 rx i
        pure (Function.update volts i (adc_GetVoltage code)) : Prog W (Nat → F32))) volts >>=
        fun s1 => arr_get 3072 rx n >>= fun code =>
          pure (Function.update s1 n (adc_GetVoltage code))) := rfl
    rw [e, prog_bind_ret _ _ _ _ _ (ih (by omega))]
    have e2 : arr_get 3072 rx n w = .ok (Outcome.ret (rx n), w) := by
      simp only [arr_get, if_pos (show n < 3072 by omega)]
    rw [prog_bind_ret _ _ _ _ _ e2]
    show Except.ok (Outcome.ret _, w) = _
    congr 3
    funext i
    by_cases h1 : i = n
    · subst h1
      simp
    · rw [Function.update_noteq h1]
      by_cases h2 : i < n
      · rw [if_pos h2, if_pos (by omega)]
      · rw [if_neg h2, if_neg (by omega)]

theorem read_multiple_unfold {W : Type} (D : Driver W) (read_cnt : Nat) (volts : Nat → F32)
    (rx_buf : Nat → Nat) :
    adc_read_multiple D read_cnt volts rx_buf =
      if read_cnt > 1024 then D.exit (-1) >>= fun _ => read_multiple_rest D read_cnt volts rx_buf
      else read_multiple_rest D read_cnt volts rx_buf := rfl

theorem continuous_writes_small (tx rx : Nat → Nat) (n : Nat) (h : n ≤ 1024) :
    (Call.continuous tx 1 rx 3 (i32 n)).writes =
      [(0, 255), (1, 1), (2, tx 0), (3, 3), (4, n)] ++
        (List.range n).map (fun i => (5 + i, 0)) ++ [(0, 4)] := by
  have e1 : u32 (i32 n) = n := by rw [i32_of_lt n (by omega), u32_natCast n (by omega)]
  have e2 : wordWrites (continuous_rxptr 1) (fun _ => 0) n =
      (List.range n).map (fun i => (5 + i, 0)) := by
    unfold wordWrites
    apply List.map_congr_left
    intro i hi
    rw [List.mem_range] at hi
    have : continuous_rxptr 1 = 5 := by decide
    rw [this, Nat.mod_eq_of_lt (by omega)]
  have e3 : wordWrites 2 tx (u32 1) = [(2, tx 0)] := by
    have : u32 1 = 1 := by decide
    rw [this]
    rfl
  have e4 : u32 3 = 3 := by decide
  have e5 : u32 1 = 1 := by decide
  simp only [Call.writes, e1, e2, e3, e4]
  rw [e5]
  rfl

theorem hostReads_rd_map (f : Nat → Nat × Nat) (n : Nat) :
    hostReads ((List.range n).map (fun i => HEv.rd (f i).1 (f i).2)) = (List.range n).map f := by
  unfold hostReads
  rw [List.filterMap_map]
  have : ((fun e => match e with
      | HEv.rd off v => some (off, v)
      | _ => none) ∘ fun i => HEv.rd (f i).1 (f i).2) = fun i => some (f i) := by
    funext i
    rfl
  rw [this]
  exact congrFun (List.filterMap_eq_map f) _

/-- What `adc_read_multiple` does with the driver of `spidriver_host.c` for a count within
the limit, whatever the coprocessor does. -/
theorem read_multiple_spec (env : Env) (read_cnt : Nat) (h : read_cnt ≤ 1024)
    (volts : Nat → F32) (rx_buf : Nat → Nat) (a : Adc) :
    ∃ r a1, adc_read_multiple (hostDriver env) read_cnt volts rx_buf a = .ok (r, a1) ∧
      (∀ v, r = Outcome.ret v →
        a1.ops = a.ops ++ [Op.write [1, 0, 12], Op.continuous [68] 3 read_cnt] ∧
        hostWrites (logSince a.host a1.host) =
          [(0, 255), (1, 3), (2, 1), (3, 0), (4, 12), (0, 2)] ++
          ([(0, 255), (1, 1), (2, 68), (3, 3), (4, read_cnt)] ++
            (List.range read_cnt).map (fun i => (5 + i, 0)) ++ [(0, 4)]) ∧
        ∃ (code : Nat → Nat) (polls : List (Nat × Nat)),
          hostReads (logSince a.host a1.host) =
            polls ++ (List.range read_cnt).map (fun i => (5 + i, code i)) ∧
          (∀ e ∈ polls, e.1 = 0) ∧
          v = fun i => if i < read_cnt then adc_GetVoltage (code i) else volts i) ∧
      (∀ c, r = Outcome.exited c → c = -1 ∧
        (a1.ops = a.ops ++ [Op.write [1, 0, 12]] ∨
          a1.ops = a.ops ++ [Op.write [1, 0, 12], Op.continuous [68] 3 read_cnt]) ∧
        ∃ h1, TimedOut env h1) := by
  obtain ⟨r1, a1, h1, o1, rds1, l1, hw1, c1⟩ :=
    hostDriver_write env (arr [WRITE_ADCMODE_REG, 0, 12]) 3 a
  have t1 : taken (arr [WRITE_ADCMODE_REG, 0, 12]) 3 = [1, 0, 12] := by decide
  have t2 : taken (arr ([WRITE_ADCMODE_REG, 0, 12].set 0 READ_DATA_REG)) 1 = [68] := by decide
  have t3 : i32 read_cnt = (read_cnt : Int) := i32_of_lt read_cnt (by omega)
  have t4 : u32 (i32 read_cnt) = read_cnt := by rw [t3, u32_natCast read_cnt (by omega)]
  rw [t1] at o1
  rw [read_multiple_unfold, if_neg (by omega)]
  unfold read_multiple_rest
  rcases c1 with ⟨e1, hz⟩ | ⟨e1, to1, _⟩
  · subst e1
    obtain ⟨r2, a2, h2, o2, rds2, l2, hw2, c2⟩ := hostDriver_continuous env
      (arr ([WRITE_ADCMODE_REG, 0, 12].set 0 READ_DATA_REG)) 1 rx_buf 3 (i32 read_cnt) a1
    rw [t2, o1, t3] at o2
    rw [prog_bind_ret _ _ _ _ _ h1]
    rcases c2 with ⟨code, polls, e2, er, hp⟩ | ⟨e2, to2, _⟩
    · subst e2
      rw [prog_bind_ret _ _ _ _ _ h2]
      simp only []
      rw [volts_loop _ read_cnt (by omega), t4]
      refine ⟨_, _, rfl, ?_, fun c hc => (by cases hc)⟩
      intro v hv
      have hv1 := Outcome.ret.inj hv
      clear hv
      obtain ⟨g1, g2⟩ := logSince_two a.host a1.host a2.host _ _ l1 l2
      refine ⟨by rw [o2, List.append_assoc]; rfl, ?_, code, hostReads rds1 ++ hostReads polls,
        ?_, ?_, ?_⟩
      · rw [g1, hostWrites_wr_append _ _ hw1, hostWrites_wr_append _ _ hw2,
          continuous_writes_small _ _ _ h]
        rfl
      · rw [g2, hostReads_wr_append, hostReads_wr_append, er, hostReads_append, t4,
          ← List.append_assoc]
        congr 1
        have : continuous_rxptr 1 = 5 := by decide
        rw [this]
        have e5 : (List.range read_cnt).map (fun i => HEv.rd ((5 + i) % 4294967296) (code i)) =
            (List.range read_cnt).map (fun i => HEv.rd (5 + i, code i).1 (5 + i, code i).2) := by
          apply List.map_congr_left
          intro i hi
          rw [List.mem_range] at hi
          rw [Nat.mod_eq_of_lt (by omega)]
        rw [e5, hostReads_rd_map (fun i => (5 + i, code i))]
      · intro e he
        rcases List.mem_append.mp he with he | he
        · exact hz e he
        · exact hp e he
      · rw [← hv1]
        funext i
        by_cases hi : i < read_cnt
        · simp only [if_pos hi]
        · simp only [if_neg hi]
    · subst e2
      rw [prog_bind_exited _ _ _ _ _ h2]
      refine ⟨_, _, rfl, fun v hv => (by cases hv), ?_⟩
      intro c hc
      cases hc
      exact ⟨rfl, Or.inr (by rw [o2, List.append_assoc]; rfl), _, to2⟩
  · subst e1
    rw [prog_bind_exited _ _ _ _ _ h1]
    refine ⟨_, _, rfl, fun v hv => (by cases hv), ?_⟩
    intro c hc
    cases hc
    exact ⟨rfl, Or.inl o1, _, to1⟩

theorem prog_ret_list {W α β : Type} (x : Except Fault (Outcome α × W)) (g : α → W → β)
    (y : β) (h : x.toOption.bind (fun r => r.1.value?.map (fun u => g u r.2)) = some y) :
    ∃ v w1, x = .ok (Outcome.ret v, w1) ∧ g v w1 = y := by
  cases x with
  | error e => cases h
  | ok r =>
    obtain ⟨o, w1⟩ := r
    cases o with
    | ret u =>
      simp only [Except.toOption, Option.bind, Outcome.value?, Option.map,
        Option.some.injEq] at h
      exact ⟨u, w1, rfl, h⟩
    | exited c => cases h

/-- C17 (multiple read). For every `read_cnt` up to 1024 and whatever the coprocessor does,
`adc_read_multiple` over the driver of `spidriver_host.c` runs without fault, and when it
returns it has made exactly two driver calls, in order: `spi_write_cmd` with the words
`[0x01, 0x00, 0x0c]` and `spi_writeread_continuous` with the tx word `[0x44]`, rx count 3
and `read_cnt` conversions; the words the host read last, at offsets `5 + i` for
`i < read_cnt` in rising order, are the codes, and the result has
`volts[i] = adc_GetVoltage (code i)` for `i < read_cnt` and the old `volts[i]` elsewhere.
The only other outcome is the driver ending the process on a timeout. Scenario: with the
dispatcher and engine serving the calls and a device that delivers the codes
`[0x800000, 0x900000, 0x700000, 0x800000]`, `adc_read_multiple` with `read_cnt = 4` returns
`[0.0, 0.512, -0.512, 0.0]` (the nearest `float` of each) in the first four elements and
leaves the following ones as they were. -/
theorem read_multiple_ops (read_cnt : Nat) (h : read_cnt ≤ 1024) :
    (∀ (env : Env) (volts : Nat → F32) (rx_buf : Nat → Nat) (a : Adc),
      ∃ r a1, adc_read_multiple (hostDriver env) read_cnt volts rx_buf a = .ok (r, a1) ∧
        (∀ v, r = Outcome.ret v →
          a1.ops = a.ops ++ [Op.write [1, 0, 12], Op.continuous [68] 3 read_cnt] ∧
          hostWrites (logSince a.host a1.host) =
            [(0, 255), (1, 3), (2, 1), (3, 0), (4, 12), (0, 2)] ++
            ([(0, 255), (1, 1), (2, 68), (3, 3), (4, read_cnt)] ++
              (List.range read_cnt).map (fun i => (5 + i, 0)) ++ [(0, 4)]) ∧
          ∃ (code : Nat → Nat) (polls : List (Nat × Nat)),
            hostReads (logSince a.host a1.host) =
              polls ++ (List.range read_cnt).map (fun i => (5 + i, code i)) ∧
            (∀ e ∈ polls, e.1 = 0) ∧
            v = fun i => if i < read_cnt then adc_GetVoltage (code i) else volts i) ∧
        (∀ c, r = Outcome.exited c → c = -1 ∧
          (a1.ops = a.ops ++ [Op.write [1, 0, 12]] ∨
            a1.ops = a.ops ++ [Op.write [1, 0, 12], Op.continuous [68] 3 read_cnt]) ∧
          ∃ h1, TimedOut env h1)) ∧
    ∃ v w1, adc_read_multiple (sysDriver (burstMiso [8388608, 9437184, 7340032, 8388608]) 5)
        4 (fun _ => ⟨7⟩) (fun _ => 0) (demoAdc, demoPru) = .ok (Outcome.ret v, w1) ∧
      (List.range 6).map v = [F32.round 0, F32.round (512 / 1000), F32.round (-512 / 1000),
        F32.round 0, ⟨7⟩, ⟨7⟩] ∧
      w1.1.ops = [Op.write [1, 0, 12], Op.continuous [68] 3 4] := by
  refine ⟨fun env volts rx_buf a => read_multiple_spec env read_cnt h volts rx_buf a, ?_⟩
  have q0 : F32.round 0 = F32.ofRat 0 1 := by
    have := F32.round_div 0 1 (by norm_num)
    simpa using this
  have q1 : F32.round (512 / 1000) = F32.ofRat 512 1000 := by
    have := F32.round_div 512 1000 (by norm_num)
    simpa using this
  have q2 : F32.round (-512 / 1000) = F32.ofRat (-512) 1000 := by
    have := F32.round_div (-512) 1000 (by norm_num)
    simpa using this
  rw [q0, q1, q2]
  obtain ⟨v, w1, e, g⟩ := prog_ret_list
    (adc_read_multiple (sysDriver (burstMiso [8388608, 9437184, 7340032, 8388608]) 5)
      4 (fun _ => ⟨7⟩) (fun _ => 0) (demoAdc, demoPru))
    (fun (v : Nat → F32) (w : Adc × Pru) => ((List.range 6).map v, w.1.ops))
    ([F32.ofRat 0 1, F32.ofRat 512 1000, F32.ofRat (-512) 1000, F32.ofRat 0 1, ⟨7⟩, ⟨7⟩],
      [Op.write [1, 0, 12], Op.continuous [68] 3 4]) (by decide!)
  exact ⟨v, w1, e, (Prod.mk.inj g).1, (Prod.mk.inj g).2⟩

/-- Witness for `read_multiple_ops`: four conversions. -/
theorem read_multiple_ops_witness :
    (4 : Nat) ≤ 1024 ∧
    ∃ r a1, adc_read_multiple (hostDriver ackEnv) 4 (fun _ => ⟨7⟩) (fun _ => 0) demoAdc =
      .ok (r, a1) :=
  ⟨by decide,
    (((read_multiple_ops 4 (by decide)).1 ackEnv (fun _ => ⟨7⟩) (fun _ => 0) demoAdc).imp
      fun _ hr => hr.imp fun _ ha => ha.1)⟩

theorem read_multiple_exit (env : Env) (read_cnt : Nat) (h : 1024 < read_cnt)
    (volts : Nat → F32) (rx_buf : Nat → Nat) (a : Adc) :
    adc_read_multiple (hostDriver env) read_cnt volts rx_buf a =
      .ok (Outcome.exited (-1),
        ⟨{ a.host with log := a.host.log ++ [HEv.exit (-1)] }, a.ops⟩) := by
  rw [read_multiple_unfold, if_pos h]
  exact prog_bind_exited _ _ _ _ _ rfl

theorem read_multiple_no_exit {W : Type} (D : Driver W) (e : Int → Prog W Unit)
    (read_cnt : Nat) (h : read_cnt ≤ 1024) (volts : Nat → F32) (rx_buf : Nat → Nat) :
    adc_read_multiple { D with exit := e } read_cnt volts rx_buf =
      adc_read_multiple D read_cnt volts rx_buf := by
  rw [read_multiple_unfold, read_multiple_unfold, if_neg (by omega), if_neg (by omega)]
  rfl

theorem ops_ne_append (l : List Op) (x : Op) (m : List Op) : l ++ x :: m ≠ l := by
  intro hc
  have := congrArg List.length hc
  simp at this

/-- C18 (an oversized burst is a fatal usage error). Over the driver of `spidriver_host.c`,
whatever the coprocessor does: `adc_read_multiple` ends the process with no driver call made
if and only if `read_cnt > 1024`. When `read_cnt > 1024` it ends the process with
`exit(-1)` at once: no driver call, no mailbox word written (the host state differs only by
the `exit` entry of the log), and no value of `volts` stored. When `read_cnt <= 1024` the
function does not call `exit` (its behaviour does not depend on what `exit` does), it never
indexes the 3072-word receive buffer out of bounds (the run has no fault), the driver stores
to the receive buffer below `read_cnt` only, and the process can end only inside a driver
call, after that call was issued, when its wait for completion timed out. -/
theorem oversized_burst_fatal (env : Env) (read_cnt : Nat) (volts : Nat → F32)
    (rx_buf : Nat → Nat) (a : Adc) :
    ((∃ c h1, adc_read_multiple (hostDriver env) read_cnt volts rx_buf a =
        .ok (Outcome.exited c, ⟨h1, a.ops⟩)) ↔ 1024 < read_cnt) ∧
    (1024 < read_cnt →
      adc_read_multiple (hostDriver env) read_cnt volts rx_buf a =
        .ok (Outcome.exited (-1),
          ⟨{ a.host with log := a.host.log ++ [HEv.exit (-1)] }, a.ops⟩) ∧
      hostWrites (logSince a.host { a.host with log := a.host.log ++ [HEv.exit (-1)] }) = []) ∧
    (read_cnt ≤ 1024 →
      (∀ (W : Type) (D : Driver W) (e : Int → Prog W Unit) (vs : Nat → F32) (rx : Nat → Nat),
        adc_read_multiple { D with exit := e } read_cnt vs rx =
          adc_read_multiple D read_cnt vs rx) ∧
      (∃ r a1, adc_read_multiple (hostDriver env) read_cnt volts rx_buf a = .ok (r, a1) ∧
        ∀ c, r = Outcome.exited c → c = -1 ∧ a1.ops ≠ a.ops ∧ ∃ h1, TimedOut env h1) ∧
      ∀ (tx : Nat → Nat) (r : (Nat → Nat) × Nat) (a0 a1 : Adc),
        (hostDriver env).spi_writeread_continuous tx 1 rx_buf 3 (i32 read_cnt) a0 =
          .ok (Outcome.ret r, a1) →
        ∀ i, read_cnt ≤ i → r.1 i = rx_buf i) := by
  have small : read_cnt ≤ 1024 →
      ∃ r a1, adc_read_multiple (hostDriver env) read_cnt volts rx_buf a = .ok (r, a1) ∧
        ∀ c, r = Outcome.exited c → c = -1 ∧ a1.ops ≠ a.ops ∧ ∃ h1, TimedOut env h1 := by
    intro h
    obtain ⟨r, a1, e, _, hx⟩ := read_multiple_spec env read_cnt h volts rx_buf a
    refine ⟨r, a1, e, fun c hc => ?_⟩
    obtain ⟨c1, c2, c3⟩ := hx c hc
    refine ⟨c1, ?_, c3⟩
    rcases c2 with c2 | c2 <;> rw [c2] <;> exact ops_ne_append _ _ _
  refine ⟨⟨?_, fun h => ⟨_, _, read_multiple_exit env read_cnt h volts rx_buf a⟩⟩,
    fun h => ⟨read_multiple_exit env read_cnt h volts rx_buf a, ?_⟩,
    fun h => ⟨fun W D e vs rx => read_multiple_no_exit D e read_cnt h vs rx, small h, ?_⟩⟩
  · rintro ⟨c, h1, e⟩
    by_contra hn
    obtain ⟨r, a1, e1, hx⟩ := small (by omega)
    rw [e] at e1
    simp only [Except.ok.injEq, Prod.mk.injEq] at e1
    obtain ⟨_, hne, _⟩ := hx c e1.1.symm
    rw [← e1.2] at hne
    exact hne rfl
  · simp [logSince, hostWrites]
  · intro tx r a0 a1 hr i hi
    obtain ⟨r2, a2, h2, _, _, _, _, c2⟩ :=
      hostDriver_continuous env tx 1 rx_buf 3 (i32 read_cnt) a0
    rw [hr] at h2
    simp only [Except.ok.injEq, Prod.mk.injEq] at h2
    rcases c2 with ⟨v, _, e2, _⟩ | ⟨e2, _⟩
    · rw [← h2.1] at e2
      have e3 := Outcome.ret.inj e2
      rw [e3]
      have t4 : u32 (i32 read_cnt) = read_cnt := by
        rw [i32_of_lt read_cnt (by omega), u32_natCast read_cnt (by omega)]
      simp only [t4, if_neg (show ¬ i < read_cnt by omega)]
    · rw [← h2.1] at e2
      cases e2

/-- Witness for `oversized_burst_fatal`: 1025 conversions are refused, four are not. -/
theorem oversized_burst_fatal_witness :
    (adc_read_multiple (hostDriver ackEnv) 1025 (fun _ => ⟨7⟩) (fun _ => 0) demoAdc =
      .ok (Outcome.exited (-1),
        ⟨{ demoHost with log := demoHost.log ++ [HEv.exit (-1)] }, demoAdc.ops⟩)) ∧
    ∃ r a1, adc_read_multiple (hostDriver stuckEnv) 4 (fun _ => ⟨7⟩) (fun _ => 0) demoAdc =
        .ok (r, a1) ∧
      ∀ c, r = Outcome.exited c → c = -1 ∧ a1.ops ≠ demoAdc.ops ∧ ∃ h1, TimedOut stuckEnv h1 :=
  ⟨((oversized_burst_fatal ackEnv 1025 (fun _ => ⟨7⟩) (fun _ => 0) demoAdc).2.1
      (by decide)).1,
    ((oversized_burst_fatal stuckEnv 4 (fun _ => ⟨7⟩) (fun _ => 0) demoAdc).2.2
      (by decide)).2.1⟩

theorem except_error_of {ε α : Type} (x : Except ε α) (e : ε)
    (h : (match x with
      | .error e1 => some e1
      | .ok _ => none) = some e) : x = .error e := by
  cases x with
  | error e1 =>
    simp only [Option.some.injEq] at h
    rw [h]
  | ok a => cases h

theorem getLast_append_singleton {α : Type} (l : List α) (x : α) :
    (l ++ [x]).getLast? = some x := by
  simp

/-- C19, as the claim words it, fails. With a coprocessor that completes every command, the
three host-side requests with the rx byte count 5 return to their caller instead of ending
the process, after forwarding the request: the rx count 5 is written to the mailbox and the
command code is written to offset 0. -/
theorem width_check_counterexample :
    (5 : Int) > 4 ∧
    (adc_writeread_single (hostDriver ackEnv) (arr [68]) 1 (fun _ => 0) 5 demoAdc).toOption.map
      (fun r => (r.1.returned, r.2.ops, hostWrites r.2.host.log)) =
      some (true, [Op.single [68] 5],
        [(0, 255), (1, 1), (2, 68), (3, 5), (4, 0), (5, 0), (6, 0), (7, 0), (8, 0), (0, 3)]) ∧
    (spi_writeread_single ackEnv (arr [68]) 1 (fun _ => 0) 5 demoHost).1.returned = true ∧
    hostWrites (spi_writeread_single ackEnv (arr [68]) 1 (fun _ => 0) 5 demoHost).2.log =
      [(0, 255), (1, 1), (2, 68), (3, 5), (4, 0), (5, 0), (6, 0), (7, 0), (8, 0), (0, 3)] ∧
    (spi_writeread_continuous ackEnv (arr [68]) 1 (fun _ => 0) 5 2 demoHost).1.returned = true ∧
    hostWrites (spi_writeread_continuous ackEnv (arr [68]) 1 (fun _ => 0) 5 2 demoHost).2.log =
      [(0, 255), (1, 1), (2, 68), (3, 5), (4, 2), (5, 0), (6, 0), (0, 4)] := by
  decide!

/-- C19, amended. The host side makes no check of the rx byte count. For every rx byte
count, greater than 4 or not, and whatever the coprocessor does, `spi_writeread_single`,
`adc_writeread_single` and `spi_writeread_continuous` forward the request: the mailbox
writes of the call are those of every call of its kind, the rx count is among them as
given, and the command code is written to offset 0 last. Such a call ends the process
only when its wait for completion times out. With the dispatcher and engine behind the
mailbox, a single read of 5 bytes reaches the engine, which overruns its 4-byte scratch
array. -/
theorem width_unchecked (env : Env) (txdata : Nat → Nat) (txcnt : Int) (rxdata : Nat → Nat)
    (rxcnt ncnv : Int) (a : Adc) :
    (∃ r a1, (hostDriver env).spi_writeread_single txdata txcnt rxdata rxcnt a = .ok (r, a1) ∧
      a1.ops = a.ops ++ [Op.single (taken txdata txcnt) rxcnt] ∧
      hostWrites (logSince a.host a1.host) = (Call.single txdata txcnt rxdata rxcnt).writes ∧
      ((2 + u32 txcnt) % 4294967296, u32 rxcnt) ∈ hostWrites (logSince a.host a1.host) ∧
      (hostWrites (logSince a.host a1.host)).getLast? = some (0, SPI_WRITEREAD_SINGLE) ∧
      (∀ c, r = Outcome.exited c → c = -1 ∧
        TimedOut env (spi_writeread_single_setup txdata txcnt rxcnt a.host))) ∧
    (∃ r a1, adc_writeread_single (hostDriver env) txdata txcnt rxdata rxcnt a = .ok (r, a1) ∧
      a1.ops = a.ops ++ [Op.single (taken txdata txcnt) rxcnt] ∧
      hostWrites (logSince a.host a1.host) = (Call.single txdata txcnt rxdata rxcnt).writes ∧
      (∀ c, r = Outcome.exited c → c = -1 ∧
        TimedOut env (spi_writeread_single_setup txdata txcnt rxcnt a.host))) ∧
    (∃ r a1, (hostDriver env).spi_writeread_continuous txdata txcnt rxdata rxcnt ncnv a =
        .ok (r, a1) ∧
      a1.ops = a.ops ++ [Op.continuous (taken txdata txcnt) rxcnt ncnv] ∧
      hostWrites (logSince a.host a1.host) =
        (Call.continuous txdata txcnt rxdata rxcnt ncnv).writes ∧
      ((2 + u32 txcnt) % 4294967296, u32 rxcnt) ∈ hostWrites (logSince a.host a1.host) ∧
      (hostWrites (logSince a.host a1.host)).getLast? = some (0, SPI_WRITEREAD_CONTINUOUS) ∧
      (∀ c, r = Outcome.exited c → c = -1 ∧
        TimedOut env (spi_writeread_continuous_setup txdata txcnt rxcnt ncnv a.host))) ∧
    sys_writeread_single demoMiso 0 (arr [68]) 1 (fun _ => 0) 5 demoHost demoPru =
      .error Fault.bounds := by
  obtain ⟨r1, a1, h1, o1, rds1, l1, hw1, c1⟩ :=
    hostDriver_single env txdata txcnt rxdata rxcnt a
  obtain ⟨r2, a2, h2, o2, rds2, l2, hw2, c2⟩ :=
    hostDriver_continuous env txdata txcnt rxdata rxcnt ncnv a
  have g1 : hostWrites (logSince a.host a1.host) =
      (Call.single txdata txcnt rxdata rxcnt).writes := by
    rw [logSince_of a.host a.host a1.host [] _ (by simp) l1, List.nil_append,
      hostWrites_wr_append _ _ hw1]
  have g2 : hostWrites (logSince a.host a2.host) =
      (Call.continuous txdata txcnt rxdata rxcnt ncnv).writes := by
    rw [logSince_of a.host a.host a2.host [] _ (by simp) l2, List.nil_append,
      hostWrites_wr_append _ _ hw2]
  have x1 : ∀ c, r1 = Outcome.exited c → c = -1 ∧
      TimedOut env (spi_writeread_single_setup txdata txcnt rxcnt a.host) := by
    intro c hc
    rcases c1 with ⟨w, p, e, _⟩ | ⟨e, t, _⟩
    · rw [e] at hc
      cases hc
    · rw [e] at hc
      cases hc
      exact ⟨rfl, t⟩
  have x2 : ∀ c, r2 = Outcome.exited c → c = -1 ∧
      TimedOut env (spi_writeread_continuous_setup txdata txcnt rxcnt ncnv a.host) := by
    intro c hc
    rcases c2 with ⟨w, p, e, _⟩ | ⟨e, t, _⟩
    · rw [e] at hc
      cases hc
    · rw [e] at hc
      cases hc
      exact ⟨rfl, t⟩
  refine ⟨⟨r1, a1, h1, o1, g1, ?_, ?_, x1⟩, ?_, ⟨r2, a2, h2, o2, g2, ?_, ?_, x2⟩, ?_⟩
  · rw [g1]
    simp [Call.writes]
  · rw [g1]
    simp only [Call.writes]
    exact getLast_append_singleton _ _
  · have hb : adc_writeread_single (hostDriver env) txdata txcnt rxdata rxcnt =
        ((hostDriver env).spi_writeread_single txdata txcnt rxdata rxcnt >>= fun _ =>
          pure ()) := rfl
    rcases c1 with ⟨w, p, e, _⟩ | ⟨e, t, _⟩
    · rw [e] at h1
      refine ⟨Outcome.ret (), a1, ?_, o1, g1, fun c hc => (by cases hc)⟩
      rw [hb, prog_bind_ret _ _ _ _ _ h1]
      rfl
    · rw [e] at h1
      refine ⟨Outcome.exited (-1), a1, ?_, o1, g1, fun c hc => ?_⟩
      · rw [hb, prog_bind_exited _ _ _ _ _ h1]
      · cases hc
        exact ⟨rfl, t⟩
  · rw [g2]
    simp [Call.writes]
  · rw [g2]
    simp only [Call.writes]
    exact getLast_append_singleton _ _
  · exact except_error_of _ _ (by decide!)

theorem and31_u32 (rate : Int) : 31 &&& u32 rate = (rate % 32).toNat := by
  have e : (31 : Nat) = 2 ^ 5 - 1 := by norm_num
  rw [Nat.and_comm, e, Nat.and_pow_two_sub_one_eq_mod]
  unfold u32
  omega

theorem or96_small (x : Nat) (h : x < 32) : x ||| 96 = 96 + x := by
  interval_cases x <;> rfl

theorem samplerate_byte (rate : Int) : (31 &&& u32 rate) ||| 96 = 96 + (rate % 32).toNat := by
  rw [and31_u32]
  exact or96_small _ (by omega)

theorem samplerate_unfold {W : Type} (D : Driver W) (rate : Int) (h : rate ≤ 22) :
    adc_set_samplerate D rate =
      (D.spi_write_cmd (arr [WRITE_FILTERCON0_REG, 0, (31 &&& u32 rate) ||| 96]) 3 >>= fun _ =>
        pure ()) := by
  have hn : ¬ rate > 22 := by omega
  simp only [adc_set_samplerate, hn, if_false]
  rfl

/-- What `adc_set_samplerate` does with the driver of `spidriver_host.c` for a rate that
passes the test, whatever the coprocessor does. -/
theorem samplerate_spec (env : Env) (rate : Int) (h : rate ≤ 22) (a : Adc) :
    ∃ r a1, adc_set_samplerate (hostDriver env) rate a = .ok (r, a1) ∧
      a1.ops = a.ops ++ [Op.write [40, 0, (31 &&& u32 rate) ||| 96]] ∧
      hostWrites (logSince a.host a1.host) =
        [(0, 255), (1, 3), (2, 40), (3, 0), (4, (31 &&& u32 rate) ||| 96), (0, 2)] ∧
      (r = Outcome.ret () ∨ r = Outcome.exited (-1) ∧ ∃ h1, TimedOut env h1) := by
  obtain ⟨r1, a1, h1, o1, rds1, l1, hw1, c1⟩ :=
    hostDriver_write env (arr [WRITE_FILTERCON0_REG, 0, (31 &&& u32 rate) ||| 96]) 3 a
  have t1 : taken (arr [WRITE_FILTERCON0_REG, 0, (31 &&& u32 rate) ||| 96]) 3 =
      [40, 0, (31 &&& u32 rate) ||| 96] := rfl
  have g1 : hostWrites (logSince a.host a1.host) =
      [(0, 255), (1, 3), (2, 40), (3, 0), (4, (31 &&& u32 rate) ||| 96), (0, 2)] := by
    rw [logSince_of a.host a.host a1.host [] _ (by simp) l1, List.nil_append,
      hostWrites_wr_append _ _ hw1]
    rfl
  rw [t1] at o1
  rw [samplerate_unfold _ rate h]
  rcases c1 with ⟨e1, _⟩ | ⟨e1, to1, _⟩
  · subst e1
    refine ⟨Outcome.ret (), a1, ?_, o1, g1, Or.inl rfl⟩
    rw [prog_bind_ret _ _ _ _ _ h1]
    rfl
  · subst e1
    refine ⟨Outcome.exited (-1), a1, ?_, o1, g1, Or.inr ⟨rfl, _, to1⟩⟩
    rw [prog_bind_exited _ _ _ _ _ h1]

/-- C21 (sample-rate encoding). For every `int` rate up to `0x16`, negative ones included,
and whatever the coprocessor does, `adc_set_samplerate` over the driver of
`spidriver_host.c` makes exactly one driver call, `spi_write_cmd` with the three words
`[0x28, 0x00, (rate & 0x1f) | 0x60]`, and the mailbox writes are those of that call; the
call returns or the driver ends the process on a timeout. The third word is
`0x60 + (rate mod 32)`, with the non-negative remainder, which is a byte; for the codes
5 to 16 of `adcdriver_host.h` it is `0x60 + rate`, and two such codes with the same third
word are equal. -/
theorem samplerate_encoding (rate : Int) (h : rate ≤ 22) :
    (∀ (env : Env) (a : Adc),
      ∃ r a1, adc_set_samplerate (hostDriver env) rate a = .ok (r, a1) ∧
        a1.ops = a.ops ++ [Op.write [40, 0, (31 &&& u32 rate) ||| 96]] ∧
        hostWrites (logSince a.host a1.host) =
          [(0, 255), (1, 3), (2, 40), (3, 0), (4, (31 &&& u32 rate) ||| 96), (0, 2)] ∧
        (r = Outcome.ret () ∨ r = Outcome.exited (-1) ∧ ∃ h1, TimedOut env h1)) ∧
    (31 &&& u32 rate) ||| 96 = 96 + (rate % 32).toNat ∧
    (31 &&& u32 rate) ||| 96 < 256 ∧
    (5 ≤ rate → rate ≤ 16 →
      ((31 &&& u32 rate) ||| 96 : Nat) = 96 + rate.toNat ∧
      ∀ r2 : Int, 5 ≤ r2 → r2 ≤ 16 →
        (31 &&& u32 r2) ||| 96 = (31 &&& u32 rate) ||| 96 → r2 = rate) := by
  refine ⟨fun env a => samplerate_spec env rate h a, samplerate_byte rate, ?_, ?_⟩
  · rw [samplerate_byte]
    omega
  · intro h5 h16
    refine ⟨?_, fun r2 g5 g16 he => ?_⟩
    · rw [samplerate_byte]
      omega
    · rw [samplerate_byte, samplerate_byte] at he
      omega

/-- Witness for `samplerate_encoding`: the code `SAMP_RATE_15625 = 6`, with a coprocessor
that completes the command. -/
theorem samplerate_encoding_witness :
    (6 : Int) ≤ 22 ∧
    (∃ r a1, adc_set_samplerate (hostDriver ackEnv) 6 demoAdc = .ok (r, a1) ∧
      a1.ops = demoAdc.ops ++ [Op.write [40, 0, (31 &&& u32 6) ||| 96]]) ∧
    (31 &&& u32 6) ||| 96 = 102 :=
  ⟨by decide,
    ((samplerate_encoding 6 (by decide)).1 ackEnv demoAdc).imp
      (fun _ hr => hr.imp fun _ ha => ⟨ha.1, ha.2.1⟩),
    ((samplerate_encoding 6 (by decide)).2.2.2 (by decide) (by decide)).1⟩

/-- One `spi_write_cmd` of the driver of `spidriver_host.c`: the call is recorded, the log
grows by entries whose mailbox writes are those of the call, and the call returns 0 or the
driver ends the process on a timeout. -/
theorem host_write_step (env : Env) (d : Nat → Nat) (cnt : Int) (a : Adc) :
    ∃ r a1 l, (hostDriver env).spi_write_cmd d cnt a = .ok (r, a1) ∧
      a1.ops = a.ops ++ [Op.write (taken d cnt)] ∧
      a1.host.log = a.host.log ++ l ∧ hostWrites l = (Call.write d cnt).writes ∧
      (r = Outcome.ret 0 ∨
        r = Outcome.exited (-1) ∧ TimedOut env (spi_write_cmd_setup d cnt a.host)) := by
  obtain ⟨r1, a1, h1, o1, rds1, l1, hw1, c1⟩ := hostDriver_write env d cnt a
  refine ⟨r1, a1, _, h1, o1, l1, hostWrites_wr_append _ _ hw1, ?_⟩
  rcases c1 with ⟨e1, _⟩ | ⟨e1, to1, _⟩
  · exact Or.inl e1
  · exact Or.inr ⟨e1, to1⟩

theorem logSince_append (h h1 : Host) (l : List HEv) (e : h1.log = h.log ++ l) :
    logSince h h1 = l := by
  rw [logSince_of h h h1 [] l (by simp) e, List.nil_append]

/-- Two `spi_write_cmd` calls of three words in a row, over the driver of
`spidriver_host.c`. -/
theorem two_writes_spec (env : Env) (d1 d2 : List Nat) (a : Adc) :
    ∃ r a1, (((hostDriver env).spi_write_cmd (arr d1) 3 >>= fun _ =>
        (hostDriver env).spi_write_cmd (arr d2) 3 >>= fun _ => pure ()) : Prog Adc Unit) a =
          .ok (r, a1) ∧
      (r = Outcome.ret () →
        a1.ops = a.ops ++ [Op.write (taken (arr d1) 3), Op.write (taken (arr d2) 3)] ∧
        hostWrites (logSince a.host a1.host) =
          (Call.write (arr d1) 3).writes ++ (Call.write (arr d2) 3).writes) ∧
      (∀ c, r = Outcome.exited c → c = -1 ∧
        (a1.ops = a.ops ++ [Op.write (taken (arr d1) 3)] ∨
          a1.ops = a.ops ++ [Op.write (taken (arr d1) 3), Op.write (taken (arr d2) 3)]) ∧
        ∃ h1, TimedOut env h1) := by
  obtain ⟨r1, a1, l1, h1, o1, g1, w1, c1⟩ := host_write_step env (arr d1) 3 a
  rcases c1 with e1 | ⟨e1, to1⟩
  · subst e1
    obtain ⟨r2, a2, l2, h2, o2, g2, w2, c2⟩ := host_write_step env (arr d2) 3 a1
    rw [o1, List.append_assoc] at o2
    rw [g1, List.append_assoc] at g2
    rcases c2 with e2 | ⟨e2, to2⟩
    · subst e2
      refine ⟨Outcome.ret (), a2, ?_, fun _ => ⟨o2, ?_⟩, fun c hc => (by cases hc)⟩
      · rw [prog_bind_ret _ _ _ _ _ h1, prog_bind_ret _ _ _ _ _ h2]
        rfl
      · rw [logSince_append _ _ _ g2, hostWrites_append, w1, w2]
    · subst e2
      refine ⟨Outcome.exited (-1), a2, ?_, fun hc => (by cases hc), fun c hc => ?_⟩
      · rw [prog_bind_ret _ _ _ _ _ h1, prog_bind_exited _ _ _ _ _ h2]
      · cases hc
        exact ⟨rfl, Or.inr o2, _, to2⟩
  · subst e1
    refine ⟨Outcome.exited (-1), a1, ?_, fun hc => (by cases hc), fun c hc => ?_⟩
    · rw [prog_bind_exited _ _ _ _ _ h1]
    · cases hc
      exact ⟨rfl, Or.inl o1, _, to1⟩

theorem chanEnabled_128 (lo : Nat) : chanEnabled (128, lo) = true := by
  simp only [chanEnabled]
  decide

theorem chanEnabled_0 (lo : Nat) : chanEnabled (0, lo) = false := by
  simp only [chanEnabled]
  decide

/-- C22 (channel selection). Whatever the coprocessor does, `adc_set_chan0` over the driver
of `spidriver_host.c` makes exactly two driver calls when it returns, `spi_write_cmd` of
`[0x11, 0x00, 0x43]` and then of `[0x10, 0x80, 0x01]`, and `adc_set_chan1` makes
`spi_write_cmd` of `[0x10, 0x00, 0x01]` and then of `[0x11, 0x80, 0x43]`; the mailbox writes
are those of the two calls, and the only other outcome is the driver ending the process on a
timeout after the first or the second call. In the register model that keeps the last
payload written to each channel register, from every state of the registers: after the two
calls of `adc_set_chan0` channel 0 is enabled and channel 1 is not, after those of
`adc_set_chan1` channel 1 is enabled and channel 0 is not, and if the two channels were not
both enabled before, they are not both enabled after any number of the calls. -/
theorem channel_selection :
    (∀ (env : Env) (a : Adc),
      ∃ r a1, adc_set_chan0 (hostDriver env) a = .ok (r, a1) ∧
        (r = Outcome.ret () →
          a1.ops = a.ops ++ [Op.write [17, 0, 67], Op.write [16, 128, 1]] ∧
          hostWrites (logSince a.host a1.host) =
            [(0, 255), (1, 3), (2, 17), (3, 0), (4, 67), (0, 2)] ++
            [(0, 255), (1, 3), (2, 16), (3, 128), (4, 1), (0, 2)]) ∧
        (∀ c, r = Outcome.exited c → c = -1 ∧
          (a1.ops = a.ops ++ [Op.write [17, 0, 67]] ∨
            a1.ops = a.ops ++ [Op.write [17, 0, 67], Op.write [16, 128, 1]]) ∧
          ∃ h1, TimedOut env h1)) ∧
    (∀ (env : Env) (a : Adc),
      ∃ r a1, adc_set_chan1 (hostDriver env) a = .ok (r, a1) ∧
        (r = Outcome.ret () →
          a1.ops = a.ops ++ [Op.write [16, 0, 1], Op.write [17, 128, 67]] ∧
          hostWrites (logSince a.host a1.host) =
            [(0, 255), (1, 3), (2, 16), (3, 0), (4, 1), (0, 2)] ++
            [(0, 255), (1, 3), (2, 17), (3, 128), (4, 67), (0, 2)]) ∧
        (∀ c, r = Outcome.exited c → c = -1 ∧
          (a1.ops = a.ops ++ [Op.write [16, 0, 1]] ∨
            a1.ops = a.ops ++ [Op.write [16, 0, 1], Op.write [17, 128, 67]]) ∧
          ∃ h1, TimedOut env h1)) ∧
    (∀ regs : ChanRegs,
      chanEnabled (regs.after [Op.write [17, 0, 67], Op.write [16, 128, 1]]).ch0 = true ∧
      chanEnabled (regs.after [Op.write [17, 0, 67], Op.write [16, 128, 1]]).ch1 = false ∧
      chanEnabled (regs.after [Op.write [16, 0, 1], Op.write [17, 128, 67]]).ch0 = false ∧
      chanEnabled (regs.after [Op.write [16, 0, 1], Op.write [17, 128, 67]]).ch1 = true ∧
      (¬ (chanEnabled regs.ch0 = true ∧ chanEnabled regs.ch1 = true) →
        ∀ k,
          ¬ (chanEnabled (regs.after
              ([Op.write [17, 0, 67], Op.write [16, 128, 1]].take k)).ch0 = true ∧
            chanEnabled (regs.after
              ([Op.write [17, 0, 67], Op.write [16, 128, 1]].take k)).ch1 = true) ∧
          ¬ (chanEnabled (regs.after
              ([Op.write [16, 0, 1], Op.write [17, 128, 67]].take k)).ch0 = true ∧
            chanEnabled (regs.after
              ([Op.write [16, 0, 1], Op.write [17, 128, 67]].take k)).ch1 = true))) := by
  refine ⟨fun env a => two_writes_spec env [WRITE_CH1_REG, 0, 67] [WRITE_CH0_REG, 128, 1] a,
    fun env a => two_writes_spec env [WRITE_CH0_REG, 0, 1] [WRITE_CH1_REG, 128, 67] a,
    fun regs => ⟨chanEnabled_128 1, chanEnabled_0 67, chanEnabled_0 1, chanEnabled_128 67,
      fun hb k => ?_⟩⟩
  rcases k with _ | _ | k
  · exact ⟨hb, hb⟩
  · refine ⟨fun hc => ?_, fun hc => ?_⟩
    · have := chanEnabled_0 67
      exact Bool.noConfusion (this.symm.trans hc.2)
    · have := chanEnabled_0 1
      exact Bool.noConfusion (this.symm.trans hc.1)
  · have e : ∀ x y : Op, List.take (k + 1 + 1) [x, y] = [x, y] := fun x y => by simp
    rw [e, e]
    refine ⟨fun hc => ?_, fun hc => ?_⟩
    · have := chanEnabled_0 67
      exact Bool.noConfusion (this.symm.trans hc.2)
    · have := chanEnabled_0 1
      exact Bool.noConfusion (this.symm.trans hc.1)

theorem runs_pure (env : Env) (a : Adc) : Runs env (pure ()) a [] [] :=
  ⟨Outcome.ret (), a, rfl, fun _ => ⟨by simp, [], by simp, rfl⟩, fun c hc => (by cases hc)⟩

theorem runs_write (env : Env) (d : Nat → Nat) (cnt : Int) (k : Nat → Prog Adc Unit)
    (full : List Op) (ws : List (Nat × Nat)) (hk : ∀ a1, Runs env (k 0) a1 full ws) (a : Adc) :
    Runs env ((hostDriver env).spi_write_cmd d cnt >>= k) a
      (Op.write (taken d cnt) :: full) ((Call.write d cnt).writes ++ ws) := by
  obtain ⟨r1, a1, l1, h1, o1, g1, w1, c1⟩ := host_write_step env d cnt a
  rcases c1 with e1 | ⟨e1, to1⟩
  · subst e1
    obtain ⟨r2, a2, h2, c2, c3⟩ := hk a1
    refine ⟨r2, a2, ?_, fun hr => ?_, fun c hc => ?_⟩
    · rw [prog_bind_ret _ _ _ _ _ h1]
      exact h2
    · obtain ⟨o2, l2, g2, w2⟩ := c2 hr
      refine ⟨by rw [o2, o1, List.append_assoc]; rfl, l1 ++ l2, ?_, ?_⟩
      · rw [g2, g1, List.append_assoc]
      · rw [hostWrites_append, w1, w2]
    · obtain ⟨cc, done, rest, d1, d2, d3, d4⟩ := c3 c hc
      refine ⟨cc, Op.write (taken d cnt) :: done, rest, by simp, ?_, ?_, d4⟩
      · rw [d2]
        rfl
      · rw [d3, o1, List.append_assoc]
        rfl
  · subst e1
    refine ⟨Outcome.exited (-1), a1, ?_, fun hr => (by cases hr), fun c hc => ?_⟩
    · rw [prog_bind_exited _ _ _ _ _ h1]
    · cases hc
      exact ⟨rfl, [Op.write (taken d cnt)], full, by simp, rfl, o1, _, to1⟩

theorem config_unfold {W : Type} (B : Board W) (retval : Nat) :
    adc_config B retval =
      (pruss_init B >>= fun _ => pru0_init B >>= fun _ => pru1_init B >>= fun _ =>
        B.usleep 1000 >>= fun _ => adc_reset B >>= fun _ => config_writes B retval) := rfl

theorem runs_usleep (env : Env) (lib : Pruss) (n : Nat) (k : Unit → Prog Adc Unit)
    (full : List Op) (ws : List (Nat × Nat)) (a : Adc) (hk : Runs env (k ()) a full ws) :
    Runs env ((hostBoard env lib).usleep n >>= k) a full ws := hk

theorem config_writes_runs (env : Env) (lib : Pruss) (retval : Nat) (a : Adc) :
    Runs env (config_writes (hostBoard env lib) retval) a configOps configWrites := by
  unfold config_writes
  refine runs_write env _ _ _ _ _ (fun a1 => ?_) a
  refine runs_usleep env lib _ _ _ _ _ ?_
  refine runs_write env _ _ _ _ _ (fun a2 => ?_) a1
  refine runs_usleep env lib _ _ _ _ _ ?_
  refine runs_write env _ _ _ _ _ (fun a3 => ?_) a2
  refine runs_usleep env lib _ _ _ _ _ ?_
  refine runs_usleep env lib _ _ _ _ _ ?_
  refine runs_write env _ _ _ _ _ (fun a4 => ?_) a3
  refine runs_usleep env lib _ _ _ _ _ ?_
  refine runs_write env _ _ (fun _ => pure ()) _ _ (fun a5 => ?_) a4
  exact runs_pure env a5

theorem pruss_init_host (env : Env) (lib : Pruss) (a : Adc) :
    ∃ v, pruss_init (hostBoard env lib) a = .ok (Outcome.ret v, a) := ⟨_, rfl⟩

theorem pru0_init_host (env : Env) (lib : Pruss) (a : Adc) :
    pru0_init (hostBoard env lib) a =
      if u32 lib.r_map % 256 ≠ 0 then .ok (Outcome.exited (-1), afterExit (-1) a)
      else if u32 lib.r_exec % 256 ≠ 0 then
        .ok (Outcome.exited (-1), afterExit (-1) (afterPruReset PRU0 a))
      else .ok (Outcome.ret 0, afterPruReset PRU0 a) := by
  unfold pru0_init
  by_cases h1 : u32 lib.r_map % 256 ≠ 0
  · rw [if_pos h1]
    have e : (hostBoard env lib).prussdrv_map_prumem PRUSS0_PRU0_DATARAM a =
        .ok (Outcome.ret lib.r_map, a) := rfl
    rw [prog_bind_ret _ _ _ _ _ e]
    rw [if_pos h1]
    rfl
  · rw [if_neg h1]
    have e : (hostBoard env lib).prussdrv_map_prumem PRUSS0_PRU0_DATARAM a =
        .ok (Outcome.ret lib.r_map, a) := rfl
    rw [prog_bind_ret _ _ _ _ _ e]
    rw [if_neg h1]
    by_cases h2 : u32 lib.r_exec % 256 ≠ 0
    · rw [if_pos h2]
      have e2 : (pure PUnit.unit : Prog Adc PUnit) a = .ok (Outcome.ret PUnit.unit, a) := rfl
      rw [prog_bind_ret _ _ _ _ _ e2]
      beta_reduce
      have e3 : (hostBoard env lib).prussdrv_pru_reset PRU0 a =
          .ok (Outcome.ret lib.r_reset, afterPruReset PRU0 a) := rfl
      rw [prog_bind_ret _ _ _ _ _ e3]
      have e4 : (hostBoard env lib).prussdrv_exec_program PRU0 (afterPruReset PRU0 a) =
          .ok (Outcome.ret lib.r_exec, afterPruReset PRU0 a) := rfl
      rw [prog_bind_ret _ _ _ _ _ e4]
      dsimp only
      rw [if_pos h2]
      rfl
    · rw [if_neg h2]
      have e2 : (pure PUnit.unit : Prog Adc PUnit) a = .ok (Outcome.ret PUnit.unit, a) := rfl
      rw [prog_bind_ret _ _ _ _ _ e2]
      beta_reduce
      have e3 : (hostBoard env lib).prussdrv_pru_reset PRU0 a =
          .ok (Outcome.ret lib.r_reset, afterPruReset PRU0 a) := rfl
      rw [prog_bind_ret _ _ _ _ _ e3]
      have e4 : (hostBoard env lib).prussdrv_exec_program PRU0 (afterPruReset PRU0 a) =
          .ok (Outcome.ret lib.r_exec, afterPruReset PRU0 a) := rfl
      rw [prog_bind_ret _ _ _ _ _ e4]
      dsimp only
      rw [if_neg h2]
      rfl

theorem pru1_init_host (env : Env) (lib : Pruss) (a : Adc) :
    pru1_init (hostBoard env lib) a = .ok (Outcome.ret 0, afterPruReset PRU1 a) := rfl

theorem adc_reset_host (env : Env) (lib : Pruss) (a : Adc) :
    adc_reset (hostBoard env lib) a =
      .ok (Outcome.ret (), ⟨(spi_reset_cmd env a.host).2, a.ops⟩) := rfl

theorem hostWrites_reset_log (env : Env) (h : Host) :
    ∃ l, (spi_reset_cmd env h).2.log = h.log ++ l ∧ hostWrites l = [(0, SPI_RESET)] := by
  obtain ⟨_, k, _, e, _⟩ := reset_cmd_log env h
  refine ⟨_, e, ?_⟩
  have : HEv.wr 0 SPI_RESET :: pollLog env (pru_write_word 0 SPI_RESET h) k =
      [HEv.wr 0 SPI_RESET] ++ pollLog env (pru_write_word 0 SPI_RESET h) k := rfl
  rw [this, hostWrites_append, hostWrites_pollLog]
  rfl

/-- What `adc_config` does with the driver of `spidriver_host.c`, whatever the coprocessor
does and whatever the library answers. -/
theorem config_spec (env : Env) (lib : Pruss) (retval : Nat) (a : Adc) :
    ∃ r a1, adc_config (hostBoard env lib) retval a = .ok (r, a1) ∧
      (r = Outcome.ret () →
        u32 lib.r_map % 256 = 0 ∧ u32 lib.r_exec % 256 = 0 ∧
        a1.ops = a.ops ++ configOps ∧
        hostWrites (logSince a.host a1.host) = (0, SPI_RESET) :: configWrites) ∧
      (∀ c, r = Outcome.exited c → c = -1 ∧
        ∃ done rest, configOps = done ++ rest ∧ a1.ops = a.ops ++ done ∧
          (done = [] ∧ hostWrites (logSince a.host a1.host) = [] ∧
              (u32 lib.r_map % 256 ≠ 0 ∨ u32 lib.r_exec % 256 ≠ 0) ∨
            done ≠ [] ∧ ∃ h1, TimedOut env h1)) := by
  obtain ⟨v, e0⟩ := pruss_init_host env lib a
  have e1 := pru0_init_host env lib a
  rw [config_unfold, prog_bind_ret _ _ _ _ _ e0]
  by_cases h1 : u32 lib.r_map % 256 ≠ 0
  · rw [if_pos h1] at e1
    rw [prog_bind_exited _ _ _ _ _ e1]
    refine ⟨_, _, rfl, fun hr => (by cases hr), fun c hc => ?_⟩
    cases hc
    refine ⟨rfl, [], configOps, rfl, by simp [afterExit], Or.inl ⟨rfl, ?_, Or.inl h1⟩⟩
    rw [logSince_append a.host (afterExit (-1) a).host [HEv.exit (-1)] rfl]
    rfl
  · rw [if_neg h1] at e1
    by_cases h2 : u32 lib.r_exec % 256 ≠ 0
    · rw [if_pos h2] at e1
      rw [prog_bind_exited _ _ _ _ _ e1]
      refine ⟨_, _, rfl, fun hr => (by cases hr), fun c hc => ?_⟩
      cases hc
      refine ⟨rfl, [], configOps, rfl, by simp [afterExit, afterPruReset],
        Or.inl ⟨rfl, ?_, Or.inr h2⟩⟩
      rw [logSince_append a.host (afterExit (-1) (afterPruReset PRU0 a)).host
        [HEv.prussdrv_pru_reset PRU0, HEv.exit (-1)]
        (by simp [afterExit, afterPruReset])]
      rfl
    · rw [if_neg h2] at e1
      rw [prog_bind_ret _ _ _ _ _ e1,
        prog_bind_ret _ _ _ _ _ (pru1_init_host env lib (afterPruReset PRU0 a))]
      have e3 : (hostBoard env lib).usleep 1000 (afterPruReset PRU1 (afterPruReset PRU0 a)) =
          .ok (Outcome.ret (), afterPruReset PRU1 (afterPruReset PRU0 a)) := rfl
      rw [prog_bind_ret _ _ _ _ _ e3,
        prog_bind_ret _ _ _ _ _ (adc_reset_host env lib _)]
      obtain ⟨lr, gr, wr⟩ :=
        hostWrites_reset_log env (afterPruReset PRU1 (afterPruReset PRU0 a)).host
      generalize hb : (⟨(spi_reset_cmd env (afterPruReset PRU1 (afterPruReset PRU0 a)).host).2,
        (afterPruReset PRU1 (afterPruReset PRU0 a)).ops⟩ : Adc) = b
      have bo : b.ops = a.ops := by rw [← hb]; rfl
      have bl : b.host.log = a.host.log ++
          ([HEv.prussdrv_pru_reset PRU0, HEv.prussdrv_pru_reset PRU1] ++ lr) := by
        rw [← hb]
        show (spi_reset_cmd env (afterPruReset PRU1 (afterPruReset PRU0 a)).host).2.log = _
        rw [gr]
        simp [afterPruReset]
      obtain ⟨r, a1, hrun, c2, c3⟩ := config_writes_runs env lib retval b
      refine ⟨r, a1, hrun, fun hr => ?_, fun c hc => ?_⟩
      · obtain ⟨o2, l2, g2, w2⟩ := c2 hr
        refine ⟨not_not.mp h1, not_not.mp h2, by rw [o2, bo], ?_⟩
        rw [logSince_append a.host a1.host
          ([HEv.prussdrv_pru_reset PRU0, HEv.prussdrv_pru_reset PRU1] ++ lr ++ l2)
          (by rw [g2, bl]; simp), hostWrites_append, hostWrites_append, wr, w2]
        rfl
      · obtain ⟨cc, done, rest, d1, d2, d3, d4⟩ := c3 c hc
        exact ⟨cc, done, rest, d2, by rw [d3, bo], Or.inr ⟨d1, d4⟩⟩

theorem except_ok_of_proj {α β : Type} (x : Except Fault α) (g : α → β) (y : β)
    (h : x.toOption.map g = some y) : ∃ r, x = .ok r ∧ g r = y := by
  cases x with
  | error e => cases h
  | ok r =>
    simp only [Except.toOption, Option.map, Option.some.injEq] at h
    exact ⟨r, rfl, h⟩

/-- C23 (configuration sequence). Whatever the coprocessor does and whatever the library
answers, `adc_config` over the driver of `spidriver_host.c` runs without fault. When it
returns, bring-up succeeded, the first mailbox write is the reset command, and after it
exactly five driver calls were made, in this order: `spi_write_cmd` of `[0x10, 0x80, 0x01]`,
`[0x11, 0x00, 0x43]`, `[0x20, 0x13, 0x00]`, `[0x02, 0x00, 0x00]` and `[0x06, 0x00, 0x00]`,
with the mailbox writes of those five calls and no other. Otherwise the process ended with
`exit(-1)`: in bring-up, before any call or mailbox write, or on a timeout of one of the
five calls. None of the five calls has the command byte `0x01`. The two channel payloads
are those `adc_set_chan0` writes, and in the register model of channel selection, from
every state of the registers, channel 0 is enabled and channel 1 is not after the five
calls. With a library that succeeds, the run returns, both with a coprocessor that completes
every command and with the dispatcher and engine behind the mailbox. -/
theorem config_sequence :
    (∀ (env : Env) (lib : Pruss) (retval : Nat) (a : Adc),
      ∃ r a1, adc_config (hostBoard env lib) retval a = .ok (r, a1) ∧
        (r = Outcome.ret () →
          u32 lib.r_map % 256 = 0 ∧ u32 lib.r_exec % 256 = 0 ∧
          a1.ops = a.ops ++ [Op.write [16, 128, 1], Op.write [17, 0, 67],
            Op.write [32, 19, 0], Op.write [2, 0, 0], Op.write [6, 0, 0]] ∧
          hostWrites (logSince a.host a1.host) =
            (0, 5) :: ([(0, 255), (1, 3), (2, 16), (3, 128), (4, 1), (0, 2)] ++
              [(0, 255), (1, 3), (2, 17), (3, 0), (4, 67), (0, 2)] ++
              [(0, 255), (1, 3), (2, 32), (3, 19), (4, 0), (0, 2)] ++
              [(0, 255), (1, 3), (2, 2), (3, 0), (4, 0), (0, 2)] ++
              [(0, 255), (1, 3), (2, 6), (3, 0), (4, 0), (0, 2)])) ∧
        (∀ c, r = Outcome.exited c → c = -1 ∧
          ∃ done rest, configOps = done ++ rest ∧ a1.ops = a.ops ++ done ∧
            (done = [] ∧ hostWrites (logSince a.host a1.host) = [] ∧
                (u32 lib.r_map % 256 ≠ 0 ∨ u32 lib.r_exec % 256 ≠ 0) ∨
              done ≠ [] ∧ ∃ h1, TimedOut env h1))) ∧
    (∀ d, Op.write d ∈ configOps → d.head? ≠ some WRITE_ADCMODE_REG) ∧
    (∀ o ∈ configOps, ∃ d, o = Op.write d ∧ d.length = 3) ∧
    (∀ (env : Env) (a : Adc),
      ∃ r a1, adc_set_chan0 (hostDriver env) a = .ok (r, a1) ∧
        (r = Outcome.ret () →
          Op.write [16, 128, 1] ∈ a1.ops ∧ Op.write [17, 0, 67] ∈ a1.ops)) ∧
    configOps.take 2 = [Op.write [16, 128, 1], Op.write [17, 0, 67]] ∧
    (∀ regs : ChanRegs,
      chanEnabled (regs.after configOps).ch0 = true ∧
      chanEnabled (regs.after configOps).ch1 = false ∧
      (regs.after configOps).ch0 =
        (regs.after [Op.write [17, 0, 67], Op.write [16, 128, 1]]).ch0 ∧
      (regs.after configOps).ch1 =
        (regs.after [Op.write [17, 0, 67], Op.write [16, 128, 1]]).ch1) ∧
    (∃ r, adc_config (hostBoard ackEnv okLib) 0 demoAdc = .ok r ∧
      (r.1.returned, r.2.ops) = (true, configOps)) ∧
    (∃ r, adc_config (sysBoard demoMiso 0 okLib) 0 (demoAdc, demoPru) = .ok r ∧
      (r.1.returned, r.2.1.ops) = (true, configOps)) := by
  refine ⟨config_spec, ?_, ?_, fun env a => ?_, rfl, fun regs => ?_, ?_, ?_⟩
  · intro d hd
    simp only [configOps, List.mem_cons, Op.write.injEq, List.mem_singleton,
      List.not_mem_nil, or_false] at hd
    rcases hd with rfl | rfl | rfl | rfl | rfl <;> decide
  · intro o ho
    simp only [configOps, List.mem_cons, List.mem_singleton, List.not_mem_nil,
      or_false] at ho
    rcases ho with rfl | rfl | rfl | rfl | rfl <;> exact ⟨_, rfl, rfl⟩
  · obtain ⟨r, a1, e, c1, _⟩ :=
      two_writes_spec env [WRITE_CH1_REG, 0, 67] [WRITE_CH0_REG, 128, 1] a
    refine ⟨r, a1, e, fun hr => ?_⟩
    rw [(c1 hr).1]
    exact ⟨List.mem_append_right _ (by decide), List.mem_append_right _ (by decide)⟩
  · exact ⟨chanEnabled_128 1, chanEnabled_0 67, rfl, rfl⟩
  · exact except_ok_of_proj _ (fun r : Outcome Unit × Adc => (r.1.returned, r.2.ops)) _
      (by decide!)
  · exact except_ok_of_proj _ (fun r : Outcome Unit × Adc × Pru => (r.1.returned, r.2.1.ops)) _
      (by decide!)

theorem wait_miso_high_spin (miso : Nat → Nat) (fuel : Nat) (s : Pru) (e : Fault)
    (h : wait_miso_high miso fuel s = .error e) : e = Fault.spin := by
  induction fuel generalizing s with
  | zero =>
    simp only [wait_miso_high, Except.error.injEq] at h
    exact h.symm
  | succ n ih =>
    simp only [wait_miso_high] at h
    split at h
    · cases h
    · exact ih _ h

theorem wait_miso_low_spin (miso : Nat → Nat) (fuel : Nat) (s : Pru) (e : Fault)
    (h : wait_miso_low miso fuel s = .error e) : e = Fault.spin := by
  induction fuel generalizing s with
  | zero =>
    simp only [wait_miso_low, Except.error.injEq] at h
    exact h.symm
  | succ n ih =>
    simp only [wait_miso_low] at h
    split at h
    · cases h
    · exact ih _ h

theorem except_bind_error {α β : Type} (x : Except Fault α) (f : α → Except Fault β) (e : Fault)
    (h : x >>= f = .error e) : x = .error e ∨ ∃ a, x = .ok a ∧ f a = .error e := by
  cases x with
  | error e1 =>
    left
    change Except.error e1 = Except.error e at h
    rw [Except.error.inj h]
  | ok a =>
    right
    exact ⟨a, rfl, h⟩

theorem conversion_spin (miso : Nat → Nat) (fuel : Nat) (pTxbuf : Nat → Nat) (tx_cnt : Int)
    (p : Ptr) (rx_cnt : Int) (h4 : rx_cnt.toNat ≤ 4) (k : Nat) (hp : p = Ptr.loc → k < 4)
    (s : Pru) (e : Fault)
    (h : conversion miso fuel pTxbuf tx_cnt p rx_cnt k s = .error e) : e = Fault.spin := by
  simp only [conversion] at h
  rcases except_bind_error _ _ _ h with h | ⟨s1, _, h⟩
  · exact wait_miso_high_spin _ _ _ _ h
  rcases except_bind_error _ _ _ h with h | ⟨s2, _, h⟩
  · exact wait_miso_low_spin _ _ _ _ h
  rcases except_bind_error _ _ _ h with h | ⟨s3, _, h⟩
  · obtain ⟨s4, h5, _⟩ := rx_loop_spec miso rx_cnt h4 (R30_set MOSI (tx_loop pTxbuf tx_cnt s2))
    rw [h5] at h
    cases h
  rcases except_bind_error _ _ _ h with h | ⟨s4, _, h⟩
  · obtain ⟨s5, h5⟩ := store_ok p k (assemble s3.rx_word rx_cnt) s3 hp
    rw [h5] at h
    cases h
  · cases h

theorem forLoopM_spin {σ : Type} (n : Nat) (body : Nat → σ → Except Fault σ)
    (hb : ∀ i s e, i < n → body i s = .error e → e = Fault.spin) (s : σ) (e : Fault)
    (h : forLoopM n body s = .error e) : e = Fault.spin := by
  induction n with
  | zero => cases h
  | succ n ih =>
    rw [forLoopM_succ] at h
    rcases except_bind_error _ _ _ h with h | ⟨s1, _, h⟩
    · exact ih (fun i s e hi => hb i s e (by omega)) h
    · exact hb n s1 e (by omega) h

theorem continuous_spin (miso : Nat → Nat) (fuel : Nat) (pTxbuf : Nat → Nat) (tx_cnt : Int)
    (off : Nat) (rx_cnt : Int) (h4 : rx_cnt.toNat ≤ 4) (ncnv : Int) (s : Pru) (e : Fault)
    (h : pru_spi_writeread_continuous miso fuel pTxbuf tx_cnt (Ptr.ram off) rx_cnt ncnv s =
      .error e) : e = Fault.spin := by
  simp only [pru_spi_writeread_continuous] at h
  rcases except_bind_error _ _ _ h with h | ⟨s1, _, h⟩
  · exact forLoopM_spin _ _ (fun i s e _ hc =>
      conversion_spin miso fuel pTxbuf tx_cnt _ rx_cnt h4 i (fun hp => by cases hp) s e hc) _ _ h
  · cases h

/-- One pass of the dispatcher on a command whose counts fit: the only fault of the model is
the poll budget of a data-ready wait running out. -/
theorem iteration_spin (miso : Nat → Nat) (fuel : Nat) (s : Pru) (htx : s.pMEM 1 ≤ 4)
    (hrx : s.pMEM 0 = SPI_WRITEREAD_SINGLE ∨ s.pMEM 0 = SPI_WRITEREAD_CONTINUOUS →
      (i32 (s.pMEM (2 + s.pMEM 1))).toNat ≤ 4) (e : Fault)
    (h : main_iteration miso fuel s = .error e) : e = Fault.spin := by
  obtain ⟨pb, hpb⟩ := decode_total s htx
  have hd := decode_spec s pb hpb
  have e1 : (mem_write 0 238 s).pMEM 1 = s.pMEM 1 := by simp [mem_write]
  have e2 : pb.pMEM (2 + s.pMEM 1) = s.pMEM (2 + s.pMEM 1) := by
    rw [hd.1, Function.update_noteq (by omega)]
  unfold main_iteration at h
  simp only [NOP, SPI_WAIT_COMMAND, SPI_TEST, SPI_WRITE, SPI_WRITEREAD_SINGLE,
    SPI_WRITEREAD_CONTINUOUS, SPI_RESET] at h hrx
  split_ifs at h with c1 c2 c3 c4 c5 c6
  · rw [hpb] at h
    cases h
  · rw [hpb] at h
    obtain ⟨s1, h1, _⟩ := single_spec miso pb.tx_words (i32 ((mem_write 0 238 s).pMEM 1))
      Ptr.loc (i32 (pb.pMEM (2 + (mem_write 0 238 s).pMEM 1)))
      (by rw [e1, e2]; exact hrx (Or.inl c4)) pb
    simp only [bind, Except.bind] at h
    rw [h1] at h
    cases h
  · rw [hpb] at h
    simp only [bind, Except.bind] at h
    rcases hx : pru_spi_writeread_continuous miso fuel pb.tx_words
        (i32 ((mem_write 0 238 s).pMEM 1)) (Ptr.ram (2 + (mem_write 0 238 s).pMEM 1 + 2))
        (i32 (pb.pMEM (2 + (mem_write 0 238 s).pMEM 1)))
        (i32 (pb.pMEM (2 + (mem_write 0 238 s).pMEM 1 + 1))) pb with e3 | s1
    · rw [hx] at h
      simp only [Except.error.injEq] at h
      rw [← h]
      exact continuous_spin _ _ _ _ _ _ (by rw [e1, e2]; exact hrx (Or.inr c5)) _ _ _ hx
    · rw [hx] at h
      cases h

theorem NoFault.onlySpin {W α : Type} (x : Prog W α) (h : NoFault x) : OnlySpin x := by
  intro w e he
  obtain ⟨r, hr⟩ := h w
  rw [hr] at he
  cases he

theorem onlySpin_bind {W α β : Type} (x : Prog W α) (f : α → Prog W β) (hx : OnlySpin x)
    (hf : ∀ v, OnlySpin (f v)) : OnlySpin (x >>= f) := by
  intro w e he
  change Prog.bind x f w = .error e at he
  unfold Prog.bind at he
  split at he
  · next e1 h1 =>
    cases he
    exact hx w _ h1
  · cases he
  · next a w1 h1 => exact hf a w1 e he

theorem noFault_bind {W α β : Type} (x : Prog W α) (f : α → Prog W β) (hx : NoFault x)
    (hf : ∀ v, NoFault (f v)) : NoFault (x >>= f) := by
  intro w
  obtain ⟨r, hr⟩ := hx w
  obtain ⟨o, w1⟩ := r
  cases o with
  | ret v =>
    obtain ⟨r2, hr2⟩ := hf v w1
    exact ⟨r2, by rw [prog_bind_ret _ _ _ _ _ hr]; exact hr2⟩
  | exited c => exact ⟨_, prog_bind_exited _ _ _ _ _ hr⟩

theorem noFault_pure {W α : Type} (v : α) : NoFault (pure v : Prog W α) :=
  fun _ => ⟨_, rfl⟩

theorem iteration_fuel (miso : Nat → Nat) (f1 f2 : Nat) (s : Pru)
    (h : s.pMEM 0 ≠ SPI_WRITEREAD_CONTINUOUS) :
    main_iteration miso f1 s = main_iteration miso f2 s := by
  unfold main_iteration
  simp only [NOP, SPI_WAIT_COMMAND, SPI_TEST, SPI_WRITE, SPI_WRITEREAD_SINGLE,
    SPI_WRITEREAD_CONTINUOUS, SPI_RESET] at h ⊢
  split_ifs <;> rfl

theorem serve_spin (miso : Nat → Nat) (fuel : Nat) (c : Call) (hc : c.fits) (h : Host)
    (p : Pru) (e : Fault) (he : serve miso fuel (c.setup h) p = .error e) :
    e = Fault.spin := by
  obtain ⟨c1, c2⟩ := setup_counts c hc h
  simp only [serve] at he
  rcases except_bind_error _ _ _ he with he | ⟨s1, _, he⟩
  · refine iteration_spin miso fuel { p with pMEM := (c.setup h).ram } c1 (fun hcode => ?_) e he
    exact c2 (by rw [← setup_flag c h]; exact hcode)
  · cases he

theorem serve_ok (miso : Nat → Nat) (fuel : Nat) (c : Call) (hc : c.fits)
    (hn : c.code ≠ SPI_WRITEREAD_CONTINUOUS) (h : Host) (p : Pru) :
    ∃ hp, serve miso fuel (c.setup h) p = .ok hp := by
  have hf := code_cases c
  rw [← setup_flag c h] at hf hn
  obtain ⟨c1, c2⟩ := setup_counts c hc h
  obtain ⟨F, s1, hs1⟩ := iteration_total miso { p with pMEM := (c.setup h).ram } hf c1
    (fun hcode => c2 (by rw [← setup_flag c h]; exact hcode))
    (fun hcode => absurd hcode hn)
  have e := hs1 F (Nat.le_refl F)
  rw [iteration_fuel miso F fuel _ hn] at e
  refine ⟨({ c.setup h with ram := s1.pMEM }, s1), ?_⟩
  simp only [serve, e, bind, Except.bind, pure, Except.pure]

theorem sysDriver_write_noFault (miso : Nat → Nat) (fuel : Nat) (data : Nat → Nat) (cnt : Int)
    (h0 : 0 ≤ cnt) (h4 : cnt ≤ 4) : NoFault ((sysDriver miso fuel).spi_write_cmd data cnt) := by
  intro w
  obtain ⟨hp, hs⟩ := serve_ok miso fuel (Call.write data cnt) ⟨h0, h4⟩
    (by simp [Call.code, SPI_WRITE, SPI_WRITEREAD_CONTINUOUS]) w.1.host w.2
  simp only [Call.setup] at hs
  have e : sys_write_cmd miso fuel data cnt w.1.host w.2 =
      .ok ((spi_write_cmd_wait quiet hp.1).1, (spi_write_cmd_wait quiet hp.1).2, hp.2) := by
    simp only [sys_write_cmd, hs, bind, Except.bind, pure, Except.pure]
  simp only [sysDriver, e]
  exact ⟨_, rfl⟩

theorem sysDriver_single_noFault (miso : Nat → Nat) (fuel : Nat) (tx : Nat → Nat) (txcnt : Int)
    (rx : Nat → Nat) (rxcnt : Int) (h0 : 0 ≤ txcnt) (h4 : txcnt ≤ 4) (r0 : 0 ≤ rxcnt)
    (r4 : rxcnt ≤ 4) : NoFault ((sysDriver miso fuel).spi_writeread_single tx txcnt rx rxcnt) := by
  intro w
  obtain ⟨hp, hs⟩ := serve_ok miso fuel (Call.single tx txcnt rx rxcnt) ⟨h0, h4, r0, r4⟩
    (by simp [Call.code, SPI_WRITEREAD_SINGLE, SPI_WRITEREAD_CONTINUOUS]) w.1.host w.2
  simp only [Call.setup] at hs
  have e : sys_writeread_single miso fuel tx txcnt rx rxcnt w.1.host w.2 =
      .ok ((spi_writeread_single_wait quiet txcnt rx rxcnt hp.1).1,
        (spi_writeread_single_wait quiet txcnt rx rxcnt hp.1).2, hp.2) := by
    simp only [sys_writeread_single, hs, bind, Except.bind, pure, Except.pure]
  simp only [sysDriver, e]
  exact ⟨_, rfl⟩

theorem sysDriver_continuous_onlySpin (miso : Nat → Nat) (fuel : Nat) (tx : Nat → Nat)
    (txcnt : Int) (rx : Nat → Nat) (rxcnt ncnv : Int) (h0 : 0 ≤ txcnt) (h4 : txcnt ≤ 4)
    (r0 : 0 ≤ rxcnt) (r4 : rxcnt ≤ 4) (n0 : 0 ≤ ncnv) (n1 : ncnv < 2147483648) :
    OnlySpin ((sysDriver miso fuel).spi_writeread_continuous tx txcnt rx rxcnt ncnv) := by
  intro w e he
  simp only [sysDriver] at he
  split at he
  · next e1 h1 =>
    cases he
    simp only [sys_writeread_continuous] at h1
    rcases except_bind_error _ _ _ h1 with h1 | ⟨s1, _, h1⟩
    · exact serve_spin miso fuel (Call.continuous tx txcnt rx rxcnt ncnv)
        ⟨h0, h4, r0, r4, n0, n1⟩ w.1.host w.2 _ h1
    · cases h1
  · cases he

theorem sysBoard_reset_noFault (miso : Nat → Nat) (fuel : Nat) (lib : Pruss) :
    NoFault (sysBoard miso fuel lib).spi_reset_cmd := by
  intro w
  have e0 : (pru_write_word 0 SPI_RESET w.1.host).ram 0 = SPI_RESET := by
    simp [pru_write_word]
  have e1 := iteration_reset miso fuel { w.2 with pMEM := (pru_write_word 0 SPI_RESET w.1.host).ram } e0
  have e : ∃ r, sys_reset_cmd miso fuel w.1.host w.2 = .ok r := by
    simp only [sys_reset_cmd, serve, e1, bind, Except.bind, pure, Except.pure]
    exact ⟨_, rfl⟩
  obtain ⟨r, hr⟩ := e
  simp only [sysBoard, hr]
  exact ⟨_, rfl⟩

theorem capped_write3 (a b c : Nat) : (Op.write [a, b, c]).capped :=
  ⟨Nat.le_refl 3, Int.le_refl 0, show (0 : Int) ≤ 3 by decide⟩

theorem capped_of_two (x y : Op) (hx : x.capped) (hy : y.capped) (done : List Op)
    (h : done = [x] ∨ done = [x, y]) : ∀ o ∈ done, o.capped := by
  intro o ho
  rcases h with rfl | rfl
  · simp only [List.mem_singleton] at ho
    rw [ho]
    exact hx
  · simp only [List.mem_cons, List.mem_singleton, List.not_mem_nil, or_false] at ho
    rcases ho with rfl | rfl
    · exact hx
    · exact hy

theorem cappedRun_two_writes (env : Env) (a1 b1 c1 a2 b2 c2 : Nat) :
    CappedRun (((hostDriver env).spi_write_cmd (arr [a1, b1, c1]) 3 >>= fun _ =>
      (hostDriver env).spi_write_cmd (arr [a2, b2, c2]) 3 >>= fun _ => pure ()) :
        Prog Adc Unit) := by
  intro a
  obtain ⟨r, w1, e, k1, k2⟩ := two_writes_spec env [a1, b1, c1] [a2, b2, c2] a
  cases r with
  | ret v =>
    exact ⟨_, _, _, e, (k1 rfl).1, capped_of_two _ _ (capped_write3 _ _ _) (capped_write3 _ _ _)
      _ (Or.inr rfl)⟩
  | exited c =>
    obtain ⟨_, h, _⟩ := k2 c rfl
    rcases h with h | h
    · exact ⟨_, _, _, e, h, capped_of_two _ _ (capped_write3 _ _ _) (capped_write3 a2 b2 c2)
        _ (Or.inl rfl)⟩
    · exact ⟨_, _, _, e, h, capped_of_two _ _ (capped_write3 _ _ _) (capped_write3 _ _ _)
        _ (Or.inr rfl)⟩

theorem cappedRun_samplerate (env : Env) (rate : Int) :
    CappedRun (adc_set_samplerate (hostDriver env) rate) := by
  intro a
  by_cases h : rate > 22
  · refine ⟨Outcome.ret (), a, [], ?_, by simp, fun o ho => (by cases ho)⟩
    simp only [adc_set_samplerate, h, if_true]
    rfl
  · obtain ⟨r, a1, e, o1, _⟩ := samplerate_spec env rate (by omega) a
    refine ⟨r, a1, _, e, o1, fun o ho => ?_⟩
    simp only [List.mem_singleton] at ho
    rw [ho]
    exact capped_write3 _ _ _

theorem cappedRun_get_id (env : Env) (rx_buf : Nat → Nat) :
    CappedRun (adc_get_id_reg (hostDriver env) rx_buf) := by
  intro a
  obtain ⟨r1, a1, h1, o1, _, _, _, c1⟩ :=
    hostDriver_single env (arr [READ_ID_REG]) 1 rx_buf 2 a
  have hb : adc_get_id_reg (hostDriver env) rx_buf =
      ((hostDriver env).spi_writeread_single (arr [READ_ID_REG]) 1 rx_buf 2 >>= fun r =>
        arr_get 2 r.1 0) := rfl
  have hc : ∀ o ∈ [Op.single (taken (arr [READ_ID_REG]) 1) 2], o.capped := by
    intro o ho
    simp only [List.mem_singleton] at ho
    rw [ho]
    exact ⟨by decide, by decide, by decide⟩
  rcases c1 with ⟨w, _, e, _⟩ | ⟨e, _⟩
  · rw [e] at h1
    refine ⟨Outcome.ret w, a1, _, ?_, o1, hc⟩
    rw [hb, prog_bind_ret _ _ _ _ _ h1]
    simp [arr_get]
  · rw [e] at h1
    refine ⟨Outcome.exited (-1), a1, _, ?_, o1, hc⟩
    rw [hb, prog_bind_exited _ _ _ _ _ h1]

theorem cappedRun_read_single (env : Env) (rx_buf : Nat) :
    CappedRun (adc_read_single (hostDriver env) rx_buf) := by
  intro a
  obtain ⟨r, a1, e, c1, c2⟩ := read_single_spec env rx_buf a
  have hx : (Op.single [68] 3).capped := ⟨by decide, by decide, by decide⟩
  cases r with
  | ret v =>
    exact ⟨_, _, _, e, (c1 v rfl).1, capped_of_two _ _ (capped_write3 _ _ _) hx _ (Or.inr rfl)⟩
  | exited c =>
    obtain ⟨_, h, _⟩ := c2 c rfl
    rcases h with h | h
    · exact ⟨_, _, _, e, h, capped_of_two _ _ (capped_write3 _ _ _) hx _ (Or.inl rfl)⟩
    · exact ⟨_, _, _, e, h, capped_of_two _ _ (capped_write3 _ _ _) hx _ (Or.inr rfl)⟩

theorem cappedRun_read_multiple (env : Env) (read_cnt : Nat) (volts : Nat → F32)
    (rx_buf : Nat → Nat) : CappedRun (adc_read_multiple (hostDriver env) read_cnt volts rx_buf) := by
  intro a
  by_cases h : 1024 < read_cnt
  · exact ⟨_, _, [], read_multiple_exit env read_cnt h volts rx_buf a, by simp,
      fun o ho => (by cases ho)⟩
  · obtain ⟨r, a1, e, c1, c2⟩ := read_multiple_spec env read_cnt (by omega) volts rx_buf a
    have hx : (Op.continuous [68] 3 read_cnt).capped :=
      ⟨show 1 ≤ 3 by decide, show (0 : Int) ≤ 3 by decide, show (3 : Int) ≤ 3 by decide⟩
    cases r with
    | ret v =>
      exact ⟨_, _, _, e, (c1 v rfl).1,
        capped_of_two _ _ (capped_write3 _ _ _) hx _ (Or.inr rfl)⟩
    | exited c =>
      obtain ⟨_, h, _⟩ := c2 c rfl
      rcases h with h | h
      · exact ⟨_, _, _, e, h, capped_of_two _ _ (capped_write3 _ _ _) hx _ (Or.inl rfl)⟩
      · exact ⟨_, _, _, e, h, capped_of_two _ _ (capped_write3 _ _ _) hx _ (Or.inr rfl)⟩

theorem capped_configOps : ∀ o ∈ configOps, o.capped := by
  intro o ho
  simp only [configOps, List.mem_cons, List.mem_singleton, List.not_mem_nil, or_false] at ho
  rcases ho with rfl | rfl | rfl | rfl | rfl <;> exact capped_write3 _ _ _

theorem cappedRun_config (env : Env) (lib : Pruss) (retval : Nat) :
    CappedRun (adc_config (hostBoard env lib) retval) := by
  intro a
  obtain ⟨r, a1, e, c1, c2⟩ := config_spec env lib retval a
  cases r with
  | ret v => exact ⟨_, _, _, e, (c1 rfl).2.2.1, capped_configOps⟩
  | exited c =>
    obtain ⟨_, done, rest, d1, d2, _⟩ := c2 c rfl
    exact ⟨_, _, done, e, d2, fun o ho =>
      capped_configOps o (by rw [d1]; exact List.mem_append_left _ ho)⟩

theorem noFault_two_writes (miso : Nat → Nat) (fuel : Nat) (d1 d2 : Nat → Nat) :
    NoFault (((sysDriver miso fuel).spi_write_cmd d1 3 >>= fun _ =>
      (sysDriver miso fuel).spi_write_cmd d2 3 >>= fun _ => pure ()) :
        Prog (Adc × Pru) Unit) :=
  noFault_bind _ _ (sysDriver_write_noFault miso fuel d1 3 (by decide) (by decide)) (fun _ =>
    noFault_bind _ _ (sysDriver_write_noFault miso fuel d2 3 (by decide) (by decide))
      (fun _ => noFault_pure ()))

theorem noFault_samplerate (miso : Nat → Nat) (fuel : Nat) (rate : Int) :
    NoFault (adc_set_samplerate (sysDriver miso fuel) rate) := by
  by_cases h : rate > 22
  · have e : adc_set_samplerate (sysDriver miso fuel) rate = pure () := by
      simp only [adc_set_samplerate, h, if_true]
    rw [e]
    exact noFault_pure ()
  · rw [samplerate_unfold _ rate (by omega)]
    exact noFault_bind _ _ (sysDriver_write_noFault miso fuel _ 3 (by decide) (by decide))
      (fun _ => noFault_pure ())

theorem noFault_get_id (miso : Nat → Nat) (fuel : Nat) (rx_buf : Nat → Nat) :
    NoFault (adc_get_id_reg (sysDriver miso fuel) rx_buf) := by
  have hb : adc_get_id_reg (sysDriver miso fuel) rx_buf =
      ((sysDriver miso fuel).spi_writeread_single (arr [READ_ID_REG]) 1 rx_buf 2 >>= fun r =>
        arr_get 2 r.1 0) := rfl
  rw [hb]
  refine noFault_bind _ _ (sysDriver_single_noFault miso fuel _ 1 _ 2 (by decide) (by decide)
    (by decide) (by decide)) (fun r w => ?_)
  simp only [arr_get, Nat.zero_lt_succ, if_true]
  exact ⟨_, rfl⟩

theorem noFault_read_single (miso : Nat → Nat) (fuel : Nat) (rx_buf : Nat) :
    NoFault (adc_read_single (sysDriver miso fuel) rx_buf) := by
  have hb : adc_read_single (sysDriver miso fuel) rx_buf =
      ((sysDriver miso fuel).spi_write_cmd (arr [WRITE_ADCMODE_REG, 0, 28]) 3 >>= fun _ =>
        (sysDriver miso fuel).spi_writeread_single (arr ([WRITE_ADCMODE_REG, 0, 28].set 0
          READ_DATA_REG)) 1 (fun _ => rx_buf) 3 >>= fun r =>
        pure (adc_GetVoltage (r.1 0))) := rfl
  rw [hb]
  exact noFault_bind _ _ (sysDriver_write_noFault miso fuel _ 3 (by decide) (by decide))
    (fun _ => noFault_bind _ _ (sysDriver_single_noFault miso fuel _ 1 _ 3 (by decide)
      (by decide) (by decide) (by decide)) (fun _ => noFault_pure _))

theorem onlySpin_read_multiple (miso : Nat → Nat) (fuel : Nat) (read_cnt : Nat)
    (volts : Nat → F32) (rx_buf : Nat → Nat) :
    OnlySpin (adc_read_multiple (sysDriver miso fuel) read_cnt volts rx_buf) := by
  rw [read_multiple_unfold]
  by_cases h : read_cnt > 1024
  · rw [if_pos h]
    exact NoFault.onlySpin _ (fun w => ⟨_, prog_bind_exited _ _ _ _ _ rfl⟩)
  · rw [if_neg h]
    unfold read_multiple_rest
    have t3 : i32 read_cnt = (read_cnt : Int) := i32_of_lt read_cnt (by omega)
    refine onlySpin_bind _ _ (NoFault.onlySpin _
      (sysDriver_write_noFault miso fuel _ 3 (by decide) (by decide))) (fun _ =>
        onlySpin_bind _ _ (sysDriver_continuous_onlySpin miso fuel _ 1 _ 3 _ (by decide)
          (by decide) (by decide) (by decide) (by rw [t3]; omega) (by rw [t3]; omega))
          (fun r => NoFault.onlySpin _ (fun w => ⟨_, volts_loop r.1 read_cnt (by omega) volts w⟩)))

theorem noFault_pruss_init (miso : Nat → Nat) (fuel : Nat) (lib : Pruss) :
    NoFault (pruss_init (sysBoard miso fuel lib)) := fun _ => ⟨_, rfl⟩

theorem noFault_pru1_init (miso : Nat → Nat) (fuel : Nat) (lib : Pruss) :
    NoFault (pru1_init (sysBoard miso fuel lib)) := fun _ => ⟨_, rfl⟩

theorem noFault_pru0_init (miso : Nat → Nat) (fuel : Nat) (lib : Pruss) :
    NoFault (pru0_init (sysBoard miso fuel lib)) := by
  intro w
  unfold pru0_init
  have e : (sysBoard miso fuel lib).prussdrv_map_prumem PRUSS0_PRU0_DATARAM w =
      .ok (Outcome.ret lib.r_map, w) := rfl
  rw [prog_bind_ret _ _ _ _ _ e]
  by_cases h1 : u32 lib.r_map % 256 ≠ 0
  · rw [if_pos h1]
    exact ⟨_, rfl⟩
  · rw [if_neg h1]
    have e2 : (pure PUnit.unit : Prog (Adc × Pru) PUnit) w =
        .ok (Outcome.ret PUnit.unit, w) := rfl
    rw [prog_bind_ret _ _ _ _ _ e2]
    beta_reduce
    have e3 : ∃ w1, (sysBoard miso fuel lib).prussdrv_pru_reset PRU0 w =
        .ok (Outcome.ret lib.r_reset, w1) := ⟨_, rfl⟩
    obtain ⟨w1, e3⟩ := e3
    rw [prog_bind_ret _ _ _ _ _ e3]
    have e4 : ∃ w2, (sysBoard miso fuel lib).prussdrv_exec_program PRU0 w1 =
        .ok (Outcome.ret lib.r_exec, w2) := ⟨_, rfl⟩
    obtain ⟨w2, e4⟩ := e4
    rw [prog_bind_ret _ _ _ _ _ e4]
    dsimp only
    by_cases h2 : u32 lib.r_exec % 256 ≠ 0
    · rw [if_pos h2]
      exact ⟨_, rfl⟩
    · rw [if_neg h2]
      exact ⟨_, rfl⟩

theorem noFault_usleep (miso : Nat → Nat) (fuel : Nat) (lib : Pruss) (n : Nat) :
    NoFault ((sysBoard miso fuel lib).usleep n) := fun _ => ⟨_, rfl⟩

theorem noFault_board_write (miso : Nat → Nat) (fuel : Nat) (lib : Pruss) (a b c : Nat) :
    NoFault ((sysBoard miso fuel lib).spi_write_cmd (arr [a, b, c]) 3) :=
  sysDriver_write_noFault miso fuel _ 3 (by decide) (by decide)

theorem noFault_config (miso : Nat → Nat) (fuel : Nat) (lib : Pruss) (retval : Nat) :
    NoFault (adc_config (sysBoard miso fuel lib) retval) := by
  rw [config_unfold]
  refine noFault_bind _ _ (noFault_pruss_init miso fuel lib) (fun _ => ?_)
  refine noFault_bind _ _ (noFault_pru0_init miso fuel lib) (fun _ => ?_)
  refine noFault_bind _ _ (noFault_pru1_init miso fuel lib) (fun _ => ?_)
  refine noFault_bind _ _ (noFault_usleep miso fuel lib _) (fun _ => ?_)
  refine noFault_bind _ _ (noFault_bind _ _ (sysBoard_reset_noFault miso fuel lib)
    (fun _ => noFault_usleep miso fuel lib _)) (fun _ => ?_)
  unfold config_writes
  refine noFault_bind _ _ (noFault_board_write miso fuel lib _ _ _) (fun _ => ?_)
  refine noFault_bind _ _ (noFault_usleep miso fuel lib _) (fun _ => ?_)
  refine noFault_bind _ _ (noFault_board_write miso fuel lib _ _ _) (fun _ => ?_)
  refine noFault_bind _ _ (noFault_usleep miso fuel lib _) (fun _ => ?_)
  refine noFault_bind _ _ (noFault_board_write miso fuel lib _ _ _) (fun _ => ?_)
  refine noFault_bind _ _ (noFault_usleep miso fuel lib _) (fun _ => ?_)
  refine noFault_bind _ _ (noFault_usleep miso fuel lib _) (fun _ => ?_)
  refine noFault_bind _ _ (noFault_board_write miso fuel lib _ _ _) (fun _ => ?_)
  refine noFault_bind _ _ (noFault_usleep miso fuel lib _) (fun _ => ?_)
  refine noFault_bind _ _ (noFault_board_write miso fuel lib _ _ _) (fun _ => ?_)
  exact noFault_pure ()

/-- C24 (the ADC layer stays within the caps of the engine). First, over the driver of
`spidriver_host.c` and whatever the coprocessor does: every driver call made by
`adc_config`, `adc_set_chan0`, `adc_set_chan1`, `adc_set_samplerate`, `adc_get_id_reg`,
`adc_read_single` and `adc_read_multiple`, for every argument and whether the function
returns or the process ends, has a tx count of at most 3 and an rx byte width of at most 3.
Second, with the dispatcher of `pru0.c` and the engine of `pru_spi.c` serving the calls, for
every data-in stream: the first six functions run without any fault, and the only fault of
a run of `adc_read_multiple` is the poll budget of the model running out in a data-ready
wait; so no run indexes `tx_words`, `rx_word` or a local array of the host out of bounds.
The model does fault beyond the caps: a fifth tx word and a fifth rx byte are out of
bounds. -/
theorem caps_respected :
    (∀ (env : Env) (lib : Pruss),
      (∀ retval, CappedRun (adc_config (hostBoard env lib) retval)) ∧
      CappedRun (adc_set_chan0 (hostDriver env)) ∧
      CappedRun (adc_set_chan1 (hostDriver env)) ∧
      (∀ rate, CappedRun (adc_set_samplerate (hostDriver env) rate)) ∧
      (∀ rx_buf, CappedRun (adc_get_id_reg (hostDriver env) rx_buf)) ∧
      (∀ rx_buf, CappedRun (adc_read_single (hostDriver env) rx_buf)) ∧
      (∀ read_cnt volts rx_buf,
        CappedRun (adc_read_multiple (hostDriver env) read_cnt volts rx_buf))) ∧
    (∀ (miso : Nat → Nat) (fuel : Nat) (lib : Pruss),
      (∀ retval, NoFault (adc_config (sysBoard miso fuel lib) retval)) ∧
      NoFault (adc_set_chan0 (sysDriver miso fuel)) ∧
      NoFault (adc_set_chan1 (sysDriver miso fuel)) ∧
      (∀ rate, NoFault (adc_set_samplerate (sysDriver miso fuel) rate)) ∧
      (∀ rx_buf, NoFault (adc_get_id_reg (sysDriver miso fuel) rx_buf)) ∧
      (∀ rx_buf, NoFault (adc_read_single (sysDriver miso fuel) rx_buf)) ∧
      (∀ read_cnt volts rx_buf,
        OnlySpin (adc_read_multiple (sysDriver miso fuel) read_cnt volts rx_buf))) ∧
    fill_tx 5 demoPru = .error Fault.bounds ∧
    rx_loop demoMiso 5 demoPru = .error Fault.bounds := by
  refine ⟨fun env lib => ⟨cappedRun_config env lib, cappedRun_two_writes env _ _ _ _ _ _,
      cappedRun_two_writes env _ _ _ _ _ _, cappedRun_samplerate env, cappedRun_get_id env,
      cappedRun_read_single env, cappedRun_read_multiple env⟩,
    fun miso fuel lib => ⟨noFault_config miso fuel lib, noFault_two_writes miso fuel _ _,
      noFault_two_writes miso fuel _ _, noFault_samplerate miso fuel, noFault_get_id miso fuel,
      noFault_read_single miso fuel, onlySpin_read_multiple miso fuel⟩,
    except_error_of _ _ (by decide!), except_error_of _ _ (by decide!)⟩

theorem F32.toRat_lt (a b : F32) (h : a < b) : a.toRat < b.toRat := by
  unfold F32.toRat
  have h1 : a.units < b.units := h
  have hq : (a.units : ℚ) < (b.units : ℚ) := by exact_mod_cast h1
  exact div_lt_div_of_pos_right hq (by positivity)

set_option maxRecDepth 100000 in
theorem inRange_of_code (c : Nat) (h : c < 16777216) : InRange (adc_GetVoltage c) := by
  have hi := adc_iTmp_eq c h
  have lo : F32.neg VREF ≤ adc_GetVoltage c := by
    have e0 : adc_GetVoltage 0 = F32.neg VREF := by decide!
    rw [← e0]
    exact adc_GetVoltage_mono 0 c h (Nat.zero_le c)
  have hi1 : adc_GetVoltage c < VREF := by
    have e1 : (adc_GetVoltage 16777215).units < VREF.units := by decide!
    have e2 : (adc_GetVoltage c).units ≤ (adc_GetVoltage 16777215).units :=
      adc_GetVoltage_mono c 16777215 (by norm_num) (by omega)
    exact lt_of_le_of_lt e2 e1
  refine ⟨(c : Int) - 8388608, by omega, by omega, ?_, ?_, lo, hi1, ?_, F32.toRat_lt _ _ hi1⟩
  · rw [← hi]
    rfl
  · rw [adc_GetVoltage_round c h]
    congr 1
    unfold exactVolts
    push_cast
    ring
  · have := F32.toRat_le _ _ lo
    have e : (F32.neg VREF).toRat = -VREF.toRat := by
      simp [F32.toRat, F32.neg, neg_div]
    rw [e] at this
    exact this

theorem prog_bind_ok_ret {W α β : Type} (x : Prog W α) (f : α → Prog W β) (w w1 : W) (v : β)
    (h : (x >>= f) w = .ok (Outcome.ret v, w1)) :
    ∃ u w0, x w = .ok (Outcome.ret u, w0) ∧ f u w0 = .ok (Outcome.ret v, w1) := by
  change Prog.bind x f w = _ at h
  unfold Prog.bind at h
  split at h
  · cases h
  · cases h
  · next a w0 hx => exact ⟨a, w0, hx, h⟩

theorem sysDriver_single_word (miso : Nat → Nat) (fuel : Nat) (tx : Nat → Nat) (T : Nat)
    (hT : T ≤ 4) (rx : Nat → Nat) (R : Nat) (hR : R ≤ 4) (w : Adc × Pru) :
    ∃ c r0 w1, (sysDriver miso fuel).spi_writeread_single tx (T : Int) rx (R : Int) w =
        .ok (Outcome.ret (Function.update rx 0 c, ((R : Int) % 256).toNat), w1) ∧
      c = beval (fun t => misoBit (miso (r0 + t))) (8 * R) ∧ c < 2 ^ (8 * R) := by
  obtain ⟨r, hr⟩ := sysDriver_single_noFault miso fuel tx (T : Int) rx (R : Int)
    (by omega) (by omega) (by omega) (by omega) w
  have hs : ∃ r1, sys_writeread_single miso fuel tx (T : Int) rx (R : Int) w.1.host w.2 =
      .ok r1 ∧ r = (r1.1, (⟨r1.2.1, w.1.ops ++ [Op.single (taken tx (T : Int)) (R : Int)]⟩,
        r1.2.2)) := by
    simp only [sysDriver] at hr
    split at hr
    · cases hr
    · next r1 h1 =>
      simp only [Except.ok.injEq] at hr
      exact ⟨r1, h1, hr.symm⟩
  obtain ⟨r1, h1, e1⟩ := hs
  obtain ⟨pb, e, _, _, _, he, _, hret, _, _⟩ :=
    sys_single_agree miso fuel tx T hT rx R (by omega) w.1.host w.2 r1 h1
  obtain ⟨s1, hs1, hl, _⟩ := single_spec miso pb.tx_words (T : Int) Ptr.loc (R : Int)
    (by simp only [Int.toNat_ofNat]; exact hR) pb
  rw [he] at hs1
  simp only [Except.ok.injEq] at hs1
  subst hs1
  simp only [load, Int.toNat_ofNat] at hl
  refine ⟨e.rx_words 0, pb.rd, r.2, ?_, hl, ?_⟩
  · rw [hr, e1, hret]
  · rw [hl]
    exact beval_lt _ (fun i => misoBit_le _) _

theorem sysDriver_write_ret (miso : Nat → Nat) (fuel : Nat) (data : Nat → Nat) (T : Nat)
    (hT : T ≤ 4) (w : Adc × Pru) :
    ∃ w1, (sysDriver miso fuel).spi_write_cmd data (T : Int) w = .ok (Outcome.ret 0, w1) := by
  obtain ⟨r, hr⟩ := sysDriver_write_noFault miso fuel data (T : Int) (by omega) (by omega) w
  have hs : ∃ r1, sys_write_cmd miso fuel data (T : Int) w.1.host w.2 = .ok r1 ∧
      r = (r1.1, (⟨r1.2.1, w.1.ops ++ [Op.write (taken data (T : Int))]⟩, r1.2.2)) := by
    simp only [sysDriver] at hr
    split at hr
    · cases hr
    · next r1 h1 =>
      simp only [Except.ok.injEq] at hr
      exact ⟨r1, h1, hr.symm⟩
  obtain ⟨r1, h1, e1⟩ := hs
  obtain ⟨pb, _, _, _, _, hret, _⟩ := sys_write_agree miso fuel data T hT w.1.host w.2 r1 h1
  exact ⟨r.2, by rw [hr, e1, hret]⟩

theorem sysDriver_continuous_words (miso : Nat → Nat) (fuel : Nat) (tx : Nat → Nat) (T : Nat)
    (hT : T ≤ 4) (rx : Nat → Nat) (R : Nat) (hR : R ≤ 4) (N : Nat) (hN : N < 2147483648)
    (w : Adc × Pru) (r : Outcome ((Nat → Nat) × Nat)) (w1 : Adc × Pru)
    (hr : (sysDriver miso fuel).spi_writeread_continuous tx (T : Int) rx (R : Int) (N : Int) w =
      .ok (r, w1)) :
    ∃ code : Nat → Nat,
      r = Outcome.ret (fun i => if i < N then code i else rx i, ((N : Int) % 256).toNat) ∧
      ∀ i, i < N → code i < 2 ^ (8 * R) := by
  have hs : ∃ r1, sys_writeread_continuous miso fuel tx (T : Int) rx (R : Int) (N : Int)
      w.1.host w.2 = .ok r1 ∧ r = r1.1 := by
    simp only [sysDriver] at hr
    split at hr
    · cases hr
    · next r1 h1 =>
      simp only [Except.ok.injEq, Prod.mk.injEq] at hr
      exact ⟨r1, h1, hr.1.symm⟩
  obtain ⟨r1, h1, e1⟩ := hs
  obtain ⟨pb, e, _, _, _, he, _, hret, _, _⟩ :=
    sys_continuous_agree miso fuel tx T hT rx R (by omega) N hN w.1.host w.2 r1 h1
  obtain ⟨bits, b1, _, b3, _⟩ := continuous_spec miso fuel pb.tx_words (T : Int)
    (Ptr.ram (4 + T)) (R : Int) (by simp only [Int.toNat_ofNat]; exact hR) (N : Int) pb e he
  simp only [Int.toNat_ofNat] at b3
  refine ⟨fun i => load (Ptr.ram (4 + T)) i e, by rw [e1, hret], fun i hi => ?_⟩
  show load (Ptr.ram (4 + T)) i e < _
  rw [b3 i hi]
  refine beval_lt _ (fun j => ?_) _
  by_cases hj : 8 * R * i + j < bits.length
  · rw [List.getD_eq_getElem _ _ hj]
    have hm : bits[8 * R * i + j] ∈ sampledBits e.trace := by
      rw [b1]
      exact List.mem_append_right _ (List.getElem_mem hj)
    exact sampledBits_le _ _ hm
  · rw [List.getD_eq_default _ _ (by omega)]
    exact Nat.zero_le 1

/-- Every run of `adc_read_single` with the dispatcher and engine behind the mailbox
returns, and the value is the conversion of a word below `2^24`: the big-endian value of the
24 bits sampled from data-in by the transfer. -/
theorem read_single_sys (miso : Nat → Nat) (fuel : Nat) (rx_buf : Nat) (w : Adc × Pru) :
    ∃ v w1 c r0, adc_read_single (sysDriver miso fuel) rx_buf w = .ok (Outcome.ret v, w1) ∧
      c = beval (fun t => misoBit (miso (r0 + t))) 24 ∧ c < 16777216 ∧
      v = adc_GetVoltage c := by
  have hb : adc_read_single (sysDriver miso fuel) rx_buf =
      ((sysDriver miso fuel).spi_write_cmd (arr [WRITE_ADCMODE_REG, 0, 28]) 3 >>= fun _ =>
        (sysDriver miso fuel).spi_writeread_single (arr ([WRITE_ADCMODE_REG, 0, 28].set 0
          READ_DATA_REG)) 1 (fun _ => rx_buf) 3 >>= fun r =>
        pure (adc_GetVoltage (r.1 0))) := rfl
  obtain ⟨w1, h1⟩ := sysDriver_write_ret miso fuel (arr [WRITE_ADCMODE_REG, 0, 28]) 3
    (by decide) w
  obtain ⟨c, r0, w2, h2, hc, hlt⟩ := sysDriver_single_word miso fuel
    (arr ([WRITE_ADCMODE_REG, 0, 28].set 0 READ_DATA_REG)) 1 (by decide) (fun _ => rx_buf) 3
    (by decide) w1
  refine ⟨adc_GetVoltage c, w2, c, r0, ?_, hc, hlt, rfl⟩
  rw [hb]
  have h1' : (sysDriver miso fuel).spi_write_cmd (arr [WRITE_ADCMODE_REG, 0, 28]) 3 w =
      .ok (Outcome.ret 0, w1) := h1
  have h2' : (sysDriver miso fuel).spi_writeread_single
      (arr ([WRITE_ADCMODE_REG, 0, 28].set 0 READ_DATA_REG)) 1 (fun _ => rx_buf) 3 w1 =
      .ok (Outcome.ret (Function.update (fun _ => rx_buf) 0 c, 3), w2) := h2
  rw [prog_bind_ret _ _ _ _ _ h1', prog_bind_ret _ _ _ _ _ h2']
  simp only [Function.update_same]
  rfl

/-- Every returning run of `adc_read_multiple` with the dispatcher and engine behind the
mailbox: each of the first `read_cnt` elements is the conversion of a word below `2^24`,
the rest is untouched. -/
theorem read_multiple_sys (miso : Nat → Nat) (fuel : Nat) (read_cnt : Nat)
    (volts : Nat → F32) (rx_buf : Nat → Nat) (w w1 : Adc × Pru) (v : Nat → F32)
    (h : adc_read_multiple (sysDriver miso fuel) read_cnt volts rx_buf w =
      .ok (Outcome.ret v, w1)) :
    read_cnt ≤ 1024 ∧ ∃ code : Nat → Nat, (∀ i, i < read_cnt → code i < 16777216) ∧
      v = fun i => if i < read_cnt then adc_GetVoltage (code i) else volts i := by
  rw [read_multiple_unfold] at h
  by_cases hn : read_cnt > 1024
  · rw [if_pos hn] at h
    have e : (sysDriver miso fuel).exit (-1) w = .ok (Outcome.exited (-1),
        (⟨{ w.1.host with log := w.1.host.log ++ [HEv.exit (-1)] }, w.1.ops⟩, w.2)) := rfl
    rw [prog_bind_exited _ _ _ _ _ e] at h
    cases h
  · rw [if_neg hn] at h
    unfold read_multiple_rest at h
    obtain ⟨u1, w2, _, h⟩ := prog_bind_ok_ret _ _ _ _ _ h
    obtain ⟨u2, w3, h2, h⟩ := prog_bind_ok_ret _ _ _ _ _ h
    have t3 : i32 read_cnt = (read_cnt : Int) := i32_of_lt read_cnt (by omega)
    rw [t3] at h2
    have h2' : (sysDriver miso fuel).spi_writeread_continuous
        (arr ([WRITE_ADCMODE_REG, 0, 12].set 0 READ_DATA_REG)) ((1 : Nat) : Int) rx_buf
        ((3 : Nat) : Int) (read_cnt : Int) w2 = .ok (Outcome.ret u2, w3) := h2
    obtain ⟨code, hc, hlt⟩ := sysDriver_continuous_words miso fuel _ 1 (by decide) rx_buf 3
      (by decide) read_cnt (by omega) w2 _ w3 h2'
    rw [volts_loop u2.1 read_cnt (by omega) volts w3] at h
    simp only [Except.ok.injEq, Prod.mk.injEq] at h
    have hv := Outcome.ret.inj h.1
    have hu := Outcome.ret.inj hc
    refine ⟨by omega, code, fun i hi => hlt i hi, ?_⟩
    rw [← hv, hu]
    funext i
    by_cases hi : i < read_cnt
    · simp only [if_pos hi]
    · simp only [if_neg hi]

theorem sysDriver_write_fuel (miso : Nat → Nat) (f1 f2 : Nat) (data : Nat → Nat) (cnt : Int)
    (w : Adc × Pru) :
    (sysDriver miso f1).spi_write_cmd data cnt w = (sysDriver miso f2).spi_write_cmd data cnt w := by
  have hf : (spi_write_cmd_setup data cnt w.1.host).ram 0 ≠ SPI_WRITEREAD_CONTINUOUS := by
    have := setup_flag (Call.write data cnt) w.1.host
    simp only [Call.setup, Call.code] at this
    rw [this]
    decide
  have e := iteration_fuel miso f1 f2
    { w.2 with pMEM := (spi_write_cmd_setup data cnt w.1.host).ram } hf
  simp only [sysDriver, sys_write_cmd, serve, e]

/-- With a data-in line that keeps toggling, and fuel enough for the data-ready waits,
`adc_read_multiple` within the limit returns. -/
theorem read_multiple_sys_total (miso : Nat → Nat) (ht : Toggles miso) (read_cnt : Nat)
    (hn : read_cnt ≤ 1024) (volts : Nat → F32) (rx_buf : Nat → Nat) (w : Adc × Pru) :
    ∃ F v w1, ∀ fuel, F ≤ fuel →
      adc_read_multiple (sysDriver miso fuel) read_cnt volts rx_buf w =
        .ok (Outcome.ret v, w1) := by
  obtain ⟨w2, h1⟩ := sysDriver_write_ret miso 0 (arr [WRITE_ADCMODE_REG, 0, 12]) 3
    (by decide) w
  have t3 : i32 read_cnt = (read_cnt : Int) := i32_of_lt read_cnt (by omega)
  obtain ⟨F, hp, hs⟩ := serve_total miso ht
    (Call.continuous (arr ([WRITE_ADCMODE_REG, 0, 12].set 0 READ_DATA_REG)) 1 rx_buf 3
      (read_cnt : Int)) ⟨by decide, by decide, by decide, by decide, by omega, by omega⟩
    w2.1.host w2.2
  simp only [Call.setup] at hs
  have hx : ∀ fuel, F ≤ fuel → ∃ r w3, (sysDriver miso fuel).spi_writeread_continuous
      (arr ([WRITE_ADCMODE_REG, 0, 12].set 0 READ_DATA_REG)) 1 rx_buf 3 (read_cnt : Int) w2 =
        .ok (r, w3) ∧ r = (spi_writeread_continuous_wait quiet 1 rx_buf (read_cnt : Int) hp.1).1 ∧
        w3 = (⟨(spi_writeread_continuous_wait quiet 1 rx_buf (read_cnt : Int) hp.1).2,
          w2.1.ops ++ [Op.continuous (taken (arr ([WRITE_ADCMODE_REG, 0, 12].set 0
            READ_DATA_REG)) 1) 3 (read_cnt : Int)]⟩, hp.2) := by
    intro fuel hf
    refine ⟨_, _, ?_, rfl, rfl⟩
    simp only [sysDriver, sys_writeread_continuous, hs fuel hf, bind, Except.bind, pure,
      Except.pure]
  obtain ⟨r0, w0, h0, er, ew⟩ := hx F (Nat.le_refl F)
  have h0' : (sysDriver miso F).spi_writeread_continuous
      (arr ([WRITE_ADCMODE_REG, 0, 12].set 0 READ_DATA_REG)) ((1 : Nat) : Int) rx_buf
      ((3 : Nat) : Int) (read_cnt : Int) w2 = .ok (r0, w0) := h0
  obtain ⟨code, hc, _⟩ := sysDriver_continuous_words miso F _ 1 (by decide) rx_buf 3
    (by decide) read_cnt (by omega) w2 _ w0 h0'
  refine ⟨F, (fun i => if i < read_cnt then
    adc_GetVoltage ((fun i => if i < read_cnt then code i else rx_buf i) i) else volts i), w0,
    fun fuel hf => ?_⟩
  obtain ⟨r, w3, h3, er3, ew3⟩ := hx fuel hf
  rw [← er, hc] at er3
  rw [← ew] at ew3
  rw [er3, ew3] at h3
  rw [read_multiple_unfold, if_neg (by omega)]
  unfold read_multiple_rest
  have h1' : (sysDriver miso fuel).spi_write_cmd (arr [WRITE_ADCMODE_REG, 0, 12]) 3 w =
      .ok (Outcome.ret 0, w2) := by
    rw [sysDriver_write_fuel miso fuel 0]
    exact h1
  rw [prog_bind_ret _ _ _ _ _ h1', t3, prog_bind_ret _ _ _ _ _ h3]
  exact volts_loop _ read_cnt (by omega) volts w0

/-- C25 (returned voltages are within the reference range). With the dispatcher of `pru0.c`
and the engine of `pru_spi.c` behind the mailbox, for every data-in stream: the word a
3-byte `spi_writeread_single` returns is the big-endian value of the 24 bits sampled, so it
is below `2^24`, and so is every word a 3-byte `spi_writeread_continuous` returns. Hence
every run of `adc_read_single` returns a value within the range, and in every returning run
of `adc_read_multiple` each of the `read_cnt` elements written is within the range (the
other elements are left as they were); such a run returns when data-in keeps toggling and
the poll budget of the model is large enough. Within the range means: the value is
`(Vref / 2^23) * n` in binary32 arithmetic, that is the binary32 number nearest to that
product, for an integer `n` with `-2^23 ≤ n ≤ 2^23 - 1`, and it lies in `[-Vref, +Vref)`,
`Vref` being the `float` constant `4.096f`. This holds for the conversion of every code
below `2^24`. -/
theorem voltages_in_range :
    (∀ c, c < 16777216 → InRange (adc_GetVoltage c)) ∧
    (∀ (miso : Nat → Nat) (fuel : Nat) (tx : Nat → Nat) (T : Nat) (rx : Nat → Nat)
        (w : Adc × Pru), T ≤ 4 →
      ∃ c r0 w1, (sysDriver miso fuel).spi_writeread_single tx (T : Int) rx 3 w =
          .ok (Outcome.ret (Function.update rx 0 c, 3), w1) ∧
        c = beval (fun t => misoBit (miso (r0 + t))) 24 ∧ c < 16777216) ∧
    (∀ (miso : Nat → Nat) (fuel : Nat) (tx : Nat → Nat) (T : Nat) (rx : Nat → Nat) (N : Nat)
        (w : Adc × Pru) (r : Outcome ((Nat → Nat) × Nat)) (w1 : Adc × Pru),
      T ≤ 4 → N < 2147483648 →
      (sysDriver miso fuel).spi_writeread_continuous tx (T : Int) rx 3 (N : Int) w =
        .ok (r, w1) →
      ∃ code : Nat → Nat,
        r = Outcome.ret (fun i => if i < N then code i else rx i, ((N : Int) % 256).toNat) ∧
        ∀ i, i < N → code i < 16777216) ∧
    (∀ (miso : Nat → Nat) (fuel : Nat) (rx_buf : Nat) (w : Adc × Pru),
      ∃ v w1, adc_read_single (sysDriver miso fuel) rx_buf w = .ok (Outcome.ret v, w1) ∧
        InRange v) ∧
    (∀ (miso : Nat → Nat) (fuel : Nat) (read_cnt : Nat) (volts : Nat → F32)
        (rx_buf : Nat → Nat) (w w1 : Adc × Pru) (v : Nat → F32),
      adc_read_multiple (sysDriver miso fuel) read_cnt volts rx_buf w =
        .ok (Outcome.ret v, w1) →
      (∀ i, i < read_cnt → InRange (v i)) ∧ ∀ i, read_cnt ≤ i → v i = volts i) ∧
    (∀ (miso : Nat → Nat) (read_cnt : Nat) (volts : Nat → F32) (rx_buf : Nat → Nat)
        (w : Adc × Pru), Toggles miso → read_cnt ≤ 1024 →
      ∃ F v w1, ∀ fuel, F ≤ fuel →
        adc_read_multiple (sysDriver miso fuel) read_cnt volts rx_buf w =
          .ok (Outcome.ret v, w1)) := by
  refine ⟨inRange_of_code, ?_, ?_, ?_, ?_, ?_⟩
  · intro miso fuel tx T rx w hT
    exact sysDriver_single_word miso fuel tx T hT rx 3 (by decide) w
  · intro miso fuel tx T rx N w r w1 hT hN hr
    exact sysDriver_continuous_words miso fuel tx T hT rx 3 (by decide) N hN w r w1 hr
  · intro miso fuel rx_buf w
    obtain ⟨v, w1, c, r0, h, _, hlt, hv⟩ := read_single_sys miso fuel rx_buf w
    exact ⟨v, w1, h, by rw [hv]; exact inRange_of_code c hlt⟩
  · intro miso fuel read_cnt volts rx_buf w w1 v h
    obtain ⟨_, code, hc, hv⟩ := read_multiple_sys miso fuel read_cnt volts rx_buf w w1 v h
    refine ⟨fun i hi => ?_, fun i hi => ?_⟩
    · rw [hv]
      simp only [if_pos hi]
      exact inRange_of_code _ (hc i hi)
    · rw [hv]
      simp only [if_neg (show ¬ i < read_cnt by omega)]
  · intro miso read_cnt volts rx_buf w ht hn
    exact read_multiple_sys_total miso ht read_cnt hn volts rx_buf w

/-- Witness for `voltages_in_range`: the code `0xA00000`, and a burst of four samples from a
simulated device. -/
theorem voltages_in_range_witness :
    ((10485760 : Nat) < 16777216 ∧ InRange (adc_GetVoltage 10485760)) ∧
    ∃ v w1, adc_read_multiple (sysDriver (burstMiso [8388608, 9437184, 7340032, 8388608]) 5)
        4 (fun _ => ⟨7⟩) (fun _ => 0) (demoAdc, demoPru) = .ok (Outcome.ret v, w1) ∧
      ∀ i, i < 4 → InRange (v i) :=
  ⟨⟨by decide, voltages_in_range.1 10485760 (by decide)⟩,
    (prog_ret_list
      (adc_read_multiple (sysDriver (burstMiso [8388608, 9437184, 7340032, 8388608]) 5)
        4 (fun _ => ⟨7⟩) (fun _ => 0) (demoAdc, demoPru))
      (fun (_ : Nat → F32) (w : Adc × Pru) => w.1.ops)
      [Op.write [1, 0, 12], Op.continuous [68] 3 4] (by decide!)).imp
      (fun v hv => hv.imp (fun _ hw =>
        ⟨hw.1, (voltages_in_range.2.2.2.2.1 _ _ _ _ _ _ _ v hw.1).1⟩))⟩

theorem flt_le_of_not_gt (a b : Flt) (ha : a ≠ Flt.nan) (hb : b ≠ Flt.nan)
    (h : Flt.gt a b = false) : Flt.le a b := by
  cases a <;> cases b <;> simp_all [Flt.gt, Flt.le]

theorem flt_lt_of_gt (a b : Flt) (h : Flt.gt a b = true) : Flt.lt b a := by
  cases a <;> cases b <;> simp_all [Flt.gt, Flt.le, Flt.lt]
  omega

theorem flt_le_refl (a : Flt) (ha : a ≠ Flt.nan) : Flt.le a a := by
  cases a <;> simp_all [Flt.le]

theorem flt_le_trans (a b c : Flt) (h1 : Flt.le a b) (h2 : Flt.le b c) : Flt.le a c := by
  cases a <;> cases b <;> cases c <;> simp_all [Flt.le]
  omega

theorem flt_lt_of_le_of_lt (a b c : Flt) (h1 : Flt.le a b) (h2 : Flt.lt b c) : Flt.lt a c := by
  refine ⟨flt_le_trans a b c h1 h2.1, fun h => h2.2 (flt_le_trans c a b h h1)⟩

theorem flt_gt_ne_ninf (a b : Flt) (h : Flt.gt a b = true) : a ≠ Flt.ninf := by
  cases a <;> cases b <;> simp_all [Flt.gt]

theorem flt_gt_ne_nan (a b : Flt) (h : Flt.gt a b = true) : a ≠ Flt.nan := by
  cases a <;> cases b <;> simp_all [Flt.gt]

theorem le_ninf (a : Flt) (h : Flt.le a Flt.ninf) : a = Flt.ninf := by
  cases a <;> simp_all [Flt.le]

theorem maxeltf_inv (u : Nat → Flt) (imax0 : Int) (n : Nat) (hnan : ∀ i, i < n → u i ≠ Flt.nan)
    (k : Nat) (hk : k ≤ n) :
    MaxInv u imax0 k (forLoop k (fun i (st : Flt × Int) =>
      if Flt.gt (u i) st.1 then (u i, (i : Int)) else st) (Flt.ninf, imax0)) := by
  induction k with
  | zero =>
    rw [forLoop_zero]
    exact ⟨fun h => (by cases h), fun j hj => absurd hj (Nat.not_lt_zero j),
      Or.inl ⟨rfl, rfl, fun j hj => absurd hj (Nat.not_lt_zero j)⟩⟩
  | succ k ih =>
    rw [forLoop_succ]
    obtain ⟨i1, i2, i3⟩ := ih (by omega)
    generalize forLoop k (fun i (st : Flt × Int) =>
      if Flt.gt (u i) st.1 then (u i, (i : Int)) else st) (Flt.ninf, imax0) = st at *
    by_cases hg : Flt.gt (u k) st.1 = true
    · simp only [hg, if_true]
      have hlt := flt_lt_of_gt _ _ hg
      refine ⟨hnan k (by omega), fun j hj => ?_, Or.inr ⟨?_, by omega, ?_, ?_, ?_⟩⟩
      · by_cases hjk : j = k
        · rw [hjk]
          exact flt_le_refl _ (hnan k (by omega))
        · exact flt_le_trans _ _ _ (i2 j (by omega)) hlt.1
      · exact flt_gt_ne_ninf _ _ hg
      · simp
      · simp
      · intro j hj
        simp only [Int.toNat_ofNat] at hj
        exact flt_lt_of_le_of_lt _ _ _ (i2 j hj) hlt
    · rw [if_neg hg]
      have hle := flt_le_of_not_gt (u k) st.1 (hnan k (by omega)) i1 (by simpa using hg)
      refine ⟨i1, fun j hj => ?_, ?_⟩
      · by_cases hjk : j = k
        · rw [hjk]
          exact hle
        · exact i2 j (by omega)
      · rcases i3 with ⟨a1, a2, a3⟩ | ⟨b1, b2, b3, b4, b5⟩
        · refine Or.inl ⟨a1, a2, fun j hj => ?_⟩
          by_cases hjk : j = k
          · rw [hjk]
            rw [a1] at hle
            exact le_ninf _ hle
          · exact a3 j (by omega)
        · exact Or.inr ⟨b1, b2, by omega, b4, b5⟩

theorem maxeltf_first (N : Int) (u : Nat → Flt) (imax0 : Int)
    (hnan : ∀ i, i < N.toNat → u i ≠ Flt.nan) (hfin : ∃ i, i < N.toNat ∧ u i ≠ Flt.ninf) :
    0 ≤ maxeltf N u imax0 ∧ (maxeltf N u imax0).toNat < N.toNat ∧
    (∀ j, j < N.toNat → Flt.le (u j) (u (maxeltf N u imax0).toNat)) ∧
    (∀ j, j < (maxeltf N u imax0).toNat → Flt.lt (u j) (u (maxeltf N u imax0).toNat)) := by
  obtain ⟨_, i2, i3⟩ := maxeltf_inv u imax0 N.toNat hnan N.toNat (Nat.le_refl _)
  have e : maxeltf N u imax0 = (forLoop N.toNat (fun i (st : Flt × Int) =>
      if Flt.gt (u i) st.1 then (u i, (i : Int)) else st) (Flt.ninf, imax0)).2 := rfl
  rw [e]
  generalize forLoop N.toNat (fun i (st : Flt × Int) =>
    if Flt.gt (u i) st.1 then (u i, (i : Int)) else st) (Flt.ninf, imax0) = st at *
  obtain ⟨i, hi, hne⟩ := hfin
  rcases i3 with ⟨_, _, a3⟩ | ⟨_, b2, b3, b4, b5⟩
  · exact absurd (a3 i hi) hne
  · refine ⟨b2, b3, fun j hj => ?_, fun j hj => ?_⟩
    · rw [b4]
      exact i2 j hj
    · rw [b4]
      exact b5 j hj

/-- C26 (peak bracketing). For every `N` from 2 and every vector `u` of `N` floats none of
which is a NaN and one of which is not minus infinity, `maxeltf(N, u)` returns an index `m`
with `0 ≤ m < N` such that no element is above `u[m]` and every element before `m` is
strictly below `u[m]`: the first index where `u` attains its maximum. The result does not
depend on the content of the uninitialised `imax`. `find_bracket(N, u)` returns
`(ileft, iright)` with `0 ≤ ileft < iright ≤ N - 1`, `ileft ≤ m ≤ iright` and
`iright - ileft ≤ 2`: `(m - 1, m + 1)` when `0 < m < N - 1`, `(0, 1)` when `m = 0`, and
`(N - 2, N - 1)` when `m = N - 1`. -/
theorem peak_bracket (N : Int) (u : Nat → Flt) (imax0 : Int) (hN : 2 ≤ N)
    (hnan : ∀ i, i < N.toNat → u i ≠ Flt.nan) (hfin : ∃ i, i < N.toNat ∧ u i ≠ Flt.ninf) :
    0 ≤ maxeltf N u imax0 ∧ maxeltf N u imax0 < N ∧
    (∀ j, j < N.toNat → Flt.le (u j) (u (maxeltf N u imax0).toNat)) ∧
    (∀ j, j < (maxeltf N u imax0).toNat → Flt.lt (u j) (u (maxeltf N u imax0).toNat)) ∧
    (∀ imax1, maxeltf N u imax1 = maxeltf N u imax0) ∧
    0 ≤ (find_bracket N u imax0).1 ∧
    (find_bracket N u imax0).1 < (find_bracket N u imax0).2 ∧
    (find_bracket N u imax0).2 ≤ N - 1 ∧
    (find_bracket N u imax0).1 ≤ maxeltf N u imax0 ∧
    maxeltf N u imax0 ≤ (find_bracket N u imax0).2 ∧
    (find_bracket N u imax0).2 - (find_bracket N u imax0).1 ≤ 2 ∧
    (0 < maxeltf N u imax0 → maxeltf N u imax0 < N - 1 →
      find_bracket N u imax0 = (maxeltf N u imax0 - 1, maxeltf N u imax0 + 1)) ∧
    (maxeltf N u imax0 = 0 → find_bracket N u imax0 = (0, 1)) ∧
    (maxeltf N u imax0 = N - 1 → find_bracket N u imax0 = (N - 2, N - 1)) := by
  obtain ⟨m0, m1, m2, m3⟩ := maxeltf_first N u imax0 hnan hfin
  have mlt : maxeltf N u imax0 < N := by omega
  have indep : ∀ imax1, maxeltf N u imax1 = maxeltf N u imax0 := by
    intro imax1
    obtain ⟨n0, n1, n2, n3⟩ := maxeltf_first N u imax1 hnan hfin
    by_contra hne
    rcases Nat.lt_trichotomy (maxeltf N u imax1).toNat (maxeltf N u imax0).toNat with h | h | h
    · exact (m3 _ h).2 (n2 _ m1)
    · omega
    · exact (n3 _ h).2 (m2 _ n1)
  refine ⟨m0, mlt, m2, m3, indep, ?_⟩
  have fb : find_bracket N u imax0 =
      if maxeltf N u imax0 = 0 then (0, 1)
      else if maxeltf N u imax0 = N - 1 then (N - 2, N - 1)
      else (maxeltf N u imax0 - 1, maxeltf N u imax0 + 1) := rfl
  rw [fb]
  clear fb indep m1 m2 m3
  generalize maxeltf N u imax0 = m at *
  by_cases h0 : m = 0
  · rw [if_pos h0]
    refine ⟨?_, ?_, ?_, ?_, ?_, ?_, ?_, ?_, ?_⟩ <;>
      (intros; (try dsimp only) <;> first | rfl | omega)
  · rw [if_neg h0]
    by_cases h1 : m = N - 1
    · rw [if_pos h1]
      refine ⟨?_, ?_, ?_, ?_, ?_, ?_, ?_, ?_, ?_⟩ <;>
        (intros; (try dsimp only) <;> first | rfl | omega)
    · rw [if_neg h1]
      refine ⟨?_, ?_, ?_, ?_, ?_, ?_, ?_, ?_, ?_⟩ <;>
        (intros; (try dsimp only) <;> first | rfl | omega)

/-- Witness for `peak_bracket`: in `[3, 9, -infinity, 9]` the maximum is first attained at
index 1, and the bracket is `(0, 2)`. -/
theorem peak_bracket_witness :
    (2 : Int) ≤ 4 ∧ (∀ i, i < (4 : Int).toNat → demoVec i ≠ Flt.nan) ∧
    (∃ i, i < (4 : Int).toNat ∧ demoVec i ≠ Flt.ninf) ∧
    maxeltf 4 demoVec 77 = 1 ∧ find_bracket 4 demoVec 77 = (0, 2) ∧
    ∀ j, j < (4 : Int).toNat → Flt.le (demoVec j) (demoVec (maxeltf 4 demoVec 77).toNat) :=
  ⟨by decide, by decide, ⟨0, by decide, by decide⟩, by decide, by decide,
    (peak_bracket 4 demoVec 77 (by decide) (by decide) ⟨0, by decide, by decide⟩).2.2.1⟩

theorem iteration_single_eq (miso : Nat → Nat) (fuel : Nat) (s pb : Pru)
    (hf : s.pMEM 0 = SPI_WRITEREAD_SINGLE)
    (hpb : fill_tx ((mem_write 0 238 s).pMEM 1) (mem_write 0 238 s) = .ok pb) :
    main_iteration miso fuel s =
      (pru_spi_writeread_single miso pb.tx_words (i32 (s.pMEM 1)) Ptr.loc
        (i32 (s.pMEM (2 + s.pMEM 1))) pb >>= fun e =>
          .ok (delay_cycles PRU0_DELAY_CNT
            (mem_write 0 0 (mem_write (2 + s.pMEM 1 + 1) (e.rx_words 0) e)))) := by
  have hd := decode_spec s pb hpb
  have e1 : (mem_write 0 238 s).pMEM 1 = s.pMEM 1 := by simp [mem_write]
  have e2 : pb.pMEM (2 + s.pMEM 1) = s.pMEM (2 + s.pMEM 1) := by
    rw [hd.1, Function.update_noteq (by omega)]
  unfold main_iteration
  simp only [hf, NOP, SPI_WAIT_COMMAND, SPI_TEST, SPI_WRITE, SPI_WRITEREAD_SINGLE,
    SPI_WRITEREAD_CONTINUOUS, SPI_RESET]
  norm_num
  rw [hpb]
  simp only [bind, Except.bind, e1, e2]
  rfl

theorem iteration_continuous_eq (miso : Nat → Nat) (fuel : Nat) (s pb : Pru)
    (hf : s.pMEM 0 = SPI_WRITEREAD_CONTINUOUS)
    (hpb : fill_tx ((mem_write 0 238 s).pMEM 1) (mem_write 0 238 s) = .ok pb) :
    main_iteration miso fuel s =
      (pru_spi_writeread_continuous miso fuel pb.tx_words (i32 (s.pMEM 1))
        (Ptr.ram (2 + s.pMEM 1 + 2)) (i32 (s.pMEM (2 + s.pMEM 1)))
        (i32 (s.pMEM (2 + s.pMEM 1 + 1))) pb >>= fun e =>
          .ok (delay_cycles PRU0_DELAY_CNT (mem_write 0 0 e))) := by
  have hd := decode_spec s pb hpb
  have e1 : (mem_write 0 238 s).pMEM 1 = s.pMEM 1 := by simp [mem_write]
  have e2 : pb.pMEM (2 + s.pMEM 1) = s.pMEM (2 + s.pMEM 1) := by
    rw [hd.1, Function.update_noteq (by omega)]
  have e3 : pb.pMEM (2 + s.pMEM 1 + 1) = s.pMEM (2 + s.pMEM 1 + 1) := by
    rw [hd.1, Function.update_noteq (by omega)]
  unfold main_iteration
  simp only [hf, NOP, SPI_WAIT_COMMAND, SPI_TEST, SPI_WRITE, SPI_WRITEREAD_SINGLE,
    SPI_WRITEREAD_CONTINUOUS, SPI_RESET]
  norm_num
  rw [hpb]
  simp only [bind, Except.bind, e1, e2, e3]
  rfl

theorem sys_write_total (miso : Nat → Nat) (fuel : Nat) (data : Nat → Nat) (T : Nat)
    (hT : T ≤ 4) (h : Host) (p : Pru) :
    ∃ r, sys_write_cmd miso fuel data (T : Int) h p = .ok r := by
  obtain ⟨hp, hs⟩ := serve_ok miso fuel (Call.write data (T : Int)) ⟨by omega, by omega⟩
    (by simp [Call.code, SPI_WRITE, SPI_WRITEREAD_CONTINUOUS]) h p
  simp only [Call.setup] at hs
  simp only [sys_write_cmd, hs, bind, Except.bind, pure, Except.pure]
  exact ⟨_, rfl⟩

/-- The state in which the dispatcher calls the engine for a single read: its `tx_words`
are the tx words of the host, and the outcome of the call of the host is the outcome of the
engine on the counts of the host. Either the engine faults, and nothing is returned, or the
host returns the word the engine assembled. No bound on the rx count is assumed. -/
theorem sys_single_refines (miso : Nat → Nat) (fuel : Nat) (txdata : Nat → Nat) (T : Nat)
    (hT : T ≤ 4) (rxdata : Nat → Nat) (R : Nat) (hR : R < 2147483648) (h : Host) (p : Pru) :
    ∃ pb, (∀ i, i < T → pb.tx_words i = txdata i) ∧ pb.rd = p.rd ∧ pb.r30 = p.r30 ∧
      ((∃ er, pru_spi_writeread_single miso pb.tx_words (T : Int) Ptr.loc (R : Int) pb =
            .error er ∧
          sys_writeread_single miso fuel txdata (T : Int) rxdata (R : Int) h p = .error er) ∨
        (∃ e r, pru_spi_writeread_single miso pb.tx_words (T : Int) Ptr.loc (R : Int) pb =
            .ok e ∧
          sys_writeread_single miso fuel txdata (T : Int) rxdata (R : Int) h p = .ok r ∧
          r.2.2 = delay_cycles PRU0_DELAY_CNT
            (mem_write 0 0 (mem_write (3 + T) (e.rx_words 0) e)) ∧
          r.1 = Outcome.ret (Function.update rxdata 0 (e.rx_words 0),
            ((R : Int) % 256).toNat) ∧
          hostReads (logSince (spi_writeread_single_setup txdata (T : Int) (R : Int) h) r.2.1) =
            [(0, IDLE), (3 + T, e.rx_words 0)] ∧
          r.2.1.ram 0 = IDLE)) := by
  obtain ⟨_, _, sram⟩ := setup_spec (Call.single txdata (T : Int) rxdata (R : Int)) h
  have hrx : single_rxptr (T : Int) = 3 + T := by
    simp only [single_rxptr, u32_natCast T (by omega)]
    exact Nat.mod_eq_of_lt (by omega)
  simp only [Call.setup, Call.writes, u32_natCast T (by omega), u32_natCast R (by omega), hrx,
    Nat.mod_eq_of_lt (show 2 + T < 4294967296 by omega)] at sram
  obtain ⟨m0, m1, m2, m3⟩ := single_mailbox h.ram txdata T R hT hR
  rw [← sram] at m0 m1 m2 m3
  generalize hs0 : ({ p with pMEM := (spi_writeread_single_setup txdata (T : Int) (R : Int)
    h).ram } : Pru) = s0
  have s00 : s0.pMEM 0 = SPI_WRITEREAD_SINGLE := by rw [← hs0]; exact m0
  have s01 : s0.pMEM 1 = T := by rw [← hs0]; exact m1
  have s02 : ∀ i, i < T → s0.pMEM (2 + i) = txdata i := by rw [← hs0]; exact m2
  have s03 : s0.pMEM (2 + T) = R := by rw [← hs0]; exact m3
  obtain ⟨pb, hpb⟩ := decode_total s0 (by rw [s01]; exact hT)
  obtain ⟨_, _, d3, d4, _, _, _, _, d9⟩ := decode_spec s0 pb hpb
  have hit := iteration_single_eq miso fuel s0 pb s00 hpb
  rw [s01, s03, i32_of_lt T (by omega), i32_of_lt R hR] at hit
  refine ⟨pb, fun i hi => by rw [d9 i (by rw [s01]; exact hi), s02 i hi],
    by rw [d4, ← hs0], by rw [d3, ← hs0], ?_⟩
  cases he : pru_spi_writeread_single miso pb.tx_words (T : Int) Ptr.loc (R : Int) pb with
  | error er =>
    left
    refine ⟨er, rfl, ?_⟩
    rw [he] at hit
    have hm : main_iteration miso fuel { p with pMEM := (spi_writeread_single_setup txdata
        (T : Int) (R : Int) h).ram } = .error er := by rw [hs0]; exact hit
    simp only [sys_writeread_single, serve, hm, bind, Except.bind]
  | ok e =>
    right
    rw [he] at hit
    have hm : main_iteration miso fuel { p with pMEM := (spi_writeread_single_setup txdata
        (T : Int) (R : Int) h).ram } = .ok (delay_cycles PRU0_DELAY_CNT
          (mem_write 0 0 (mem_write (2 + T + 1) (e.rx_words 0) e))) := by rw [hs0]; exact hit
    have hrun : ∃ r, sys_writeread_single miso fuel txdata (T : Int) rxdata (R : Int) h p =
        .ok r := by
      simp only [sys_writeread_single, serve, hm, bind, Except.bind, pure, Except.pure]
      exact ⟨_, rfl⟩
    obtain ⟨r, hr⟩ := hrun
    obtain ⟨pb1, e1, _, _, _, _, a5, a6, a7, a8⟩ :=
      sys_single_agree miso fuel txdata T hT rxdata R hR h p r hr
    have hp2 : r.2.2 = delay_cycles PRU0_DELAY_CNT
        (mem_write 0 0 (mem_write (2 + T + 1) (e.rx_words 0) e)) := by
      simp only [sys_writeread_single, serve, hm, bind, Except.bind, pure, Except.pure,
        Except.ok.injEq] at hr
      rw [← hr]
    have e3 : 2 + T + 1 = 3 + T := by omega
    rw [e3] at hp2
    have hw : e1.rx_words 0 = e.rx_words 0 := by
      have c1 := congrArg (fun s : Pru => s.pMEM (3 + T)) a5
      have c2 := congrArg (fun s : Pru => s.pMEM (3 + T)) hp2
      have n0 : 3 + T ≠ 0 := by omega
      simp only [delay_cycles, mem_write, Function.update_noteq n0, Function.update_same]
        at c1 c2
      rw [← c1, c2]
    rw [hw] at a6 a7
    exact ⟨e, r, rfl, hr, hp2, a6, a7, a8⟩

/-- The same for a continuous read: the engine is called with the tx words, the tx count, the
rx count and the sample count of the host, and stores sample `i` at offset `4 + txcnt + i`.
Either the engine faults, and nothing is returned, or the host returns the words the engine
assembled, in order. -/
theorem sys_continuous_refines (miso : Nat → Nat) (fuel : Nat) (txdata : Nat → Nat) (T : Nat)
    (hT : T ≤ 4) (rxdata : Nat → Nat) (R : Nat) (hR : R < 2147483648) (N : Nat)
    (hN : N < 2147483648) (h : Host) (p : Pru) :
    ∃ pb, (∀ i, i < T → pb.tx_words i = txdata i) ∧ pb.rd = p.rd ∧ pb.r30 = p.r30 ∧
      ((∃ er, pru_spi_writeread_continuous miso fuel pb.tx_words (T : Int) (Ptr.ram (4 + T))
            (R : Int) (N : Int) pb = .error er ∧
          sys_writeread_continuous miso fuel txdata (T : Int) rxdata (R : Int) (N : Int) h p =
            .error er) ∨
        (∃ e r, pru_spi_writeread_continuous miso fuel pb.tx_words (T : Int) (Ptr.ram (4 + T))
            (R : Int) (N : Int) pb = .ok e ∧
          sys_writeread_continuous miso fuel txdata (T : Int) rxdata (R : Int) (N : Int) h p =
            .ok r ∧
          r.2.2 = delay_cycles PRU0_DELAY_CNT (mem_write 0 0 e) ∧
          r.1 = Outcome.ret (fun i => if i < N then load (Ptr.ram (4 + T)) i e else rxdata i,
            ((N : Int) % 256).toNat) ∧
          hostReads (logSince (spi_writeread_continuous_setup txdata (T : Int) (R : Int)
              (N : Int) h) r.2.1) =
            (0, IDLE) :: (List.range N).map (fun i => (4 + T + i, load (Ptr.ram (4 + T)) i e)) ∧
          r.2.1.ram 0 = IDLE)) := by
  obtain ⟨_, _, sram⟩ :=
    setup_spec (Call.continuous txdata (T : Int) rxdata (R : Int) (N : Int)) h
  have hrx : continuous_rxptr (T : Int) = 4 + T := by
    simp only [continuous_rxptr, u32_natCast T (by omega)]
    exact Nat.mod_eq_of_lt (by omega)
  simp only [Call.setup, Call.writes, u32_natCast T (by omega), u32_natCast R (by omega),
    u32_natCast N (by omega), hrx, Nat.mod_eq_of_lt (show 2 + T < 4294967296 by omega),
    Nat.mod_eq_of_lt (show 3 + T < 4294967296 by omega)] at sram
  obtain ⟨m0, m1, m2, m3, m4⟩ := continuous_mailbox h.ram txdata T R N hT hN
  rw [← sram] at m0 m1 m2 m3 m4
  generalize hs0 : ({ p with pMEM := (spi_writeread_continuous_setup txdata (T : Int) (R : Int)
    (N : Int) h).ram } : Pru) = s0
  have s00 : s0.pMEM 0 = SPI_WRITEREAD_CONTINUOUS := by rw [← hs0]; exact m0
  have s01 : s0.pMEM 1 = T := by rw [← hs0]; exact m1
  have s02 : ∀ i, i < T → s0.pMEM (2 + i) = txdata i := by rw [← hs0]; exact m2
  have s03 : s0.pMEM (2 + T) = R := by rw [← hs0]; exact m3
  have s04 : s0.pMEM (3 + T) = N := by rw [← hs0]; exact m4
  obtain ⟨pb, hpb⟩ := decode_total s0 (by rw [s01]; exact hT)
  obtain ⟨_, _, d3, d4, _, _, _, _, d9⟩ := decode_spec s0 pb hpb
  have hit := iteration_continuous_eq miso fuel s0 pb s00 hpb
  have e3 : 2 + T + 1 = 3 + T := by omega
  have e4 : 2 + T + 2 = 4 + T := by omega
  rw [s01, e3, e4, s03, s04, i32_of_lt T (by omega), i32_of_lt R hR, i32_of_lt N hN] at hit
  refine ⟨pb, fun i hi => by rw [d9 i (by rw [s01]; exact hi), s02 i hi],
    by rw [d4, ← hs0], by rw [d3, ← hs0], ?_⟩
  cases he : pru_spi_writeread_continuous miso fuel pb.tx_words (T : Int) (Ptr.ram (4 + T))
      (R : Int) (N : Int) pb with
  | error er =>
    left
    refine ⟨er, rfl, ?_⟩
    rw [he] at hit
    have hm : main_iteration miso fuel { p with pMEM := (spi_writeread_continuous_setup txdata
        (T : Int) (R : Int) (N : Int) h).ram } = .error er := by rw [hs0]; exact hit
    simp only [sys_writeread_continuous, serve, hm, bind, Except.bind]
  | ok e =>
    right
    rw [he] at hit
    have hm : main_iteration miso fuel { p with pMEM := (spi_writeread_continuous_setup txdata
        (T : Int) (R : Int) (N : Int) h).ram } =
          .ok (delay_cycles PRU0_DELAY_CNT (mem_write 0 0 e)) := by rw [hs0]; exact hit
    have hrun : ∃ r, sys_writeread_continuous miso fuel txdata (T : Int) rxdata (R : Int)
        (N : Int) h p = .ok r := by
      simp only [sys_writeread_continuous, serve, hm, bind, Except.bind, pure, Except.pure]
      exact ⟨_, rfl⟩
    obtain ⟨r, hr⟩ := hrun
    obtain ⟨pb1, e1, _, _, _, _, a5, a6, a7, a8⟩ :=
      sys_continuous_agree miso fuel txdata T hT rxdata R hR N hN h p r hr
    have hp2 : r.2.2 = delay_cycles PRU0_DELAY_CNT (mem_write 0 0 e) := by
      simp only [sys_writeread_continuous, serve, hm, bind, Except.bind, pure, Except.pure,
        Except.ok.injEq] at hr
      rw [← hr]
    have hw : (fun i => load (Ptr.ram (4 + T)) i e1) = fun i => load (Ptr.ram (4 + T)) i e := by
      funext i
      have c1 := congrArg (fun s : Pru => s.pMEM (4 + T + i)) a5
      have c2 := congrArg (fun s : Pru => s.pMEM (4 + T + i)) hp2
      have n0 : 4 + T + i ≠ 0 := by omega
      simp only [delay_cycles, mem_write, Function.update_noteq n0] at c1 c2
      simp only [load]
      rw [← c1, c2]
    have hw1 : ∀ i, load (Ptr.ram (4 + T)) i e1 = load (Ptr.ram (4 + T)) i e :=
      fun i => congrFun hw i
    simp only [hw1] at a6 a7
    exact ⟨e, r, rfl, hr, hp2, a6, a7, a8⟩

theorem sys_single_total (miso : Nat → Nat) (fuel : Nat) (txdata : Nat → Nat) (T : Nat)
    (hT : T ≤ 4) (rxdata : Nat → Nat) (R : Nat) (hR : R ≤ 4) (h : Host) (p : Pru) :
    ∃ r, sys_writeread_single miso fuel txdata (T : Int) rxdata (R : Int) h p = .ok r := by
  obtain ⟨hp, hs⟩ := serve_ok miso fuel (Call.single txdata (T : Int) rxdata (R : Int))
    ⟨by omega, by omega, by omega, by omega⟩
    (by simp [Call.code, SPI_WRITEREAD_SINGLE, SPI_WRITEREAD_CONTINUOUS]) h p
  simp only [Call.setup] at hs
  simp only [sys_writeread_single, hs, bind, Except.bind, pure, Except.pure]
  exact ⟨_, rfl⟩

theorem sys_continuous_total (miso : Nat → Nat) (ht : Toggles miso) (txdata : Nat → Nat)
    (T : Nat) (hT : T ≤ 4) (rxdata : Nat → Nat) (R : Nat) (hR : R ≤ 4) (N : Nat)
    (hN : N < 2147483648) (h : Host) (p : Pru) :
    ∃ F r, ∀ fuel, F ≤ fuel →
      sys_writeread_continuous miso fuel txdata (T : Int) rxdata (R : Int) (N : Int) h p =
        .ok r := by
  obtain ⟨F, hp, hs⟩ := serve_total miso ht
    (Call.continuous txdata (T : Int) rxdata (R : Int) (N : Int))
    ⟨by omega, by omega, by omega, by omega, by omega, by omega⟩ h p
  simp only [Call.setup] at hs
  refine ⟨F, ((spi_writeread_continuous_wait quiet (T : Int) rxdata (N : Int) hp.1).1,
    (spi_writeread_continuous_wait quiet (T : Int) rxdata (N : Int) hp.1).2, hp.2),
    fun fuel hf => ?_⟩
  simp only [sys_writeread_continuous, hs fuel hf, bind, Except.bind, pure, Except.pure]

theorem sys_write_refines (miso : Nat → Nat) (fuel : Nat) (data : Nat → Nat) (T : Nat)
    (hT : T ≤ 4) (h : Host) (p : Pru) :
    ∃ r pb, sys_write_cmd miso fuel data (T : Int) h p = .ok r ∧
      (∀ i, i < T → pb.tx_words i = data i) ∧ pb.rd = p.rd ∧ pb.r30 = p.r30 ∧
      r.2.2 = delay_cycles PRU0_DELAY_CNT
        (mem_write 0 0 (pru_spi_write pb.tx_words (T : Int) pb)) ∧
      r.1 = Outcome.ret 0 ∧ r.2.1.ram 0 = IDLE := by
  obtain ⟨r, hr⟩ := sys_write_total miso fuel data T hT h p
  obtain ⟨pb, a⟩ := sys_write_agree miso fuel data T hT h p r hr
  exact ⟨r, pb, hr, a⟩

/-- C9 (host encoding and coprocessor decoding agree). For a tx count from 0 to 4 and every
non-negative `int` rx count and sample count, the three driver calls run against the
dispatcher as follows.
`spi_write_cmd` returns: the engine `pru_spi_write` is called in a state `pb` whose
`tx_words` are the tx words of the host, with the tx count of the host.
`spi_writeread_single`: the engine `pru_spi_writeread_single` is called in such a state `pb`
with the tx count and the rx count of the host. The call returns exactly when the engine
does, and it does for an rx count of at most 4 (the size of the engine's `rx_word`). The
dispatcher then stores the response at offset `3 + txcnt`, the host reads `IDLE` at offset 0
and then exactly this offset, and `rxdata[0]` is the word the engine assembled.
`spi_writeread_continuous`: the engine `pru_spi_writeread_continuous` is called in such a
state `pb` with the tx count, the rx count and the sample count of the host, and stores
sample `i` at offset `4 + txcnt + i`. The call returns exactly when the engine does, and it
does for an rx count of at most 4 when data-in keeps toggling and the bound on the engine's
wait loops is large enough. The host then reads `IDLE` at offset 0 and these offsets in
order, and `rxdata[i]` is sample `i` of the engine for every `i < ncnv`. -/
theorem layout_agreement (miso : Nat → Nat) (fuel : Nat) (txdata rxdata : Nat → Nat)
    (txcnt rxcnt ncnv : Int) (h : Host) (p : Pru)
    (ht0 : 0 ≤ txcnt) (ht4 : txcnt ≤ 4) (hr0 : 0 ≤ rxcnt) (hr31 : rxcnt < 2147483648)
    (hn0 : 0 ≤ ncnv) (hn31 : ncnv < 2147483648) :
    (∃ r pb, sys_write_cmd miso fuel txdata txcnt h p = .ok r ∧
      (∀ i, i < txcnt.toNat → pb.tx_words i = txdata i) ∧ pb.rd = p.rd ∧ pb.r30 = p.r30 ∧
      r.2.2 = delay_cycles PRU0_DELAY_CNT (mem_write 0 0 (pru_spi_write pb.tx_words txcnt pb)) ∧
      r.1 = Outcome.ret 0 ∧ r.2.1.ram 0 = IDLE) ∧
    (∃ pb, (∀ i, i < txcnt.toNat → pb.tx_words i = txdata i) ∧ pb.rd = p.rd ∧
      pb.r30 = p.r30 ∧
      ((∃ er, pru_spi_writeread_single miso pb.tx_words txcnt Ptr.loc rxcnt pb = .error er ∧
          sys_writeread_single miso fuel txdata txcnt rxdata rxcnt h p = .error er) ∨
        (∃ e r, pru_spi_writeread_single miso pb.tx_words txcnt Ptr.loc rxcnt pb = .ok e ∧
          sys_writeread_single miso fuel txdata txcnt rxdata rxcnt h p = .ok r ∧
          r.2.2 = delay_cycles PRU0_DELAY_CNT
            (mem_write 0 0 (mem_write (3 + txcnt.toNat) (e.rx_words 0) e)) ∧
          r.1 = Outcome.ret (Function.update rxdata 0 (e.rx_words 0), (rxcnt % 256).toNat) ∧
          hostReads (logSince (spi_writeread_single_setup txdata txcnt rxcnt h) r.2.1) =
            [(0, IDLE), (3 + txcnt.toNat, e.rx_words 0)] ∧
          r.2.1.ram 0 = IDLE))) ∧
    (rxcnt ≤ 4 → ∃ r, sys_writeread_single miso fuel txdata txcnt rxdata rxcnt h p = .ok r) ∧
    (∃ pb, (∀ i, i < txcnt.toNat → pb.tx_words i = txdata i) ∧ pb.rd = p.rd ∧
      pb.r30 = p.r30 ∧
      ((∃ er, pru_spi_writeread_continuous miso fuel pb.tx_words txcnt
            (Ptr.ram (4 + txcnt.toNat)) rxcnt ncnv pb = .error er ∧
          sys_writeread_continuous miso fuel txdata txcnt rxdata rxcnt ncnv h p = .error er) ∨
        (∃ e r, pru_spi_writeread_continuous miso fuel pb.tx_words txcnt
            (Ptr.ram (4 + txcnt.toNat)) rxcnt ncnv pb = .ok e ∧
          sys_writeread_continuous miso fuel txdata txcnt rxdata rxcnt ncnv h p = .ok r ∧
          r.2.2 = delay_cycles PRU0_DELAY_CNT (mem_write 0 0 e) ∧
          r.1 = Outcome.ret (fun i => if i < ncnv.toNat
            then load (Ptr.ram (4 + txcnt.toNat)) i e else rxdata i, (ncnv % 256).toNat) ∧
          hostReads (logSince (spi_writeread_continuous_setup txdata txcnt rxcnt ncnv h)
              r.2.1) =
            (0, IDLE) :: (List.range ncnv.toNat).map
              (fun i => (4 + txcnt.toNat + i, load (Ptr.ram (4 + txcnt.toNat)) i e)) ∧
          r.2.1.ram 0 = IDLE))) ∧
    (rxcnt ≤ 4 → Toggles miso → ∃ F r, ∀ fuel1, F ≤ fuel1 →
      sys_writeread_continuous miso fuel1 txdata txcnt rxdata rxcnt ncnv h p = .ok r) := by
  lift txcnt to ℕ using ht0
  lift rxcnt to ℕ using hr0
  lift ncnv to ℕ using hn0
  have hT : txcnt ≤ 4 := by omega
  have hR : rxcnt < 2147483648 := by omega
  have hN : ncnv < 2147483648 := by omega
  simp only [Int.toNat_ofNat]
  exact ⟨sys_write_refines miso fuel txdata txcnt hT h p,
    sys_single_refines miso fuel txdata txcnt hT rxdata rxcnt hR h p,
    fun h4 => sys_single_total miso fuel txdata txcnt hT rxdata rxcnt (by omega) h p,
    sys_continuous_refines miso fuel txdata txcnt hT rxdata rxcnt hR ncnv hN h p,
    fun h4 ht => sys_continuous_total miso ht txdata txcnt hT rxdata rxcnt (by omega) ncnv hN
      h p⟩

/-- Witness for `layout_agreement`: with one tx word, three rx bytes and two samples, the
write returns, the single read returns the word of the engine read at offset 4, and the
continuous read returns the two samples of the engine read at offsets 5 and 6. -/
theorem layout_agreement_witness :
    (0 : Int) ≤ 1 ∧ (1 : Int) ≤ 4 ∧ (0 : Int) ≤ 3 ∧ (3 : Int) < 2147483648 ∧
    (0 : Int) ≤ 2 ∧ (2 : Int) < 2147483648 ∧
    (∃ r, sys_write_cmd demoMiso 10 (arr [68]) 1 demoHost demoPru = .ok r ∧
      r.1 = Outcome.ret 0) ∧
    (∃ r pb e, sys_writeread_single demoMiso 10 (arr [68]) 1 (fun _ => 0) 3 demoHost demoPru
        = .ok r ∧
      pru_spi_writeread_single demoMiso pb.tx_words 1 Ptr.loc 3 pb = .ok e ∧
      pb.tx_words 0 = 68 ∧
      r.1 = Outcome.ret (Function.update (fun _ => 0) 0 (e.rx_words 0), 3) ∧
      hostReads (logSince (spi_writeread_single_setup (arr [68]) 1 3 demoHost) r.2.1) =
        [(0, IDLE), (4, e.rx_words 0)]) ∧
    (∃ r pb e, sys_writeread_continuous demoMiso 10 (arr [68]) 1 (fun _ => 0) 3 2 demoHost
        demoPru = .ok r ∧
      pru_spi_writeread_continuous demoMiso 10 pb.tx_words 1 (Ptr.ram 5) 3 2 pb = .ok e ∧
      pb.tx_words 0 = 68 ∧
      r.1 = Outcome.ret (fun i => if i < 2 then load (Ptr.ram 5) i e else 0, 2) ∧
      hostReads (logSince (spi_writeread_continuous_setup (arr [68]) 1 3 2 demoHost) r.2.1) =
        [(0, IDLE), (5, load (Ptr.ram 5) 0 e), (6, load (Ptr.ram 5) 1 e)]) := by
  have hthm := layout_agreement demoMiso 10 (arr [68]) (fun _ => 0) 1 3 2 demoHost demoPru
    (by decide) (by decide) (by decide) (by decide) (by decide) (by decide)
  obtain ⟨⟨rw, _, hw, _, _, _, _, hw0, _⟩, ⟨pbs, ds, _, _, hs⟩, hst, ⟨pbc, dc, _, _, hc⟩, hct⟩ :=
    hthm
  obtain ⟨rs, hrs⟩ := hst (by decide)
  obtain ⟨F, rc, hrc⟩ := hct (by decide) demoMiso_toggles
  refine ⟨by decide, by decide, by decide, by decide, by decide, by decide,
    ⟨rw, hw, hw0⟩, ?_, ?_⟩
  · rcases hs with ⟨er, _, hse⟩ | ⟨e, r, he, hr, _, a2, a3, _⟩
    · rw [hse] at hrs
      cases hrs
    · exact ⟨r, pbs, e, hr, he, ds 0 (by decide), a2, a3⟩
  · rcases hc with ⟨er, _, hce⟩ | ⟨e, r, he, hr, _, a2, a3, _⟩
    · obtain ⟨r10, hr10⟩ := except_ok_of_toBool
        (sys_writeread_continuous demoMiso 10 (arr [68]) 1 (fun _ => 0) 3 2 demoHost demoPru)
        (by decide!)
      rw [hce] at hr10
      cases hr10
    · exact ⟨r, pbc, e, hr, he, dc 0 (by decide), a2, a3⟩

end PlayPen
